import Mathlib

/-!
# dtorrent file engine (`btfiles.cpp`): embedding and verification

The chain of `BTFILE` nodes linked by `bf_next` is a `List BTFILE`; a node
pointer is an index into that list and the null pointer is `none`.  The second
link `bf_nextreal` is not stored: every place of the source that links a node
(`BuildFromMI`, `BuildFromFS`, the staging creation of `IO`, `SetupFiles`)
gives a real file the next real file and gives a staging node the
`bf_nextreal` of the node it is spliced after, and `MergeStaging` unlinks
staging nodes only, so `bf_nextreal` of a node is always the first
non-staging node behind it in the chain (`nextreal`).

Values of type `dt_datalen_t`, `off_t`, `size_t` are natural numbers below
`2^64`; sums and differences the source computes on them are taken modulo
`2^64` (`add64`, `sub64`).

The file system is an explicit part of the state: the bytes of the file
behind a node are `bf_data`, and the outcome of every library call that can
fail and whose failure changes the control flow is drawn from the list `env`
(an empty list means that every call succeeds).
-/

/-! ## Constants of `btfiles.cpp` -/

def MAX_OPEN_FILES : Nat := 20
def OPT_IO_SIZE : Nat := 256 * 1024
def MAX_STAGEFILE_SIZE : Nat := 2 * 1024 * 1024
def MAX_STAGEDIR_FILES : Nat := 200
def WRITE_RETRY_INTERVAL : Nat := 300
def PATH_SP : Char := '/'

/-- Number of values of the 64-bit unsigned type `dt_datalen_t` (declared in
`bttypes.h`, which is not among the sources; the source prints these values
with `%llu` after a cast to `unsigned long long` and parses them with
`strtoull`). -/
def U64 : Nat := 18446744073709551616

/-- Unsigned 64-bit addition. -/
def add64 (a b : Nat) : Nat := (a + b) % U64

/-- Unsigned 64-bit subtraction. -/
def sub64 (a b : Nat) : Nat := (a + (U64 - b % U64)) % U64

/-! ## Data model -/

/-- Outcome of a fallible library call (`fopen`, `fseeko`, `fread`, `fwrite`
with `fflush`, `mkdir`, allocation): success, failure, or for `fopen` failure
with `EMFILE`/`ENFILE`.  `fopen` failing with `ENOSPC` is not among these
outcomes: its handler calls `MergeNext` and `MergeAny`, which `btfiles.cpp`
does not define, and the run of `_btf_open` through that handler is
`btFiles.openNoSpace`.  A file that is opened for reading is taken to exist:
`fopen` in mode `rb` fails only when the outcome drawn says so. -/
inductive FileResult where
  | ok
  | fail
  | emfile
  deriving DecidableEq, Repr

/-- One node of the chain (`BTFILE`, declared in `btfiles.h`; the fields are
those `btfiles.cpp` uses).  `bf_data` stands for the bytes of the file named
`bf_filename`; `bf_fp` and `bf_buffer` exist exactly when `bf_flag_opened`
is set. -/
structure BTFILE where
  bf_filename : String := ""
  bf_offset : Nat := 0
  bf_length : Nat := 0
  bf_size : Nat := 0
  bf_last_timestamp : Nat := 0
  bf_npieces : Nat := 0
  bf_flag_opened : Bool := false
  bf_flag_readonly : Bool := false
  bf_flag_staging : Bool := false
  bf_data : List Nat := []
  deriving DecidableEq, Repr

/-- The object `btFiles` together with the global clock `now` and the
outcomes `env` of the library calls still to come. -/
structure btFiles where
  chain : List BTFILE := []
  m_nfiles : Nat := 0
  m_total_files_length : Nat := 0
  m_total_opened : Nat := 0
  m_flag_automanage : Bool := true
  m_need_merge : Bool := false
  m_torrent_id : String := ""
  m_stagedir : String := ""
  m_stagecount : Nat := 0
  m_fsizelen : Nat := 0
  m_write_failed : Bool := false
  m_write_tried : Nat := 0
  now : Nat := 0
  env : List FileResult := []
  deriving DecidableEq, Repr

/-- Result of a modelled function: a returned value, undefined behaviour (a
null pointer is dereferenced), or not enough fuel for a loop. -/
inductive Res (α : Type) where
  | ret (a : α)
  | undef
  | nofuel
  deriving DecidableEq, Repr

/-- Control after a fragment of a function body: execution continues with a
value, jumps to the label `done` with a result, or is undefined. -/
inductive Step (α : Type) where
  | cont (a : α)
  | done (result : Int) (s : btFiles)
  | undef

/-- Sequencing of fragments: the second runs when the first continues. -/
def Step.bind {α β : Type} (x : Step α) (f : α → Step β) : Step β :=
  match x with
  | Step.cont a => f a
  | Step.done r s => Step.done r s
  | Step.undef => Step.undef

/-- Draws the outcome of the next fallible library call. -/
def btFiles.fileop (s : btFiles) : FileResult × btFiles :=
  match s.env with
  | [] => (FileResult.ok, s)
  | r :: rest => (r, { s with env := rest })

/-- Replaces the node at index `i`. -/
def btFiles.setNode (s : btFiles) (i : Nat) (p : BTFILE) : btFiles :=
  { s with chain := s.chain.set i p }

/-- The assignment `pbf->bf_last_timestamp = t` for the node at index `i`. -/
def btFiles.stamp (s : btFiles) (i t : Nat) : btFiles :=
  match s.chain[i]? with
  | none => s
  | some p => s.setNode i { p with bf_last_timestamp := t }

/-- Index of the first non-staging node among `l`, whose head has index `i`. -/
def firstReal : List BTFILE → Nat → Option Nat
  | [], _ => none
  | p :: rest, i => if p.bf_flag_staging then firstReal rest (i + 1) else some i

/-- The link `bf_nextreal` of the node at index `i`. -/
def nextreal (chain : List BTFILE) (i : Nat) : Option Nat :=
  firstReal (chain.drop (i + 1)) (i + 1)

/-- The link `bf_next` of the node at index `i`. -/
def nextnode (chain : List BTFILE) (i : Nat) : Option Nat :=
  if i + 1 < chain.length then some (i + 1) else none

/-- Bytes of a file after `fwrite` of `bytes` at position `pos`; a gap
between the old end of the file and `pos` reads as zero bytes. -/
def writeAt (d : List Nat) (pos : Nat) (bytes : List Nat) : List Nat :=
  (d ++ List.replicate (pos - d.length) 0).take pos ++ bytes ++ d.drop (pos + bytes.length)

/-- Text of `sprintf("%.*llu", w, off)`: the decimal digits of `off`, padded
with zeros on the left to at least `w` digits. -/
def fmtOffset (w off : Nat) : String :=
  String.mk (List.replicate (w - (Nat.toDigits 10 off).length) '0' ++ Nat.toDigits 10 off)

/-! ## The open-file cache -/

/-- Transcription of `btFiles::_btf_close` for the node at index `i`. -/
def btFiles._btf_close (s : btFiles) (i : Nat) : btFiles :=
  match s.chain[i]? with
  | none => s
  | some p =>
    if !p.bf_flag_opened then s
    else { s with chain := s.chain.set i { p with bf_flag_opened := false },
                  m_total_opened := s.m_total_opened - 1 }

/-- The scan of `_btf_close_oldest`: `best` is `pbf_close` (index and
timestamp), `i` the index of the head of the remaining list. -/
def oldestAux : List BTFILE → Nat → Option (Nat × Nat) → Option (Nat × Nat)
  | [], _, best => best
  | p :: rest, i, best =>
    if !p.bf_flag_opened then oldestAux rest (i + 1) best
    else match best with
      | none => oldestAux rest (i + 1) (some (i, p.bf_last_timestamp))
      | some (j, t) =>
        if p.bf_last_timestamp < t then oldestAux rest (i + 1) (some (i, p.bf_last_timestamp))
        else oldestAux rest (i + 1) (some (j, t))

/-- Transcription of `btFiles::_btf_close_oldest`. -/
def btFiles._btf_close_oldest (s : btFiles) : Int × btFiles :=
  match oldestAux s.chain 0 none with
  | none => (-1, s)
  | some (j, _) => (0, s._btf_close j)

/-- End of `_btf_open` after a successful `fopen`: the node at index `i` is
marked open in the mode asked for and counted; `trunc` says that the mode was
`w+b`, which empties the file. -/
def btFiles.markOpen (s : btFiles) (i : Nat) (iotype trunc : Bool) : Int × btFiles :=
  match s.chain[i]? with
  | none => (-1, s)
  | some q =>
    (0, { s with
            chain := s.chain.set i
              { q with bf_flag_opened := true, bf_flag_readonly := !iotype,
                       bf_data := if trunc then [] else q.bf_data },
            m_total_opened := s.m_total_opened + 1 })

/-- The start of `_btf_open` for a node that is not open in a usable mode:
a node open read-only (`wasOpen`) is closed, and when `MAX_OPEN_FILES` files
are open the oldest is closed. -/
def btFiles.openEvict (s : btFiles) (i : Nat) (wasOpen : Bool) : Int × btFiles :=
  if (if wasOpen then s._btf_close i else s).m_flag_automanage &&
      decide (MAX_OPEN_FILES ≤ (if wasOpen then s._btf_close i else s).m_total_opened)
  then (if wasOpen then s._btf_close i else s)._btf_close_oldest
  else (0, if wasOpen then s._btf_close i else s)

/-- The part of `_btf_open` from the first `fopen` on: after `EMFILE` or
`ENFILE` the oldest file is closed and `fopen` is tried once more.  The
`case ENOSPC` of the `switch` is not here but in `btFiles.openNoSpace`. -/
def btFiles.openFile (s : btFiles) (i : Nat) (iotype trunc : Bool) : Int × btFiles :=
  match s.fileop.1 with
  | FileResult.ok => s.fileop.2.markOpen i iotype trunc
  | FileResult.emfile =>
    if (s.fileop.2._btf_close_oldest.2).fileop.1 = FileResult.ok then
      (s.fileop.2._btf_close_oldest.2).fileop.2.markOpen i iotype trunc
    else (-1, (s.fileop.2._btf_close_oldest.2).fileop.2)
  | FileResult.fail => (-1, s.fileop.2)

/-- Transcription of `btFiles::_btf_open` for the node at index `i`.  The
test of the assembled path name against `MAXPATHLEN` and the call of `MkPath`
are one fallible call; opening for writing a file whose `bf_size` is 0 uses
mode `w+b`, which empties the file. -/
def btFiles._btf_open (s : btFiles) (i : Nat) (iotype : Bool) : Int × btFiles :=
  match s.chain[i]? with
  | none => (-1, s)
  | some p0 =>
    if p0.bf_flag_opened && !(p0.bf_flag_readonly && iotype) then (0, s)
    else if (s.openEvict i p0.bf_flag_opened).1 < 0 then (-1, (s.openEvict i p0.bf_flag_opened).2)
    else if (s.openEvict i p0.bf_flag_opened).2.fileop.1 ≠ FileResult.ok then
      (-1, (s.openEvict i p0.bf_flag_opened).2.fileop.2)
    else
      (((s.openEvict i p0.bf_flag_opened).2.fileop.2).stamp i
          ((s.openEvict i p0.bf_flag_opened).2.fileop.2.now + 1)).openFile i iotype
        (iotype && p0.bf_size == 0)

/-! ## `btFiles::IO` -/

/-- The test of the loop "Find the first file to read/write" that stops the
search at node `p`. -/
def locMatch (iotype : Bool) (off : Nat) (p : BTFILE) : Bool :=
  decide (p.bf_offset ≤ off) &&
    (decide (off < add64 p.bf_offset p.bf_size) ||
      (iotype && decide (off = add64 p.bf_offset p.bf_size) &&
        (!p.bf_flag_staging || decide (p.bf_size < MAX_STAGEFILE_SIZE))))

/-- The loop "Find the first file to read/write" on the rest of the chain
whose head has index `i`; `skip` says that the walk follows `bf_nextreal`
(staging nodes are passed over).  Returns `pbf` and `pbfref`. -/
def locateAux (iotype : Bool) (off : Nat) :
    List BTFILE → Nat → Bool → Option Nat → Option Nat × Option Nat
  | [], _, _, pbfref => (none, pbfref)
  | p :: rest, i, skip, pbfref =>
    if skip && p.bf_flag_staging then locateAux iotype off rest (i + 1) true pbfref
    else if locMatch iotype off p then (some i, pbfref)
    else if off < p.bf_offset then (none, pbfref)
    else locateAux iotype off rest (i + 1)
      (!p.bf_flag_staging && decide (add64 p.bf_offset p.bf_length ≤ off)) (some i)

/-- The loop "Find the first file to read/write" from `m_btfhead`. -/
def locate (chain : List BTFILE) (iotype : Bool) (off : Nat) : Option Nat × Option Nat :=
  locateAux iotype off chain 0 false none

/-- Local variables of the transfer loop of `IO`.  `wbuf` is what is left of
the write buffer, `rbuf` the whole read buffer and `rpos` the position in it
the pointer `rbuf` has advanced to. -/
structure Cur where
  off : Nat
  len : Nat
  pbf : Option Nat
  pbfref : Option Nat
  wbuf : List Nat
  rbuf : List Nat
  rpos : Nat
  deriving DecidableEq, Repr

/-- First statement of the loop body: a write at the end of a staging file
that has reached `MAX_STAGEFILE_SIZE` leaves that file. -/
def softCap (iotype : Bool) (s : btFiles) (c : Cur) : Cur :=
  match c.pbf with
  | none => c
  | some i =>
    match s.chain[i]? with
    | none => c
    | some p =>
      if iotype && p.bf_flag_staging && decide (MAX_STAGEFILE_SIZE ≤ p.bf_size) &&
          decide (c.off = add64 p.bf_offset p.bf_size)
      then { c with pbfref := some i, pbf := none } else c

/-- The branch "Create new staging file": returns the state and the index of
the new node, which is spliced in behind `pbfref`.  The node comes from
`new BTFILE`, whose constructor (in `btfiles.h`) clears every field.  The
array `tmpdir` has room for `m_fsizelen` digits: `sprintf` writes past its end
for an offset with more digits, which only a request whose `off + len` has
wrapped in the range check can bring here; the text is modelled at its full
length and the overrun is not. -/
def btFiles.createStaging (s : btFiles) (off : Nat) (pbfref : Option Nat) :
    Step (btFiles × Nat) :=
  let s1 : btFiles :=
    if decide (MAX_STAGEDIR_FILES ≤ s.m_stagecount) || s.m_stagedir.isEmpty then
      let r := s.fileop
      if r.1 = FileResult.ok then
        { r.2 with m_stagedir := fmtOffset s.m_fsizelen off, m_stagecount := 0 }
      else r.2
    else s
  let r2 := s1.fileop
  if r2.1 ≠ FileResult.ok then Step.done (-1) r2.2
  else
    match pbfref with
    | none => Step.undef
    | some j =>
      if r2.2.chain.length ≤ j then Step.undef
      else
        let node : BTFILE :=
          { bf_filename := r2.2.m_stagedir ++ PATH_SP.toString ++ r2.2.m_torrent_id ++ "-" ++
              fmtOffset r2.2.m_fsizelen off,
            bf_offset := off, bf_flag_staging := true }
        Step.cont
          ({ r2.2 with chain := r2.2.chain.take (j + 1) ++ node :: r2.2.chain.drop (j + 1),
                       m_stagecount := r2.2.m_stagecount + 1 }, j + 1)

/-- Number of bytes `nio` the loop body transfers at node `p`, found at
position `pos`, when `len` bytes are left; `next` is the node behind `p`. -/
def ioSize (iotype : Bool) (p : BTFILE) (next : Option BTFILE) (pos len : Nat) : Nat :=
  if iotype then
    if p.bf_flag_staging then
      match next with
      | none => len
      | some n =>
        if len ≤ sub64 (sub64 n.bf_offset p.bf_offset) pos then len
        else sub64 (sub64 n.bf_offset p.bf_offset) pos
    else
      if len ≤ sub64 p.bf_length pos then len else sub64 p.bf_length pos
  else
    if len ≤ sub64 p.bf_size pos then len else sub64 p.bf_size pos

/-- The test shared by `IO` (where it raises `m_need_merge`) and by the inner
loop of `FindAndMerge`: the node of index `i` is a real file that has not
reached its length, and its bytes reach the staging node behind it. -/
def mergeableAt (chain : List BTFILE) (i : Nat) : Bool :=
  match chain[i]?, chain[i + 1]? with
  | some p, some n =>
    !p.bf_flag_staging && decide (p.bf_size < p.bf_length) && n.bf_flag_staging &&
      decide (n.bf_offset ≤ add64 p.bf_offset p.bf_size)
  | _, _ => false

/-- The statement `if (pos + nio > bf_size) bf_size = pos + nio` for the node
at index `i`, with `n = pos + nio`. -/
def btFiles.grow (s : btFiles) (i n : Nat) : btFiles :=
  match s.chain[i]? with
  | none => s
  | some p => if p.bf_size < n then s.setNode i { p with bf_size := n } else s

/-- The statement `if (bf_size == 0) _btf_close(pbf)` for the node at index
`i`. -/
def btFiles.closeIfEmpty (s : btFiles) (i : Nat) : btFiles :=
  match s.chain[i]? with
  | none => s
  | some p => if p.bf_size = 0 then s._btf_close i else s

/-- The statements after a successful `fwrite` and `fflush` at node `i`: the
size grows to `pos + nio`, `m_need_merge` is raised when a real file has
reached the staging file behind it, and an empty file is closed. -/
def btFiles.afterWrite (s : btFiles) (i pos nio : Nat) : btFiles :=
  (if mergeableAt (s.grow i (add64 pos nio)).chain i
    then { s.grow i (add64 pos nio) with m_need_merge := true }
    else s.grow i (add64 pos nio)).closeIfEmpty i

/-- The statements of the loop body that open the node at index `i` when it
is not open in a usable mode, set its time stamp and seek. -/
def btFiles.ioOpen (s : btFiles) (iotype : Bool) (i : Nat) : Step btFiles :=
  match s.chain[i]? with
  | none => Step.undef
  | some p =>
    if ((if !p.bf_flag_opened || (iotype && p.bf_flag_readonly) then s._btf_open i iotype
          else (0, s)).1 : Int) < 0 then
      Step.done (-1) (if !p.bf_flag_opened || (iotype && p.bf_flag_readonly)
        then s._btf_open i iotype else (0, s)).2
    else if (((if !p.bf_flag_opened || (iotype && p.bf_flag_readonly) then s._btf_open i iotype
          else (0, s)).2.stamp i s.now).fileop.1) ≠ FileResult.ok then
      Step.done (-1) ((if !p.bf_flag_opened || (iotype && p.bf_flag_readonly)
        then s._btf_open i iotype else (0, s)).2.stamp i s.now).fileop.2
    else
      Step.cont ((if !p.bf_flag_opened || (iotype && p.bf_flag_readonly)
        then s._btf_open i iotype else (0, s)).2.stamp i s.now).fileop.2

/-- A successful `fwrite` of `bytes` at position `pos` of the file of the
node at index `i`, followed by `m_write_failed = false`. -/
def btFiles.fwrite (s : btFiles) (i pos : Nat) (bytes : List Nat) : btFiles :=
  match s.chain[i]? with
  | none => s
  | some q =>
    { chain := s.chain.set i { q with bf_data := writeAt q.bf_data pos bytes },
      m_nfiles := s.m_nfiles, m_total_files_length := s.m_total_files_length,
      m_total_opened := s.m_total_opened, m_flag_automanage := s.m_flag_automanage,
      m_need_merge := s.m_need_merge, m_torrent_id := s.m_torrent_id,
      m_stagedir := s.m_stagedir, m_stagecount := s.m_stagecount, m_fsizelen := s.m_fsizelen,
      m_write_failed := false, m_write_tried := s.m_write_tried, now := s.now, env := s.env }

/-- The statements "Read or write current file" at the node of index `i`, at
position `pos` of its file: returns the state, `nio` and the read buffer. -/
def btFiles.ioXfer (s : btFiles) (iotype : Bool) (i pos : Nat) (c : Cur) :
    Step (btFiles × Nat × List Nat) :=
  match s.chain[i]? with
  | none => Step.undef
  | some q =>
    let nio := ioSize iotype q s.chain[i + 1]? pos c.len
    if nio = 0 then
      Step.cont (if iotype then s.afterWrite i pos 0 else s, 0, c.rbuf)
    else if s.fileop.1 ≠ FileResult.ok then
      if iotype then
        Step.done (-1) { s.fileop.2 with m_write_failed := true, m_write_tried := s.now }
      else Step.done (-1) s.fileop.2
    else if iotype then
      Step.cont ((s.fileop.2.fwrite i pos (c.wbuf.take nio)).afterWrite i pos nio, nio, c.rbuf)
    else
      Step.cont (s.fileop.2, nio, writeAt c.rbuf c.rpos ((q.bf_data.drop pos).take nio))

/-- The statements "Proceed to next file" after `nio` bytes were transferred
at the node of index `i`. -/
def ioAdvance (s : btFiles) (i : Nat) (c : Cur) (nio : Nat) (rbuf : List Nat) :
    Step (btFiles × Cur) :=
  if c.len - nio = 0 then Step.cont (s, { c with len := 0, rbuf := rbuf })
  else
    match s.chain[i + 1]? with
    | none => Step.undef
    | some n =>
      Step.cont (s,
        { off := add64 c.off nio, len := c.len - nio,
          pbf := if add64 c.off nio < n.bf_offset then none else some (i + 1),
          pbfref := some i,
          wbuf := c.wbuf.drop nio, rbuf := rbuf, rpos := c.rpos + nio })

/-- The loop body from `pos = off - pbf->bf_offset` on, for the node `pbf` at
index `i`. -/
def btFiles.ioAt (s : btFiles) (iotype : Bool) (i : Nat) (c : Cur) : Step (btFiles × Cur) :=
  match s.chain[i]? with
  | none => Step.undef
  | some p =>
    (s.ioOpen iotype i).bind fun s1 =>
      (s1.ioXfer iotype i (sub64 c.off p.bf_offset) c).bind fun r =>
        ioAdvance r.1 i c r.2.1 r.2.2

/-- One pass through the body of the loop "Read/write the data (all
applicable files)" of `IO`, entered with `len ≠ 0`. -/
def btFiles.IOstep (s : btFiles) (iotype : Bool) (c : Cur) : Step (btFiles × Cur) :=
  match (softCap iotype s c).pbf with
  | some i => s.ioAt iotype i (softCap iotype s c)
  | none =>
    if iotype then
      (s.createStaging c.off (softCap iotype s c).pbfref).bind fun r =>
        r.1.ioAt iotype r.2 (softCap iotype s c)
    else Step.done (-1) s

/-- The loop "Read/write the data (all applicable files)" of `IO` with the
statements from `result = 0` on: returns `result`, the state and the read
buffer. -/
def btFiles.IOloop (iotype : Bool) : Nat → btFiles → Cur → Res (Int × btFiles × List Nat)
  | 0, _, _ => Res.nofuel
  | fuel + 1, s, c =>
    if c.len = 0 then Res.ret (0, s, c.rbuf)
    else
      match s.IOstep iotype c with
      | Step.undef => Res.undef
      | Step.done r s1 => Res.ret (r, s1, c.rbuf)
      | Step.cont (s1, c1) => btFiles.IOloop iotype fuel s1 c1

/-- Transcription of `btFiles::IO`.  `wbuf = none` is the null write buffer
(a read into `rbuf`); otherwise the bytes of `wbuf` are written.  The value
is the result, the state and the read buffer.  `bt_length_t` is not wider
than `size_t`, so the test `len > (size_t)len` fails and the transfer is not
broken up; `DiskAccess` (not in `btfiles.cpp`) touches nothing modelled. -/
def btFiles.IO (s : btFiles) (rbuf : List Nat) (wbuf : Option (List Nat)) (off len : Nat) :
    Res (Int × btFiles × List Nat) :=
  if s.m_total_files_length < add64 off len then Res.ret (-1, s, rbuf)
  else
    btFiles.IOloop wbuf.isSome (len + 2 * s.chain.length + 3) s
      { off := off, len := len,
        pbf := (locate s.chain wbuf.isSome off).1,
        pbfref := (locate s.chain wbuf.isSome off).2,
        wbuf := wbuf.getD [], rbuf := rbuf, rpos := 0 }

/-! ## Merging -/

/-- The test of `NeedMerge`. -/
def btFiles.NeedMerge (s : btFiles) : Int :=
  if !s.m_need_merge then 0
  else if s.m_write_failed && decide (s.now < s.m_write_tried + WRITE_RETRY_INTERVAL) then 0
  else 1

/-- The copy loop of `MergeStaging` from staging node `j` into real file `i`.
`spos` is the file position of the source, `pos` that of the destination;
bytes `fread` could not deliver are zero.  The flag of the value is false
when `fread` or `fwrite` with `fflush` failed (`goto done`).  `fread` through
the `bf_fp` of a source that is not open (the open of the destination has
closed it as the oldest file) is a read through a null pointer.  The
destination is open: the statement before the loop has opened it and no file
is opened or closed in the loop. -/
def btFiles.copyLoop (i j : Nat) :
    Nat → btFiles → (remain nio spos pos : Nat) → Res (Bool × btFiles)
  | 0, _, _, _, _, _ => Res.nofuel
  | fuel + 1, s, remain, nio, spos, pos =>
    match s.chain[i]?, s.chain[j]? with
    | some dst, some src =>
      if remain = 0 || !decide (dst.bf_size < dst.bf_length) then Res.ret (true, s)
      else if !src.bf_flag_opened then Res.undef
      else
        let nio1 := if remain < nio then remain else nio
        let r1 := s.fileop
        if r1.1 ≠ FileResult.ok then Res.ret (false, r1.2)
        else
          let got := (src.bf_data.drop spos).take nio1
          let buf := got ++ List.replicate (nio1 - got.length) 0
          let r2 := r1.2.fileop
          if r2.1 ≠ FileResult.ok then
            Res.ret (false, { r2.2 with m_write_failed := true, m_write_tried := r2.2.now })
          else
            btFiles.copyLoop i j fuel
              ((r2.2.fwrite i pos buf).grow i (add64 pos nio1))
              (sub64 remain nio1) nio1 (spos + nio1) (add64 pos nio1)
    | _, _ => Res.undef

/-- The bookkeeping of the staging directory when the staging file named
`fname` is deleted: `strncmp(m_stagedir, fname, strlen(m_stagedir))` is 0 when
`m_stagedir` is a beginning of `fname`. -/
def btFiles.stageGone (s : btFiles) (fname : String) : btFiles :=
  if decide (0 < s.m_stagecount) && s.m_stagedir.data.isPrefixOf fname.data then
    if s.m_stagecount - 1 = 0 then { s with m_stagecount := 0, m_stagedir := "" }
    else { s with m_stagecount := s.m_stagecount - 1 }
  else s

/-- The statement `dst->bf_next = src->bf_next` for `dst` at index `i`. -/
def btFiles.unlink (s : btFiles) (i : Nat) : btFiles :=
  { s with chain := s.chain.eraseIdx (i + 1) }

/-- The statements of `MergeStaging` from the label `delsrc` on, for the real
file at index `i` and the staging node behind it: the staging node is closed
and unlinked and the counter of the staging directory is kept.  (Removing the
file and an emptied directory changes nothing that is modelled.) -/
def btFiles.delsrc (s : btFiles) (i : Nat) : btFiles :=
  match (s._btf_close (i + 1)).chain[i + 1]? with
  | none => s._btf_close (i + 1)
  | some src => ((s._btf_close (i + 1)).unlink i).stageGone src.bf_filename

/-- The statements of `MergeStaging` between the copy loop and the end:
a destination that has reached its length is closed, then `delsrc`. -/
def btFiles.mergeFinish (s : btFiles) (i : Nat) : btFiles :=
  match s.chain[i]? with
  | none => s
  | some d => (if d.bf_size = d.bf_length then s._btf_close i else s).delsrc i

/-- The statements of `MergeStaging` from `pos = dst->bf_size` on, both files
being open: seek in the destination, copy `remain` bytes from position `spos`
of the source, finish. -/
def btFiles.mergeCopy (s : btFiles) (i remain spos : Nat) : Res (Int × btFiles) :=
  match s.chain[i]? with
  | none => Res.undef
  | some d =>
    if s.fileop.1 ≠ FileResult.ok then Res.ret (-1, s.fileop.2)
    else
      match btFiles.copyLoop i (i + 1) (remain + 1) s.fileop.2 remain OPT_IO_SIZE spos d.bf_size with
      | Res.undef => Res.undef
      | Res.nofuel => Res.nofuel
      | Res.ret (false, s6) => Res.ret (-1, s6)
      | Res.ret (true, s6) => Res.ret (0, s6.mergeFinish i)

/-- The statement of `MergeStaging` that opens the source, the node at index
`j`, for reading when it is not open. -/
def btFiles.mergeOpenSrc (s : btFiles) (j : Nat) : Int × btFiles :=
  match s.chain[j]? with
  | none => (-1, s)
  | some src => if !src.bf_flag_opened then s._btf_open j false else (0, s)

/-- The statement of `MergeStaging` that opens the destination, the node at
index `i`, for writing when it is not open or open read-only. -/
def btFiles.mergeOpenDst (s : btFiles) (i : Nat) : Int × btFiles :=
  match s.chain[i]? with
  | none => (-1, s)
  | some d => if !d.bf_flag_opened || d.bf_flag_readonly then s._btf_open i true else (0, s)

/-- Transcription of `btFiles::MergeStaging(dst)` for the node `dst` at index
`i`; `src` is the node behind it. -/
def btFiles.MergeStaging (s : btFiles) (i : Nat) : Res (Int × btFiles) :=
  match s.chain[i]?, s.chain[i + 1]? with
  | some dst, some src =>
    if add64 src.bf_offset src.bf_size ≤ add64 dst.bf_offset dst.bf_size then
      Res.ret (0, s.delsrc i)
    else if (s.mergeOpenSrc (i + 1)).1 < 0 then Res.ret (-1, (s.mergeOpenSrc (i + 1)).2)
    else if (s.mergeOpenSrc (i + 1)).2.fileop.1 ≠ FileResult.ok then
      Res.ret (-1, (s.mergeOpenSrc (i + 1)).2.fileop.2)
    else if ((((s.mergeOpenSrc (i + 1)).2.fileop.2).stamp (i + 1) (s.now + 1)).mergeOpenDst i).1 < 0 then
      Res.ret (-1, ((((s.mergeOpenSrc (i + 1)).2.fileop.2).stamp (i + 1) (s.now + 1)).mergeOpenDst i).2)
    else
      ((((s.mergeOpenSrc (i + 1)).2.fileop.2).stamp (i + 1) (s.now + 1)).mergeOpenDst i).2.mergeCopy i
        (sub64 src.bf_size (sub64 (add64 dst.bf_offset dst.bf_size) src.bf_offset))
        (sub64 (add64 dst.bf_offset dst.bf_size) src.bf_offset)
  | _, _ => Res.undef

/-- The two loops of `FindAndMerge` from the node `pbf` on, with `merged`.
The value is `merged`, a flag that says whether the statement
`m_need_merge = 0` was reached (false after `goto done`), and the state. -/
def btFiles.FindAndMergeScan (findall dostaging : Bool) :
    Nat → btFiles → Option Nat → Bool → Res (Bool × Bool × btFiles)
  | 0, _, _, _ => Res.nofuel
  | _ + 1, s, none, merged => Res.ret (merged, true, { s with m_need_merge := false })
  | fuel + 1, s, some i, merged =>
    if mergeableAt s.chain i then
      match s.MergeStaging i with
      | Res.undef => Res.undef
      | Res.nofuel => Res.nofuel
      | Res.ret (r, s1) =>
        if r < 0 then Res.ret (merged, false, s1)
        else if !findall then Res.ret (true, false, s1)
        else btFiles.FindAndMergeScan findall dostaging fuel s1 (some i) true
    else
      btFiles.FindAndMergeScan findall dostaging fuel s
        (if dostaging then nextnode s.chain i else nextreal s.chain i) merged

/-- Transcription of `btFiles::FindAndMerge(findall, dostaging)`: returns
`merged` and the state. -/
def btFiles.FindAndMerge (s : btFiles) (findall dostaging : Bool) : Res (Int × btFiles) :=
  match btFiles.FindAndMergeScan findall dostaging (2 * s.chain.length + 2) s
      (if s.chain.length = 0 then none else some 0) false with
  | Res.undef => Res.undef
  | Res.nofuel => Res.nofuel
  | Res.ret (merged, _, s1) => Res.ret (if merged then 1 else 0, s1)

/-! ## Building a chain and running calls -/

/-- The chain `BuildFromMI` links for files of the given lengths, the first
at offset `off`: real files laid end to end, each with `bf_size` 0. -/
def buildChain : List Nat → Nat → List BTFILE
  | [], _ => []
  | l :: rest, off => { bf_offset := off, bf_length := l } :: buildChain rest (off + l)

/-- The object after `BuildFromMI` for files of the given lengths and
`SetupFiles` with torrent id `t`, nothing being on disk: `m_fsizelen` is the
number of decimal digits of the total length. -/
def btFiles.fresh (lens : List Nat) : btFiles :=
  { chain := buildChain lens 0, m_nfiles := lens.length, m_total_files_length := lens.sum,
    m_torrent_id := "t", m_fsizelen := (Nat.toDigits 10 lens.sum).length }

/-- Result code of a call that returned. -/
def Res.code {α : Type} : Res (Int × α) → Option Int
  | Res.ret (r, _) => some r
  | _ => none

/-- State after a call of `IO` that returned. -/
def Res.state : Res (Int × btFiles × List Nat) → Option btFiles
  | Res.ret (_, s, _) => some s
  | _ => none

/-- Read buffer after a call of `IO` that returned. -/
def Res.buffer : Res (Int × btFiles × List Nat) → Option (List Nat)
  | Res.ret (_, _, b) => some b
  | _ => none

/-- State after the write `IO(0, buf, off, |buf|)`; the state is kept when
the call does not return. -/
def btFiles.wr (s : btFiles) (off : Nat) (buf : List Nat) : btFiles :=
  match btFiles.IO s [] (some buf) off buf.length with
  | Res.ret (_, s1, _) => s1
  | _ => s

/-- State after `FindAndMerge(findall, dostaging)`; the state is kept when the
call does not return. -/
def btFiles.fm (s : btFiles) (findall dostaging : Bool) : btFiles :=
  match s.FindAndMerge findall dostaging with
  | Res.ret (_, s1) => s1
  | _ => s

/-- Layout of a node: staging flag, offset, length and size. -/
def BTFILE.layout (p : BTFILE) : Bool × Nat × Nat × Nat :=
  (p.bf_flag_staging, p.bf_offset, p.bf_length, p.bf_size)

/-- The state the defect is shown at: two files of length 10, then the writes
`IO(2, 1)`, `IO(5, 1)` and `IO(0, 10)`.  The first file is complete and two
staging nodes, of offsets 2 and 5, stand between it and the second file. -/
def clipState : btFiles :=
  (((btFiles.fresh [10, 10]).wr 2 [1]).wr 5 [2]).wr 0 [0, 1, 2, 3, 4, 5, 6, 7, 8, 9]

/-! ## The open-file cache: invariant and calls -/

/-- Number of nodes of the chain with `bf_flag_opened` set. -/
def countOpen (chain : List BTFILE) : Nat := chain.countP (fun p => p.bf_flag_opened)

/-- The invariant of the open-file cache: `m_flag_automanage` is set,
`m_total_opened` counts the open nodes and does not exceed `MAX_OPEN_FILES`. -/
def CacheInv (s : btFiles) : Prop :=
  s.m_flag_automanage = true ∧ s.m_total_opened = countOpen s.chain ∧
    s.m_total_opened ≤ MAX_OPEN_FILES

/-- The node at index `i`, if there is one, is not open. -/
def ClosedAt (s : btFiles) (i : Nat) : Prop :=
  ∀ p, s.chain[i]? = some p → p.bf_flag_opened = false

/-- The property `P` holds of the state a fragment ends in. -/
def StepInv {α : Type} (P : btFiles → Prop) (st : α → btFiles) (x : Step α) : Prop :=
  match x with
  | Step.cont a => P (st a)
  | Step.done _ s => P s
  | Step.undef => True

/-- The property `P` holds of the state a call of `IO` returns. -/
def ResInv {α : Type} (P : btFiles → Prop) (st : α → btFiles) (x : Res α) : Prop :=
  match x with
  | Res.ret a => P (st a)
  | _ => True

/-- A call of one of the functions that open and close files, or a change of
the outcomes the file system will give to the library calls to come. -/
inductive CacheCall where
  | btf_open (i : Nat) (iotype : Bool)
  | btf_close (i : Nat)
  | io (rbuf : List Nat) (wbuf : Option (List Nat)) (off len : Nat)
  | mergeStaging (i : Nat)
  | outcomes (env : List FileResult)

/-- State a call ends in; `s` when the call does not return. -/
def Res.stateOr {α : Type} (r : Res α) (st : α → btFiles) (s : btFiles) : btFiles :=
  match r with
  | Res.ret a => st a
  | _ => s

/-- State after a call; a call that does not return leaves the state. -/
def btFiles.call (s : btFiles) : CacheCall → btFiles
  | CacheCall.btf_open i iotype => (s._btf_open i iotype).2
  | CacheCall.btf_close i => s._btf_close i
  | CacheCall.io rbuf wbuf off len => ( btFiles.IO s rbuf wbuf off len).stateOr (fun r => r.2.1) s
  | CacheCall.mergeStaging i => (s.MergeStaging i).stateOr (fun r => r.2) s
  | CacheCall.outcomes env => { s with env := env }

/-- The 21 one-byte writes at the start offsets of 21 files of length 1. -/
def writes21 : List CacheCall :=
  (List.range 21).map fun k => CacheCall.io [] (some [7]) k 1

/-! ## Layout and content of the chain under the calls: definitions -/

/-- A node without the fields the open-file cache keeps: open flag, mode and
time stamp are cleared. -/
def BTFILE.core (p : BTFILE) : BTFILE :=
  { p with bf_flag_opened := false, bf_flag_readonly := false, bf_last_timestamp := 0 }

/-- The chain without the fields of the open-file cache. -/
def cores (l : List BTFILE) : List BTFILE := l.map BTFILE.core

/-- The layouts of the nodes of a chain. -/
def layouts (l : List BTFILE) : List (Bool × Nat × Nat × Nat) := l.map BTFILE.layout

/-- The layouts `L` with the size of entry `i` replaced by `sz`. -/
def resizeAt (L : List (Bool × Nat × Nat × Nat)) (i sz : Nat) : List (Bool × Nat × Nat × Nat) :=
  match L[i]? with
  | none => L
  | some a => L.set i (a.1, a.2.1, a.2.2.1, sz)

/-- The test `mergeableAt` on the layouts of a chain. -/
def mergeableL (L : List (Bool × Nat × Nat × Nat)) (i : Nat) : Bool :=
  match L[i]?, L[i + 1]? with
  | some p, some n =>
    !p.1 && decide (p.2.2.2 < p.2.2.1) && n.1 && decide (n.2.1 ≤ add64 p.2.1 p.2.2.2)
  | _, _ => false

/-- Number of staging nodes among layouts. -/
def stagingL (L : List (Bool × Nat × Nat × Nat)) : Nat := L.countP (fun a => a.1)

/-! ## Merging (C5, C6): definitions -/

/-- The real file `R` after the staging file `S` behind it has been merged:
its size reaches the end of `S` and the bytes of `S` from the position that
corresponds to the old end of `R` on are appended. -/
def mergedNode (R S : BTFILE) : BTFILE :=
  { R with bf_size := max R.bf_size (S.bf_offset + S.bf_size - R.bf_offset),
           bf_data := R.bf_data ++ S.bf_data.drop (R.bf_offset + R.bf_size - S.bf_offset) }

/-- The mergeability predicate of the specification at index `i`: a real file
`R` directly followed by a staging file `S`, with `R.size < R.length` and
`R.offset + R.size ≥ S.offset`. -/
def MergeablePair (chain : List BTFILE) (i : Nat) : Prop :=
  ∃ R S, chain[i]? = some R ∧ chain[i + 1]? = some S ∧ R.bf_flag_staging = false ∧
    S.bf_flag_staging = true ∧ R.bf_size < R.bf_length ∧ S.bf_offset ≤ R.bf_offset + R.bf_size

/-- Number of staging nodes of a chain. -/
def countStaging (chain : List BTFILE) : Nat := chain.countP (fun p => p.bf_flag_staging)

/-- The state of scenario 2 of the specification before the merge: one file
of length 10, "WORLD" written at offset 5 and "hello" at offset 0. -/
def helloState : btFiles :=
  ((btFiles.fresh [10]).wr 5 [87, 79, 82, 76, 68]).wr 0 [104, 101, 108, 108, 111]

/-- The real file of `helloState`: "hello" of the 10 bytes are on disk. -/
def helloR : BTFILE :=
  { bf_offset := 0, bf_length := 10, bf_size := 5, bf_flag_opened := true,
    bf_data := [104, 101, 108, 108, 111] }

/-- The staging file of `helloState`: "WORLD" at offset 5. -/
def helloS : BTFILE :=
  { bf_filename := "05/t-05", bf_offset := 5, bf_size := 5, bf_flag_opened := true,
    bf_flag_staging := true, bf_data := [87, 79, 82, 76, 68] }

/-! ## A write across a file boundary (C3): definitions -/

/-- The node `q` after `nio` bytes `bytes` were written at position `pos`. -/
def wrNode (q : BTFILE) (pos : Nat) (bytes : List Nat) (nio : Nat) : BTFILE :=
  { q with bf_data := if nio = 0 then q.bf_data else writeAt q.bf_data pos bytes,
           bf_size := if q.bf_size < add64 pos nio then add64 pos nio else q.bf_size }

/-- The test a node passes in a tidy chain: `floor` is the end of the bytes of
the node before it, `rend` the end of the last real file before it.  A
staging node starts at or after `floor`, holds at least one byte and ends
inside that real file; a real file starts where the last one ended and holds
no more bytes than its length. -/
def okNode (p : BTFILE) (floor rend : Nat) : Bool :=
  if p.bf_flag_staging then
    decide (floor ≤ p.bf_offset) && decide (0 < p.bf_size) &&
      decide (p.bf_offset + p.bf_size ≤ rend)
  else decide (p.bf_offset = rend) && decide (p.bf_size ≤ p.bf_length)

/-- The end of the last real file up to and including the node `p`. -/
def rendAfter (p : BTFILE) (rend : Nat) : Nat :=
  if p.bf_flag_staging then rend else p.bf_offset + p.bf_length

/-- Every node of the chain passes `okNode` and the last real file ends at the
total length `T`. -/
def tidyFrom (T : Nat) : List BTFILE → Nat → Nat → Bool
  | [], _, rend => decide (rend = T)
  | p :: rest, floor, rend =>
    okNode p floor rend && tidyFrom T rest (p.bf_offset + p.bf_size) (rendAfter p rend)

/-- Every node holds as many bytes as its `bf_size` says. -/
def dataOk (l : List BTFILE) : Bool := l.all fun p => decide (p.bf_data.length = p.bf_size)

/-- No byte of the range `[off, off + len)` is among the bytes a node of the
chain holds. -/
def freeRange (l : List BTFILE) (off len : Nat) : Bool :=
  l.all fun p => decide (p.bf_size = 0) || decide (off + len ≤ p.bf_offset) ||
    decide (p.bf_offset + p.bf_size ≤ off)

/-- What the search for the first file finds for a write at `off` of bytes not
yet written, in a tidy chain: a node the write appends to (a staging node
only below `MAX_STAGEFILE_SIZE`), or a gap behind the node `P`, before the
node behind `P`. -/
def LocOk (chain : List BTFILE) (off : Nat) (res : Option Nat × Option Nat) : Prop :=
  match res with
  | (some i, _) => ∃ p, chain[i]? = some p ∧ off = p.bf_offset + p.bf_size ∧
      (p.bf_flag_staging = true → p.bf_size < MAX_STAGEFILE_SIZE)
  | (none, some j) => ∃ P, chain[j]? = some P ∧ P.bf_offset + P.bf_size ≤ off ∧
      ∀ N, chain[j + 1]? = some N → off < N.bf_offset
  | (none, none) => False

/-- A state of the object in which the chain is tidy, every node holds as many
bytes as its size says, the cache invariant holds and no library call is
going to fail. -/
def Good (s : btFiles) : Prop :=
  CacheInv s ∧ s.env = [] ∧ s.m_total_files_length < U64 ∧
    tidyFrom s.m_total_files_length s.chain 0 0 = true ∧ dataOk s.chain = true

/-- The cursor of the transfer loop stands at the node of index `i`, at the
end of the bytes of that node, with bytes not yet written ahead. -/
def Ready (s : btFiles) (c : Cur) (i : Nat) : Prop :=
  ∃ p, c.pbf = some i ∧ s.chain[i]? = some p ∧ c.off = p.bf_offset + p.bf_size ∧
    (p.bf_flag_staging = true → p.bf_size < MAX_STAGEFILE_SIZE) ∧
    c.off + c.len ≤ s.m_total_files_length ∧ freeRange s.chain c.off c.len = true ∧
    c.wbuf.length = c.len

/-- The states reachable from a freshly built chain by writes in range of
bytes not yet written and by calls of `FindAndMerge`. -/
inductive Reach : btFiles → Prop
  | fresh (lens : List Nat) (h : lens.sum < U64) : Reach (btFiles.fresh lens)
  | write (s : btFiles) (rbuf buf : List Nat) (off : Nat) (r : Int) (s2 : btFiles)
      (rb : List Nat) (h : Reach s) (hin : off + buf.length ≤ s.m_total_files_length)
      (hfree : freeRange s.chain off buf.length = true)
      (hio : btFiles.IO s rbuf (some buf) off buf.length = Res.ret (r, s2, rb)) : Reach s2
  | merge (s : btFiles) (findall dostaging : Bool) (r : Int) (s2 : btFiles) (h : Reach s)
      (hfm : s.FindAndMerge findall dostaging = Res.ret (r, s2)) : Reach s2

/-- Two files of lengths 10 and 4 after "WORLD" was written at offset 5,
"hello" at offset 0 and `FindAndMerge(1, 1)` was called: the first file is
complete. -/
def doneState : btFiles :=
  (((btFiles.fresh [10, 4]).wr 5 [87, 79, 82, 76, 68]).wr 0 [104, 101, 108, 108, 111]).fm
    true true

/-- The first file of `doneState`. -/
def doneR : BTFILE :=
  { bf_offset := 0, bf_length := 10, bf_size := 10,
    bf_data := [104, 101, 108, 108, 111, 87, 79, 82, 76, 68] }

/-- The second file of `doneState`. -/
def doneN : BTFILE := { bf_offset := 10, bf_length := 4 }

/-! ## NeedMerge (C11): definitions -/

/-- A state in which the last write succeeded less than `WRITE_RETRY_INTERVAL`
seconds after a failed one: one file of length 10 with "WORLD" staged at
offset 5; at time 1000 the write `IO(0, 2)` fails in `fwrite`; at time 1100
the write `IO(0, 5)` succeeds and reaches the staging file. -/
def backoffState : btFiles :=
  { ({ (btFiles.fresh [10]).wr 5 [87, 79, 82, 76, 68] with
        now := 1000,
        env := [FileResult.ok, FileResult.ok, FileResult.ok, FileResult.fail] }).wr 0 [1, 2] with
    now := 1100, env := [] }.wr 0 [1, 2, 3, 4, 5]

/-! ## SetFilter (C12): definitions -/

/-- Modelled from the spec: the class `Bitfield` (declared in `bitfield.h`,
which is not among the sources), "the global bitfield of completed pieces":
one flag for each piece index below `NBits`.  An operation on an index that
is not below `NBits` changes nothing, and such an index is not set. -/
structure Bitfield where
  bits : List Bool
  deriving DecidableEq, Repr

/-- Modelled from the spec: the constructor `Bitfield(n)` (`bitfield.h` is not
among the sources): `n` bits, none set. -/
def Bitfield.new (n : Nat) : Bitfield := ⟨List.replicate n false⟩

/-- Modelled from the spec: `Bitfield::NBits` (`bitfield.h` is not among the
sources), the number of bits. -/
def Bitfield.NBits (b : Bitfield) : Nat := b.bits.length

/-- Modelled from the spec: `Bitfield::IsSet` (`bitfield.h` is not among the
sources), whether bit `i` is set. -/
def Bitfield.IsSet (b : Bitfield) (i : Nat) : Bool := b.bits.getD i false

/-- Modelled from the spec: `Bitfield::Set` (`bitfield.h` is not among the
sources), which sets bit `i`. -/
def Bitfield.Set (b : Bitfield) (i : Nat) : Bitfield := ⟨b.bits.set i true⟩

/-- Modelled from the spec: `Bitfield::UnSet` (`bitfield.h` is not among the
sources), which clears bit `i`. -/
def Bitfield.UnSet (b : Bitfield) (i : Nat) : Bitfield := ⟨b.bits.set i false⟩

/-- Modelled from the spec: `Bitfield::SetAll` (`bitfield.h` is not among the
sources), which sets every bit. -/
def Bitfield.SetAll (b : Bitfield) : Bitfield := ⟨List.replicate b.bits.length true⟩

/-- Modelled from the spec: `Bitfield::Clear` (`bitfield.h` is not among the
sources), which clears every bit. -/
def Bitfield.Clear (b : Bitfield) : Bitfield := ⟨List.replicate b.bits.length false⟩

/-- Modelled from the spec: `Bitfield::IsEmpty` (`bitfield.h` is not among
the sources), whether no bit is set. -/
def Bitfield.IsEmpty (b : Bitfield) : Bool := b.bits.all fun x => !x

/-- The indices that are set, in ascending order. -/
def Bitfield.members (b : Bitfield) : List Nat :=
  (List.range b.bits.length).filter fun i => b.IsSet i

/-- The loop `for (index = i; index < i + n; index++) b.UnSet(index)`. -/
def Bitfield.unsetFrom (b : Bitfield) : Nat → Nat → Bitfield
  | _, 0 => b
  | i, n + 1 => (b.UnSet i).unsetFrom (i + 1) n

/-- The loop `for (index = i; index < i + n; index++) b.Set(index)`. -/
def Bitfield.setFrom (b : Bitfield) : Nat → Nat → Bitfield
  | _, 0 => b
  | i, n + 1 => (b.Set i).setFrom (i + 1) n

/-- The body of the loop of `SetFilter` for the file `p` at index `i` that
`nfile` names.  Piece indices (`bt_index_t`, declared in `bttypes.h`, not
among the sources) are natural numbers; the sum `bf_offset + bf_length` is
taken in 64 bits.  A piece length of 0 is a division by zero. -/
def btFiles.filterFile (s : btFiles) (i : Nat) (p : BTFILE) (filter : Bitfield)
    (pieceLength : Nat) : Res (btFiles × Bitfield) :=
  if p.bf_length = 0 then
    Res.ret (s.setNode i { p with bf_npieces := 0 }, filter.SetAll)
  else if pieceLength = 0 then Res.undef
  else
    let start := p.bf_offset / pieceLength
    let stop0 := add64 p.bf_offset p.bf_length / pieceLength
    let stop := if start < stop0 ∧ add64 p.bf_offset p.bf_length % pieceLength = 0
      then stop0 - 1 else stop0
    let npieces := stop - start + 1
    Res.ret (s.setNode i { p with bf_npieces := npieces },
      if npieces ≤ filter.NBits / 2 then filter.SetAll.unsetFrom start (stop + 1 - start)
      else (filter.Clear.setFrom 0 start).setFrom (stop + 1) (filter.NBits - (stop + 1)))

/-- The loop `for (p = m_btfhead; p; p = p->bf_nextreal)` of `SetFilter`;
`id` counts the nodes visited before the node `cur`. -/
def btFiles.filterLoop (s : btFiles) (nfile : Nat) (filter : Bitfield) (pieceLength : Nat) :
    Nat → Option Nat → Nat → Res (btFiles × Bitfield)
  | 0, _, _ => Res.nofuel
  | _ + 1, none, _ => Res.ret (s, filter)
  | fuel + 1, some i, id =>
    match s.chain[i]? with
    | none => Res.undef
    | some p =>
      if id + 1 = nfile then s.filterFile i p filter pieceLength
      else s.filterLoop nfile filter pieceLength fuel (nextreal s.chain i) (id + 1)

/-- Transcription of `btFiles::SetFilter(nfile, pFilter, pieceLength)`:
returns the state (`bf_npieces` of the file is set) and the filter. -/
def btFiles.SetFilter (s : btFiles) (nfile : Nat) (filter : Bitfield) (pieceLength : Nat) :
    Res (btFiles × Bitfield) :=
  if nfile = 0 ∨ s.m_nfiles < nfile then Res.ret (s, filter.Clear)
  else s.filterLoop nfile filter pieceLength (s.chain.length + 1)
    (if s.chain.length = 0 then none else some 0) 0

/-- The nodes the loop `for (p = m_btfhead; p; p = p->bf_nextreal)` visits
from the node `cur` on. -/
def realWalk (chain : List BTFILE) : Nat → Option Nat → List Nat
  | 0, _ => []
  | _ + 1, none => []
  | fuel + 1, some i => i :: realWalk chain fuel (nextreal chain i)

/-- Index in the chain of file number `n` (counted from 1): the `n`-th node
the loop over `bf_nextreal` visits from `m_btfhead`. -/
def fileIndex (chain : List BTFILE) (n : Nat) : Option Nat :=
  if n = 0 then none
  else (realWalk chain chain.length (if chain.length = 0 then none else some 0))[n - 1]?

/-! ## ChoosePiece (C13): definitions -/

/-- Unsigned 64-bit multiplication. -/
def mul64 (a b : Nat) : Nat := (a * b) % U64

/-- Modelled from the spec: `Bitfield::Random` (`bitfield.h` is not among the
sources), "a uniform random pick" among the indices that are set: the index
of rank `r % count`, where `r` is the random number drawn. -/
def Bitfield.Random (b : Bitfield) (r : Nat) : Nat :=
  b.members.getD (r % b.members.length) 0

/-- The loop `for (; (dt_datalen_t)idx * pl < lim; idx++)
if (choices.IsSet(idx)) { b.Set(idx); found = 1; }` of `ChoosePiece`; the
value is the bit field and `found`. -/
def markGap (choices : Bitfield) (pl lim : Nat) :
    Nat → Nat → Bitfield → Bool → Res (Bitfield × Bool)
  | 0, _, _, _ => Res.nofuel
  | fuel + 1, idx, b, found =>
    if mul64 idx pl < lim then
      if choices.IsSet idx then markGap choices pl lim fuel (idx + 1) (b.Set idx) true
      else markGap choices pl lim fuel (idx + 1) b found
    else Res.ret (b, found)

/-- The loop of `ChoosePiece` over the staging gaps behind the first one of a
file ("work on the next staging gap of this file as a secondary priority"),
from the node `pbt` at index `j`. -/
def nextGaps (chain : List BTFILE) (choices : Bitfield) (pl : Nat) :
    Nat → Nat → Bitfield → Bool → Res Bitfield
  | 0, _, _, _ => Res.nofuel
  | fuel + 1, j, nn, found =>
    if found then Res.ret nn
    else
      match chain[j]?, chain[j + 1]? with
      | none, _ => Res.undef
      | some _, none => Res.ret nn
      | some pt, some n =>
        if !n.bf_flag_staging then Res.ret nn
        else if pl = 0 then Res.undef
        else
          match markGap choices pl n.bf_offset (n.bf_offset + 1)
              (add64 pt.bf_offset pt.bf_size / pl) nn false with
          | Res.ret (nn1, found1) => nextGaps chain choices pl fuel (j + 1) nn1 found1
          | Res.undef => Res.undef
          | Res.nofuel => Res.nofuel

/-- The body of the loop of `ChoosePiece` for the node `p` at index `i` whose
successor `n` is a staging node: an early return of a piece, or the sets
`needs` and `needsnext`. -/
def chooseAt (chain : List BTFILE) (choices available : Bitfield) (preference pl : Nat)
    (i : Nat) (p n : BTFILE) (needs nn : Bitfield) : Res (Option Nat × Bitfield × Bitfield) :=
  if pl = 0 then Res.undef
  else if available.IsSet (add64 p.bf_offset p.bf_size / pl) &&
      decide (n.bf_offset ≤ add64 (add64 p.bf_offset p.bf_size) pl) then
    Res.ret (some (add64 p.bf_offset p.bf_size / pl), needs, nn)
  else if choices.IsSet preference && decide (p.bf_offset ≤ mul64 preference pl) &&
      decide (mul64 preference pl < n.bf_offset) then
    Res.ret (some preference, needs, nn)
  else
    match markGap choices pl n.bf_offset (n.bf_offset + 1)
        (add64 p.bf_offset p.bf_size / pl) needs false with
    | Res.undef => Res.undef
    | Res.nofuel => Res.nofuel
    | Res.ret (needs1, _) =>
      if needs1.IsEmpty then
        match nextGaps chain choices pl (chain.length + 1) (i + 1) nn false with
        | Res.ret nn1 => Res.ret (none, needs1, nn1)
        | Res.undef => Res.undef
        | Res.nofuel => Res.nofuel
      else Res.ret (none, needs1, nn)

/-- The loop `for (; pbf; pbf = pbf->bf_nextreal)` of `ChoosePiece`. -/
def chooseLoop (chain : List BTFILE) (choices available : Bitfield) (preference pl : Nat) :
    Nat → Option Nat → Bitfield → Bitfield → Res (Option Nat × Bitfield × Bitfield)
  | 0, _, _, _ => Res.nofuel
  | _ + 1, none, needs, nn => Res.ret (none, needs, nn)
  | fuel + 1, some i, needs, nn =>
    match chain[i]?, chain[i + 1]? with
    | none, _ => Res.undef
    | some p, some n =>
      if n.bf_flag_staging then
        match chooseAt chain choices available preference pl i p n needs nn with
        | Res.ret (none, needs1, nn1) =>
          chooseLoop chain choices available preference pl fuel (nextreal chain i) needs1 nn1
        | r => r
      else chooseLoop chain choices available preference pl fuel (nextreal chain i) needs nn
    | some _, none =>
      chooseLoop chain choices available preference pl fuel (nextreal chain i) needs nn

/-- Transcription of `btFiles::ChoosePiece(choices, available, preference)`.
`npieces` is `BTCONTENT.GetNPieces()`, `pl` is `BTCONTENT.GetPieceLength()`
and `r` the random number `Bitfield::Random` draws. -/
def btFiles.ChoosePiece (s : btFiles) (choices available : Bitfield) (preference : Nat)
    (npieces pl r : Nat) : Res Nat :=
  match chooseLoop s.chain choices available preference pl (s.chain.length + 1)
      (if s.chain.length = 0 then none else some 0) (Bitfield.new npieces)
      (Bitfield.new npieces) with
  | Res.undef => Res.undef
  | Res.nofuel => Res.nofuel
  | Res.ret (some idx, _, _) => Res.ret idx
  | Res.ret (none, needs, nn) =>
    Res.ret (if needs.IsEmpty then
        (if nn.IsEmpty || nn.IsSet preference then preference else nn.Random r)
      else needs.Random r)

/-- The bit field of `n` bits in which the indices of `l` are set. -/
def Bitfield.ofList (n : Nat) (l : List Nat) : Bitfield :=
  ⟨(List.range n).map fun i => decide (i ∈ l)⟩

/-- The state of the witness of C14 (scenario 6 of the specification): one
file of length 100 with 30 bytes on disk and a staging file of 10 bytes at
offset 50. -/
def gapState : btFiles :=
  ((btFiles.fresh [100]).wr 50 (List.replicate 10 7)).wr 0 (List.replicate 30 7)

/-- One file of length 100 with 15 bytes on disk and a staging file of 5
bytes at offset 23. -/
def oddState : btFiles :=
  ((btFiles.fresh [100]).wr 23 (List.replicate 5 7)).wr 0 (List.replicate 15 7)

/-- One file of length 100 with 30 bytes on disk and a staging file of 10
bytes at offset 40. -/
def bridgeState : btFiles :=
  ((btFiles.fresh [100]).wr 40 (List.replicate 10 7)).wr 0 (List.replicate 30 7)

/-- The real file of `bridgeState`. -/
def bridgeR : BTFILE :=
  { bf_offset := 0, bf_length := 100, bf_size := 30, bf_flag_opened := true,
    bf_data := List.replicate 30 7 }

/-- The staging file of `bridgeState`. -/
def bridgeS : BTFILE :=
  { bf_filename := "040/t-040", bf_offset := 40, bf_size := 10, bf_flag_opened := true,
    bf_flag_staging := true, bf_data := List.replicate 10 7 }

/-! ## Gaps of ChoosePiece (C14): definitions -/

/-- The real file at index `i` of the chain and the staging node that follows
it directly, when the chain has such a pair there. -/
def gapAt (chain : List BTFILE) (i : Nat) : Option (BTFILE × BTFILE) :=
  match chain[i]?, chain[i + 1]? with
  | some p, some n => if !p.bf_flag_staging && n.bf_flag_staging then some (p, n) else none
  | _, _ => none

/-- Piece `k` lies in the gap between the bytes of the real file at index `i`
and the staging node behind it: its index is at least
`(R.offset + R.size) / pl` and it starts before the staging node. -/
def inGap (chain : List BTFILE) (pl k i : Nat) : Prop :=
  ∃ g ∈ gapAt chain i,
    (g.1.bf_offset + g.1.bf_size) / pl ≤ k ∧ k < (g.2.bf_offset + pl - 1) / pl

/-- Neither the bridging rule nor the preference rule of `ChoosePiece` applies
at the real file at index `i`. -/
def noEarly (chain : List BTFILE) (choices available : Bitfield) (preference pl i : Nat) :
    Prop :=
  ∀ g ∈ gapAt chain i,
    ¬ (available.IsSet ((g.1.bf_offset + g.1.bf_size) / pl) = true ∧
        g.2.bf_offset ≤ g.1.bf_offset + g.1.bf_size + pl) ∧
    ¬ (choices.IsSet preference = true ∧ g.1.bf_offset ≤ preference * pl ∧
        preference * pl < g.2.bf_offset)

instance (chain : List BTFILE) (choices available : Bitfield) (preference pl i : Nat) :
    Decidable (noEarly chain choices available preference pl i) := by
  unfold noEarly
  infer_instance

/-- Piece `k` lies in the gap between the bytes of the node at index `j` and
the staging node behind it: its index is at least `(pt.offset + pt.size) / pl`
and it starts before that staging node. -/
def laterGap (chain : List BTFILE) (pl k j : Nat) : Prop :=
  ∃ pt n, chain[j]? = some pt ∧ chain[j + 1]? = some n ∧ n.bf_flag_staging = true ∧
    (pt.bf_offset + pt.bf_size) / pl ≤ k ∧ k * pl < n.bf_offset

/-- The gap behind the node at index `j2` is the first one from index `j` on
that holds a piece of `choices`, in a run of staging nodes: the nodes at the
indices `j + 1` to `j2 + 1` are staging nodes and no piece of `choices` lies in
a gap behind a node at an index from `j` to `j2 - 1`. -/
def firstLaterGap (chain : List BTFILE) (choices : Bitfield) (pl j j2 : Nat) : Prop :=
  j ≤ j2 ∧
    (∀ m, j < m → m ≤ j2 + 1 → ∃ q, chain[m]? = some q ∧ q.bf_flag_staging = true) ∧
    ∀ j1, j ≤ j1 → j1 < j2 → ∀ k1, choices.IsSet k1 = true → ¬ laterGap chain pl k1 j1

/-- Piece `k` is one that `ChoosePiece` collects in `needsnext` at the real
file at index `i`: a staging node follows the file, and `k` lies in the first
gap between two staging nodes of the file that holds a piece of `choices`. -/
def inNextGap (chain : List BTFILE) (choices : Bitfield) (pl k i : Nat) : Prop :=
  (gapAt chain i).isSome = true ∧
    ∃ j2, firstLaterGap chain choices pl (i + 1) j2 ∧ laterGap chain pl k j2

/-- One file of length 100 with 30 bytes on disk and two staging files of 10
bytes, at the offsets 50 and 80. -/
def twoGapState : btFiles :=
  (((btFiles.fresh [100]).wr 80 (List.replicate 10 7)).wr 50 (List.replicate 10 7)).wr 0
    (List.replicate 30 7)

/-! ## ConvertFilename (C15, C16): definitions -/

/-- The library function `isprint` in the "C" locale, on a byte: the codes
`0x20` to `0x7E`. -/
def isprint (c : Nat) : Bool := decide (0x20 ≤ c) && decide (c ≤ 0x7E)

/-- The library function `ispunct` in the "C" locale, on a byte: the printable
characters that are neither the blank nor a letter or digit. -/
def ispunct (c : Nat) : Bool :=
  (decide (0x21 ≤ c) && decide (c ≤ 0x2F)) || (decide (0x3A ≤ c) && decide (c ≤ 0x40)) ||
  (decide (0x5B ≤ c) && decide (c ≤ 0x60)) || (decide (0x7B ≤ c) && decide (c ≤ 0x7E))

/-- The character of the hexadecimal digit `d` in upper case. -/
def hexDigit (d : Nat) : Nat := if d < 10 then 48 + d else 55 + d

/-- The two characters `snprintf(.., 3, "%.2X", (unsigned char)c)` stores. -/
def hex2 (c : Nat) : List Nat := [hexDigit (c / 16 % 16), hexDigit (c % 16)]

/-- Local variables of `ConvertFilename`: `dst` holds the `j` characters
stored so far (`j` is its length). -/
structure ConvState where
  dst : List Nat := []
  f_print : Bool := false
  f_punct : Bool := false
  retval : Int := 0
  deriving DecidableEq, Repr

/-- The body of the loop of `ConvertFilename` for the byte `c`. -/
def convStep (st : ConvState) (c : Nat) : ConvState :=
  if isprint c then
    let f_punct := ispunct c
    let dst1 := if st.dst.length ≠ 0 ∧ st.f_print = false ∧ f_punct = false
      then st.dst ++ [95] else st.dst
    { st with dst := dst1 ++ [c], f_print := true, f_punct := f_punct }
  else
    let dst1 := if st.f_print = true ∧ st.f_punct = false then st.dst ++ [95] else st.dst
    { dst := dst1 ++ hex2 c, f_print := false, f_punct := false,
      retval := if st.retval = 0 then 1 else st.retval }

/-- The loop `for (i = j = 0; src[i] != '\0' && j < size-2; i++)` of
`ConvertFilename` over the bytes of `src` that are left. -/
def convLoop (size : Int) : List Nat → ConvState → ConvState
  | [], st => st
  | c :: rest, st =>
    if c ≠ 0 ∧ (st.dst.length : Int) < size - 2 then convLoop size rest (convStep st c)
    else st

/-- Transcription of `btFiles::ConvertFilename(dst, src, size)` on byte
strings: returns the value of the function and the string left in `dst`.
The bounds of the buffer `dst` are not part of the model. -/
def ConvertFilename (src : List Nat) (size : Int) : Int × List Nat :=
  let st := convLoop size src {}
  (st.retval, st.dst)

/-- The call of `ConvertFilename` as `BuildFromMI` makes it, with a buffer of
`strlen(path)*2+5` bytes. -/
def convertPath (path : List Nat) : Int × List Nat :=
  ConvertFilename path ((path.length : Int) * 2 + 5)

/-- The bytes of a string. -/
def bytesOf (s : String) : List Nat := s.toList.map Char.toNat

/-- The UTF-8 bytes of the name "aéaéaéaéaéaü": `é` is `C3 A9`, `ü` is
`C3 BC`. -/
def utf8Name : List Nat :=
  [97, 195, 169, 97, 195, 169, 97, 195, 169, 97, 195, 169, 97, 195, 169, 97, 195, 188]

/-! ## SetupFiles (C17, C18): definitions -/

/-- The library function `isspace` in the "C" locale. -/
def isspace (c : Char) : Bool :=
  decide (c.toNat = 32) || (decide (9 ≤ c.toNat) && decide (c.toNat ≤ 13))

/-- Value of a string of decimal digits, most significant digit first. -/
def digitsValue (ds : List Char) : Nat :=
  ds.foldl (fun a c => a * 10 + (c.toNat - 48)) 0

/-- The digits part of `strtoull`: `k` characters (white space and sign) have
been passed; without a digit nothing is converted and the end pointer is the
start of the string. -/
def strtoullDigits (neg : Bool) (r : List Char) (k : Nat) : Nat × Nat :=
  let ds := r.takeWhile Char.isDigit
  if ds.isEmpty then (0, 0)
  else
    let v := digitsValue ds
    (if U64 ≤ v then U64 - 1 else if neg then (U64 - v) % U64 else v, k + ds.length)

/-- The library function `strtoull(s, &end, 10)`: white space is skipped, a
sign is accepted, the decimal digits that follow are converted (a value out of
range gives `ULLONG_MAX`).  Returns the value and the number of characters
from `s` to `end`. -/
def strtoull (s : List Char) : Nat × Nat :=
  let ws := s.takeWhile isspace
  match s.drop ws.length with
  | '-' :: r => strtoullDigits true r (ws.length + 1)
  | '+' :: r => strtoullDigits false r (ws.length + 1)
  | r => strtoullDigits false r ws.length

/-- One entry `readdir` returns in a subdirectory of the staging path: its
name, whether `stat` succeeds on it with `S_ISREG`, and the bytes of the file
(`st_size` is their number). -/
structure StageFile where
  name : String
  isReg : Bool := true
  data : List Nat := []
  deriving DecidableEq, Repr

/-- One entry `readdir` returns in the staging path: its name, whether `stat`
succeeds on it with `S_ISDIR` and `opendir` opens it, and its entries. -/
structure StageDir where
  name : String
  isDir : Bool := true
  files : List StageFile := []
  deriving DecidableEq, Repr

/-- What `opendir(m_staging_path)` finds: nothing at this path (`opendir` and
`stat` fail), a path that `stat` finds but `opendir` cannot open, or the
entries of the directory. -/
inductive StageTree where
  | absent
  | blocked
  | listing (dirs : List StageDir)
  deriving DecidableEq, Repr

/-- Outcome of `stat` on a content file: `ENOENT`, another error, or the
status with `S_IFREG & st_mode` and the bytes of the file. -/
inductive FileStat where
  | missing
  | failed
  | found (isReg : Bool) (data : List Nat)
  deriving DecidableEq, Repr

/-- The splice of `SetupFiles`:
`for (pbt = m_btfhead; pbt->bf_next; pbt = pbt->bf_next)
   if (pbf->bf_offset < pbt->bf_next->bf_offset) break;`
followed by the insertion of `pbf` behind `pbt`; the list starts at `pbt`. -/
def insertStaging : List BTFILE → BTFILE → List BTFILE
  | [], _ => []
  | [p], node => [p, node]
  | p :: n :: rest, node =>
    if node.bf_offset < n.bf_offset then p :: node :: n :: rest
    else p :: insertStaging (n :: rest) node

/-- The tests of `SetupFiles` on an entry of a staging subdirectory: the name
starts with the torrent id and a dash, the path fits in `MAXPATHLEN`, `stat`
finds a regular file, and `strtoull` stops exactly `m_fsizelen` characters
behind the dash; gives the node built for the entry.  `maxpath` is
`MAXPATHLEN` (from a system header) and `stagingPath` is `m_staging_path`. -/
def stagingEntry (s : btFiles) (maxpath : Nat) (stagingPath : String) (f : StageFile) :
    Option BTFILE :=
  if s.m_torrent_id.toList.isPrefixOf f.name.toList ∧
      f.name.toList[s.m_torrent_id.length]? = some '-' ∧
      stagingPath.length + 1 + s.m_stagedir.length + 1 + f.name.length < maxpath ∧
      f.isReg = true then
    let r := strtoull (f.name.toList.drop (s.m_torrent_id.length + 1))
    if r.2 ≠ s.m_fsizelen then none
    else some { bf_filename := s.m_stagedir ++ PATH_SP.toString ++ f.name,
                bf_flag_staging := true, bf_offset := r.1, bf_size := f.data.length,
                bf_data := f.data }
  else none

/-- The loop `while ((dirp = readdir(subdp)))` of `SetupFiles` over the
entries of one staging subdirectory; `exist` is `files_exist`. -/
def scanStageFiles (maxpath : Nat) (stagingPath : String) :
    List StageFile → btFiles → Bool → Res (btFiles × Bool)
  | [], s, exist => Res.ret (s, exist)
  | f :: rest, s, exist =>
    match stagingEntry s maxpath stagingPath f with
    | none => scanStageFiles maxpath stagingPath rest s exist
    | some node =>
      if s.chain.isEmpty then Res.undef
      else scanStageFiles maxpath stagingPath rest
        { s with m_stagecount := s.m_stagecount + 1, chain := insertStaging s.chain node }
        (exist || decide (0 < node.bf_size))

/-- The test of `SetupFiles` on an entry of the staging path: the length of
the name is `m_fsizelen`, the path fits in `MAXPATHLEN`, and it is a directory
that can be opened. -/
def acceptStageDir (s : btFiles) (maxpath : Nat) (stagingPath : String) (d : StageDir) : Bool :=
  decide (d.name.length = s.m_fsizelen) &&
    !(decide (maxpath ≤ stagingPath.length + 1 + d.name.length) || !d.isDir)

/-- The loop `while (dp && (dirp = readdir(dp)))` of `SetupFiles`. -/
def scanStageDirs (maxpath : Nat) (stagingPath : String) :
    List StageDir → btFiles → Bool → Res (btFiles × Bool)
  | [], s, exist => Res.ret (s, exist)
  | d :: rest, s, exist =>
    if acceptStageDir s maxpath stagingPath d then
      match scanStageFiles maxpath stagingPath d.files
          { s with m_stagecount := 0, m_stagedir := d.name } exist with
      | Res.ret (s1, exist1) => scanStageDirs maxpath stagingPath rest s1 exist1
      | r => r
    else scanStageDirs maxpath stagingPath rest s exist

/-- The loop "Check for main torrent content files" of `SetupFiles` from the
node `cur` on: gives the state and `files_exist`, or `none` in its place when
the loop leaves by `goto done` with the value -1.  `directory` is
`m_directory` and `disk` gives the outcome of `stat` on a path. -/
def checkContent (maxpath : Nat) (directory : Option String) (disk : String → FileStat) :
    Nat → Option Nat → btFiles → Bool → Res (btFiles × Option Bool)
  | 0, _, _, _ => Res.nofuel
  | _ + 1, none, s, exist => Res.ret (s, some exist)
  | fuel + 1, some i, s, exist =>
    match s.chain[i]? with
    | none => Res.undef
    | some p =>
      let fn := match directory with
        | some d => d ++ PATH_SP.toString ++ p.bf_filename
        | none => p.bf_filename
      if directory.isSome ∧ maxpath ≤ fn.length then Res.ret (s, none)
      else
        match disk fn with
        | FileStat.missing =>
          checkContent maxpath directory disk fuel (nextreal s.chain i) s exist
        | FileStat.failed => Res.ret (s, none)
        | FileStat.found isReg data =>
          if !isReg then Res.ret (s, none)
          else if p.bf_length < data.length then Res.ret (s, none)
          else
            checkContent maxpath directory disk fuel (nextreal s.chain i)
              (s.setNode i { p with bf_size := data.length, bf_data := data })
              (exist || decide (0 < data.length))

/-- Transcription of `btFiles::SetupFiles(torrentid, check_only)`.
`stagingDir` is `*cfg_staging_dir`, `tree` what the staging path holds,
`maxpath` is `MAXPATHLEN`.  The allocations succeed, the second `stat` of a
staging file gives what the first one gave, and the bit field `pBFPieces` and
`DiskAccess` are not part of the state. -/
def btFiles.SetupFiles (s : btFiles) (torrentid : String) (check_only : Bool)
    (stagingDir : String) (tree : StageTree) (directory : Option String)
    (disk : String → FileStat) (maxpath : Nat) : Res (Int × btFiles) :=
  let s0 : btFiles :=
    { s with m_fsizelen := (Nat.toDigits 10 s.m_total_files_length).length,
             m_torrent_id := torrentid, m_stagedir := "" }
  let stagingPath := stagingDir ++ PATH_SP.toString ++ torrentid
  let scanned : Res (Option (btFiles × Bool)) :=
    match tree with
    | StageTree.listing dirs =>
      match scanStageDirs maxpath stagingPath dirs s0 false with
      | Res.ret r => Res.ret (some r)
      | Res.undef => Res.undef
      | Res.nofuel => Res.nofuel
    | StageTree.blocked => if check_only then Res.ret (some (s0, false)) else Res.ret none
    | StageTree.absent => Res.ret (some (s0, false))
  match scanned with
  | Res.undef => Res.undef
  | Res.nofuel => Res.nofuel
  | Res.ret none => Res.ret (-1, s0)
  | Res.ret (some (s1, exist)) =>
    match checkContent maxpath directory disk (s1.chain.length + 1)
        (if s1.chain.length = 0 then none else some 0) s1 exist with
    | Res.undef => Res.undef
    | Res.nofuel => Res.nofuel
    | Res.ret (s2, none) => Res.ret (-1, s2)
    | Res.ret (s2, some exist2) => Res.ret (if exist2 then 1 else 0, s2)

/-- The staging tree of the restart scenario: the subdirectory "0000000005"
with the file "t-0000000005" holding "WORLD". -/
def seededTree : StageTree :=
  StageTree.listing
    [{ name := "0000000005", files := [{ name := "t-0000000005", data := [87, 79, 82, 76, 68] }] }]

/-! ## The piece map of CreateFiles (C19): definitions -/

/-- The value `pbf->bf_offset + pbf->bf_size - (pbf->bf_size ? 1 : 0)` that
`CreateFiles` takes as the last byte of a node. -/
def fendOf (p : BTFILE) : Nat :=
  sub64 (add64 p.bf_offset p.bf_size) (if p.bf_size ≠ 0 then 1 else 0)

/-- The loop `while (pbf && (pbf->bf_size == 0 || (idxoff > fend &&
pbf->bf_next))) { pbf = pbf->bf_next; if (pbf) fend = pbf->bf_offset +
pbf->bf_size - 1; }` of `CreateFiles`. -/
def skipNodes (chain : List BTFILE) (idxoff : Nat) : Nat → Option Nat → Nat → Res (Option Nat × Nat)
  | 0, _, _ => Res.nofuel
  | _ + 1, none, fend => Res.ret (none, fend)
  | fuel + 1, some i, fend =>
    match chain[i]? with
    | none => Res.undef
    | some p =>
      if p.bf_size = 0 ∨ (fend < idxoff ∧ (nextnode chain i).isSome) then
        match chain[i + 1]? with
        | none => skipNodes chain idxoff fuel none fend
        | some n =>
          skipNodes chain idxoff fuel (some (i + 1)) (sub64 (add64 n.bf_offset n.bf_size) 1)
      else Res.ret (some i, fend)

/-- The loop `while (pbf && idxend > fend && pbf->bf_next &&
pbf->bf_next->bf_offset <= fend + 1) { pbf = pbf->bf_next; if (pbf) fend =
pbf->bf_offset + pbf->bf_size - (pbf->bf_size ? 1 : 0); }` of `CreateFiles`;
the node `pbf` is at index `i`. -/
def spanNodes (chain : List BTFILE) (idxend : Nat) : Nat → Nat → Nat → Res (Nat × Nat)
  | 0, _, _ => Res.nofuel
  | fuel + 1, i, fend =>
    match chain[i + 1]? with
    | none => Res.ret (i, fend)
    | some n =>
      if fend < idxend ∧ n.bf_offset ≤ add64 fend 1 then
        spanNodes chain idxend fuel (i + 1) (fendOf n)
      else Res.ret (i, fend)

/-- The loop `for (bt_index_t idx = 0; idx < BTCONTENT.GetNPieces() && pbf;
idx++)` of `CreateFiles` that sets up the map of the pieces available in the
files, from the piece `idx` on; `n` pieces are left.  `pl` is
`BTCONTENT.GetPieceLength()` and `plen idx` is `BTCONTENT.GetPieceLength(idx)`. -/
def pieceLoop (chain : List BTFILE) (pl : Nat) (plen : Nat → Nat) :
    Nat → Nat → Option Nat → Bitfield → Res Bitfield
  | 0, _, _, map => Res.ret map
  | _ + 1, _, none, map => Res.ret map
  | n + 1, idx, some i, map =>
    match chain[i]? with
    | none => Res.undef
    | some p =>
      let idxoff := mul64 idx pl
      if idxoff < p.bf_offset then pieceLoop chain pl plen n (idx + 1) (some i) map
      else
        match skipNodes chain idxoff (chain.length + 1) (some i) (fendOf p) with
        | Res.undef => Res.undef
        | Res.nofuel => Res.nofuel
        | Res.ret (none, _) => Res.ret map
        | Res.ret (some j, fend) =>
          if fend < idxoff then Res.ret map
          else
            match chain[j]? with
            | none => Res.undef
            | some q =>
              if q.bf_offset ≤ idxoff then
                let idxend := sub64 (add64 idxoff (plen idx)) 1
                match spanNodes chain idxend (chain.length + 1) j fend with
                | Res.undef => Res.undef
                | Res.nofuel => Res.nofuel
                | Res.ret (k, fend2) =>
                  pieceLoop chain pl plen n (idx + 1) (some k)
                    (if idxend ≤ fend2 then map.Set idx else map)
              else pieceLoop chain pl plen n (idx + 1) (some j) map

/-- The part "Set up map of pieces that are available in the files" of
`btFiles::CreateFiles`: the bit field `pBFPieces`, which `SetupFiles` made
with `npieces` bits, none set. -/
def btFiles.pieceMap (s : btFiles) (npieces pl : Nat) (plen : Nat → Nat) : Res Bitfield :=
  pieceLoop s.chain pl plen npieces 0 (if s.chain.length = 0 then none else some 0)
    (Bitfield.new npieces)

/-- Byte `b` lies inside the bytes `[offset, offset + size)` of some node. -/
def onDisk (chain : List BTFILE) (b : Nat) : Bool :=
  chain.any fun p => decide (p.bf_offset ≤ b) && decide (b < p.bf_offset + p.bf_size)

/-- Two files of 5 bytes, the first one complete and the second one empty. -/
def halfState : btFiles := (btFiles.fresh [5, 5]).wr 0 [1, 2, 3, 4, 5]

/-! ## The invariant behind m_need_merge (C20): definitions -/

/-- The real files among layouts end at a value of the 64-bit type
`dt_datalen_t`: offset plus length is below `2^64`. -/
def lenOkL (L : List (Bool × Nat × Nat × Nat)) : Prop :=
  ∀ a ∈ L, a.1 = false → a.2.1 + a.2.2.1 < U64

/-- The invariant behind `m_need_merge`: whenever the test of `FindAndMerge`
holds at some node, `m_need_merge` is set; and the real files end at values
of `dt_datalen_t`. -/
def MergeInv (s : btFiles) : Prop :=
  (∀ j, mergeableL (layouts s.chain) j = true → s.m_need_merge = true) ∧
    lenOkL (layouts s.chain)

/-- A staging node created at offset `off` behind the node of index `j` would
not be mergeable with that node: the node is a staging node or has reached
its length, or its bytes end before `off`. -/
def noJoin (L : List (Bool × Nat × Nat × Nat)) (j off : Nat) : Prop :=
  ∀ a, L[j]? = some a → a.1 = true ∨ ¬ a.2.2.2 < a.2.2.1 ∨ add64 a.2.1 a.2.2.2 < off

/-- The invariant of the transfer loop of `IO` on its cursor: while bytes are
left and no node is current, a staging node made at `off` behind `pbfref` joins
nothing. -/
def CurOk (s : btFiles) (c : Cur) : Prop :=
  c.len ≠ 0 → c.pbf = none → ∀ j, c.pbfref = some j → noJoin (layouts s.chain) j c.off

/-- A call of `IO` or of `FindAndMerge`, or a change of the outcomes the file
system will give to the library calls to come. -/
inductive MergeCall where
  | io (rbuf : List Nat) (wbuf : Option (List Nat)) (off len : Nat)
  | findAndMerge (findall dostaging : Bool)
  | outcomes (env : List FileResult)

/-- State after a call; a call that does not return leaves the state. -/
def btFiles.mcall (s : btFiles) : MergeCall → btFiles
  | MergeCall.io rbuf wbuf off len => ( btFiles.IO s rbuf wbuf off len).stateOr (fun r => r.2.1) s
  | MergeCall.findAndMerge findall dostaging =>
    (s.FindAndMerge findall dostaging).stateOr (fun r => r.2) s
  | MergeCall.outcomes env => { s with env := env }

/-- The property `Pd` holds of the state a fragment returns in, and `Pc` of
the value it continues with. -/
def StepOk {α : Type} (Pd : btFiles → Prop) (Pc : α → Prop) (x : Step α) : Prop :=
  match x with
  | Step.cont a => Pc a
  | Step.done _ s => Pd s
  | Step.undef => True

/-- Same layouts and same `m_need_merge`. -/
def sameMerge (s1 s : btFiles) : Prop :=
  layouts s1.chain = layouts s.chain ∧ s1.m_need_merge = s.m_need_merge

/-- Writes of 5 bytes at the offsets 50 and 70 of one file of length 100, a
write of the first 50 bytes that fails and is repeated with success, and a
call of `FindAndMerge` whose merge fails. -/
def catchUpCalls : List MergeCall :=
  [MergeCall.io [] (some (List.replicate 5 7)) 50 5,
   MergeCall.io [] (some (List.replicate 5 7)) 70 5,
   MergeCall.outcomes [FileResult.fail],
   MergeCall.io [] (some (List.replicate 50 7)) 0 50,
   MergeCall.outcomes [],
   MergeCall.io [] (some (List.replicate 50 7)) 0 50,
   MergeCall.outcomes [FileResult.fail],
   MergeCall.findAndMerge true false]

/-- What the transfer at node `i` leaves for a write: the invariant behind
`m_need_merge`, and a node `i` that is a staging node or, when bytes are left
over, has reached its length. -/
def xferOk (s : btFiles) (i : Nat) (c : Cur) (r : btFiles × Nat × List Nat) : Prop :=
  MergeInv r.1 ∧ r.1.chain.length = s.chain.length ∧
    (c.len - r.2.1 ≠ 0 → ∀ a, (layouts r.1.chain)[i]? = some a → a.1 = true ∨ ¬ a.2.2.2 < a.2.2.1)

/-! ## The oldest open file (C21): definitions -/

/-- Four files of length 1: the first three are open, with the time stamps 5,
3 and 3; the last one is closed, with the time stamp 1. -/
def cacheState : btFiles :=
  { chain := [{ bf_offset := 0, bf_length := 1, bf_flag_opened := true, bf_last_timestamp := 5 },
      { bf_offset := 1, bf_length := 1, bf_flag_opened := true, bf_last_timestamp := 3 },
      { bf_offset := 2, bf_length := 1, bf_flag_opened := true, bf_last_timestamp := 3 },
      { bf_offset := 3, bf_length := 1, bf_last_timestamp := 1 }],
    m_nfiles := 4, m_total_files_length := 4, m_total_opened := 3 }

/-! ## An append at the end of a staging file (C22): definitions -/

/-- One file of length 10 after the byte at offset 5 and then all ten bytes
were written: the file is complete and the staging node of offset 5, which
holds one byte, is still behind it. -/
def staleState : btFiles :=
  ((btFiles.fresh [10]).wr 5 [7]).wr 0 [0, 1, 2, 3, 4, 5, 6, 7, 8, 9]

/-- The staging node of `capState`: offset 1, and `MAX_STAGEFILE_SIZE` bytes
on disk. -/
def capS : BTFILE :=
  { bf_filename := "0000001/t-0000001", bf_offset := 1, bf_size := 2097152,
    bf_flag_staging := true, bf_data := List.replicate 2097152 0 }

/-- One file of length 4194304 with no byte on disk, followed by the staging
node `capS`. -/
def capState : btFiles :=
  { chain := [{ bf_offset := 0, bf_length := 4194304 }, capS],
    m_nfiles := 1, m_total_files_length := 4194304, m_torrent_id := "t",
    m_stagedir := "0000001", m_stagecount := 1, m_fsizelen := 7 }

/-- One file of length 10 after the byte at offset 5 was written: the staging
node of offset 5 holds one byte. -/
def smallState : btFiles := (btFiles.fresh [10]).wr 5 [7]

/-! ## The length of the converted name (C23): definitions -/

/-- A name of 12 bytes in which the letter `a` and the byte `0x01` alternate. -/
def altName : List Nat := [97, 1, 97, 1, 97, 1, 97, 1, 97, 1, 97, 1]

/-! ## A read past the bytes on disk (C24): definitions -/

/-- One file of length 10 of which the first five bytes are on disk. -/
def shortState : btFiles := (btFiles.fresh [10]).wr 0 [1, 2, 3, 4, 5]

/-! ## Merging with twenty files open (C6): definitions -/

/-- A chain as `SetupFiles` leaves it after a restart, no file open: twenty
real files of length 10, each followed by a staging file.  The first file
has 3 bytes on disk and its staging file starts at offset 5; every other file
has 1 byte on disk and its staging file, of 1 byte, starts right behind it. -/
def restartState : btFiles :=
  { chain :=
      [{ bf_offset := 0, bf_length := 10, bf_size := 3, bf_data := [1, 2, 3] },
       { bf_filename := "005/t-005", bf_offset := 5, bf_size := 2, bf_flag_staging := true,
         bf_data := [6, 7] }] ++
      (List.range 19).flatMap fun k =>
        [{ bf_offset := 10 * (k + 1), bf_length := 10, bf_size := 1, bf_data := [1] },
         { bf_filename := "005/t-" ++ (fmtOffset 3 (10 * (k + 1) + 1)),
           bf_offset := 10 * (k + 1) + 1, bf_size := 1, bf_flag_staging := true,
           bf_data := [2] }],
    m_nfiles := 20, m_total_files_length := 200, m_torrent_id := "t", m_fsizelen := 3 }

/-- The state `restartState` after `FindAndMerge(1, 1)`, which merges the
nineteen staging files that can be merged and leaves their real files open,
and the write `IO(3, 2)`, which makes the first file reach its staging file:
all in the same second. -/
def tieState : btFiles := (restartState.fm true true).wr 3 [4, 5]

/-! ## The open-file cache when fopen finds no space (C10): definitions -/

/-- One file of length 100 after the write `IO(30, 1)`: the staging file of
offset 30 stands in the staging subdirectory "030", which `m_stagedir`
names. -/
def seedState : btFiles := (btFiles.fresh [100]).wr 30 [9]

/-- The name in `m_stagedir` is empty or has `m_fsizelen` characters. -/
def stageDirOk (s : btFiles) : Prop :=
  s.m_stagedir = "" ∨ s.m_stagedir.length = s.m_fsizelen

/-! ## A write across a file boundary, from the nodes in front (C3): definitions -/

set_option maxRecDepth 1000000

/-! ## The range check of `IO` (C1) -/

/-- When the sum `off + len` fits the 64-bit type and exceeds the total
length, `IO` returns -1 and changes nothing, for a read and for a write. -/
theorem IO_out_of_range (s : btFiles) (rbuf : List Nat) (wbuf : Option (List Nat))
    (off len : Nat) (hfit : off + len < U64) (hout : s.m_total_files_length < off + len) :
    btFiles.IO s rbuf wbuf off len = Res.ret (-1, s, rbuf) := by
  have h : add64 off len = off + len := by
    unfold add64
    exact Nat.mod_eq_of_lt hfit
  unfold btFiles.IO
  rw [h, if_pos hout]

/-- The call `IO(total_length, 0)` returns 0 and changes nothing, for a read
and for a write. -/
theorem IO_at_end_zero (s : btFiles) (rbuf : List Nat) (wbuf : Option (List Nat)) :
    btFiles.IO s rbuf wbuf s.m_total_files_length 0 = Res.ret (0, s, rbuf) := by
  have h : ¬ s.m_total_files_length < add64 s.m_total_files_length 0 := by
    unfold add64
    have := Nat.mod_le (s.m_total_files_length + 0) U64
    omega
  unfold btFiles.IO
  rw [if_neg h]
  simp [btFiles.IOloop]

/-- C1, the code at the failing input: for a single file of length 10 the
write `IO(0, buf, 2^64 - 1, 1)` has the mathematical sum `2^64 > 10`, but the
range check adds in 64 bits, the sum wraps to 0, and the call returns 0 after
splicing a staging node of offset `2^64 - 1` and size 1 behind the file. -/
theorem C1_range_check_wraps :
    ( btFiles.IO (btFiles.fresh [10]) [] (some [1]) 18446744073709551615 1).code = some 0 ∧
    (( btFiles.IO (btFiles.fresh [10]) [] (some [1]) 18446744073709551615 1).state.map
        fun s => s.chain.map BTFILE.layout) =
      some [(false, 0, 10, 0), (true, 18446744073709551615, 0, 1)] := by
  decide

/-! ## The clip of a staging write (C2, C4, C8) -/

/-- C2, the code at the failing input: in `clipState` the write
`IO(10, 2, [7, 7])` returns 0, and the read `IO(10, 2)` that follows it
returns -1: the two bytes went into the staging file of offset 2. -/
theorem C2_round_trip_fails :
    (clipState.chain.map BTFILE.layout =
      [(false, 0, 10, 10), (true, 2, 0, 1), (true, 5, 0, 1), (false, 10, 10, 0)]) ∧
    ( btFiles.IO clipState [] (some [7, 7]) 10 2).code = some 0 ∧
    ( btFiles.IO (clipState.wr 10 [7, 7]) [0, 0] none 10 2).code = some (-1) := by
  decide

/-- C4, the code at the failing input: in `clipState` the second file `R`
(offset 10, size 0, no successor) receives the write `IO(10, 2)`, which
starts at `R.offset + R.size`; the call returns 0, `R.size` stays 0 and the
staging node of offset 2 grows to size 10. -/
theorem C4_append_goes_to_staging :
    ( btFiles.IO clipState [] (some [7, 7]) 10 2).code = some 0 ∧
    ((clipState.wr 10 [7, 7]).chain.map BTFILE.layout =
      [(false, 0, 10, 10), (true, 2, 0, 10), (true, 5, 0, 1), (false, 10, 10, 0)]) := by
  decide

/-- C8, the code at the failing input: after the writes `IO(2, 1)`, `IO(5, 1)`
and `IO(0, 12)` on two fresh files of length 10, the staging node of offset 2
has size 10 and its successor has offset 5: at that node `pos = 8`, and
`next.offset - node.offset - pos = 5 - 2 - 8` wraps to `2^64 - 5`, so the
two bytes left are not clipped. -/
theorem C8_staging_overlaps_successor :
    ((((btFiles.fresh [10, 10]).wr 2 [1]).wr 5 [2]).wr 0
        [0, 1, 2, 3, 4, 5, 6, 7, 8, 9, 10, 11]).chain.map BTFILE.layout =
      [(false, 0, 10, 10), (true, 2, 0, 10), (true, 5, 0, 1), (false, 10, 10, 0)] ∧
    sub64 (sub64 5 2) 8 = 18446744073709551611 := by
  decide

/-! ## The open-file cache (C10) -/

theorem countOpen_nil : countOpen [] = 0 := rfl

theorem countOpen_cons (p : BTFILE) (l : List BTFILE) :
    countOpen (p :: l) = countOpen l + (if p.bf_flag_opened then 1 else 0) := by
  unfold countOpen
  rw [List.countP_cons]

theorem countOpen_append (l1 l2 : List BTFILE) :
    countOpen (l1 ++ l2) = countOpen l1 + countOpen l2 := by
  unfold countOpen
  exact List.countP_append _ l1 l2

theorem countOpen_set (l : List BTFILE) (i : Nat) (q p : BTFILE) (h : l[i]? = some q) :
    countOpen (l.set i p) + (if q.bf_flag_opened then 1 else 0) =
      countOpen l + (if p.bf_flag_opened then 1 else 0) := by
  induction l generalizing i with
  | nil => simp at h
  | cons a l ih =>
    cases i with
    | zero =>
      simp at h
      subst h
      simp only [List.set_cons_zero, countOpen_cons]
      omega
    | succ i =>
      simp at h
      simp only [List.set_cons_succ, countOpen_cons]
      have := ih i h
      omega

theorem countOpen_eraseIdx (l : List BTFILE) (i : Nat) (q : BTFILE) (h : l[i]? = some q) :
    countOpen (l.eraseIdx i) + (if q.bf_flag_opened then 1 else 0) = countOpen l := by
  induction l generalizing i with
  | nil => simp at h
  | cons a l ih =>
    cases i with
    | zero =>
      simp at h
      subst h
      simp only [List.eraseIdx_cons_zero, countOpen_cons]
    | succ i =>
      simp at h
      simp only [List.eraseIdx_cons_succ, countOpen_cons]
      have := ih i h
      omega

theorem countOpen_pos_of_get (l : List BTFILE) (i : Nat) (q : BTFILE) (h : l[i]? = some q)
    (ho : q.bf_flag_opened = true) : 0 < countOpen l := by
  induction l generalizing i with
  | nil => simp at h
  | cons a l ih =>
    cases i with
    | zero =>
      simp at h
      subst h
      rw [countOpen_cons, ho]
      simp
    | succ i =>
      simp at h
      rw [countOpen_cons]
      have := ih i h
      omega

theorem fileop_chain (s : btFiles) : s.fileop.2.chain = s.chain := by
  unfold btFiles.fileop; split <;> rfl

theorem fileop_opened (s : btFiles) : s.fileop.2.m_total_opened = s.m_total_opened := by
  unfold btFiles.fileop; split <;> rfl

theorem fileop_auto (s : btFiles) : s.fileop.2.m_flag_automanage = s.m_flag_automanage := by
  unfold btFiles.fileop; split <;> rfl

theorem fileop_inv (s : btFiles) (h : CacheInv s) : CacheInv s.fileop.2 := by
  unfold CacheInv at *
  rw [fileop_chain, fileop_opened, fileop_auto]
  exact h

theorem fileop_closedAt (s : btFiles) (i : Nat) (h : ClosedAt s i) : ClosedAt s.fileop.2 i := by
  unfold ClosedAt at *
  rw [fileop_chain]
  exact h

theorem close_of_none (s : btFiles) (i : Nat) (h : s.chain[i]? = none) : s._btf_close i = s := by
  simp [btFiles._btf_close, h]

theorem close_of_closed (s : btFiles) (i : Nat) (p : BTFILE) (h : s.chain[i]? = some p)
    (ho : p.bf_flag_opened = false) : s._btf_close i = s := by
  simp [btFiles._btf_close, h, ho]

theorem close_of_open (s : btFiles) (i : Nat) (p : BTFILE) (h : s.chain[i]? = some p)
    (ho : p.bf_flag_opened = true) :
    s._btf_close i = { s with chain := s.chain.set i { p with bf_flag_opened := false },
                              m_total_opened := s.m_total_opened - 1 } := by
  simp [btFiles._btf_close, h, ho]

theorem close_spec (s : btFiles) (i : Nat) (h : CacheInv s) :
    CacheInv (s._btf_close i) ∧ ClosedAt (s._btf_close i) i ∧
    (s._btf_close i).m_total_opened ≤ s.m_total_opened ∧
    (∀ j, ClosedAt s j → ClosedAt (s._btf_close i) j) ∧
    (∀ p, s.chain[i]? = some p → p.bf_flag_opened = true →
      (s._btf_close i).m_total_opened + 1 = s.m_total_opened) := by
  obtain ⟨ha, hc, hm⟩ := h
  cases hp : s.chain[i]? with
  | none =>
    rw [close_of_none s i hp]
    refine ⟨⟨ha, hc, hm⟩, ?_, le_refl _, fun j hj => hj, ?_⟩
    · intro p hp2; rw [hp] at hp2; cases hp2
    · intro p hp2; cases hp2
  | some p =>
    cases ho : p.bf_flag_opened with
    | false =>
      rw [close_of_closed s i p hp ho]
      refine ⟨⟨ha, hc, hm⟩, ?_, le_refl _, fun j hj => hj, ?_⟩
      · intro q hq; rw [hp] at hq; cases hq; exact ho
      · intro q hq ho2; cases hq; rw [ho] at ho2; cases ho2
    | true =>
      rw [close_of_open s i p hp ho]
      have hset := countOpen_set s.chain i p { p with bf_flag_opened := false } hp
      simp only [ho, if_true, Bool.false_eq_true, if_false] at hset
      have hpos := countOpen_pos_of_get s.chain i p hp ho
      refine ⟨⟨ha, ?_, ?_⟩, ?_, ?_, ?_, ?_⟩
      · show s.m_total_opened - 1 = countOpen (s.chain.set i _)
        omega
      · show s.m_total_opened - 1 ≤ MAX_OPEN_FILES
        omega
      · intro q hq
        simp only [List.getElem?_set] at hq
        split at hq
        · split at hq
          · cases hq; rfl
          · cases hq
        · rename_i hne; exact absurd trivial hne
      · show s.m_total_opened - 1 ≤ s.m_total_opened
        omega
      · intro j hj q hq
        simp only [List.getElem?_set] at hq
        split at hq
        · split at hq
          · cases hq; rfl
          · cases hq
        · exact hj q hq
      · intro q _ _
        show s.m_total_opened - 1 + 1 = s.m_total_opened
        omega

theorem oldestAux_some (l : List BTFILE) (i : Nat) (best : Option (Nat × Nat)) (j t : Nat)
    (h : oldestAux l i best = some (j, t)) :
    best = some (j, t) ∨ (i ≤ j ∧ ∃ p, l[j - i]? = some p ∧ p.bf_flag_opened = true) := by
  induction l generalizing i best with
  | nil => left; simpa [oldestAux] using h
  | cons a l ih =>
    unfold oldestAux at h
    have step : ∀ b, oldestAux l (i + 1) b = some (j, t) →
        b = some (j, t) ∨ (i ≤ j ∧ ∃ p, (a :: l)[j - i]? = some p ∧ p.bf_flag_opened = true) := by
      intro b hb
      rcases ih (i + 1) b hb with h1 | ⟨h1, p, hp, ho⟩
      · left; exact h1
      · right
        refine ⟨by omega, p, ?_, ho⟩
        have : j - i = (j - (i + 1)) + 1 := by omega
        rw [this, List.getElem?_cons_succ]
        exact hp
    have here : a.bf_flag_opened = true →
        (i ≤ i ∧ ∃ p, (a :: l)[i - i]? = some p ∧ p.bf_flag_opened = true) := by
      intro ho
      exact ⟨le_refl _, a, by simp, ho⟩
    cases ho : a.bf_flag_opened with
    | false =>
      simp only [ho, Bool.not_false, if_true] at h
      exact step best h
    | true =>
      simp only [ho, Bool.not_true, Bool.false_eq_true, if_false] at h
      cases best with
      | none =>
        simp only at h
        rcases step _ h with h1 | h1
        · right
          cases h1
          exact here ho
        · right; exact h1
      | some b =>
        obtain ⟨bj, bt⟩ := b
        simp only at h
        split at h
        · rcases step _ h with h1 | h1
          · right
            cases h1
            exact here ho
          · right; exact h1
        · exact step _ h

theorem oldestAux_none (l : List BTFILE) (i : Nat) (best : Option (Nat × Nat))
    (h : oldestAux l i best = none) : best = none ∧ countOpen l = 0 := by
  induction l generalizing i best with
  | nil => exact ⟨by simpa [oldestAux] using h, rfl⟩
  | cons a l ih =>
    unfold oldestAux at h
    cases ho : a.bf_flag_opened with
    | false =>
      simp only [ho, Bool.not_false, if_true] at h
      have := ih (i + 1) best h
      rw [countOpen_cons, ho]
      simpa using this
    | true =>
      simp only [ho, Bool.not_true, Bool.false_eq_true, if_false] at h
      cases best with
      | none =>
        simp only at h
        have := (ih (i + 1) _ h).1
        cases this
      | some b =>
        obtain ⟨bj, bt⟩ := b
        simp only at h
        split at h
        · have := (ih (i + 1) _ h).1
          cases this
        · have := (ih (i + 1) _ h).1
          cases this

theorem close_oldest_spec (s : btFiles) (h : CacheInv s) :
    CacheInv s._btf_close_oldest.2 ∧
    s._btf_close_oldest.2.m_total_opened ≤ s.m_total_opened ∧
    (∀ j, ClosedAt s j → ClosedAt s._btf_close_oldest.2 j) ∧
    (0 < s.m_total_opened →
      s._btf_close_oldest.1 = 0 ∧ s._btf_close_oldest.2.m_total_opened + 1 = s.m_total_opened) := by
  unfold btFiles._btf_close_oldest
  cases hb : oldestAux s.chain 0 none with
  | none =>
    have h0 := (oldestAux_none _ _ _ hb).2
    refine ⟨h, le_refl _, fun j hj => hj, ?_⟩
    intro hpos
    have := h.2.1
    omega
  | some b =>
    obtain ⟨j, t⟩ := b
    have hcl := close_spec s j h
    rcases oldestAux_some _ _ _ _ _ hb with h1 | ⟨_, p, hp, ho⟩
    · cases h1
    · refine ⟨hcl.1, hcl.2.2.1, hcl.2.2.2.1, ?_⟩
      intro _
      exact ⟨rfl, hcl.2.2.2.2 p (by simpa using hp) ho⟩

theorem setNode_inv (s : btFiles) (i : Nat) (p q : BTFILE) (hq : s.chain[i]? = some q)
    (hflag : p.bf_flag_opened = q.bf_flag_opened) (h : CacheInv s) : CacheInv (s.setNode i p) := by
  obtain ⟨ha, hc, hm⟩ := h
  have hset := countOpen_set s.chain i q p hq
  rw [hflag] at hset
  refine ⟨ha, ?_, hm⟩
  show s.m_total_opened = countOpen (s.chain.set i p)
  omega

theorem setNode_closedAt (s : btFiles) (i : Nat) (p q : BTFILE) (hq : s.chain[i]? = some q)
    (hflag : p.bf_flag_opened = q.bf_flag_opened) (j : Nat) (h : ClosedAt s j) :
    ClosedAt (s.setNode i p) j := by
  intro r hr
  simp only [btFiles.setNode, List.getElem?_set] at hr
  split at hr
  · split at hr
    · cases hr
      rw [hflag]
      rename_i hij _
      subst hij
      exact h q hq
    · cases hr
  · exact h r hr

theorem markOpen_inv (s : btFiles) (i : Nat) (iotype trunc : Bool) (h : CacheInv s)
    (hc : ClosedAt s i) (hlt : s.m_total_opened < MAX_OPEN_FILES) :
    CacheInv (s.markOpen i iotype trunc).2 := by
  unfold btFiles.markOpen
  cases hq : s.chain[i]? with
  | none => exact h
  | some q =>
    obtain ⟨ha, hcnt, hm⟩ := h
    have hset := countOpen_set s.chain i q
      { q with bf_flag_opened := true, bf_flag_readonly := !iotype,
               bf_data := if trunc then [] else q.bf_data } hq
    rw [hc q hq] at hset
    simp only [Bool.false_eq_true, if_false, if_true] at hset
    refine ⟨ha, ?_, ?_⟩
    · show s.m_total_opened + 1 = countOpen (s.chain.set i _)
      omega
    · show s.m_total_opened + 1 ≤ MAX_OPEN_FILES
      omega

theorem stamp_inv (s : btFiles) (i t : Nat) (h : CacheInv s) : CacheInv (s.stamp i t) := by
  unfold btFiles.stamp
  cases hq : s.chain[i]? with
  | none => exact h
  | some q => exact setNode_inv s i { q with bf_last_timestamp := t } q hq rfl h

theorem stamp_closedAt (s : btFiles) (i t j : Nat) (h : ClosedAt s j) :
    ClosedAt (s.stamp i t) j := by
  unfold btFiles.stamp
  cases hq : s.chain[i]? with
  | none => exact h
  | some q => exact setNode_closedAt s i { q with bf_last_timestamp := t } q hq rfl j h

theorem stamp_opened (s : btFiles) (i t : Nat) :
    (s.stamp i t).m_total_opened = s.m_total_opened := by
  unfold btFiles.stamp
  split <;> rfl

theorem openEvict_spec (s : btFiles) (i : Nat) (p0 : BTFILE) (hp0 : s.chain[i]? = some p0)
    (h : CacheInv s) :
    CacheInv (s.openEvict i p0.bf_flag_opened).2 ∧
    ClosedAt (s.openEvict i p0.bf_flag_opened).2 i ∧
    (¬ (s.openEvict i p0.bf_flag_opened).1 < 0 →
      (s.openEvict i p0.bf_flag_opened).2.m_total_opened < MAX_OPEN_FILES) := by
  have h1 : CacheInv (if p0.bf_flag_opened then s._btf_close i else s) ∧
      ClosedAt (if p0.bf_flag_opened then s._btf_close i else s) i := by
    cases ho : p0.bf_flag_opened with
    | true =>
      simp only [if_true]
      exact ⟨(close_spec s i h).1, (close_spec s i h).2.1⟩
    | false =>
      simp only [Bool.false_eq_true, if_false]
      refine ⟨h, ?_⟩
      intro q hq
      rw [hp0] at hq
      cases hq
      exact ho
  unfold btFiles.openEvict
  generalize (if p0.bf_flag_opened then s._btf_close i else s) = s1 at h1 ⊢
  obtain ⟨h1i, h1c⟩ := h1
  have hco := close_oldest_spec s1 h1i
  by_cases hge : MAX_OPEN_FILES ≤ s1.m_total_opened
  · simp only [h1i.1, hge, decide_True, Bool.and_self, if_true]
    refine ⟨hco.1, hco.2.2.1 i h1c, ?_⟩
    intro _
    have hpos : 0 < s1.m_total_opened := by
      unfold MAX_OPEN_FILES at hge
      omega
    have := (hco.2.2.2 hpos).2
    have := h1i.2.2
    omega
  · simp only [hge, decide_False, Bool.and_false, Bool.false_eq_true, if_false]
    exact ⟨h1i, h1c, fun _ => by omega⟩

theorem openFile_inv (s : btFiles) (i : Nat) (iotype trunc : Bool) (h : CacheInv s)
    (hc : ClosedAt s i) (hlt : s.m_total_opened < MAX_OPEN_FILES) :
    CacheInv (s.openFile i iotype trunc).2 := by
  have h5i := fileop_inv _ h
  have h5c := fileop_closedAt _ i hc
  have h5l : s.fileop.2.m_total_opened < MAX_OPEN_FILES := by
    rw [fileop_opened]; exact hlt
  unfold btFiles.openFile
  split
  · exact markOpen_inv _ i _ _ h5i h5c h5l
  · have hco := close_oldest_spec _ h5i
    have h7i := fileop_inv _ hco.1
    have h7c := fileop_closedAt _ i (hco.2.2.1 i h5c)
    have h7l : (s.fileop.2._btf_close_oldest.2).fileop.2.m_total_opened < MAX_OPEN_FILES := by
      rw [fileop_opened]
      have := hco.2.1
      omega
    split
    · exact markOpen_inv _ i _ _ h7i h7c h7l
    · exact h7i
  · exact h5i

theorem open_inv (s : btFiles) (i : Nat) (iotype : Bool) (h : CacheInv s) :
    CacheInv (s._btf_open i iotype).2 := by
  unfold btFiles._btf_open
  cases hp0 : s.chain[i]? with
  | none => exact h
  | some p0 =>
    simp only
    have he := openEvict_spec s i p0 hp0 h
    split
    · exact h
    · split
      · exact he.1
      · rename_i hr
        split
        · exact fileop_inv _ he.1
        · apply openFile_inv
          · exact stamp_inv _ _ _ (fileop_inv _ he.1)
          · exact stamp_closedAt _ _ _ _ (fileop_closedAt _ _ he.2.1)
          · rw [stamp_opened, fileop_opened]
            exact he.2.2 hr

theorem StepInv_bind {α β : Type} {P : btFiles → Prop} {st : α → btFiles} {st2 : β → btFiles}
    (x : Step α) (f : α → Step β) (hx : StepInv P st x)
    (hf : ∀ a, P (st a) → StepInv P st2 (f a)) : StepInv P st2 (x.bind f) := by
  cases x with
  | cont a => exact hf a hx
  | done r s => exact hx
  | undef => trivial

theorem countOpen_insert (l : List BTFILE) (j : Nat) (p : BTFILE) (hp : p.bf_flag_opened = false) :
    countOpen (l.take j ++ p :: l.drop j) = countOpen l := by
  rw [countOpen_append, countOpen_cons, hp]
  have := countOpen_append (l.take j) (l.drop j)
  rw [List.take_append_drop] at this
  simp only [Bool.false_eq_true, if_false]
  omega

theorem createStaging_inv (s : btFiles) (off : Nat) (pbfref : Option Nat) (h : CacheInv s) :
    StepInv CacheInv (fun r : btFiles × Nat => r.1) (s.createStaging off pbfref) := by
  unfold btFiles.createStaging
  have h1 : CacheInv (if decide (MAX_STAGEDIR_FILES ≤ s.m_stagecount) || s.m_stagedir.isEmpty then
      (if s.fileop.1 = FileResult.ok then
        { s.fileop.2 with m_stagedir := fmtOffset s.m_fsizelen off, m_stagecount := 0 }
      else s.fileop.2) else s) := by
    split
    · split
      · exact fileop_inv _ h
      · exact fileop_inv _ h
    · exact h
  simp only
  generalize (if decide (MAX_STAGEDIR_FILES ≤ s.m_stagecount) || s.m_stagedir.isEmpty then
      (if s.fileop.1 = FileResult.ok then
        { s.fileop.2 with m_stagedir := fmtOffset s.m_fsizelen off, m_stagecount := 0 }
      else s.fileop.2) else s) = s1 at h1 ⊢
  have h2 := fileop_inv _ h1
  split
  · exact h2
  · cases pbfref with
    | none => trivial
    | some j =>
      simp only
      split
      · trivial
      · obtain ⟨ha, hc, hm⟩ := h2
        refine ⟨ha, ?_, hm⟩
        show s1.fileop.2.m_total_opened = countOpen (_ ++ _ :: _)
        rw [countOpen_insert _ _ _ rfl]
        exact hc

theorem grow_inv (s : btFiles) (i n : Nat) (h : CacheInv s) : CacheInv (s.grow i n) := by
  unfold btFiles.grow
  cases hp : s.chain[i]? with
  | none => exact h
  | some p =>
    simp only
    split
    · exact setNode_inv s i { p with bf_size := n } p hp rfl h
    · exact h

theorem closeIfEmpty_inv (s : btFiles) (i : Nat) (h : CacheInv s) : CacheInv (s.closeIfEmpty i) := by
  unfold btFiles.closeIfEmpty
  cases hp : s.chain[i]? with
  | none => exact h
  | some p =>
    simp only
    split
    · exact (close_spec _ i h).1
    · exact h

theorem afterWrite_inv (s : btFiles) (i pos nio : Nat) (h : CacheInv s) :
    CacheInv (s.afterWrite i pos nio) := by
  unfold btFiles.afterWrite
  apply closeIfEmpty_inv
  split
  · exact grow_inv _ _ _ h
  · exact grow_inv _ _ _ h

theorem fwrite_inv (s : btFiles) (i pos : Nat) (bytes : List Nat) (h : CacheInv s) :
    CacheInv (s.fwrite i pos bytes) := by
  unfold btFiles.fwrite
  cases hp : s.chain[i]? with
  | none => exact h
  | some p => exact setNode_inv s i { p with bf_data := writeAt p.bf_data pos bytes } p hp rfl h

theorem ioOpen_inv (s : btFiles) (iotype : Bool) (i : Nat) (h : CacheInv s) :
    StepInv CacheInv id (s.ioOpen iotype i) := by
  unfold btFiles.ioOpen
  cases hp : s.chain[i]? with
  | none => trivial
  | some p =>
    simp only
    have h2 : CacheInv (if !p.bf_flag_opened || (iotype && p.bf_flag_readonly)
        then s._btf_open i iotype else (0, s)).2 := by
      split
      · exact open_inv s i iotype h
      · exact h
    generalize (if !p.bf_flag_opened || (iotype && p.bf_flag_readonly)
        then s._btf_open i iotype else (0, s)) = r2 at h2 ⊢
    split
    · exact h2
    · split
      · exact fileop_inv _ (stamp_inv _ _ _ h2)
      · exact fileop_inv _ (stamp_inv _ _ _ h2)

theorem ioXfer_inv (s : btFiles) (iotype : Bool) (i pos : Nat) (c : Cur) (h : CacheInv s) :
    StepInv CacheInv (fun r : btFiles × Nat × List Nat => r.1) (s.ioXfer iotype i pos c) := by
  unfold btFiles.ioXfer
  cases hp : s.chain[i]? with
  | none => trivial
  | some q =>
    simp only
    split
    · show CacheInv (if iotype then s.afterWrite i pos 0 else s)
      split
      · exact afterWrite_inv _ _ _ _ h
      · exact h
    · split
      · split
        · exact fileop_inv _ h
        · exact fileop_inv _ h
      · split
        · exact afterWrite_inv _ _ _ _ (fwrite_inv _ _ _ _ (fileop_inv _ h))
        · exact fileop_inv _ h

theorem ioAdvance_inv (s : btFiles) (i : Nat) (c : Cur) (nio : Nat) (rbuf : List Nat)
    (h : CacheInv s) :
    StepInv CacheInv (fun r : btFiles × Cur => r.1) (ioAdvance s i c nio rbuf) := by
  unfold ioAdvance
  split
  · exact h
  · split
    · trivial
    · exact h

theorem ioAt_inv (s : btFiles) (iotype : Bool) (i : Nat) (c : Cur) (h : CacheInv s) :
    StepInv CacheInv (fun r : btFiles × Cur => r.1) (s.ioAt iotype i c) := by
  unfold btFiles.ioAt
  cases hp : s.chain[i]? with
  | none => trivial
  | some p =>
    simp only
    apply StepInv_bind _ _ (ioOpen_inv s iotype i h)
    intro s1 h1
    apply StepInv_bind _ _ (ioXfer_inv s1 iotype i _ c h1)
    intro r hr
    exact ioAdvance_inv _ _ _ _ _ hr

theorem IOstep_inv (s : btFiles) (iotype : Bool) (c : Cur) (h : CacheInv s) :
    StepInv CacheInv (fun r : btFiles × Cur => r.1) (s.IOstep iotype c) := by
  unfold btFiles.IOstep
  split
  · exact ioAt_inv _ _ _ _ h
  · split
    · apply StepInv_bind _ _ (createStaging_inv s _ _ h)
      intro r hr
      exact ioAt_inv _ _ _ _ hr
    · exact h

theorem IOloop_inv (iotype : Bool) (fuel : Nat) (s : btFiles) (c : Cur) (h : CacheInv s) :
    ResInv CacheInv (fun r : Int × btFiles × List Nat => r.2.1) (btFiles.IOloop iotype fuel s c) := by
  induction fuel generalizing s c with
  | zero => trivial
  | succ fuel ih =>
    unfold btFiles.IOloop
    split
    · exact h
    · have hs := IOstep_inv s iotype c h
      cases hst : s.IOstep iotype c with
      | undef => trivial
      | done r s1 =>
        rw [hst] at hs
        exact hs
      | cont a =>
        rw [hst] at hs
        obtain ⟨s1, c1⟩ := a
        exact ih s1 c1 hs

theorem IO_inv (s : btFiles) (rbuf : List Nat) (wbuf : Option (List Nat)) (off len : Nat)
    (h : CacheInv s) :
    ResInv CacheInv (fun r : Int × btFiles × List Nat => r.2.1) ( btFiles.IO s rbuf wbuf off len) := by
  unfold btFiles.IO
  split
  · exact h
  · exact IOloop_inv _ _ _ _ h

theorem copyLoop_inv (i j fuel : Nat) (s : btFiles) (remain nio spos pos : Nat) (h : CacheInv s) :
    ResInv CacheInv (fun r : Bool × btFiles => r.2)
      (btFiles.copyLoop i j fuel s remain nio spos pos) := by
  induction fuel generalizing s remain nio spos pos with
  | zero => trivial
  | succ fuel ih =>
    unfold btFiles.copyLoop
    cases hd : s.chain[i]? with
    | none => trivial
    | some dst =>
      cases hs : s.chain[j]? with
      | none => trivial
      | some src =>
        simp only
        split
        · exact h
        · split
          · trivial
          · split
            · exact fileop_inv _ h
            · split
              · exact fileop_inv _ (fileop_inv _ h)
              · apply ih
                exact grow_inv _ _ _ (fwrite_inv _ _ _ _ (fileop_inv _ (fileop_inv _ h)))

theorem stageGone_inv (s : btFiles) (f : String) (h : CacheInv s) : CacheInv (s.stageGone f) := by
  unfold btFiles.stageGone
  split
  · split
    · exact h
    · exact h
  · exact h

theorem delsrc_inv (s : btFiles) (i : Nat) (h : CacheInv s) : CacheInv (s.delsrc i) := by
  unfold btFiles.delsrc
  have hc := close_spec s (i + 1) h
  generalize s._btf_close (i + 1) = s1 at hc ⊢
  obtain ⟨h1, h1c, _, _, _⟩ := hc
  cases hsrc : s1.chain[i + 1]? with
  | none => exact h1
  | some src =>
    have he := countOpen_eraseIdx s1.chain (i + 1) src hsrc
    rw [h1c src hsrc] at he
    simp only [Bool.false_eq_true, if_false, Nat.add_zero] at he
    apply stageGone_inv
    refine ⟨h1.1, ?_, h1.2.2⟩
    show s1.m_total_opened = countOpen (s1.chain.eraseIdx (i + 1))
    rw [he]; exact h1.2.1

theorem mergeFinish_inv (s : btFiles) (i : Nat) (h : CacheInv s) : CacheInv (s.mergeFinish i) := by
  unfold btFiles.mergeFinish
  split
  · exact h
  · apply delsrc_inv
    split
    · exact (close_spec _ _ h).1
    · exact h

theorem mergeCopy_inv (s : btFiles) (i remain spos : Nat) (h : CacheInv s) :
    ResInv CacheInv (fun r : Int × btFiles => r.2) (s.mergeCopy i remain spos) := by
  unfold btFiles.mergeCopy
  cases hd : s.chain[i]? with
  | none => trivial
  | some d =>
    simp only
    split
    · exact fileop_inv _ h
    · have h6 := copyLoop_inv i (i + 1) (remain + 1) s.fileop.2 remain OPT_IO_SIZE spos d.bf_size
        (fileop_inv _ h)
      split
      · trivial
      · trivial
      · rename_i s6 heq
        rw [heq] at h6
        exact h6
      · rename_i s6 heq
        rw [heq] at h6
        exact mergeFinish_inv _ _ h6

theorem mergeOpenSrc_inv (s : btFiles) (j : Nat) (h : CacheInv s) : CacheInv (s.mergeOpenSrc j).2 := by
  unfold btFiles.mergeOpenSrc
  split
  · exact h
  · split
    · exact open_inv _ _ _ h
    · exact h

theorem mergeOpenDst_inv (s : btFiles) (i : Nat) (h : CacheInv s) : CacheInv (s.mergeOpenDst i).2 := by
  unfold btFiles.mergeOpenDst
  split
  · exact h
  · split
    · exact open_inv _ _ _ h
    · exact h

theorem MergeStaging_inv (s : btFiles) (i : Nat) (h : CacheInv s) :
    ResInv CacheInv (fun r : Int × btFiles => r.2) (s.MergeStaging i) := by
  unfold btFiles.MergeStaging
  have h1 := mergeOpenSrc_inv s (i + 1) h
  have h2 := fileop_inv _ h1
  have h3 := mergeOpenDst_inv _ i (stamp_inv _ (i + 1) (s.now + 1) h2)
  split
  · split
    · exact delsrc_inv _ _ h
    · split
      · exact h1
      · split
        · exact h2
        · split
          · exact h3
          · exact mergeCopy_inv _ _ _ _ h3
  · trivial

theorem stateOr_inv {α : Type} {P : btFiles → Prop} (r : Res α) (st : α → btFiles) (s : btFiles)
    (hr : ResInv P st r) (hs : P s) : P (r.stateOr st s) := by
  cases r with
  | ret a => exact hr
  | undef => exact hs
  | nofuel => exact hs

theorem call_inv (s : btFiles) (c : CacheCall) (h : CacheInv s) : CacheInv (s.call c) := by
  cases c with
  | btf_open i iotype => exact open_inv s i iotype h
  | btf_close i => exact (close_spec s i h).1
  | io rbuf wbuf off len => exact stateOr_inv _ _ _ (IO_inv s rbuf wbuf off len h) h
  | mergeStaging i => exact stateOr_inv _ _ _ (MergeStaging_inv s i h) h
  | outcomes env => exact h

theorem countOpen_zero_of_closed (l : List BTFILE) (h : ∀ p ∈ l, p.bf_flag_opened = false) :
    countOpen l = 0 := by
  induction l with
  | nil => rfl
  | cons a l ih =>
    rw [countOpen_cons, ih (fun p hp => h p (List.mem_cons_of_mem _ hp)), h a (List.mem_cons_self _ _)]
    rfl

/-- The count of open files when no `fopen` fails with `ENOSPC`: from a state
with no node open, `m_total_opened = 0` and `m_flag_automanage` set (the
constructor sets it and nothing in `btfiles.cpp` clears it), after any
sequence of calls of `_btf_open`, `_btf_close`, `IO` and `MergeStaging`,
whatever outcomes of `FileResult` the library calls have, `m_total_opened` is
the number of nodes with `bf_flag_opened` set and is at most
`MAX_OPEN_FILES`. -/
theorem open_count_calls (s0 : btFiles) (calls : List CacheCall)
    (hclosed : ∀ p ∈ s0.chain, p.bf_flag_opened = false) (h0 : s0.m_total_opened = 0)
    (hauto : s0.m_flag_automanage = true) :
    (calls.foldl btFiles.call s0).m_total_opened = countOpen (calls.foldl btFiles.call s0).chain ∧
    (calls.foldl btFiles.call s0).m_total_opened ≤ MAX_OPEN_FILES := by
  have hinv : CacheInv s0 := by
    refine ⟨hauto, ?_, ?_⟩
    · rw [h0, countOpen_zero_of_closed _ hclosed]
    · rw [h0]; exact Nat.zero_le _
  have : CacheInv (calls.foldl btFiles.call s0) := by
    clear hclosed h0 hauto
    induction calls generalizing s0 with
    | nil => exact hinv
    | cons c cs ih => exact ih (s0.call c) (call_inv s0 c hinv)
  exact ⟨this.2.1, this.2.2⟩

/-- The count at 21 files of length 1 and 21 one-byte writes: 20 nodes are
open, and of the first 20 files exactly the first has been closed. -/
theorem open_count_writes21 :
    ((∀ p ∈ (btFiles.fresh (List.replicate 21 1)).chain, p.bf_flag_opened = false) ∧
      (btFiles.fresh (List.replicate 21 1)).m_total_opened = 0 ∧
      (btFiles.fresh (List.replicate 21 1)).m_flag_automanage = true) ∧
    ((writes21.foldl btFiles.call (btFiles.fresh (List.replicate 21 1))).m_total_opened =
        countOpen (writes21.foldl btFiles.call (btFiles.fresh (List.replicate 21 1))).chain ∧
      (writes21.foldl btFiles.call (btFiles.fresh (List.replicate 21 1))).m_total_opened ≤
        MAX_OPEN_FILES) ∧
    (writes21.foldl btFiles.call (btFiles.fresh (List.replicate 21 1))).m_total_opened = 20 ∧
    (writes21.foldl btFiles.call (btFiles.fresh (List.replicate 21 1))).chain.map
        (fun p => p.bf_flag_opened) =
      false :: List.replicate 20 true :=
  ⟨by decide,
   open_count_calls _ _ (by decide) (by decide) (by decide),
   by decide, by decide⟩

/-! ## Layout and content of the chain under the calls -/

theorem layout_core (p : BTFILE) : p.core.layout = p.layout := rfl

theorem layouts_of_cores {l l2 : List BTFILE} (h : cores l2 = cores l) : layouts l2 = layouts l := by
  have : (cores l2).map BTFILE.layout = (cores l).map BTFILE.layout := by rw [h]
  simpa [cores, layouts, List.map_map, Function.comp, layout_core] using this

theorem map_set_same {α : Type} (f : BTFILE → α) (l : List BTFILE) (i : Nat) (p q : BTFILE)
    (hq : l[i]? = some q) (hf : f p = f q) : (l.set i p).map f = l.map f := by
  induction l generalizing i with
  | nil => rfl
  | cons a l ih =>
    cases i with
    | zero =>
      simp at hq
      subst hq
      simp [hf]
    | succ i =>
      simp at hq
      simp [ih i hq]

theorem close_cores (s : btFiles) (i : Nat) : cores (s._btf_close i).chain = cores s.chain := by
  cases hp : s.chain[i]? with
  | none => rw [close_of_none s i hp]
  | some p =>
    cases ho : p.bf_flag_opened with
    | false => rw [close_of_closed s i p hp ho]
    | true =>
      rw [close_of_open s i p hp ho]
      exact map_set_same _ _ _ _ _ hp rfl

theorem close_oldest_cores (s : btFiles) : cores s._btf_close_oldest.2.chain = cores s.chain := by
  unfold btFiles._btf_close_oldest
  split
  · rfl
  · exact close_cores _ _

theorem stamp_cores (s : btFiles) (i t : Nat) : cores (s.stamp i t).chain = cores s.chain := by
  unfold btFiles.stamp
  cases hp : s.chain[i]? with
  | none => rfl
  | some p => exact map_set_same _ _ _ _ _ hp rfl

theorem openEvict_cores (s : btFiles) (i : Nat) (w : Bool) :
    cores (s.openEvict i w).2.chain = cores s.chain := by
  have h1 : cores (if w then s._btf_close i else s).chain = cores s.chain := by
    split
    · exact close_cores _ _
    · rfl
  unfold btFiles.openEvict
  generalize (if w then s._btf_close i else s) = s1 at h1 ⊢
  split
  · rw [close_oldest_cores, h1]
  · exact h1

theorem markOpen_layouts (s : btFiles) (i : Nat) (iotype trunc : Bool) :
    layouts (s.markOpen i iotype trunc).2.chain = layouts s.chain := by
  unfold btFiles.markOpen
  cases hp : s.chain[i]? with
  | none => rfl
  | some p => exact map_set_same _ _ _ _ _ hp rfl

theorem markOpen_cores (s : btFiles) (i : Nat) (iotype trunc : Bool)
    (h : trunc = true → ∀ p, s.chain[i]? = some p → p.bf_data = []) :
    cores (s.markOpen i iotype trunc).2.chain = cores s.chain := by
  unfold btFiles.markOpen
  cases hp : s.chain[i]? with
  | none => rfl
  | some p =>
    apply map_set_same _ _ _ _ _ hp
    cases ht : trunc with
    | false => rfl
    | true =>
      have := h ht p hp
      subst ht
      simp [BTFILE.core, this]

theorem openFile_layouts (s : btFiles) (i : Nat) (iotype trunc : Bool) :
    layouts (s.openFile i iotype trunc).2.chain = layouts s.chain := by
  unfold btFiles.openFile
  split
  · rw [markOpen_layouts, fileop_chain]
  · split
    · rw [markOpen_layouts, fileop_chain, layouts_of_cores (close_oldest_cores _), fileop_chain]
    · rw [fileop_chain, layouts_of_cores (close_oldest_cores _), fileop_chain]
  · rw [fileop_chain]

theorem open_layouts (s : btFiles) (i : Nat) (iotype : Bool) :
    layouts (s._btf_open i iotype).2.chain = layouts s.chain := by
  unfold btFiles._btf_open
  split
  · rfl
  · split
    · rfl
    · split
      · exact layouts_of_cores (openEvict_cores _ _ _)
      · split
        · rw [fileop_chain]; exact layouts_of_cores (openEvict_cores _ _ _)
        · rw [openFile_layouts, layouts_of_cores (stamp_cores _ _ _), fileop_chain]
          exact layouts_of_cores (openEvict_cores _ _ _)

theorem layouts_getElem? (l : List BTFILE) (i : Nat) :
    (layouts l)[i]? = (l[i]?).map BTFILE.layout := by
  simp [layouts]

theorem layouts_length (l : List BTFILE) : (layouts l).length = l.length := by
  simp [layouts]

theorem mergeableAt_eq (l : List BTFILE) (i : Nat) : mergeableAt l i = mergeableL (layouts l) i := by
  unfold mergeableAt mergeableL
  rw [layouts_getElem?, layouts_getElem?]
  cases l[i]? <;> cases l[i + 1]? <;> rfl

theorem resizeAt_length (L : List (Bool × Nat × Nat × Nat)) (i sz : Nat) :
    (resizeAt L i sz).length = L.length := by
  unfold resizeAt
  split <;> simp

theorem resizeAt_getElem?_ne (L : List (Bool × Nat × Nat × Nat)) (i sz k : Nat) (h : k ≠ i) :
    (resizeAt L i sz)[k]? = L[k]? := by
  unfold resizeAt
  split
  · rfl
  · rw [List.getElem?_set_ne (Ne.symm h)]

theorem resizeAt_getElem?_eq (L : List (Bool × Nat × Nat × Nat)) (i sz : Nat) :
    (resizeAt L i sz)[i]? = (L[i]?).map (fun a => (a.1, a.2.1, a.2.2.1, sz)) := by
  unfold resizeAt
  cases h : L[i]? with
  | none => simp [h]
  | some a =>
    have hlt : i < L.length := by
      rcases Nat.lt_or_ge i L.length with h1 | h1
      · exact h1
      · rw [List.getElem?_eq_none h1] at h; cases h
    simp [List.getElem?_set_self hlt]

theorem resizeAt_resizeAt (L : List (Bool × Nat × Nat × Nat)) (i a b : Nat) :
    resizeAt (resizeAt L i a) i b = resizeAt L i b := by
  apply List.ext_getElem?
  intro k
  by_cases hk : k = i
  · subst hk
    rw [resizeAt_getElem?_eq, resizeAt_getElem?_eq, resizeAt_getElem?_eq]
    cases L[k]? <;> rfl
  · rw [resizeAt_getElem?_ne _ _ _ _ hk, resizeAt_getElem?_ne _ _ _ _ hk,
      resizeAt_getElem?_ne _ _ _ _ hk]

theorem resizeAt_self (L : List (Bool × Nat × Nat × Nat)) (i : Nat) (a : Bool × Nat × Nat × Nat)
    (h : L[i]? = some a) : resizeAt L i a.2.2.2 = L := by
  apply List.ext_getElem?
  intro k
  by_cases hk : k = i
  · subst hk
    rw [resizeAt_getElem?_eq, h]
    rfl
  · rw [resizeAt_getElem?_ne _ _ _ _ hk]

theorem stagingL_resizeAt (L : List (Bool × Nat × Nat × Nat)) (i sz : Nat) :
    stagingL (resizeAt L i sz) = stagingL L := by
  unfold resizeAt
  cases h : L[i]? with
  | none => rfl
  | some a =>
    simp only
    induction L generalizing i with
    | nil => simp at h
    | cons b L ih =>
      cases i with
      | zero =>
        simp at h
        subst h
        simp [stagingL, List.countP_cons]
      | succ i =>
        simp at h
        have := ih i h
        simp only [stagingL, List.set_cons_succ, List.countP_cons] at this ⊢
        rw [this]

theorem stagingL_eraseIdx (L : List (Bool × Nat × Nat × Nat)) (i : Nat) (a : Bool × Nat × Nat × Nat)
    (h : L[i]? = some a) :
    stagingL (L.eraseIdx i) + (if a.1 then 1 else 0) = stagingL L := by
  induction L generalizing i with
  | nil => simp at h
  | cons b L ih =>
    cases i with
    | zero =>
      simp at h
      subst h
      simp [stagingL, List.countP_cons]
    | succ i =>
      simp at h
      have := ih i h
      simp only [stagingL, List.eraseIdx_cons_succ, List.countP_cons] at this ⊢
      omega

theorem map_eraseIdx {α β : Type} (f : α → β) (l : List α) (i : Nat) :
    (l.eraseIdx i).map f = (l.map f).eraseIdx i := by
  induction l generalizing i with
  | nil => rfl
  | cons a l ih =>
    cases i with
    | zero => rfl
    | succ i => simp [ih]

theorem layouts_set (l : List BTFILE) (i : Nat) (p : BTFILE) :
    layouts (l.set i p) = (layouts l).set i p.layout := by
  simp [layouts, List.map_set]

theorem grow_layouts (s : btFiles) (i n : Nat) :
    ∃ sz, layouts (s.grow i n).chain = resizeAt (layouts s.chain) i sz := by
  unfold btFiles.grow
  cases hp : s.chain[i]? with
  | none =>
    refine ⟨0, ?_⟩
    unfold resizeAt
    rw [layouts_getElem?, hp]
    rfl
  | some p =>
    simp only
    split
    · refine ⟨n, ?_⟩
      unfold resizeAt
      rw [layouts_getElem?, hp]
      show layouts (s.chain.set i _) = _
      rw [layouts_set]
      rfl
    · refine ⟨p.bf_size, ?_⟩
      have : (layouts s.chain)[i]? = some p.layout := by rw [layouts_getElem?, hp]; rfl
      exact (resizeAt_self _ _ _ this).symm

theorem fwrite_layouts (s : btFiles) (i pos : Nat) (bytes : List Nat) :
    layouts (s.fwrite i pos bytes).chain = layouts s.chain := by
  unfold btFiles.fwrite
  cases hp : s.chain[i]? with
  | none => rfl
  | some p => exact map_set_same _ _ _ _ _ hp rfl

theorem copyLoop_layouts (i j fuel : Nat) (s : btFiles) (remain nio spos pos : Nat)
    (b : Bool) (s2 : btFiles)
    (h : btFiles.copyLoop i j fuel s remain nio spos pos = Res.ret (b, s2)) :
    ∃ sz, layouts s2.chain = resizeAt (layouts s.chain) i sz := by
  induction fuel generalizing s remain nio spos pos with
  | zero => simp [btFiles.copyLoop] at h
  | succ fuel ih =>
    unfold btFiles.copyLoop at h
    cases hd : s.chain[i]? with
    | none => simp [hd] at h
    | some dst =>
      cases hs : s.chain[j]? with
      | none => simp [hd, hs] at h
      | some src =>
        have hself : layouts s.chain = resizeAt (layouts s.chain) i dst.bf_size := by
          have : (layouts s.chain)[i]? = some dst.layout := by rw [layouts_getElem?, hd]; rfl
          exact (resizeAt_self _ _ _ this).symm
        simp only [hd, hs] at h
        split at h
        · cases h
          exact ⟨_, hself⟩
        · split at h
          · cases h
          · split at h
            · cases h
              rw [fileop_chain]
              exact ⟨_, hself⟩
            · split at h
              · cases h
                show ∃ sz, layouts s.fileop.2.fileop.2.chain = _
                rw [fileop_chain, fileop_chain]
                exact ⟨_, hself⟩
              · obtain ⟨sz, hsz⟩ := ih _ _ _ _ _ h
                obtain ⟨sz1, hsz1⟩ := grow_layouts
                  (s.fileop.2.fileop.2.fwrite i pos
                    (List.take (if remain < nio then remain else nio) (List.drop spos src.bf_data) ++
                      List.replicate ((if remain < nio then remain else nio) -
                        (List.take (if remain < nio then remain else nio)
                          (List.drop spos src.bf_data)).length) 0)) i
                  (add64 pos (if remain < nio then remain else nio))
                rw [hsz1, fwrite_layouts, fileop_chain, fileop_chain, resizeAt_resizeAt] at hsz
                exact ⟨sz, hsz⟩

theorem delsrc_layouts (s : btFiles) (i : Nat) :
    layouts (s.delsrc i).chain = (layouts s.chain).eraseIdx (i + 1) := by
  unfold btFiles.delsrc
  have hc := layouts_of_cores (close_cores s (i + 1))
  cases hsrc : (s._btf_close (i + 1)).chain[i + 1]? with
  | none =>
    simp only
    rw [hc]
    have : (layouts (s._btf_close (i + 1)).chain)[i + 1]? = none := by
      rw [layouts_getElem?, hsrc]; rfl
    rw [hc] at this
    rw [List.eraseIdx_eq_self.2]
    exact List.getElem?_eq_none_iff.1 this
  | some src =>
    simp only
    have : (((s._btf_close (i + 1)).unlink i).stageGone src.bf_filename).chain =
        (s._btf_close (i + 1)).chain.eraseIdx (i + 1) := by
      unfold btFiles.stageGone btFiles.unlink
      split
      · split <;> rfl
      · rfl
    rw [this, ← hc]
    exact map_eraseIdx _ _ _

theorem mergeFinish_layouts (s : btFiles) (i : Nat) (h : i < s.chain.length) :
    layouts (s.mergeFinish i).chain = (layouts s.chain).eraseIdx (i + 1) := by
  unfold btFiles.mergeFinish
  cases hd : s.chain[i]? with
  | none =>
    rw [List.getElem?_eq_none_iff] at hd
    omega
  | some d =>
    simp only
    rw [delsrc_layouts]
    split
    · rw [layouts_of_cores (close_cores _ _)]
    · rfl

theorem mergeCopy_layouts (s : btFiles) (i remain spos : Nat) (r : Int) (s2 : btFiles)
    (h : s.mergeCopy i remain spos = Res.ret (r, s2)) (hr : ¬ r < 0) :
    ∃ sz, layouts s2.chain = (resizeAt (layouts s.chain) i sz).eraseIdx (i + 1) := by
  unfold btFiles.mergeCopy at h
  cases hd : s.chain[i]? with
  | none => simp [hd] at h
  | some d =>
    simp only [hd] at h
    split at h
    · cases h
      exact absurd (by decide) hr
    · split at h
      · cases h
      · cases h
      · cases h
        exact absurd (by decide) hr
      · rename_i s6 heq
        cases h
        obtain ⟨sz, hsz⟩ := copyLoop_layouts _ _ _ _ _ _ _ _ _ _ heq
        refine ⟨sz, ?_⟩
        have hlen : i < s6.chain.length := by
          have h1 := congrArg List.length hsz
          rw [layouts_length, resizeAt_length, layouts_length, fileop_chain] at h1
          have : i < s.chain.length := by
            rcases Nat.lt_or_ge i s.chain.length with h2 | h2
            · exact h2
            · rw [List.getElem?_eq_none h2] at hd; cases hd
          omega
        rw [mergeFinish_layouts _ _ hlen, hsz, fileop_chain]

theorem mergeOpenSrc_layouts (s : btFiles) (j : Nat) :
    layouts (s.mergeOpenSrc j).2.chain = layouts s.chain := by
  unfold btFiles.mergeOpenSrc
  split
  · rfl
  · split
    · exact open_layouts _ _ _
    · rfl

theorem mergeOpenDst_layouts (s : btFiles) (i : Nat) :
    layouts (s.mergeOpenDst i).2.chain = layouts s.chain := by
  unfold btFiles.mergeOpenDst
  split
  · rfl
  · split
    · exact open_layouts _ _ _
    · rfl

/-- Layout of the chain after a call of `MergeStaging` that returned 0: the
staging node behind `i` is gone and at most the size of node `i` changed. -/
theorem MergeStaging_layouts (s : btFiles) (i : Nat) (r : Int) (s2 : btFiles)
    (h : s.MergeStaging i = Res.ret (r, s2)) (hr : ¬ r < 0) :
    i + 1 < s.chain.length ∧
    ∃ sz, layouts s2.chain = (resizeAt (layouts s.chain) i sz).eraseIdx (i + 1) := by
  unfold btFiles.MergeStaging at h
  cases hd : s.chain[i]? with
  | none => simp [hd] at h
  | some dst =>
    cases hs : s.chain[i + 1]? with
    | none => simp [hd, hs] at h
    | some src =>
      have hlt : i + 1 < s.chain.length := by
        rcases Nat.lt_or_ge (i + 1) s.chain.length with h2 | h2
        · exact h2
        · rw [List.getElem?_eq_none h2] at hs; cases hs
      refine ⟨hlt, ?_⟩
      have hself : layouts s.chain = resizeAt (layouts s.chain) i dst.bf_size := by
        have : (layouts s.chain)[i]? = some dst.layout := by rw [layouts_getElem?, hd]; rfl
        exact (resizeAt_self _ _ _ this).symm
      simp only [hd, hs] at h
      split at h
      · cases h
        refine ⟨dst.bf_size, ?_⟩
        rw [delsrc_layouts, ← hself]
      · split at h
        · cases h
          exact absurd (by decide) hr
        · split at h
          · cases h
            exact absurd (by decide) hr
          · split at h
            · cases h
              exact absurd (by decide) hr
            · obtain ⟨sz, hsz⟩ := mergeCopy_layouts _ _ _ _ _ _ h hr
              rw [mergeOpenDst_layouts, layouts_of_cores (stamp_cores _ _ _), fileop_chain,
                mergeOpenSrc_layouts] at hsz
              exact ⟨sz, hsz⟩

theorem sub64_lt (a b : Nat) : sub64 a b < U64 := by
  unfold sub64
  exact Nat.mod_lt _ (by unfold U64; decide)

theorem sub64_of_le (a b : Nat) (hb : b ≤ a) (ha : a < U64) : sub64 a b = a - b := by
  unfold sub64 U64 at *
  omega

theorem copyLoop_fuel (i j fuel : Nat) (s : btFiles) (remain nio spos pos : Nat)
    (hf : remain < fuel) (hn : 1 ≤ nio) (hr : remain < U64) :
    btFiles.copyLoop i j fuel s remain nio spos pos ≠ Res.nofuel := by
  induction fuel generalizing s remain nio spos pos with
  | zero => omega
  | succ fuel ih =>
    unfold btFiles.copyLoop
    cases hd : s.chain[i]? with
    | none => simp
    | some dst =>
      cases hs : s.chain[j]? with
      | none => simp
      | some src =>
        simp only
        split
        · simp
        · rename_i hc
          have hrem : remain ≠ 0 := by
            intro h0
            apply hc
            simp [h0]
          split
          · simp
          · split
            · simp
            · split
              · simp
              · apply ih
                · have hle : (if remain < nio then remain else nio) ≤ remain := by split <;> omega
                  have hpos : 1 ≤ (if remain < nio then remain else nio) := by split <;> omega
                  rw [sub64_of_le _ _ hle hr]
                  omega
                · split <;> omega
                · exact sub64_lt _ _

theorem mergeCopy_fuel (s : btFiles) (i remain spos : Nat) (hr : remain < U64) :
    s.mergeCopy i remain spos ≠ Res.nofuel := by
  unfold btFiles.mergeCopy
  split
  · simp
  · split
    · simp
    · rename_i d _ _
      have := copyLoop_fuel i (i + 1) (remain + 1) s.fileop.2 remain OPT_IO_SIZE spos
        d.bf_size (Nat.lt_succ_self _) (by unfold OPT_IO_SIZE; decide) hr
      split
      · simp
      · rename_i heq
        exact absurd heq this
      · simp
      · simp

theorem MergeStaging_fuel (s : btFiles) (i : Nat) : s.MergeStaging i ≠ Res.nofuel := by
  unfold btFiles.MergeStaging
  split
  · split
    · simp
    · split
      · simp
      · split
        · simp
        · split
          · simp
          · exact mergeCopy_fuel _ _ _ _ (sub64_lt _ _)
  · simp

theorem firstReal_some (l : List BTFILE) (k m : Nat) (h : firstReal l k = some m) :
    k ≤ m ∧ m - k < l.length ∧ ∀ j, j < m - k → ∃ p, l[j]? = some p ∧ p.bf_flag_staging = true := by
  induction l generalizing k with
  | nil => simp [firstReal] at h
  | cons a l ih =>
    unfold firstReal at h
    split at h
    · rename_i hst
      obtain ⟨h1, h2, h3⟩ := ih (k + 1) h
      refine ⟨by omega, by simp; omega, ?_⟩
      intro j hj
      cases j with
      | zero => exact ⟨a, by simp, hst⟩
      | succ j =>
        obtain ⟨p, hp, hps⟩ := h3 j (by omega)
        exact ⟨p, by simpa using hp, hps⟩
    · cases h
      refine ⟨le_refl _, by simp, ?_⟩
      intro j hj
      omega

theorem firstReal_none (l : List BTFILE) (k : Nat) (h : firstReal l k = none) :
    ∀ (j : Nat) (p : BTFILE), l[j]? = some p → p.bf_flag_staging = true := by
  induction l generalizing k with
  | nil => intro j p hp; simp at hp
  | cons a l ih =>
    unfold firstReal at h
    split at h
    · rename_i hst
      intro j p hp
      cases j with
      | zero =>
        simp at hp
        subst hp
        exact hst
      | succ j => exact ih (k + 1) h j p (by simpa using hp)
    · cases h

theorem nextreal_some (l : List BTFILE) (i m : Nat) (h : nextreal l i = some m) :
    i < m ∧ m < l.length ∧
    ∀ j, i < j → j < m → ∃ p, l[j]? = some p ∧ p.bf_flag_staging = true := by
  unfold nextreal at h
  obtain ⟨h1, h2, h3⟩ := firstReal_some _ _ _ h
  rw [List.length_drop] at h2
  refine ⟨by omega, by omega, ?_⟩
  intro j hj1 hj2
  obtain ⟨p, hp, hps⟩ := h3 (j - (i + 1)) (by omega)
  refine ⟨p, ?_, hps⟩
  rw [List.getElem?_drop] at hp
  have : i + 1 + (j - (i + 1)) = j := by omega
  rw [this] at hp
  exact hp

theorem nextreal_none (l : List BTFILE) (i : Nat) (h : nextreal l i = none) :
    ∀ (j : Nat) (p : BTFILE), i < j → l[j]? = some p → p.bf_flag_staging = true := by
  unfold nextreal at h
  intro j p hj hp
  apply firstReal_none _ _ h (j - (i + 1)) p
  rw [List.getElem?_drop]
  have : i + 1 + (j - (i + 1)) = j := by omega
  rw [this]
  exact hp

theorem mergeableL_staging (L : List (Bool × Nat × Nat × Nat)) (j : Nat) (a : Bool × Nat × Nat × Nat)
    (h : L[j]? = some a) (hs : a.1 = true) : mergeableL L j = false := by
  unfold mergeableL
  rw [h]
  cases L[j + 1]? with
  | none => rfl
  | some n => simp [hs]

theorem mergeableL_none (L : List (Bool × Nat × Nat × Nat)) (j : Nat) (h : L.length ≤ j + 1) :
    mergeableL L j = false := by
  unfold mergeableL
  have : L[j + 1]? = none := List.getElem?_eq_none h
  rw [this]
  cases L[j]? <;> rfl

theorem scan_spec (ds : Bool) (N0 : Nat) (fuel : Nat) (s : btFiles) (cur : Option Nat)
    (merged : Bool)
    (hfuel : 1 ≤ fuel ∧ ∀ i, cur = some i → 2 * s.chain.length + 1 ≤ fuel + i)
    (hcur : (∀ i, cur = some i →
        i < s.chain.length ∧ ∀ j, j < i → mergeableL (layouts s.chain) j = false) ∧
      (cur = none → ∀ j, mergeableL (layouts s.chain) j = false))
    (hcnt : stagingL (layouts s.chain) + (if merged then 1 else 0) ≤ N0 ∧
      (merged = false → stagingL (layouts s.chain) = N0)) :
    btFiles.FindAndMergeScan true ds fuel s cur merged ≠ Res.nofuel ∧
    ∀ m s2, btFiles.FindAndMergeScan true ds fuel s cur merged = Res.ret (m, true, s2) →
      (∀ j, mergeableL (layouts s2.chain) j = false) ∧ s2.m_need_merge = false ∧
      (m = true ↔ stagingL (layouts s2.chain) < N0) := by
  induction fuel generalizing s cur merged with
  | zero => omega
  | succ fuel ih =>
    cases cur with
    | none =>
      have hcur := hcur.2 rfl
      refine ⟨by simp [btFiles.FindAndMergeScan], ?_⟩
      intro m s2 h
      simp only [btFiles.FindAndMergeScan, Res.ret.injEq, Prod.mk.injEq] at h
      obtain ⟨hm, -, hs2⟩ := h
      subst hm hs2
      refine ⟨hcur, rfl, ?_⟩
      cases merged with
      | false =>
        have := hcnt.2 rfl
        simp only [Bool.false_eq_true, false_iff]
        show ¬ stagingL (layouts s.chain) < N0
        omega
      | true =>
        have := hcnt.1
        simp only [if_true] at this
        simp only [true_iff]
        show stagingL (layouts s.chain) < N0
        omega
    | some i =>
      have hfuel := hfuel.2 i rfl
      obtain ⟨hilt, hbefore⟩ := hcur.1 i rfl
      unfold btFiles.FindAndMergeScan
      split
      · -- the node is mergeable
        rename_i hmg
        have hnf := MergeStaging_fuel s i
        cases hms : s.MergeStaging i with
        | nofuel => exact absurd hms hnf
        | undef => simp
        | ret a =>
          obtain ⟨r, s1⟩ := a
          simp only
          split
          · simp
          · rename_i hr
            simp only [Bool.not_true, Bool.false_eq_true, if_false]
            obtain ⟨hlt, sz, hsz⟩ := MergeStaging_layouts s i r s1 hms hr
            have hlen1 : s1.chain.length + 1 = s.chain.length := by
              have h1 := congrArg List.length hsz
              rw [layouts_length, List.length_eraseIdx, resizeAt_length, layouts_length] at h1
              simp only [hlt, if_true] at h1
              omega
            have hget : ∀ k, k < i → (layouts s1.chain)[k]? = (layouts s.chain)[k]? := by
              intro k hk
              rw [hsz, List.getElem?_eraseIdx]
              simp only [show k < i + 1 by omega, if_true]
              exact resizeAt_getElem?_ne _ _ _ _ (by omega)
            have hgeti : (layouts s1.chain)[i]? =
                ((layouts s.chain)[i]?).map (fun a => (a.1, a.2.1, a.2.2.1, sz)) := by
              rw [hsz, List.getElem?_eraseIdx]
              simp only [show i < i + 1 by omega, if_true]
              exact resizeAt_getElem?_eq _ _ _
            -- the node behind `i` was a staging node
            have hstg : ∃ a, (layouts s.chain)[i + 1]? = some a ∧ a.1 = true := by
              rw [mergeableAt_eq] at hmg
              unfold mergeableL at hmg
              cases h1 : (layouts s.chain)[i]? with
              | none => simp [h1] at hmg
              | some p =>
                cases h2 : (layouts s.chain)[i + 1]? with
                | none => simp [h1, h2] at hmg
                | some n =>
                  simp only [h1, h2, Bool.and_eq_true] at hmg
                  exact ⟨n, rfl, hmg.1.2⟩
            obtain ⟨a, ha, hast⟩ := hstg
            have hcount : stagingL (layouts s1.chain) + 1 = stagingL (layouts s.chain) := by
              rw [hsz]
              have ha2 : (resizeAt (layouts s.chain) i sz)[i + 1]? = some a := by
                rw [resizeAt_getElem?_ne _ _ _ _ (by omega)]; exact ha
              have := stagingL_eraseIdx _ _ _ ha2
              rw [hast, stagingL_resizeAt] at this
              simpa using this
            refine ih s1 (some i) true ⟨by omega, ?_⟩ ⟨?_, by intro h; cases h⟩ ⟨?_, by intro h; cases h⟩
            · intro i2 hi2
              cases hi2
              omega
            · intro i2 hi2
              cases hi2
              refine ⟨by omega, ?_⟩
              intro j hj
              have hjold := hbefore j hj
              unfold mergeableL at hjold ⊢
              rw [hget j hj]
              by_cases hji : j + 1 = i
              · rw [hji, hgeti]
                rw [hji] at hjold
                cases h1 : (layouts s.chain)[j]? with
                | none => rfl
                | some p =>
                  cases h2 : (layouts s.chain)[i]? with
                  | none => rfl
                  | some n =>
                    simp only [h1, h2, Option.map_some'] at hjold ⊢
                    exact hjold
              · rw [hget (j + 1) (by omega)]
                exact hjold
            · have := hcnt.1
              simp only [if_true]
              have h2 : (if merged = true then 1 else 0) ≥ 0 := Nat.zero_le _
              omega
      · -- the node is not mergeable: the walk goes on
        rename_i hmg
        have hmgL : mergeableL (layouts s.chain) i = false := by
          rw [← mergeableAt_eq]
          simpa using hmg
        have hall : ∀ j, j ≤ i → mergeableL (layouts s.chain) j = false := by
          intro j hj
          by_cases hji : j = i
          · rw [hji]; exact hmgL
          · exact hbefore j (by omega)
        refine ih s _ merged ⟨by omega, ?_⟩ ⟨?_, ?_⟩ hcnt
        · intro m hm
          cases ds with
          | true =>
            simp only [if_true, nextnode] at hm
            split at hm
            · cases hm; omega
            · cases hm
          | false =>
            simp only [Bool.false_eq_true, if_false] at hm
            have := (nextreal_some _ _ _ hm).1
            omega
        · intro m hm
          cases ds with
          | true =>
            simp only [if_true, nextnode] at hm
            split at hm
            · rename_i hlt
              cases hm
              exact ⟨hlt, fun j hj => hall j (by omega)⟩
            · cases hm
          | false =>
            simp only [Bool.false_eq_true, if_false] at hm
            obtain ⟨h1, h2, h3⟩ := nextreal_some _ _ _ hm
            refine ⟨h2, ?_⟩
            intro j hj
            rcases Nat.lt_or_ge i j with h4 | h4
            · obtain ⟨p, hp, hps⟩ := h3 j h4 hj
              apply mergeableL_staging _ _ p.layout
              · rw [layouts_getElem?, hp]; rfl
              · exact hps
            · exact hall j h4
        · intro hm j
          rcases Nat.lt_or_ge i j with h4 | h4
          · cases ds with
            | true =>
              simp only [if_true, nextnode] at hm
              split at hm
              · cases hm
              · apply mergeableL_none
                rw [layouts_length]
                omega
            | false =>
              simp only [Bool.false_eq_true, if_false] at hm
              rcases Nat.lt_or_ge j s.chain.length with h2 | h2
              · have hj : s.chain[j]? = some s.chain[j] := List.getElem?_eq_getElem h2
                have hst := nextreal_none _ _ hm j _ h4 hj
                apply mergeableL_staging _ _ (s.chain[j]).layout
                · rw [layouts_getElem?, hj]; rfl
                · exact hst
              · apply mergeableL_none
                rw [layouts_length]
                omega
          · exact hall j h4

theorem core_fields {p q : BTFILE} (h : p.core = q.core) :
    p.bf_data = q.bf_data ∧ p.bf_size = q.bf_size ∧ p.bf_offset = q.bf_offset ∧
    p.bf_length = q.bf_length ∧ p.bf_flag_staging = q.bf_flag_staging ∧
    p.bf_filename = q.bf_filename := by
  have h1 : p.core.bf_data = q.core.bf_data := by rw [h]
  have h2 : p.core.bf_size = q.core.bf_size := by rw [h]
  have h3 : p.core.bf_offset = q.core.bf_offset := by rw [h]
  have h4 : p.core.bf_length = q.core.bf_length := by rw [h]
  have h5 : p.core.bf_flag_staging = q.core.bf_flag_staging := by rw [h]
  have h6 : p.core.bf_filename = q.core.bf_filename := by rw [h]
  exact ⟨h1, h2, h3, h4, h5, h6⟩

theorem cores_length (l : List BTFILE) : (cores l).length = l.length := by
  simp [cores]

theorem cores_getElem? (l : List BTFILE) (i : Nat) : (cores l)[i]? = (l[i]?).map BTFILE.core := by
  simp [cores]

theorem length_of_cores {l l2 : List BTFILE} (h : cores l2 = cores l) : l2.length = l.length := by
  have := congrArg List.length h
  rwa [cores_length, cores_length] at this

theorem fileop_nil (s : btFiles) (h : s.env = []) : s.fileop = (FileResult.ok, s) := by
  unfold btFiles.fileop
  rw [h]

theorem close_env (s : btFiles) (i : Nat) : (s._btf_close i).env = s.env := by
  unfold btFiles._btf_close
  split
  · rfl
  · split <;> rfl

theorem close_oldest_env (s : btFiles) : s._btf_close_oldest.2.env = s.env := by
  unfold btFiles._btf_close_oldest
  split
  · rfl
  · exact close_env _ _

theorem stamp_env (s : btFiles) (i t : Nat) : (s.stamp i t).env = s.env := by
  unfold btFiles.stamp
  split <;> rfl

theorem openEvict_env (s : btFiles) (i : Nat) (w : Bool) : (s.openEvict i w).2.env = s.env := by
  have h1 : (if w then s._btf_close i else s).env = s.env := by
    split
    · exact close_env _ _
    · rfl
  unfold btFiles.openEvict
  generalize (if w then s._btf_close i else s) = s1 at h1 ⊢
  split
  · rw [close_oldest_env, h1]
  · exact h1

theorem openEvict_ok (s : btFiles) (i : Nat) (p0 : BTFILE) (hp0 : s.chain[i]? = some p0)
    (h : CacheInv s) : (s.openEvict i p0.bf_flag_opened).1 = 0 := by
  have h1 : CacheInv (if p0.bf_flag_opened then s._btf_close i else s) := by
    split
    · exact (close_spec s i h).1
    · exact h
  unfold btFiles.openEvict
  generalize (if p0.bf_flag_opened then s._btf_close i else s) = s1 at h1 ⊢
  split
  · rename_i hc
    simp only [Bool.and_eq_true, decide_eq_true_eq] at hc
    have hpos : 0 < s1.m_total_opened := by
      have := hc.2
      unfold MAX_OPEN_FILES at this
      omega
    exact ((close_oldest_spec s1 h1).2.2.2 hpos).1
  · rfl

theorem markOpen_env (s : btFiles) (i : Nat) (iotype trunc : Bool) :
    (s.markOpen i iotype trunc).2.env = s.env := by
  unfold btFiles.markOpen
  split <;> rfl

/-- With every library call succeeding and the cache invariant, `_btf_open`
returns 0 and changes nothing but the fields of the open-file cache, provided
an empty file on disk goes with `bf_size` 0 when the node is opened for
writing. -/
theorem open_ok (s : btFiles) (i : Nat) (iotype : Bool) (h : CacheInv s) (he : s.env = [])
    (hi : i < s.chain.length)
    (hd : iotype = true → ∀ p, s.chain[i]? = some p → p.bf_size = 0 → p.bf_data = []) :
    (s._btf_open i iotype).1 = 0 ∧ (s._btf_open i iotype).2.env = [] ∧
    cores (s._btf_open i iotype).2.chain = cores s.chain := by
  unfold btFiles._btf_open
  have hp0 : s.chain[i]? = some s.chain[i] := List.getElem?_eq_getElem hi
  rw [hp0]
  simp only
  generalize s.chain[i] = p0 at hp0
  split
  · exact ⟨rfl, he, rfl⟩
  · have hev := openEvict_ok s i p0 hp0 h
    have hee : (s.openEvict i p0.bf_flag_opened).2.env = [] := by rw [openEvict_env, he]
    have hec := openEvict_cores s i p0.bf_flag_opened
    generalize s.openEvict i p0.bf_flag_opened = r2 at hev hee hec
    rw [if_neg (by omega)]
    rw [fileop_nil _ hee]
    simp only [ne_eq, not_true_eq_false, if_false]
    have h4e : (r2.2.stamp i (r2.2.now + 1)).env = [] := by rw [stamp_env, hee]
    have h4c : cores (r2.2.stamp i (r2.2.now + 1)).chain = cores s.chain := by
      rw [stamp_cores, hec]
    generalize r2.2.stamp i (r2.2.now + 1) = s4 at h4e h4c
    unfold btFiles.openFile
    rw [fileop_nil _ h4e]
    simp only
    have hlen := length_of_cores h4c
    have hq : s4.chain[i]? = some s4.chain[i] := List.getElem?_eq_getElem (by omega)
    refine ⟨?_, ?_, ?_⟩
    · unfold btFiles.markOpen
      rw [hq]
    · rw [markOpen_env, h4e]
    · rw [markOpen_cores, h4c]
      intro ht p hp
      simp only [Bool.and_eq_true, beq_iff_eq] at ht
      -- the node has the size and the bytes it had in `s`
      have hc1 : (cores s4.chain)[i]? = (cores s.chain)[i]? := by rw [h4c]
      rw [cores_getElem?, cores_getElem?, hp, hp0] at hc1
      simp only [Option.map_some', Option.some.injEq] at hc1
      rw [(core_fields hc1).1]
      exact hd ht.1 p0 hp0 ht.2

/-! ## Merging (C5, C6) -/

theorem add64_of_lt (a b : Nat) (h : a + b < U64) : add64 a b = a + b := by
  unfold add64
  exact Nat.mod_eq_of_lt h

theorem writeAt_end (d bytes : List Nat) : writeAt d d.length bytes = d ++ bytes := by
  unfold writeAt
  simp

theorem set_same {α : Type} (l : List α) (i : Nat) (q : α) (h : l[i]? = some q) : l.set i q = l := by
  induction l generalizing i with
  | nil => rfl
  | cons a l ih =>
    cases i with
    | zero =>
      simp at h
      subst h
      rfl
    | succ i =>
      simp at h
      simp [ih i h]

theorem fwrite_env (s : btFiles) (i pos : Nat) (bytes : List Nat) :
    (s.fwrite i pos bytes).env = s.env := by
  unfold btFiles.fwrite
  split <;> rfl

theorem grow_env (s : btFiles) (i n : Nat) : (s.grow i n).env = s.env := by
  unfold btFiles.grow
  split
  · rfl
  · split <;> rfl

theorem fwrite_chain (s : btFiles) (i pos : Nat) (bytes : List Nat) (q : BTFILE)
    (hq : s.chain[i]? = some q) :
    (s.fwrite i pos bytes).chain = s.chain.set i { q with bf_data := writeAt q.bf_data pos bytes } := by
  unfold btFiles.fwrite
  rw [hq]

theorem grow_chain (s : btFiles) (i n : Nat) (q : BTFILE) (hq : s.chain[i]? = some q) :
    (s.grow i n).chain = s.chain.set i { q with bf_size := if q.bf_size < n then n else q.bf_size } := by
  unfold btFiles.grow
  rw [hq]
  simp only
  split
  · rfl
  · have : ({ q with bf_size := q.bf_size } : BTFILE) = q := rfl
    rw [this]
    exact (set_same _ _ _ hq).symm

/-- The copy loop with every call succeeding: when the source holds exactly
`remain` bytes from `spos` on and the destination, whose file ends at `pos`,
has room for them, the loop appends these bytes to the destination. -/
theorem fwrite_other (s : btFiles) (i j pos : Nat) (bytes : List Nat) (h : j ≠ i) :
    (s.fwrite i pos bytes).chain[j]? = s.chain[j]? := by
  unfold btFiles.fwrite
  split
  · rfl
  · exact List.getElem?_set_ne (Ne.symm h)

theorem grow_other (s : btFiles) (i j n : Nat) (h : j ≠ i) :
    (s.grow i n).chain[j]? = s.chain[j]? := by
  unfold btFiles.grow
  split
  · rfl
  · split
    · exact List.getElem?_set_ne (Ne.symm h)
    · rfl

theorem copyLoop_ok (i j fuel : Nat) (s : btFiles) (remain nio spos pos : Nat) (dst src : BTFILE)
    (he : s.env = []) (hd : s.chain[i]? = some dst) (hs : s.chain[j]? = some src) (hij : i ≠ j)
    (hso : src.bf_flag_opened = true) (hf : remain < fuel) (hn : 1 ≤ nio)
    (hpos : dst.bf_size = pos) (hdl : dst.bf_data.length = pos)
    (hrem : spos + remain = src.bf_data.length)
    (hroom : pos + remain ≤ dst.bf_length) (hlen : dst.bf_length < U64) :
    ∃ s2, btFiles.copyLoop i j fuel s remain nio spos pos = Res.ret (true, s2) ∧ s2.env = [] ∧
      s2.chain = s.chain.set i
        { dst with bf_size := pos + remain, bf_data := dst.bf_data ++ src.bf_data.drop spos } := by
  induction fuel generalizing s remain nio spos pos dst with
  | zero => omega
  | succ fuel ih =>
    unfold btFiles.copyLoop
    rw [hd, hs]
    simp only
    by_cases hr0 : remain = 0
    · subst hr0
      simp only [decide_True, Bool.true_or, if_true]
      refine ⟨s, rfl, he, ?_⟩
      have hdrop : src.bf_data.drop spos = [] := by
        apply List.drop_eq_nil_of_le
        omega
      rw [hdrop, List.append_nil, Nat.add_zero, ← hpos]
      exact (set_same _ _ _ hd).symm
    · have hlt : dst.bf_size < dst.bf_length := by omega
      have hcond : (decide (remain = 0) || !decide (dst.bf_size < dst.bf_length)) = false := by
        simp [hr0, hlt]
      rw [hcond]
      simp only [Bool.false_eq_true, if_false, hso, Bool.not_true]
      simp only [fileop_nil s he, ne_eq, not_true_eq_false, if_false]
      -- the chunk
      generalize hn1 : (if remain < nio then remain else nio) = n1
      have hn1le : n1 ≤ remain := by rw [← hn1]; split <;> omega
      have hn1pos : 1 ≤ n1 := by rw [← hn1]; split <;> omega
      have hgot : (List.take n1 (List.drop spos src.bf_data)).length = n1 := by
        rw [List.length_take, List.length_drop]
        exact Nat.min_eq_left (by omega)
      rw [hgot, Nat.sub_self, List.replicate_zero, List.append_nil]
      rw [add64_of_lt pos n1 (by omega), sub64_of_le remain n1 hn1le (by omega)]
      -- the state after the chunk
      have hw := fwrite_chain s i pos (List.take n1 (List.drop spos src.bf_data)) dst hd
      rw [← hdl, writeAt_end] at hw
      have hdw : (s.fwrite i dst.bf_data.length (List.take n1 (List.drop spos src.bf_data))).chain[i]? =
          some { dst with bf_data := dst.bf_data ++ List.take n1 (List.drop spos src.bf_data) } := by
        rw [hw]
        have hi : i < s.chain.length := by
          rcases Nat.lt_or_ge i s.chain.length with h1 | h1
          · exact h1
          · rw [List.getElem?_eq_none h1] at hd; cases hd
        exact List.getElem?_set_self hi
      have hg := grow_chain _ i (pos + n1) _ (by rw [hdl] at hdw; exact hdw)
      have hlt2 : dst.bf_size < pos + n1 := by omega
      simp only [hlt2, if_true] at hg
      rw [← hdl] at hg ⊢
      rw [hw, List.set_set] at hg
      have hd2 : ((s.fwrite i dst.bf_data.length (List.take n1 (List.drop spos src.bf_data))).grow i
          (dst.bf_data.length + n1)).chain[i]? =
          some { dst with bf_size := dst.bf_data.length + n1,
                          bf_data := dst.bf_data ++ List.take n1 (List.drop spos src.bf_data) } := by
        rw [hg]
        have hi : i < s.chain.length := by
          rcases Nat.lt_or_ge i s.chain.length with h1 | h1
          · exact h1
          · rw [List.getElem?_eq_none h1] at hd; cases hd
        exact List.getElem?_set_self hi
      have hs2 : ((s.fwrite i dst.bf_data.length (List.take n1 (List.drop spos src.bf_data))).grow i
          (dst.bf_data.length + n1)).chain[j]? = some src := by
        rw [hg, List.getElem?_set_ne hij]
        exact hs
      have he2 : ((s.fwrite i dst.bf_data.length (List.take n1 (List.drop spos src.bf_data))).grow i
          (dst.bf_data.length + n1)).env = [] := by
        rw [grow_env, fwrite_env, he]
      obtain ⟨s2, h1, h2, h3⟩ := ih _ (remain - n1) n1 (spos + n1) (dst.bf_data.length + n1) _
        he2 hd2 hs2 (by omega) hn1pos rfl (by simp only [List.length_append, hgot])
        (by omega) (by simp only; omega)
        (by simpa using hlen)
      refine ⟨s2, h1, h2, ?_⟩
      rw [h3, hg, List.set_set]
      have e1 : dst.bf_data.length + n1 + (remain - n1) = dst.bf_data.length + remain := by omega
      have e2 : (dst.bf_data ++ List.take n1 (List.drop spos src.bf_data)) ++
            List.drop (spos + n1) src.bf_data = dst.bf_data ++ List.drop spos src.bf_data := by
        rw [List.append_assoc]
        congr 1
        have : List.drop (spos + n1) src.bf_data = List.drop n1 (List.drop spos src.bf_data) := by
          rw [List.drop_drop]
        rw [this, List.take_append_drop]
      simp only [e1, e2]

theorem cores_set (l : List BTFILE) (i : Nat) (p : BTFILE) :
    cores (l.set i p) = (cores l).set i p.core := by
  simp [cores, List.map_set]

theorem stageGone_chain (s : btFiles) (f : String) : (s.stageGone f).chain = s.chain := by
  unfold btFiles.stageGone
  split
  · split <;> rfl
  · rfl

theorem stageGone_env (s : btFiles) (f : String) : (s.stageGone f).env = s.env := by
  unfold btFiles.stageGone
  split
  · split <;> rfl
  · rfl

theorem delsrc_cores (s : btFiles) (i : Nat) :
    cores (s.delsrc i).chain = (cores s.chain).eraseIdx (i + 1) := by
  unfold btFiles.delsrc
  have hc := close_cores s (i + 1)
  cases hsrc : (s._btf_close (i + 1)).chain[i + 1]? with
  | none =>
    simp only
    rw [hc]
    have : (cores (s._btf_close (i + 1)).chain)[i + 1]? = none := by
      rw [cores_getElem?, hsrc]; rfl
    rw [hc] at this
    rw [List.eraseIdx_eq_self.2]
    exact List.getElem?_eq_none_iff.1 this
  | some src =>
    simp only
    rw [stageGone_chain, ← hc]
    exact map_eraseIdx _ _ _

theorem delsrc_env (s : btFiles) (i : Nat) : (s.delsrc i).env = s.env := by
  unfold btFiles.delsrc
  split
  · exact close_env _ _
  · rw [stageGone_env]
    exact close_env _ _

theorem mergeFinish_cores (s : btFiles) (i : Nat) (h : i < s.chain.length) :
    cores (s.mergeFinish i).chain = (cores s.chain).eraseIdx (i + 1) := by
  unfold btFiles.mergeFinish
  rw [List.getElem?_eq_getElem h]
  simp only
  rw [delsrc_cores]
  split
  · rw [close_cores]
  · rfl

theorem mergeFinish_env (s : btFiles) (i : Nat) : (s.mergeFinish i).env = s.env := by
  unfold btFiles.mergeFinish
  split
  · rfl
  · rw [delsrc_env]
    split
    · exact close_env _ _
    · rfl

theorem lt_length_of_getElem? {α : Type} {l : List α} {i : Nat} {a : α} (h : l[i]? = some a) :
    i < l.length := by
  rcases Nat.lt_or_ge i l.length with h1 | h1
  · exact h1
  · rw [List.getElem?_eq_none h1] at h; cases h

theorem getElem?_of_cores {l l2 : List BTFILE} (h : cores l2 = cores l) (i : Nat) (p : BTFILE)
    (hp : l[i]? = some p) : ∃ q, l2[i]? = some q ∧ q.core = p.core := by
  have h1 : (cores l2)[i]? = (cores l)[i]? := by rw [h]
  rw [cores_getElem?, cores_getElem?, hp] at h1
  cases hq : l2[i]? with
  | none => rw [hq] at h1; cases h1
  | some q =>
    rw [hq] at h1
    simp only [Option.map_some', Option.some.injEq] at h1
    exact ⟨q, rfl, h1⟩

theorem mergeOpenSrc_ok (s : btFiles) (j : Nat) (h : CacheInv s) (he : s.env = [])
    (hj : j < s.chain.length) :
    (s.mergeOpenSrc j).1 = 0 ∧ (s.mergeOpenSrc j).2.env = [] ∧
    cores (s.mergeOpenSrc j).2.chain = cores s.chain := by
  unfold btFiles.mergeOpenSrc
  rw [List.getElem?_eq_getElem hj]
  simp only
  split
  · exact open_ok s j false h he hj (by intro h; cases h)
  · exact ⟨rfl, he, rfl⟩

theorem mergeOpenDst_ok (s : btFiles) (i : Nat) (h : CacheInv s) (he : s.env = [])
    (hi : i < s.chain.length)
    (hd : ∀ p, s.chain[i]? = some p → p.bf_size = 0 → p.bf_data = []) :
    (s.mergeOpenDst i).1 = 0 ∧ (s.mergeOpenDst i).2.env = [] ∧
    cores (s.mergeOpenDst i).2.chain = cores s.chain := by
  unfold btFiles.mergeOpenDst
  rw [List.getElem?_eq_getElem hi]
  simp only
  split
  · exact open_ok s i true h he hi (fun _ => hd)
  · exact ⟨rfl, he, rfl⟩

theorem mergeCopy_ok (s : btFiles) (i remain spos : Nat) (dst src : BTFILE)
    (he : s.env = []) (hd : s.chain[i]? = some dst) (hs : s.chain[i + 1]? = some src)
    (hso : src.bf_flag_opened = true) (hdl : dst.bf_data.length = dst.bf_size)
    (hrem : spos + remain = src.bf_data.length)
    (hroom : dst.bf_size + remain ≤ dst.bf_length) (hlen : dst.bf_length < U64) :
    ∃ s2, s.mergeCopy i remain spos = Res.ret (0, s2) ∧ s2.env = [] ∧
      cores s2.chain = ((cores s.chain).set i
        ({ dst with bf_size := dst.bf_size + remain,
                    bf_data := dst.bf_data ++ src.bf_data.drop spos } : BTFILE).core).eraseIdx (i + 1) := by
  unfold btFiles.mergeCopy
  rw [hd]
  simp only [fileop_nil s he, ne_eq, not_true_eq_false, if_false]
  obtain ⟨s6, h1, h2, h3⟩ := copyLoop_ok i (i + 1) (remain + 1) s remain OPT_IO_SIZE spos dst.bf_size
    dst src he hd hs (by omega) hso (Nat.lt_succ_self _) (by unfold OPT_IO_SIZE; decide) rfl hdl hrem
    hroom hlen
  rw [h1]
  simp only
  have hlen6 : i < s6.chain.length := by
    rw [h3, List.length_set]
    exact lt_length_of_getElem? hd
  refine ⟨_, rfl, ?_, ?_⟩
  · rw [mergeFinish_env, h2]
  · rw [mergeFinish_cores _ _ hlen6, h3, cores_set]

theorem close_other (s : btFiles) (i j : Nat) (h : j ≠ i) :
    (s._btf_close i).chain[j]? = s.chain[j]? := by
  unfold btFiles._btf_close
  split
  · rfl
  · split
    · rfl
    · exact List.getElem?_set_ne (Ne.symm h)

theorem stamp_other (s : btFiles) (i j t : Nat) (h : j ≠ i) :
    (s.stamp i t).chain[j]? = s.chain[j]? := by
  unfold btFiles.stamp
  split
  · rfl
  · exact List.getElem?_set_ne (Ne.symm h)

theorem markOpen_other (s : btFiles) (i j : Nat) (a b : Bool) (h : j ≠ i) :
    (s.markOpen i a b).2.chain[j]? = s.chain[j]? := by
  unfold btFiles.markOpen
  split
  · rfl
  · exact List.getElem?_set_ne (Ne.symm h)

theorem stamp_opened_at (s : btFiles) (i j t : Nat) (q : BTFILE) (h : s.chain[j]? = some q) :
    ∃ q2, (s.stamp i t).chain[j]? = some q2 ∧ q2.bf_flag_opened = q.bf_flag_opened := by
  by_cases hij : j = i
  · subst hij
    unfold btFiles.stamp
    rw [h]
    exact ⟨_, List.getElem?_set_self (lt_length_of_getElem? h), rfl⟩
  · exact ⟨q, by rw [stamp_other _ _ _ _ hij]; exact h, rfl⟩

/-- A chain with a node that is not open has fewer open nodes than nodes. -/
theorem countOpen_lt_length (l : List BTFILE) (i : Nat) (p : BTFILE) (h : l[i]? = some p)
    (hc : p.bf_flag_opened = false) : countOpen l < l.length := by
  induction l generalizing i with
  | nil => simp at h
  | cons a l ih =>
    rw [countOpen_cons]
    cases i with
    | zero =>
      simp only [List.getElem?_cons_zero, Option.some.injEq] at h
      subst h
      rw [hc]
      simp only [Bool.false_eq_true, if_false, List.length_cons, Nat.add_zero]
      have : countOpen l ≤ l.length := List.countP_le_length _
      omega
    | succ i =>
      rw [List.getElem?_cons_succ] at h
      have := ih i h
      simp only [List.length_cons]
      split <;> omega

/-- In a chain of at most `MAX_OPEN_FILES` nodes `_btf_open` closes no file
to make room: the count of open files is below the limit whenever the node to
open is not open. -/
theorem openEvict_room (s : btFiles) (i : Nat) (p0 : BTFILE) (hp0 : s.chain[i]? = some p0)
    (h : CacheInv s) (hG : s.chain.length ≤ MAX_OPEN_FILES) :
    s.openEvict i p0.bf_flag_opened =
      (0, if p0.bf_flag_opened then s._btf_close i else s) := by
  have h1 : CacheInv (if p0.bf_flag_opened then s._btf_close i else s) ∧
      ClosedAt (if p0.bf_flag_opened then s._btf_close i else s) i ∧
      (if p0.bf_flag_opened then s._btf_close i else s).chain.length = s.chain.length := by
    cases ho : p0.bf_flag_opened with
    | true =>
      simp only [if_true]
      refine ⟨(close_spec s i h).1, (close_spec s i h).2.1, ?_⟩
      rw [close_of_open s i p0 hp0 ho]
      simp
    | false =>
      simp only [Bool.false_eq_true, if_false]
      refine ⟨h, ?_, trivial⟩
      intro q hq
      rw [hp0] at hq
      cases hq
      exact ho
  unfold btFiles.openEvict
  generalize (if p0.bf_flag_opened then s._btf_close i else s) = s1 at h1 ⊢
  obtain ⟨h1i, h1c, h1l⟩ := h1
  have hi : i < s1.chain.length := by rw [h1l]; exact lt_length_of_getElem? hp0
  have hlt := countOpen_lt_length s1.chain i s1.chain[i] (List.getElem?_eq_getElem hi)
    (h1c _ (List.getElem?_eq_getElem hi))
  have hnot : ¬ MAX_OPEN_FILES ≤ s1.m_total_opened := by
    rw [h1i.2.1]
    omega
  simp only [hnot, decide_False, Bool.and_false, Bool.false_eq_true, if_false]

/-- With every library call succeeding, in a chain of at most `MAX_OPEN_FILES`
nodes, `_btf_open` of the node at index `i` leaves every other node as it
is. -/
theorem open_other (s : btFiles) (i j : Nat) (iotype : Bool) (hij : j ≠ i) (h : CacheInv s)
    (he : s.env = []) (hG : s.chain.length ≤ MAX_OPEN_FILES) :
    (s._btf_open i iotype).2.chain[j]? = s.chain[j]? := by
  unfold btFiles._btf_open
  cases hp0 : s.chain[i]? with
  | none => rfl
  | some p0 =>
    simp only
    split
    · rfl
    · rw [openEvict_room s i p0 hp0 h hG]
      have hs1 : (if p0.bf_flag_opened then s._btf_close i else s).chain[j]? = s.chain[j]? ∧
          (if p0.bf_flag_opened then s._btf_close i else s).env = [] := by
        split
        · exact ⟨close_other _ _ _ hij, by rw [close_env, he]⟩
        · exact ⟨rfl, he⟩
      generalize (if p0.bf_flag_opened then s._btf_close i else s) = s1 at hs1
      simp only [Int.lt_irrefl, if_false, fileop_nil s1 hs1.2, ne_eq, not_true_eq_false]
      unfold btFiles.openFile
      rw [fileop_nil _ (by rw [stamp_env, hs1.2])]
      simp only
      rw [markOpen_other _ _ _ _ _ hij, stamp_other _ _ _ _ hij, hs1.1]

/-- With every library call succeeding and the cache invariant, the node is
open after `_btf_open`. -/
theorem open_opened (s : btFiles) (i : Nat) (iotype : Bool) (h : CacheInv s) (he : s.env = [])
    (hi : i < s.chain.length) :
    ∃ q, (s._btf_open i iotype).2.chain[i]? = some q ∧ q.bf_flag_opened = true := by
  unfold btFiles._btf_open
  have hp0 : s.chain[i]? = some s.chain[i] := List.getElem?_eq_getElem hi
  rw [hp0]
  simp only
  generalize s.chain[i] = p0 at hp0
  split
  · rename_i hc
    simp only [Bool.and_eq_true] at hc
    exact ⟨p0, hp0, hc.1⟩
  · have hev := openEvict_ok s i p0 hp0 h
    have hee : (s.openEvict i p0.bf_flag_opened).2.env = [] := by rw [openEvict_env, he]
    have hec := openEvict_cores s i p0.bf_flag_opened
    generalize s.openEvict i p0.bf_flag_opened = r2 at hev hee hec
    rw [if_neg (by omega)]
    rw [fileop_nil _ hee]
    simp only [ne_eq, not_true_eq_false, if_false]
    have h4e : (r2.2.stamp i (r2.2.now + 1)).env = [] := by rw [stamp_env, hee]
    have h4c : cores (r2.2.stamp i (r2.2.now + 1)).chain = cores s.chain := by
      rw [stamp_cores, hec]
    generalize r2.2.stamp i (r2.2.now + 1) = s4 at h4e h4c
    unfold btFiles.openFile
    rw [fileop_nil _ h4e]
    simp only
    have hlen := length_of_cores h4c
    have hq : s4.chain[i]? = some s4.chain[i] := List.getElem?_eq_getElem (by omega)
    unfold btFiles.markOpen
    rw [hq]
    exact ⟨_, List.getElem?_set_self (by omega), rfl⟩

theorem mergeOpenSrc_opened (s : btFiles) (j : Nat) (h : CacheInv s) (he : s.env = [])
    (hj : j < s.chain.length) :
    ∃ q, (s.mergeOpenSrc j).2.chain[j]? = some q ∧ q.bf_flag_opened = true := by
  unfold btFiles.mergeOpenSrc
  rw [List.getElem?_eq_getElem hj]
  simp only
  split
  · exact open_opened s j false h he hj
  · rename_i hc
    refine ⟨s.chain[j], List.getElem?_eq_getElem hj, ?_⟩
    simpa using hc

theorem mergeOpenDst_other (s : btFiles) (i j : Nat) (hij : j ≠ i) (h : CacheInv s)
    (he : s.env = []) (hG : s.chain.length ≤ MAX_OPEN_FILES) :
    (s.mergeOpenDst i).2.chain[j]? = s.chain[j]? := by
  unfold btFiles.mergeOpenDst
  split
  · rfl
  · split
    · exact open_other s i j true hij h he hG
    · rfl

/-- The copy loop of `MergeStaging` with bytes to copy, room in the
destination and a source that is not open: `fread` reads through the null
`bf_fp`. -/
theorem copyLoop_closed (i j fuel : Nat) (s : btFiles) (remain nio spos pos : Nat)
    (dst src : BTFILE) (hd : s.chain[i]? = some dst) (hs : s.chain[j]? = some src)
    (hso : src.bf_flag_opened = false) (hrem : remain ≠ 0)
    (hroom : dst.bf_size < dst.bf_length) :
    btFiles.copyLoop i j (fuel + 1) s remain nio spos pos = Res.undef := by
  unfold btFiles.copyLoop
  rw [hd, hs]
  simp [hrem, hroom, hso]

theorem mergeCopy_closed (s : btFiles) (i remain spos : Nat) (dst src : BTFILE)
    (he : s.env = []) (hd : s.chain[i]? = some dst) (hs : s.chain[i + 1]? = some src)
    (hso : src.bf_flag_opened = false) (hrem : remain ≠ 0)
    (hroom : dst.bf_size < dst.bf_length) :
    s.mergeCopy i remain spos = Res.undef := by
  unfold btFiles.mergeCopy
  rw [hd]
  simp only [fileop_nil s he, ne_eq, not_true_eq_false, if_false]
  rw [copyLoop_closed i (i + 1) remain s remain OPT_IO_SIZE spos dst.bf_size dst src hd hs hso
    hrem hroom]

/-- With every library call succeeding, `MergeStaging` on a real file `R` at
index `i` whose bytes reach the staging file `S` behind it, `S` ending inside
`R`: either the call returns 0, `S` is unlinked, `R` becomes `mergedNode R S`
and nothing else of the chain changes but the fields of the open-file cache;
or the open of `R` has closed `S` as the oldest open file and the copy reads
through the null `bf_fp` of `S`.  In a chain of at most `MAX_OPEN_FILES` nodes
no file is closed to make room and the call returns. -/
theorem MergeStaging_cases (s : btFiles) (i : Nat) (R S : BTFILE)
    (hinv : CacheInv s) (he : s.env = [])
    (hR : s.chain[i]? = some R) (hS : s.chain[i + 1]? = some S)
    (hreach : S.bf_offset ≤ R.bf_offset + R.bf_size)
    (hinside : S.bf_offset + S.bf_size ≤ R.bf_offset + R.bf_length)
    (hsize : R.bf_size ≤ R.bf_length)
    (hfit : R.bf_offset + R.bf_length < U64)
    (hRd : R.bf_data.length = R.bf_size) (hSd : S.bf_data.length = S.bf_size) :
    ((∃ s2, s.MergeStaging i = Res.ret (0, s2) ∧ s2.env = [] ∧
        cores s2.chain = ((cores s.chain).set i (mergedNode R S).core).eraseIdx (i + 1)) ∨
      s.MergeStaging i = Res.undef) ∧
    (s.chain.length ≤ MAX_OPEN_FILES →
      ∃ s2, s.MergeStaging i = Res.ret (0, s2) ∧ s2.env = [] ∧
        cores s2.chain = ((cores s.chain).set i (mergedNode R S).core).eraseIdx (i + 1)) := by
  have hi : i < s.chain.length := lt_length_of_getElem? hR
  have hj : i + 1 < s.chain.length := lt_length_of_getElem? hS
  unfold btFiles.MergeStaging
  rw [hR, hS]
  simp only
  rw [add64_of_lt _ _ (by omega), add64_of_lt _ _ (by omega)]
  by_cases hcov : S.bf_offset + S.bf_size ≤ R.bf_offset + R.bf_size
  · -- the range of the staging file is already present
    rw [if_pos hcov]
    have hA : ∃ s2, Res.ret ((0 : Int), s.delsrc i) = Res.ret (0, s2) ∧ s2.env = [] ∧
        cores s2.chain = ((cores s.chain).set i (mergedNode R S).core).eraseIdx (i + 1) := by
      refine ⟨_, rfl, ?_, ?_⟩
      · rw [delsrc_env, he]
      · rw [delsrc_cores]
        have hm : mergedNode R S = R := by
          unfold mergedNode
          have h1 : max R.bf_size (S.bf_offset + S.bf_size - R.bf_offset) = R.bf_size := by
            apply Nat.max_eq_left
            omega
          have h2 : S.bf_data.drop (R.bf_offset + R.bf_size - S.bf_offset) = [] := by
            apply List.drop_eq_nil_of_le
            omega
          rw [h1, h2, List.append_nil]
        rw [hm]
        have : (cores s.chain).set i R.core = cores s.chain := by
          apply set_same
          rw [cores_getElem?, hR]
          rfl
        rw [this]
    exact ⟨Or.inl hA, fun _ => hA⟩
  · rw [if_neg hcov]
    -- the source is opened
    obtain ⟨h1r, h1e, h1c⟩ := mergeOpenSrc_ok s (i + 1) hinv he hj
    have h1i := mergeOpenSrc_inv s (i + 1) hinv
    have h1o := mergeOpenSrc_opened s (i + 1) hinv he hj
    generalize s.mergeOpenSrc (i + 1) = r1 at h1r h1e h1c h1i h1o
    rw [if_neg (by omega)]
    simp only [fileop_nil _ h1e, ne_eq, not_true_eq_false, if_false]
    -- the time stamp of the source
    have h3e : (r1.2.stamp (i + 1) (s.now + 1)).env = [] := by rw [stamp_env, h1e]
    have h3c : cores (r1.2.stamp (i + 1) (s.now + 1)).chain = cores s.chain := by
      rw [stamp_cores, h1c]
    have h3i := stamp_inv r1.2 (i + 1) (s.now + 1) h1i
    have h3o : ∃ q, (r1.2.stamp (i + 1) (s.now + 1)).chain[i + 1]? = some q ∧
        q.bf_flag_opened = true := by
      obtain ⟨q, hq, hqo⟩ := h1o
      obtain ⟨q2, hq2, hq2o⟩ := stamp_opened_at r1.2 (i + 1) (i + 1) (s.now + 1) q hq
      exact ⟨q2, hq2, by rw [hq2o, hqo]⟩
    generalize r1.2.stamp (i + 1) (s.now + 1) = s3 at h3e h3c h3i h3o
    -- the destination is opened
    obtain ⟨d3, hd3, hd3c⟩ := getElem?_of_cores h3c i R hR
    have hlen3 := length_of_cores h3c
    obtain ⟨h4r, h4e, h4c⟩ := mergeOpenDst_ok s3 i h3i h3e (by omega) (by
      intro p hp hz
      rw [hd3] at hp
      cases hp
      have := core_fields hd3c
      have hl : d3.bf_data.length = 0 := by rw [this.1, hRd, ← this.2.1, hz]
      exact List.length_eq_zero.1 hl)
    have h4o : s.chain.length ≤ MAX_OPEN_FILES →
        ∃ q, (s3.mergeOpenDst i).2.chain[i + 1]? = some q ∧ q.bf_flag_opened = true := by
      intro hG
      rw [mergeOpenDst_other s3 i (i + 1) (by omega) h3i h3e (by omega)]
      exact h3o
    generalize s3.mergeOpenDst i = r4 at h4r h4e h4c h4o
    rw [if_neg (by omega)]
    have h4c2 : cores r4.2.chain = cores s.chain := by rw [h4c, h3c]
    obtain ⟨d4, hd4, hd4c⟩ := getElem?_of_cores h4c2 i R hR
    obtain ⟨src4, hs4, hs4c⟩ := getElem?_of_cores h4c2 (i + 1) S hS
    have fd := core_fields hd4c
    have fs := core_fields hs4c
    have hpos : sub64 (R.bf_offset + R.bf_size) S.bf_offset = R.bf_offset + R.bf_size - S.bf_offset :=
      sub64_of_le _ _ hreach (by omega)
    rw [hpos]
    have hrem : sub64 S.bf_size (R.bf_offset + R.bf_size - S.bf_offset) =
        S.bf_size - (R.bf_offset + R.bf_size - S.bf_offset) :=
      sub64_of_le _ _ (by omega) (by omega)
    rw [hrem]
    -- the copy, with the source open
    have hA : src4.bf_flag_opened = true →
        ∃ s2, r4.2.mergeCopy i (S.bf_size - (R.bf_offset + R.bf_size - S.bf_offset))
            (R.bf_offset + R.bf_size - S.bf_offset) = Res.ret (0, s2) ∧ s2.env = [] ∧
          cores s2.chain = ((cores s.chain).set i (mergedNode R S).core).eraseIdx (i + 1) := by
      intro hso
      obtain ⟨s2, h5, h5e, h5c⟩ := mergeCopy_ok r4.2 i
        (S.bf_size - (R.bf_offset + R.bf_size - S.bf_offset))
        (R.bf_offset + R.bf_size - S.bf_offset) d4 src4 h4e hd4 hs4 hso
        (by rw [fd.1, fd.2.1]; exact hRd)
        (by rw [fs.1, hSd]; omega)
        (by rw [fd.2.1, fd.2.2.2.1]; omega)
        (by rw [fd.2.2.2.1]; omega)
      refine ⟨s2, h5, h5e, ?_⟩
      rw [h5c, h4c2]
      congr 2
      unfold mergedNode BTFILE.core
      have hmax : max R.bf_size (S.bf_offset + S.bf_size - R.bf_offset) =
          d4.bf_size + (S.bf_size - (R.bf_offset + R.bf_size - S.bf_offset)) := by
        rw [fd.2.1]
        rw [Nat.max_eq_right (by omega)]
        omega
      simp only [hmax, fd.1, fs.1, fd.2.2.1, fd.2.2.2.1, fd.2.2.2.2.1, fd.2.2.2.2.2]
      have := congrArg BTFILE.bf_npieces hd4c
      simp only [BTFILE.core] at this
      rw [this]
    constructor
    · cases hso : src4.bf_flag_opened with
      | true => exact Or.inl (hA hso)
      | false =>
        exact Or.inr (mergeCopy_closed r4.2 i _ _ d4 src4 h4e hd4 hs4 hso (by omega)
          (by rw [fd.2.1, fd.2.2.2.1]; omega))
    · intro hG
      obtain ⟨q, hq, hqo⟩ := h4o hG
      rw [hs4] at hq
      cases hq
      exact hA hqo

/-- With every library call succeeding, `MergeStaging` on a real file `R` at
index `i` whose bytes reach the staging file `S` behind it, `S` ending inside
`R`, in a chain of at most `MAX_OPEN_FILES` nodes, returns 0; `S` is unlinked,
`R` becomes `mergedNode R S` and nothing else of the chain changes but the
fields of the open-file cache. -/
theorem MergeStaging_ok (s : btFiles) (i : Nat) (R S : BTFILE)
    (hinv : CacheInv s) (he : s.env = []) (hG : s.chain.length ≤ MAX_OPEN_FILES)
    (hR : s.chain[i]? = some R) (hS : s.chain[i + 1]? = some S)
    (hreach : S.bf_offset ≤ R.bf_offset + R.bf_size)
    (hinside : S.bf_offset + S.bf_size ≤ R.bf_offset + R.bf_length)
    (hsize : R.bf_size ≤ R.bf_length)
    (hfit : R.bf_offset + R.bf_length < U64)
    (hRd : R.bf_data.length = R.bf_size) (hSd : S.bf_data.length = S.bf_size) :
    ∃ s2, s.MergeStaging i = Res.ret (0, s2) ∧ s2.env = [] ∧
      cores s2.chain = ((cores s.chain).set i (mergedNode R S).core).eraseIdx (i + 1) :=
  (MergeStaging_cases s i R S hinv he hR hS hreach hinside hsize hfit hRd hSd).2 hG

theorem markOpen_ret (s : btFiles) (i : Nat) (iotype trunc : Bool) (hi : i < s.chain.length) :
    (s.markOpen i iotype trunc).1 = 0 := by
  unfold btFiles.markOpen
  rw [List.getElem?_eq_getElem hi]

/-- With every library call succeeding and the cache invariant, `_btf_open`
returns 0. -/
theorem open_ret (s : btFiles) (i : Nat) (iotype : Bool) (h : CacheInv s) (he : s.env = [])
    (hi : i < s.chain.length) :
    (s._btf_open i iotype).1 = 0 ∧ (s._btf_open i iotype).2.env = [] := by
  unfold btFiles._btf_open
  have hp0 : s.chain[i]? = some s.chain[i] := List.getElem?_eq_getElem hi
  rw [hp0]
  simp only
  generalize s.chain[i] = p0 at hp0
  split
  · exact ⟨rfl, he⟩
  · have hev := openEvict_ok s i p0 hp0 h
    have hee : (s.openEvict i p0.bf_flag_opened).2.env = [] := by rw [openEvict_env, he]
    have hec := openEvict_cores s i p0.bf_flag_opened
    generalize s.openEvict i p0.bf_flag_opened = r2 at hev hee hec
    rw [if_neg (by omega)]
    rw [fileop_nil _ hee]
    simp only [ne_eq, not_true_eq_false, if_false]
    have h4e : (r2.2.stamp i (r2.2.now + 1)).env = [] := by rw [stamp_env, hee]
    have h4c : cores (r2.2.stamp i (r2.2.now + 1)).chain = cores s.chain := by
      rw [stamp_cores, hec]
    generalize r2.2.stamp i (r2.2.now + 1) = s4 at h4e h4c
    unfold btFiles.openFile
    rw [fileop_nil _ h4e]
    simp only
    have hlen := length_of_cores h4c
    exact ⟨markOpen_ret _ _ _ _ (by omega), by rw [markOpen_env, h4e]⟩

theorem copyLoop_total (i j fuel : Nat) (s : btFiles) (remain nio spos pos : Nat)
    (he : s.env = []) (hi : i < s.chain.length) (hij : j ≠ i)
    (hso : ∃ src, s.chain[j]? = some src ∧ src.bf_flag_opened = true)
    (hf : remain < fuel) (hn : 1 ≤ nio) (hr : remain < U64) :
    ∃ s2, btFiles.copyLoop i j fuel s remain nio spos pos = Res.ret (true, s2) ∧ s2.env = [] := by
  induction fuel generalizing s remain nio spos pos with
  | zero => omega
  | succ fuel ih =>
    obtain ⟨src, hs, hopen⟩ := hso
    unfold btFiles.copyLoop
    rw [List.getElem?_eq_getElem hi, hs]
    simp only
    split
    · exact ⟨s, rfl, he⟩
    · rename_i hc
      have hrem : remain ≠ 0 := by
        intro h0
        apply hc
        simp [h0]
      simp only [hopen, Bool.not_true, Bool.false_eq_true, if_false, fileop_nil s he, ne_eq,
        not_true_eq_false]
      have hle : (if remain < nio then remain else nio) ≤ remain := by split <;> omega
      have hpos : 1 ≤ (if remain < nio then remain else nio) := by split <;> omega
      apply ih
      · rw [grow_env, fwrite_env, he]
      · have h1 := layouts_length (((s.fwrite i pos
            (List.take (if remain < nio then remain else nio) (List.drop spos src.bf_data) ++
              List.replicate ((if remain < nio then remain else nio) -
                (List.take (if remain < nio then remain else nio)
                  (List.drop spos src.bf_data)).length) 0)).grow i
            (add64 pos (if remain < nio then remain else nio))).chain)
        obtain ⟨sz, hsz⟩ := grow_layouts (s.fwrite i pos
            (List.take (if remain < nio then remain else nio) (List.drop spos src.bf_data) ++
              List.replicate ((if remain < nio then remain else nio) -
                (List.take (if remain < nio then remain else nio)
                  (List.drop spos src.bf_data)).length) 0)) i
            (add64 pos (if remain < nio then remain else nio))
        rw [hsz, resizeAt_length, fwrite_layouts, layouts_length] at h1
        omega
      · exact ⟨src, by rw [grow_other _ _ _ _ hij, fwrite_other _ _ _ _ _ hij]; exact hs, hopen⟩
      · rw [sub64_of_le _ _ hle hr]
        omega
      · exact hpos
      · exact sub64_lt _ _

theorem mergeCopy_total (s : btFiles) (i remain spos : Nat) (he : s.env = [])
    (hj : i + 1 < s.chain.length)
    (hso : ∃ src, s.chain[i + 1]? = some src ∧ src.bf_flag_opened = true) (hr : remain < U64) :
    ∃ s2, s.mergeCopy i remain spos = Res.ret (0, s2) ∧ s2.env = [] := by
  unfold btFiles.mergeCopy
  rw [List.getElem?_eq_getElem (by omega : i < s.chain.length)]
  simp only [fileop_nil s he, ne_eq, not_true_eq_false, if_false]
  obtain ⟨s6, h1, h2⟩ := copyLoop_total i (i + 1) (remain + 1) s remain OPT_IO_SIZE spos
    s.chain[i].bf_size he (by omega) (by omega) hso (Nat.lt_succ_self _)
    (by unfold OPT_IO_SIZE; decide) hr
  rw [h1]
  exact ⟨_, rfl, by rw [mergeFinish_env, h2]⟩

/-- With every library call succeeding and the cache invariant, in a chain of
at most `MAX_OPEN_FILES` nodes, `MergeStaging` returns 0 whenever the node at
`i` has a successor. -/
theorem MergeStaging_total (s : btFiles) (i : Nat) (hinv : CacheInv s) (he : s.env = [])
    (hG : s.chain.length ≤ MAX_OPEN_FILES) (hj : i + 1 < s.chain.length) :
    ∃ s2, s.MergeStaging i = Res.ret (0, s2) ∧ s2.env = [] := by
  unfold btFiles.MergeStaging
  rw [List.getElem?_eq_getElem (by omega : i < s.chain.length), List.getElem?_eq_getElem hj]
  simp only
  split
  · exact ⟨_, rfl, by rw [delsrc_env, he]⟩
  · have hsrc : (s.mergeOpenSrc (i + 1)).1 = 0 ∧ (s.mergeOpenSrc (i + 1)).2.env = [] := by
      unfold btFiles.mergeOpenSrc
      rw [List.getElem?_eq_getElem hj]
      simp only
      split
      · exact open_ret s (i + 1) false hinv he hj
      · exact ⟨rfl, he⟩
    have hsi := mergeOpenSrc_inv s (i + 1) hinv
    have hsl := layouts_length (s.mergeOpenSrc (i + 1)).2.chain
    rw [mergeOpenSrc_layouts, layouts_length] at hsl
    have h1o := mergeOpenSrc_opened s (i + 1) hinv he hj
    generalize s.mergeOpenSrc (i + 1) = r1 at hsrc hsi hsl h1o
    rw [if_neg (by omega)]
    simp only [fileop_nil _ hsrc.2, ne_eq, not_true_eq_false, if_false]
    have h3e : (r1.2.stamp (i + 1) (s.now + 1)).env = [] := by rw [stamp_env, hsrc.2]
    have h3i := stamp_inv r1.2 (i + 1) (s.now + 1) hsi
    have h3l := length_of_cores (stamp_cores r1.2 (i + 1) (s.now + 1))
    have h3o : ∃ q, (r1.2.stamp (i + 1) (s.now + 1)).chain[i + 1]? = some q ∧
        q.bf_flag_opened = true := by
      obtain ⟨q, hq, hqo⟩ := h1o
      obtain ⟨q2, hq2, hq2o⟩ := stamp_opened_at r1.2 (i + 1) (i + 1) (s.now + 1) q hq
      exact ⟨q2, hq2, by rw [hq2o, hqo]⟩
    generalize r1.2.stamp (i + 1) (s.now + 1) = s3 at h3e h3i h3l h3o
    have hdst : (s3.mergeOpenDst i).1 = 0 ∧ (s3.mergeOpenDst i).2.env = [] := by
      unfold btFiles.mergeOpenDst
      rw [List.getElem?_eq_getElem (by omega : i < s3.chain.length)]
      simp only
      split
      · exact open_ret s3 i true h3i h3e (by omega)
      · exact ⟨rfl, h3e⟩
    have hdl := layouts_length (s3.mergeOpenDst i).2.chain
    rw [mergeOpenDst_layouts, layouts_length] at hdl
    have h4o : ∃ q, (s3.mergeOpenDst i).2.chain[i + 1]? = some q ∧ q.bf_flag_opened = true := by
      rw [mergeOpenDst_other s3 i (i + 1) (by omega) h3i h3e (by omega)]
      exact h3o
    generalize s3.mergeOpenDst i = r4 at hdst hdl h4o
    rw [if_neg (by omega)]
    exact mergeCopy_total _ _ _ _ hdst.2 (by omega) h4o (sub64_lt _ _)

theorem scan_completes (ds : Bool) (fuel : Nat) (s : btFiles) (cur : Option Nat) (merged : Bool)
    (hinv : CacheInv s) (he : s.env = []) (hG : s.chain.length ≤ MAX_OPEN_FILES)
    (hfuel : 1 ≤ fuel ∧ ∀ i, cur = some i → 2 * s.chain.length + 1 ≤ fuel + i ∧ i < s.chain.length) :
    ∃ m s2, btFiles.FindAndMergeScan true ds fuel s cur merged = Res.ret (m, true, s2) := by
  induction fuel generalizing s cur merged with
  | zero => omega
  | succ fuel ih =>
    cases cur with
    | none => exact ⟨_, _, rfl⟩
    | some i =>
      obtain ⟨hf, hilt⟩ := hfuel.2 i rfl
      unfold btFiles.FindAndMergeScan
      split
      · rename_i hmg
        have hj : i + 1 < s.chain.length := by
          unfold mergeableAt at hmg
          cases h2 : s.chain[i + 1]? with
          | none =>
            rw [h2] at hmg
            cases h3 : s.chain[i]? <;> simp [h3] at hmg
          | some n => exact lt_length_of_getElem? h2
        obtain ⟨s1, h1, h1e⟩ := MergeStaging_total s i hinv he hG hj
        have h1i := MergeStaging_inv s i hinv
        rw [h1] at h1i ⊢
        simp only [Int.lt_irrefl, if_false, Bool.not_true, Bool.false_eq_true]
        obtain ⟨_, sz, hsz⟩ := MergeStaging_layouts s i 0 s1 h1 (by decide)
        have hlen1 : s1.chain.length + 1 = s.chain.length := by
          have h2 := congrArg List.length hsz
          rw [layouts_length, List.length_eraseIdx, resizeAt_length, layouts_length] at h2
          simp only [hj, if_true] at h2
          omega
        apply ih s1 (some i) true h1i h1e (by omega)
        refine ⟨by omega, ?_⟩
        intro i2 hi2
        cases hi2
        omega
      · apply ih s _ merged hinv he hG
        refine ⟨by omega, ?_⟩
        intro m hm
        cases ds with
        | true =>
          simp only [if_true, nextnode] at hm
          split at hm
          · cases hm; omega
          · cases hm
        | false =>
          simp only [Bool.false_eq_true, if_false] at hm
          have := nextreal_some _ _ _ hm
          omega

theorem stagingL_layouts (l : List BTFILE) : stagingL (layouts l) = countStaging l := by
  unfold stagingL layouts countStaging
  rw [List.countP_map]
  rfl

theorem not_pair_of_not_mergeableAt (chain : List BTFILE) (i : Nat)
    (h : mergeableAt chain i = false) (hfit : ∀ p ∈ chain, p.bf_offset + p.bf_size < U64) :
    ¬ MergeablePair chain i := by
  rintro ⟨R, S, hR, hS, h1, h2, h3, h4⟩
  unfold mergeableAt at h
  rw [hR, hS] at h
  have hmem : R ∈ chain := List.mem_iff_getElem?.2 ⟨i, hR⟩
  simp only at h
  rw [add64_of_lt _ _ (hfit R hmem)] at h
  simp [h1, h2, h3, h4] at h

theorem FindAndMerge_of_scan (s : btFiles) (fa ds merged fl : Bool) (s2 : btFiles)
    (h : btFiles.FindAndMergeScan fa ds (2 * s.chain.length + 2) s
      (if s.chain.length = 0 then none else some 0) false = Res.ret (merged, fl, s2)) :
    s.FindAndMerge fa ds = Res.ret (if merged then 1 else 0, s2) := by
  unfold btFiles.FindAndMerge
  rw [h]

/-- C5: `FindAndMerge(findall = 1, dostaging)` does not run out of fuel; with
every library call succeeding, the cache invariant and a chain of at most
`MAX_OPEN_FILES` nodes (no open has to close a file to make room) its scan
reaches the statement `m_need_merge = 0`; and whenever the scan reaches that
statement (every call of `MergeStaging` has returned, none of them a negative
value), `FindAndMerge` returns with no real file satisfying the mergeability
predicate (as the code tests it, and as the specification states it when no
sum `offset + size` exceeds 64 bits), with `m_need_merge` cleared, and its
value is 1 exactly when the chain has lost a staging node. -/
theorem C5_find_and_merge_all (s : btFiles) (dostaging : Bool) :
    btFiles.FindAndMergeScan true dostaging (2 * s.chain.length + 2) s
        (if s.chain.length = 0 then none else some 0) false ≠ Res.nofuel ∧
    (CacheInv s → s.env = [] → s.chain.length ≤ MAX_OPEN_FILES → ∃ merged s2,
      btFiles.FindAndMergeScan true dostaging (2 * s.chain.length + 2) s
        (if s.chain.length = 0 then none else some 0) false = Res.ret (merged, true, s2)) ∧
    (∀ merged s2,
      btFiles.FindAndMergeScan true dostaging (2 * s.chain.length + 2) s
        (if s.chain.length = 0 then none else some 0) false = Res.ret (merged, true, s2) →
      s.FindAndMerge true dostaging = Res.ret (if merged then 1 else 0, s2) ∧
      (∀ i, mergeableAt s2.chain i = false) ∧
      (∀ i, (∀ p ∈ s2.chain, p.bf_offset + p.bf_size < U64) → ¬ MergeablePair s2.chain i) ∧
      s2.m_need_merge = false ∧
      (merged = true ↔ countStaging s2.chain < countStaging s.chain)) := by
  have hfuel : 1 ≤ 2 * s.chain.length + 2 ∧
      ∀ i, (if s.chain.length = 0 then none else some 0) = some i →
        2 * s.chain.length + 1 ≤ 2 * s.chain.length + 2 + i := by
    refine ⟨by omega, ?_⟩
    intro i _
    omega
  have hcur : (∀ i, (if s.chain.length = 0 then none else some 0) = some i →
        i < s.chain.length ∧ ∀ j, j < i → mergeableL (layouts s.chain) j = false) ∧
      ((if s.chain.length = 0 then none else some 0) = none →
        ∀ j, mergeableL (layouts s.chain) j = false) := by
    constructor
    · intro i hi
      split at hi
      · cases hi
      · cases hi
        exact ⟨by omega, fun j hj => absurd hj (Nat.not_lt_zero _)⟩
    · intro hn j
      split at hn
      · apply mergeableL_none
        rw [layouts_length]
        omega
      · cases hn
  have hspec := scan_spec dostaging (stagingL (layouts s.chain)) (2 * s.chain.length + 2) s
    (if s.chain.length = 0 then none else some 0) false hfuel hcur
    ⟨by simp, fun _ => rfl⟩
  refine ⟨hspec.1, ?_, ?_⟩
  · intro hinv he hG
    apply scan_completes dostaging _ s _ false hinv he hG
    refine ⟨by omega, ?_⟩
    intro i hi
    split at hi
    · cases hi
    · cases hi
      omega
  · intro merged s2 h
    obtain ⟨h1, h2, h3⟩ := hspec.2 merged s2 h
    refine ⟨FindAndMerge_of_scan s true dostaging merged true s2 h, ?_, ?_, h2, ?_⟩
    · intro i
      rw [mergeableAt_eq]
      exact h1 i
    · intro i hfit
      apply not_pair_of_not_mergeableAt _ _ _ hfit
      rw [mergeableAt_eq]
      exact h1 i
    · rw [← stagingL_layouts, ← stagingL_layouts]
      exact h3

/-- C5 at scenario 2 of the specification: after "WORLD" at offset 5 and
"hello" at offset 0 the cache invariant holds, no library call is going to
fail and the chain has two nodes, so the scan completes; `FindAndMerge(1, 1)`
returns 1 and leaves the real file alone in the chain, holding
"helloWORLD". -/
theorem C5_find_and_merge_all_witness :
    ((helloState.m_flag_automanage = true ∧
        helloState.m_total_opened = countOpen helloState.chain ∧
        helloState.m_total_opened ≤ MAX_OPEN_FILES) ∧ helloState.env = [] ∧
      helloState.chain.length ≤ MAX_OPEN_FILES) ∧
    (∃ merged s2,
      btFiles.FindAndMergeScan true true (2 * helloState.chain.length + 2) helloState
        (if helloState.chain.length = 0 then none else some 0) false =
      Res.ret (merged, true, s2)) ∧
    btFiles.FindAndMergeScan true true (2 * helloState.chain.length + 2) helloState
        (if helloState.chain.length = 0 then none else some 0) false =
      Res.ret (true, true, helloState.fm true true) ∧
    (helloState.FindAndMerge true true = Res.ret (if true then 1 else 0, helloState.fm true true) ∧
      (∀ i, mergeableAt (helloState.fm true true).chain i = false) ∧
      (∀ i, (∀ p ∈ (helloState.fm true true).chain, p.bf_offset + p.bf_size < U64) →
        ¬ MergeablePair (helloState.fm true true).chain i) ∧
      (helloState.fm true true).m_need_merge = false ∧
      (true = true ↔ countStaging (helloState.fm true true).chain < countStaging helloState.chain)) ∧
    (helloState.fm true true).chain.map (fun p => (p.layout, p.bf_data)) =
      [((false, 0, 10, 10), [104, 101, 108, 108, 111, 87, 79, 82, 76, 68])] :=
  ⟨⟨⟨by decide, by decide, by decide⟩, by decide, by decide⟩,
   (C5_find_and_merge_all helloState true).2.1 ⟨by decide, by decide, by decide⟩ (by decide)
     (by decide),
   by decide,
   (C5_find_and_merge_all helloState true).2.2 true (helloState.fm true true) (by decide),
   by decide⟩

/-- For a real file `R` at index `i` directly followed by a staging file
`S` that is mergeable (`R.size < R.length`, `S.offset ≤ R.offset + R.size`)
and ends inside `R`, with every library call succeeding, the cache invariant,
a chain of at most `MAX_OPEN_FILES` nodes (no open has to close a file to make
room), and `bf_size` being the size of the file on disk for both,
`MergeStaging(R)` returns 0.  Afterwards the chain is the old one without `S` and with `R`
replaced by `mergedNode R S` (open flags, modes and time stamps aside):
the size is `max(R.size, S.offset + S.size - R.offset) ≤ R.length`, the first
`R.size` bytes are those of `R`, and the bytes behind them are the bytes of
`S` from position `R.offset + R.size - S.offset` on. -/
theorem MergeStaging_merges (s : btFiles) (i : Nat) (R S : BTFILE)
    (hinv : CacheInv s) (he : s.env = []) (hG : s.chain.length ≤ MAX_OPEN_FILES)
    (hR : s.chain[i]? = some R) (hS : s.chain[i + 1]? = some S)
    (hreal : R.bf_flag_staging = false) (hstaging : S.bf_flag_staging = true)
    (hpart : R.bf_size < R.bf_length) (hreach : S.bf_offset ≤ R.bf_offset + R.bf_size)
    (hinside : S.bf_offset + S.bf_size ≤ R.bf_offset + R.bf_length)
    (hfit : R.bf_offset + R.bf_length < U64)
    (hRd : R.bf_data.length = R.bf_size) (hSd : S.bf_data.length = S.bf_size) :
    (∃ s2, s.MergeStaging i = Res.ret (0, s2) ∧
      cores s2.chain = ((cores s.chain).set i (mergedNode R S).core).eraseIdx (i + 1)) ∧
    (mergedNode R S).bf_size = max R.bf_size (S.bf_offset + S.bf_size - R.bf_offset) ∧
    (mergedNode R S).bf_size ≤ R.bf_length ∧
    (mergedNode R S).bf_data.take R.bf_size = R.bf_data ∧
    (mergedNode R S).bf_data.drop R.bf_size =
      S.bf_data.drop (R.bf_offset + R.bf_size - S.bf_offset) ∧
    (mergedNode R S).bf_data.length = (mergedNode R S).bf_size ∧
    (mergedNode R S).layout =
      (false, R.bf_offset, R.bf_length, max R.bf_size (S.bf_offset + S.bf_size - R.bf_offset)) := by
  obtain ⟨s2, h1, _, h3⟩ := MergeStaging_ok s i R S hinv he hG hR hS hreach hinside (by omega) hfit
    hRd hSd
  refine ⟨⟨s2, h1, h3⟩, rfl, ?_, ?_, ?_, ?_, ?_⟩
  · show max R.bf_size (S.bf_offset + S.bf_size - R.bf_offset) ≤ R.bf_length
    apply Nat.max_le.2
    constructor <;> omega
  · show (R.bf_data ++ _).take R.bf_size = R.bf_data
    rw [← hRd, List.take_left]
  · show (R.bf_data ++ _).drop R.bf_size = _
    rw [← hRd, List.drop_left]
  · show (R.bf_data ++ S.bf_data.drop (R.bf_offset + R.bf_size - S.bf_offset)).length =
      max R.bf_size (S.bf_offset + S.bf_size - R.bf_offset)
    rw [List.length_append, List.length_drop, hRd, hSd]
    rcases Nat.le_total (S.bf_offset + S.bf_size - R.bf_offset) R.bf_size with h | h
    · rw [Nat.max_eq_left h]; omega
    · rw [Nat.max_eq_right h]; omega
  · show (R.bf_flag_staging, R.bf_offset, R.bf_length, _) = _
    rw [hreal]
    rfl

/-- The merge at scenario 2 of the specification: `R` holds "hello" of 10 bytes and
`S` at offset 5 holds "WORLD"; `MergeStaging(R)` returns 0, `R` holds
"helloWORLD" and no staging node is left. -/
theorem MergeStaging_merges_hello :
    (CacheInv helloState ∧ helloState.env = [] ∧ helloState.chain.length ≤ MAX_OPEN_FILES ∧
      helloState.chain[0]? = some helloR ∧
      helloState.chain[0 + 1]? = some helloS ∧ helloR.bf_flag_staging = false ∧
      helloS.bf_flag_staging = true ∧ helloR.bf_size < helloR.bf_length ∧
      helloS.bf_offset ≤ helloR.bf_offset + helloR.bf_size ∧
      helloS.bf_offset + helloS.bf_size ≤ helloR.bf_offset + helloR.bf_length ∧
      helloR.bf_offset + helloR.bf_length < U64 ∧
      helloR.bf_data.length = helloR.bf_size ∧ helloS.bf_data.length = helloS.bf_size) ∧
    ((∃ s2, helloState.MergeStaging 0 = Res.ret (0, s2) ∧
        cores s2.chain =
          ((cores helloState.chain).set 0 (mergedNode helloR helloS).core).eraseIdx (0 + 1)) ∧
      (mergedNode helloR helloS).bf_size =
        max helloR.bf_size (helloS.bf_offset + helloS.bf_size - helloR.bf_offset) ∧
      (mergedNode helloR helloS).bf_size ≤ helloR.bf_length ∧
      (mergedNode helloR helloS).bf_data.take helloR.bf_size = helloR.bf_data ∧
      (mergedNode helloR helloS).bf_data.drop helloR.bf_size =
        helloS.bf_data.drop (helloR.bf_offset + helloR.bf_size - helloS.bf_offset) ∧
      (mergedNode helloR helloS).bf_data.length = (mergedNode helloR helloS).bf_size ∧
      (mergedNode helloR helloS).layout =
        (false, helloR.bf_offset, helloR.bf_length,
          max helloR.bf_size (helloS.bf_offset + helloS.bf_size - helloR.bf_offset))) ∧
    (helloState.MergeStaging 0).code = some 0 ∧
    ((helloState.MergeStaging 0).stateOr (fun r => r.2) helloState).chain.map
        (fun p => (p.layout, p.bf_data)) =
      [((false, 0, 10, 10), [104, 101, 108, 108, 111, 87, 79, 82, 76, 68])] :=
  ⟨⟨⟨by decide, by decide, by decide⟩, by decide, by decide, by decide, by decide, by decide,
      by decide, by decide, by decide, by decide, by decide, by decide, by decide⟩,
   MergeStaging_merges helloState 0 helloR helloS ⟨by decide, by decide, by decide⟩ (by decide)
     (by decide) (by decide) (by decide) (by decide) (by decide) (by decide) (by decide)
     (by decide) (by decide) (by decide) (by decide),
   by decide, by decide⟩

/-! ## A write across a file boundary (C3) -/

theorem closeIfEmpty_cores (s : btFiles) (i : Nat) : cores (s.closeIfEmpty i).chain = cores s.chain := by
  unfold btFiles.closeIfEmpty
  split
  · rfl
  · split
    · exact close_cores _ _
    · rfl

theorem closeIfEmpty_env (s : btFiles) (i : Nat) : (s.closeIfEmpty i).env = s.env := by
  unfold btFiles.closeIfEmpty
  split
  · rfl
  · split
    · exact close_env _ _
    · rfl

theorem afterWrite_cores (s : btFiles) (i pos nio : Nat) :
    cores (s.afterWrite i pos nio).chain = cores (s.grow i (add64 pos nio)).chain := by
  unfold btFiles.afterWrite
  rw [closeIfEmpty_cores]
  split <;> rfl

theorem afterWrite_env (s : btFiles) (i pos nio : Nat) : (s.afterWrite i pos nio).env = s.env := by
  unfold btFiles.afterWrite
  rw [closeIfEmpty_env]
  split
  · exact grow_env _ _ _
  · exact grow_env _ _ _

theorem wrNode_core (q : BTFILE) (pos : Nat) (bytes : List Nat) (nio : Nat) :
    (wrNode q pos bytes nio).core = wrNode q.core pos bytes nio := rfl

theorem ioSize_core (iotype : Bool) (p q : BTFILE) (n m : Option BTFILE) (pos len : Nat)
    (hp : p.core = q.core) (hn : n.map BTFILE.core = m.map BTFILE.core) :
    ioSize iotype p n pos len = ioSize iotype q m pos len := by
  have fp := core_fields hp
  unfold ioSize
  rw [fp.2.1, fp.2.2.1, fp.2.2.2.1, fp.2.2.2.2.1]
  cases n with
  | none =>
    cases m with
    | none => rfl
    | some b => cases hn
  | some a =>
    cases m with
    | none => cases hn
    | some b =>
      simp only [Option.map_some', Option.some.injEq] at hn
      simp only [(core_fields hn).2.2.1]

/-- With every library call succeeding and the cache invariant, the
statements that open the node and seek continue, and change nothing but the
fields of the open-file cache. -/
theorem ioOpen_ok (s : btFiles) (iotype : Bool) (i : Nat) (h : CacheInv s) (he : s.env = [])
    (hi : i < s.chain.length)
    (hd : iotype = true → ∀ p, s.chain[i]? = some p → p.bf_size = 0 → p.bf_data = []) :
    ∃ s1, s.ioOpen iotype i = Step.cont s1 ∧ s1.env = [] ∧ CacheInv s1 ∧
      cores s1.chain = cores s.chain := by
  have hinv := ioOpen_inv s iotype i h
  unfold btFiles.ioOpen at hinv ⊢
  rw [List.getElem?_eq_getElem hi] at hinv ⊢
  simp only at hinv ⊢
  have h2 : (if !(s.chain[i]).bf_flag_opened || (iotype && (s.chain[i]).bf_flag_readonly)
        then s._btf_open i iotype else (0, s)).1 = 0 ∧
      (if !(s.chain[i]).bf_flag_opened || (iotype && (s.chain[i]).bf_flag_readonly)
        then s._btf_open i iotype else (0, s)).2.env = [] ∧
      cores (if !(s.chain[i]).bf_flag_opened || (iotype && (s.chain[i]).bf_flag_readonly)
        then s._btf_open i iotype else (0, s)).2.chain = cores s.chain := by
    split
    · exact open_ok s i iotype h he hi hd
    · exact ⟨rfl, he, rfl⟩
  generalize (if !(s.chain[i]).bf_flag_opened || (iotype && (s.chain[i]).bf_flag_readonly)
        then s._btf_open i iotype else (0, s)) = r2 at h2 hinv ⊢
  obtain ⟨h2r, h2e, h2c⟩ := h2
  have h3e : (r2.2.stamp i s.now).env = [] := by rw [stamp_env, h2e]
  rw [if_neg (by omega)] at hinv ⊢
  simp only [fileop_nil _ h3e, ne_eq, not_true_eq_false, if_false] at hinv ⊢
  exact ⟨_, rfl, h3e, hinv, by rw [stamp_cores, h2c]⟩

theorem grow_cores (s : btFiles) (i n : Nat) (q : BTFILE) (hq : s.chain[i]? = some q) :
    cores (s.grow i n).chain =
      (cores s.chain).set i ({ q with bf_size := if q.bf_size < n then n else q.bf_size } : BTFILE).core := by
  rw [grow_chain s i n q hq, cores_set]

/-- With every library call succeeding, a write of the loop body at the node
of index `i` continues: the node becomes `wrNode`, nothing else of the chain
changes but the fields of the open-file cache. -/
theorem ioXfer_write_ok (s : btFiles) (i pos : Nat) (c : Cur) (q : BTFILE) (he : s.env = [])
    (hq : s.chain[i]? = some q) :
    ∃ s1, s.ioXfer true i pos c =
        Step.cont (s1, ioSize true q s.chain[i + 1]? pos c.len, c.rbuf) ∧
      s1.env = [] ∧
      cores s1.chain = (cores s.chain).set i
        (wrNode q pos (c.wbuf.take (ioSize true q s.chain[i + 1]? pos c.len))
          (ioSize true q s.chain[i + 1]? pos c.len)).core := by
  have hi : i < s.chain.length := lt_length_of_getElem? hq
  unfold btFiles.ioXfer
  rw [hq]
  simp only
  generalize ioSize true q s.chain[i + 1]? pos c.len = nio
  by_cases h0 : nio = 0
  · subst h0
    simp only [if_true]
    refine ⟨_, rfl, ?_, ?_⟩
    · rw [afterWrite_env, he]
    · rw [afterWrite_cores, grow_cores s i _ q hq]
      rfl
  · simp only [h0, if_false, fileop_nil s he, ne_eq, not_true_eq_false]
    refine ⟨_, rfl, ?_, ?_⟩
    · rw [afterWrite_env, fwrite_env, he]
    · have hw := fwrite_chain s i pos (List.take nio c.wbuf) q hq
      have hq2 : (s.fwrite i pos (List.take nio c.wbuf)).chain[i]? =
          some { q with bf_data := writeAt q.bf_data pos (List.take nio c.wbuf) } := by
        rw [hw]
        exact List.getElem?_set_self hi
      rw [afterWrite_cores, grow_cores _ i _ _ hq2, hw, cores_set, List.set_set]
      simp only [wrNode, BTFILE.core, h0, if_false]

theorem getElem?_of_cores_eq {l2 L : List BTFILE} (h : cores l2 = L) (k : Nat) (q : BTFILE)
    (hq : L[k]? = some q) : ∃ p, l2[k]? = some p ∧ p.core = q := by
  rw [← h, cores_getElem?] at hq
  cases hp : l2[k]? with
  | none => rw [hp] at hq; cases hq
  | some p =>
    rw [hp] at hq
    simp only [Option.map_some', Option.some.injEq] at hq
    exact ⟨p, rfl, hq⟩

theorem IOloop_cont (iotype : Bool) (fuel : Nat) (s s1 : btFiles) (c c1 : Cur) (hl : c.len ≠ 0)
    (hs : s.IOstep iotype c = Step.cont (s1, c1)) :
    btFiles.IOloop iotype (fuel + 1) s c = btFiles.IOloop iotype fuel s1 c1 := by
  rw [btFiles.IOloop, if_neg hl, hs]

theorem IOloop_end (iotype : Bool) (fuel : Nat) (s : btFiles) (c : Cur) (hl : c.len = 0) :
    btFiles.IOloop iotype (fuel + 1) s c = Res.ret (0, s, c.rbuf) := by
  rw [btFiles.IOloop, if_pos hl]

theorem okNode_core (p : BTFILE) (f r : Nat) : okNode p.core f r = okNode p f r := rfl

theorem rendAfter_core (p : BTFILE) (r : Nat) : rendAfter p.core r = rendAfter p r := rfl

theorem tidyFrom_cores (T : Nat) (l : List BTFILE) (f r : Nat) :
    tidyFrom T (cores l) f r = tidyFrom T l f r := by
  induction l generalizing f r with
  | nil => rfl
  | cons p rest ih =>
    show (okNode p.core f r && tidyFrom T (cores rest) _ _) = _
    rw [ih]
    rfl

theorem dataOk_cores (l : List BTFILE) : dataOk (cores l) = dataOk l := by
  induction l with
  | nil => rfl
  | cons p rest ih =>
    show (decide (p.core.bf_data.length = p.core.bf_size) && dataOk (cores rest)) = _
    rw [ih]
    rfl

theorem freeRange_cores (l : List BTFILE) (off len : Nat) :
    freeRange (cores l) off len = freeRange l off len := by
  induction l with
  | nil => rfl
  | cons p rest ih =>
    show ((decide (p.core.bf_size = 0) || decide (off + len ≤ p.core.bf_offset) ||
      decide (p.core.bf_offset + p.core.bf_size ≤ off)) && freeRange (cores rest) off len) = _
    rw [ih]
    rfl

theorem tidyFrom_congr {T : Nat} {a b : List BTFILE} (h : cores a = cores b) (f r : Nat) :
    tidyFrom T a f r = tidyFrom T b f r := by
  rw [← tidyFrom_cores T a, ← tidyFrom_cores T b, h]

theorem dataOk_congr {a b : List BTFILE} (h : cores a = cores b) : dataOk a = dataOk b := by
  rw [← dataOk_cores a, ← dataOk_cores b, h]

theorem freeRange_congr {a b : List BTFILE} (h : cores a = cores b) (off len : Nat) :
    freeRange a off len = freeRange b off len := by
  rw [← freeRange_cores a, ← freeRange_cores b, h]

theorem okNode_staging (p : BTFILE) (f r : Nat) (hs : p.bf_flag_staging = true) :
    okNode p f r = true ↔ f ≤ p.bf_offset ∧ 0 < p.bf_size ∧ p.bf_offset + p.bf_size ≤ r := by
  unfold okNode
  simp only [hs, if_true, Bool.and_eq_true, decide_eq_true_eq, and_assoc]

theorem okNode_real (p : BTFILE) (f r : Nat) (hs : p.bf_flag_staging = false) :
    okNode p f r = true ↔ p.bf_offset = r ∧ p.bf_size ≤ p.bf_length := by
  unfold okNode
  simp only [hs, Bool.false_eq_true, if_false, Bool.and_eq_true, decide_eq_true_eq]

theorem rendAfter_staging (p : BTFILE) (r : Nat) (hs : p.bf_flag_staging = true) :
    rendAfter p r = r := by
  unfold rendAfter
  simp only [hs, if_true]

theorem rendAfter_real (p : BTFILE) (r : Nat) (hs : p.bf_flag_staging = false) :
    rendAfter p r = p.bf_offset + p.bf_length := by
  unfold rendAfter
  simp only [hs, Bool.false_eq_true, if_false]

theorem tidyFrom_cons (T : Nat) (p : BTFILE) (rest : List BTFILE) (f r : Nat) :
    tidyFrom T (p :: rest) f r = true ↔
      okNode p f r = true ∧ tidyFrom T rest (p.bf_offset + p.bf_size) (rendAfter p r) = true := by
  simp only [tidyFrom, Bool.and_eq_true]

/-- The floor matters to the head of the chain only, and only when that head
is a staging node. -/
theorem tidyFrom_floor (T : Nat) (l : List BTFILE) (f g r : Nat)
    (h : tidyFrom T l f r = true)
    (hg : ∀ N, l[0]? = some N → N.bf_flag_staging = true → g ≤ N.bf_offset) :
    tidyFrom T l g r = true := by
  cases l with
  | nil => exact h
  | cons N rest =>
    rw [tidyFrom_cons] at h ⊢
    refine ⟨?_, h.2⟩
    cases hs : N.bf_flag_staging with
    | true =>
      have h1 := (okNode_staging N f r hs).1 h.1
      exact (okNode_staging N g r hs).2 ⟨hg N (by simp) hs, h1.2⟩
    | false =>
      exact (okNode_real N g r hs).2 ((okNode_real N f r hs).1 h.1)

/-- In a tidy chain the end of the last real file never exceeds the total
length. -/
theorem tidyFrom_rend_le (T : Nat) (l : List BTFILE) (f r : Nat) (h : tidyFrom T l f r = true) :
    r ≤ T := by
  induction l generalizing f r with
  | nil =>
    simp only [tidyFrom, decide_eq_true_eq] at h
    omega
  | cons p rest ih =>
    rw [tidyFrom_cons] at h
    have h2 := ih _ _ h.2
    cases hs : p.bf_flag_staging with
    | true =>
      rw [rendAfter_staging p r hs] at h2
      exact h2
    | false =>
      rw [rendAfter_real p r hs] at h2
      have h1 := (okNode_real p f r hs).1 h.1
      omega

/-- What a tidy chain says of the node at index `i`: its bytes and, for a real
file, its whole range end at or before the total length. -/
theorem tidyFrom_node (T : Nat) (l : List BTFILE) (f r i : Nat) (p : BTFILE)
    (h : tidyFrom T l f r = true) (hp : l[i]? = some p) :
    p.bf_offset + p.bf_size ≤ T ∧
    (p.bf_flag_staging = false → p.bf_size ≤ p.bf_length ∧ p.bf_offset + p.bf_length ≤ T) ∧
    (p.bf_flag_staging = true → 0 < p.bf_size) := by
  induction l generalizing f r i with
  | nil => simp at hp
  | cons q rest ih =>
    rw [tidyFrom_cons] at h
    cases i with
    | zero =>
      simp only [List.getElem?_cons_zero, Option.some.injEq] at hp
      subst hp
      have h2 := tidyFrom_rend_le _ _ _ _ h.2
      cases hs : q.bf_flag_staging with
      | true =>
        rw [rendAfter_staging q r hs] at h2
        have h1 := (okNode_staging q f r hs).1 h.1
        exact ⟨by omega, (fun h3 => nomatch h3), fun _ => h1.2.1⟩
      | false =>
        rw [rendAfter_real q r hs] at h2
        have h1 := (okNode_real q f r hs).1 h.1
        exact ⟨by omega, fun _ => ⟨h1.2, h2⟩, (fun h3 => nomatch h3)⟩
    | succ i =>
      simp only [List.getElem?_cons_succ] at hp
      exact ih _ _ _ h.2 hp

/-- What a tidy chain says of two neighbours `P` and `N`. -/
theorem tidyFrom_pair (T : Nat) (l : List BTFILE) (f r i : Nat) (P N : BTFILE)
    (h : tidyFrom T l f r = true) (hP : l[i]? = some P) (hN : l[i + 1]? = some N) :
    P.bf_offset + P.bf_size ≤ N.bf_offset ∧
    (P.bf_flag_staging = false → N.bf_flag_staging = false →
      N.bf_offset = P.bf_offset + P.bf_length) ∧
    (P.bf_flag_staging = false → N.bf_flag_staging = true →
      N.bf_offset + N.bf_size ≤ P.bf_offset + P.bf_length) := by
  induction l generalizing f r i with
  | nil => simp at hP
  | cons q rest ih =>
    rw [tidyFrom_cons] at h
    cases i with
    | zero =>
      simp only [List.getElem?_cons_zero, Option.some.injEq] at hP
      subst hP
      cases rest with
      | nil => simp at hN
      | cons n rest2 =>
        simp only [zero_add, List.getElem?_cons_succ, List.getElem?_cons_zero,
          Option.some.injEq] at hN
        subst hN
        have h2 := h.2
        rw [tidyFrom_cons] at h2
        cases hs : q.bf_flag_staging with
        | true =>
          have h1 := (okNode_staging q f r hs).1 h.1
          rw [rendAfter_staging q r hs] at h2
          cases hn : n.bf_flag_staging with
          | true =>
            have h3 := (okNode_staging n _ _ hn).1 h2.1
            exact ⟨h3.1, (fun h4 => nomatch h4), (fun h4 => nomatch h4)⟩
          | false =>
            have h3 := (okNode_real n _ _ hn).1 h2.1
            exact ⟨by omega, (fun h4 => nomatch h4), (fun h4 => nomatch h4)⟩
        | false =>
          have h1 := (okNode_real q f r hs).1 h.1
          rw [rendAfter_real q r hs] at h2
          cases hn : n.bf_flag_staging with
          | true =>
            have h3 := (okNode_staging n _ _ hn).1 h2.1
            exact ⟨h3.1, (fun _ h4 => nomatch h4), fun _ _ => h3.2.2⟩
          | false =>
            have h3 := (okNode_real n _ _ hn).1 h2.1
            exact ⟨by omega, fun _ _ => h3.1, (fun _ h4 => nomatch h4)⟩
    | succ i =>
      simp only [List.getElem?_cons_succ] at hP hN
      exact ih _ _ _ h.2 hP hN

/-- The last node of a tidy chain: a real file ends at the total length. -/
theorem tidyFrom_last (T : Nat) (l : List BTFILE) (f r i : Nat) (P : BTFILE)
    (h : tidyFrom T l f r = true) (hP : l[i]? = some P) (hN : l[i + 1]? = none) :
    P.bf_flag_staging = false → P.bf_offset + P.bf_length = T := by
  induction l generalizing f r i with
  | nil => simp at hP
  | cons q rest ih =>
    rw [tidyFrom_cons] at h
    cases i with
    | zero =>
      simp only [List.getElem?_cons_zero, Option.some.injEq] at hP
      subst hP
      cases rest with
      | nil =>
        intro hs
        have h2 := h.2
        rw [rendAfter_real _ r hs] at h2
        simpa [tidyFrom] using h2
      | cons n rest2 => simp at hN
    | succ i =>
      simp only [List.getElem?_cons_succ] at hP hN
      exact ih _ _ _ h.2 hP hN

theorem tidyFrom_head_bound (T : Nat) (l : List BTFILE) (f r x : Nat)
    (h : tidyFrom T l f r = true)
    (hnext : ∀ N, l[0]? = some N → x ≤ N.bf_offset) (hend : l[0]? = none → x ≤ T) : x ≤ r := by
  cases l with
  | nil =>
    simp only [tidyFrom, decide_eq_true_eq] at h
    have := hend (by simp)
    omega
  | cons N rest =>
    rw [tidyFrom_cons] at h
    have hx := hnext N (by simp)
    cases hn : N.bf_flag_staging with
    | true =>
      have := (okNode_staging N f r hn).1 h.1
      omega
    | false =>
      have := (okNode_real N f r hn).1 h.1
      omega

theorem rendAfter_congr (p q : BTFILE) (r : Nat) (hst : q.bf_flag_staging = p.bf_flag_staging)
    (ho : q.bf_offset = p.bf_offset) (hl : q.bf_length = p.bf_length) :
    rendAfter q r = rendAfter p r := by
  unfold rendAfter
  rw [hst, ho, hl]

/-- A tidy chain stays tidy when the node at index `i` grows, as long as it
does not grow into the node behind it, and a real file not past its length. -/
theorem tidyFrom_set (T : Nat) (l : List BTFILE) (f r i : Nat) (p q : BTFILE)
    (h : tidyFrom T l f r = true) (hp : l[i]? = some p)
    (hst : q.bf_flag_staging = p.bf_flag_staging) (ho : q.bf_offset = p.bf_offset)
    (hl : q.bf_length = p.bf_length) (hsz : p.bf_size ≤ q.bf_size)
    (hreal : p.bf_flag_staging = false → q.bf_size ≤ p.bf_length)
    (hnext : ∀ N, l[i + 1]? = some N → p.bf_offset + q.bf_size ≤ N.bf_offset)
    (hend : l[i + 1]? = none → p.bf_offset + q.bf_size ≤ T) :
    tidyFrom T (l.set i q) f r = true := by
  induction l generalizing f r i with
  | nil => simp at hp
  | cons a rest ih =>
    rw [tidyFrom_cons] at h
    cases i with
    | zero =>
      simp only [List.getElem?_cons_zero, Option.some.injEq] at hp
      subst hp
      simp only [zero_add, List.getElem?_cons_succ] at hnext hend
      rw [List.set_cons_zero, tidyFrom_cons, rendAfter_congr a q r hst ho hl, ho]
      constructor
      · cases hs : a.bf_flag_staging with
        | true =>
          have h1 := (okNode_staging a f r hs).1 h.1
          rw [rendAfter_staging a r hs] at h
          have hb := tidyFrom_head_bound T rest _ _ (a.bf_offset + q.bf_size) h.2 hnext hend
          exact (okNode_staging q f r (by rw [hst, hs])).2 ⟨by omega, by omega, by omega⟩
        | false =>
          have h1 := (okNode_real a f r hs).1 h.1
          exact (okNode_real q f r (by rw [hst, hs])).2 ⟨by omega, by rw [hl]; exact hreal hs⟩
      · exact tidyFrom_floor T rest _ _ _ h.2 (fun N hN _ => hnext N hN)
    | succ i =>
      simp only [List.getElem?_cons_succ] at hp hnext hend
      rw [List.set_cons_succ, tidyFrom_cons]
      exact ⟨h.1, ih _ _ _ h.2 hp hnext hend⟩

/-- A tidy chain stays tidy when a staging node that holds bytes is spliced in
behind the node `P`, between the bytes of `P` and the node behind `P`. -/
theorem tidyFrom_insert (T : Nat) (l : List BTFILE) (f r j : Nat) (P S : BTFILE)
    (h : tidyFrom T l f r = true) (hP : l[j]? = some P)
    (hst : S.bf_flag_staging = true) (hfl : P.bf_offset + P.bf_size ≤ S.bf_offset)
    (hsz : 0 < S.bf_size)
    (hnext : ∀ N, l[j + 1]? = some N → S.bf_offset + S.bf_size ≤ N.bf_offset)
    (hend : l[j + 1]? = none → S.bf_offset + S.bf_size ≤ T) :
    tidyFrom T (l.take (j + 1) ++ S :: l.drop (j + 1)) f r = true := by
  induction l generalizing f r j with
  | nil => simp at hP
  | cons a rest ih =>
    rw [tidyFrom_cons] at h
    cases j with
    | zero =>
      simp only [List.getElem?_cons_zero, Option.some.injEq] at hP
      subst hP
      simp only [zero_add, List.getElem?_cons_succ] at hnext hend
      show tidyFrom T (a :: S :: rest) f r = true
      rw [tidyFrom_cons, tidyFrom_cons, rendAfter_staging S _ hst]
      have hb := tidyFrom_head_bound T rest _ _ (S.bf_offset + S.bf_size) h.2 hnext hend
      exact ⟨h.1, (okNode_staging S _ _ hst).2 ⟨hfl, hsz, hb⟩,
        tidyFrom_floor T rest _ _ _ h.2 (fun N hN _ => hnext N hN)⟩
    | succ j =>
      simp only [List.getElem?_cons_succ] at hP hnext hend
      show tidyFrom T (a :: (rest.take (j + 1) ++ S :: rest.drop (j + 1))) f r = true
      rw [tidyFrom_cons]
      exact ⟨h.1, ih _ _ _ h.2 hP hnext hend⟩

/-- A tidy chain stays tidy when the staging node `S` behind the real file `R`
is taken out and `R` grows to the end of `S`. -/
theorem tidyFrom_merge (T : Nat) (l : List BTFILE) (f r i : Nat) (R S Q : BTFILE)
    (h : tidyFrom T l f r = true) (hR : l[i]? = some R) (hS : l[i + 1]? = some S)
    (hRr : R.bf_flag_staging = false) (hSs : S.bf_flag_staging = true)
    (hst : Q.bf_flag_staging = R.bf_flag_staging) (ho : Q.bf_offset = R.bf_offset)
    (hl : Q.bf_length = R.bf_length)
    (hsz : R.bf_offset + Q.bf_size = S.bf_offset + S.bf_size) :
    tidyFrom T ((l.set i Q).eraseIdx (i + 1)) f r = true := by
  induction l generalizing f r i with
  | nil => simp at hR
  | cons a rest ih =>
    rw [tidyFrom_cons] at h
    cases i with
    | zero =>
      simp only [List.getElem?_cons_zero, Option.some.injEq] at hR
      subst hR
      cases rest with
      | nil => simp at hS
      | cons b rest2 =>
        simp only [zero_add, List.getElem?_cons_succ, List.getElem?_cons_zero,
          Option.some.injEq] at hS
        subst hS
        show tidyFrom T (Q :: rest2) f r = true
        have h2 := h.2
        rw [tidyFrom_cons, rendAfter_staging b _ hSs, rendAfter_real a r hRr] at h2
        have h1 := (okNode_real a f r hRr).1 h.1
        have h3 := (okNode_staging b _ _ hSs).1 h2.1
        rw [tidyFrom_cons, rendAfter_congr a Q r hst ho hl, rendAfter_real a r hRr, ho, hsz]
        exact ⟨(okNode_real Q f r (by rw [hst, hRr])).2 ⟨by omega, by omega⟩, h2.2⟩
    | succ i =>
      simp only [List.getElem?_cons_succ] at hR hS
      show tidyFrom T (a :: ((rest.set i Q).eraseIdx (i + 1))) f r = true
      rw [tidyFrom_cons]
      exact ⟨h.1, ih _ _ _ h.2 hR hS⟩

theorem dataOk_iff (l : List BTFILE) :
    dataOk l = true ↔ ∀ p ∈ l, p.bf_data.length = p.bf_size := by
  unfold dataOk
  simp only [List.all_eq_true, decide_eq_true_eq]

theorem freeRange_iff (l : List BTFILE) (off len : Nat) :
    freeRange l off len = true ↔
      ∀ p ∈ l, p.bf_size = 0 ∨ off + len ≤ p.bf_offset ∨ p.bf_offset + p.bf_size ≤ off := by
  unfold freeRange
  simp only [List.all_eq_true, Bool.or_eq_true, decide_eq_true_eq, or_assoc]

theorem mem_of_getElem? {α : Type} {l : List α} {i : Nat} {a : α} (h : l[i]? = some a) : a ∈ l :=
  List.mem_iff_getElem?.2 ⟨i, h⟩

theorem dataOk_set (l : List BTFILE) (i : Nat) (q : BTFILE) (h : dataOk l = true)
    (hq : q.bf_data.length = q.bf_size) : dataOk (l.set i q) = true := by
  rw [dataOk_iff] at h ⊢
  intro p hp
  rcases List.mem_or_eq_of_mem_set hp with h1 | h1
  · exact h p h1
  · rw [h1]; exact hq

theorem dataOk_insert (l : List BTFILE) (j : Nat) (q : BTFILE) (h : dataOk l = true)
    (hq : q.bf_data.length = q.bf_size) :
    dataOk (l.take (j + 1) ++ q :: l.drop (j + 1)) = true := by
  rw [dataOk_iff] at h ⊢
  intro p hp
  simp only [List.mem_append, List.mem_cons] at hp
  rcases hp with h1 | h1 | h1
  · exact h p (List.mem_of_mem_take h1)
  · rw [h1]; exact hq
  · exact h p (List.mem_of_mem_drop h1)

theorem dataOk_eraseIdx (l : List BTFILE) (i : Nat) (h : dataOk l = true) :
    dataOk (l.eraseIdx i) = true := by
  rw [dataOk_iff] at h ⊢
  intro p hp
  exact h p (List.mem_of_mem_eraseIdx hp)

theorem freeRange_sub (l : List BTFILE) (off len off2 len2 : Nat) (h : freeRange l off len = true)
    (h1 : off ≤ off2) (h2 : off2 + len2 ≤ off + len) : freeRange l off2 len2 = true := by
  rw [freeRange_iff] at h ⊢
  intro p hp
  rcases h p hp with h3 | h3 | h3
  · exact Or.inl h3
  · exact Or.inr (Or.inl (by omega))
  · exact Or.inr (Or.inr (by omega))

theorem freeRange_set (l : List BTFILE) (i : Nat) (q : BTFILE) (off len : Nat)
    (h : freeRange l off len = true)
    (hq : q.bf_size = 0 ∨ off + len ≤ q.bf_offset ∨ q.bf_offset + q.bf_size ≤ off) :
    freeRange (l.set i q) off len = true := by
  rw [freeRange_iff] at h ⊢
  intro p hp
  rcases List.mem_or_eq_of_mem_set hp with h1 | h1
  · exact h p h1
  · rw [h1]; exact hq

theorem freeRange_at (l : List BTFILE) (i : Nat) (p : BTFILE) (off len : Nat)
    (h : freeRange l off len = true) (hp : l[i]? = some p) :
    p.bf_size = 0 ∨ off + len ≤ p.bf_offset ∨ p.bf_offset + p.bf_size ≤ off :=
  (freeRange_iff l off len).1 h p (mem_of_getElem? hp)

theorem drop_cons_facts {α : Type} {chain : List α} {k : Nat} {p : α} {rest : List α}
    (h : chain.drop k = p :: rest) : chain[k]? = some p ∧ chain.drop (k + 1) = rest := by
  constructor
  · have := congrArg (fun l => l[0]?) h
    simpa using this
  · have := congrArg List.tail h
    simpa using this

theorem locateAux_tidy (T off : Nat) (chain : List BTFILE) (hT : T < U64) (hoff : off < T)
    (hfree : freeRange chain off 1 = true) (l : List BTFILE) :
    ∀ (k : Nat) (skip : Bool) (r : Option Nat) (f rend : Nat),
      chain.drop k = l → tidyFrom T l f rend = true →
      ((r = none ∧ k = 0 ∧ rend = 0 ∧ skip = false) ∨
        (skip = false ∧ off < rend ∧ ∃ j P, r = some j ∧ j + 1 = k ∧ chain[j]? = some P ∧
          P.bf_offset + P.bf_size ≤ off) ∨
        (skip = true ∧ rend ≤ off)) →
      LocOk chain off (locateAux true off l k skip r) := by
  induction l with
  | nil =>
    intro k skip r f rend hd ht hm
    simp only [tidyFrom, decide_eq_true_eq] at ht
    rcases hm with ⟨_, _, h0, _⟩ | ⟨_, _, j, P, hr, hj, hP, hPo⟩ | ⟨_, h1⟩
    · omega
    · subst hr
      refine ⟨P, hP, hPo, ?_⟩
      intro N hN
      have : chain.length ≤ k := by
        rcases Nat.lt_or_ge k chain.length with h2 | h2
        · have := congrArg List.length hd
          simp at this
          omega
        · exact h2
      rw [hj, List.getElem?_eq_none this] at hN
      cases hN
    · omega
  | cons p rest ih =>
    intro k skip r f rend hd ht hm
    obtain ⟨hpk, hdrop⟩ := drop_cons_facts hd
    rw [tidyFrom_cons] at ht
    have hnode := tidyFrom_node T chain 0 0 k p
    have hfp := freeRange_at chain k p off 1 hfree hpk
    unfold locateAux
    cases hs : p.bf_flag_staging with
    | true =>
      have hok := (okNode_staging p f rend hs).1 ht.1
      have ht2 := ht.2
      rw [rendAfter_staging p rend hs] at ht2
      have hU : p.bf_offset + p.bf_size < U64 := by
        have := tidyFrom_rend_le T rest _ _ ht2
        omega
      cases hsk : skip with
      | true =>
        simp only [Bool.and_self, if_true]
        apply ih (k + 1) true r _ _ hdrop ht2
        rcases hm with ⟨_, _, _, h4⟩ | ⟨h4, _⟩ | ⟨_, h1⟩
        · rw [hsk] at h4; cases h4
        · rw [hsk] at h4; cases h4
        · exact Or.inr (Or.inr ⟨rfl, h1⟩)
      | false =>
        simp only [Bool.false_and, Bool.false_eq_true, if_false]
        rcases hm with ⟨_, _, h0, _⟩ | ⟨_, hlt, j, P, hr, hj, hP, hPo⟩ | ⟨h4, _⟩
        · omega
        · by_cases hmatch : locMatch true off p = true
          · rw [if_pos hmatch]
            unfold locMatch at hmatch
            rw [add64_of_lt _ _ hU] at hmatch
            simp only [hs, Bool.true_and, Bool.not_true, Bool.false_or, Bool.and_eq_true,
              Bool.or_eq_true, decide_eq_true_eq] at hmatch
            refine ⟨p, hpk, ?_, ?_⟩
            · rcases hmatch.2 with h5 | h5
              · omega
              · exact h5.1
            · intro _
              rcases hmatch.2 with h5 | h5
              · omega
              · exact h5.2
          · rw [if_neg hmatch]
            by_cases hbefore : off < p.bf_offset
            · rw [if_pos hbefore, hr]
              refine ⟨P, hP, hPo, ?_⟩
              intro N hN
              rw [hj, hpk] at hN
              cases hN
              exact hbefore
            · rw [if_neg hbefore]
              simp only [Bool.not_true, Bool.false_and]
              apply ih (k + 1) false (some k) _ _ hdrop ht2
              refine Or.inr (Or.inl ⟨rfl, hlt, k, p, rfl, rfl, hpk, ?_⟩)
              unfold locMatch at hmatch
              rw [add64_of_lt _ _ hU] at hmatch
              simp only [hs, Bool.true_and, Bool.not_true, Bool.false_or, Bool.and_eq_true,
                Bool.or_eq_true, decide_eq_true_eq, not_and, not_or] at hmatch
              have := hmatch (by omega)
              omega
        · rw [hsk] at h4; cases h4
    | false =>
      have hok := (okNode_real p f rend hs).1 ht.1
      have ht2 := ht.2
      rw [rendAfter_real p rend hs] at ht2
      have hU : p.bf_offset + p.bf_length < U64 := by
        have := tidyFrom_rend_le T rest _ _ ht2
        omega
      simp only [Bool.and_false, Bool.false_eq_true, if_false]
      by_cases hle : p.bf_offset ≤ off
      · by_cases hmatch : locMatch true off p = true
        · rw [if_pos hmatch]
          unfold locMatch at hmatch
          rw [add64_of_lt _ _ (by omega)] at hmatch
          simp only [hs, Bool.true_and, Bool.not_false, Bool.true_or, Bool.and_true,
            Bool.and_eq_true, Bool.or_eq_true, decide_eq_true_eq] at hmatch
          refine ⟨p, hpk, ?_, fun h6 => by rw [hs] at h6; cases h6⟩
          rcases hmatch.2 with h5 | h5
          · omega
          · exact h5
        · rw [if_neg hmatch, if_neg (by omega)]
          unfold locMatch at hmatch
          rw [add64_of_lt _ _ (by omega)] at hmatch
          simp only [hs, Bool.true_and, Bool.not_false, Bool.true_or, Bool.and_true,
            Bool.and_eq_true, Bool.or_eq_true, decide_eq_true_eq, not_and, not_or] at hmatch
          have hm2 := hmatch hle
          rw [add64_of_lt _ _ hU]
          simp only [Bool.not_false, Bool.true_and]
          apply ih (k + 1) _ (some k) _ _ hdrop ht2
          by_cases hjump : p.bf_offset + p.bf_length ≤ off
          · exact Or.inr (Or.inr ⟨by simp [hjump], hjump⟩)
          · exact Or.inr (Or.inl ⟨by simp [hjump], by omega, k, p, rfl, rfl, hpk, by omega⟩)
      · rcases hm with ⟨_, _, h0, _⟩ | ⟨_, hlt, j, P, hr, hj, hP, hPo⟩ | ⟨_, h1⟩
        · omega
        · have hnm : locMatch true off p = false := by
            unfold locMatch
            simp [hle]
          simp only [hnm, Bool.false_eq_true, if_false]
          rw [if_pos (by omega), hr]
          refine ⟨P, hP, hPo, ?_⟩
          intro N hN
          rw [hj, hpk] at hN
          cases hN
          omega
        · omega

/-- In a tidy chain the search for the first file, for a write in range of
bytes not yet written, ends as `LocOk` says. -/
theorem locate_tidy (T off : Nat) (chain : List BTFILE) (hT : T < U64) (hoff : off < T)
    (hfree : freeRange chain off 1 = true) (ht : tidyFrom T chain 0 0 = true) :
    LocOk chain off (locate chain true off) := by
  unfold locate
  exact locateAux_tidy T off chain hT hoff hfree chain 0 false none 0 0 rfl ht
    (Or.inl ⟨rfl, rfl, rfl, rfl⟩)

theorem fileop_tlen (s : btFiles) :
    s.fileop.2.m_total_files_length = s.m_total_files_length := by
  unfold btFiles.fileop
  split <;> rfl

theorem close_tlen (s : btFiles) (i : Nat) :
    (s._btf_close i).m_total_files_length = s.m_total_files_length := by
  unfold btFiles._btf_close
  split
  · rfl
  · split <;> rfl

theorem close_oldest_tlen (s : btFiles) :
    s._btf_close_oldest.2.m_total_files_length = s.m_total_files_length := by
  unfold btFiles._btf_close_oldest
  split
  · rfl
  · exact close_tlen _ _

theorem markOpen_tlen (s : btFiles) (i : Nat) (a b : Bool) :
    (s.markOpen i a b).2.m_total_files_length = s.m_total_files_length := by
  unfold btFiles.markOpen
  split <;> rfl

theorem stamp_tlen (s : btFiles) (i t : Nat) :
    (s.stamp i t).m_total_files_length = s.m_total_files_length := by
  unfold btFiles.stamp
  split <;> rfl

theorem openEvict_tlen (s : btFiles) (i : Nat) (w : Bool) :
    (s.openEvict i w).2.m_total_files_length = s.m_total_files_length := by
  have h1 : (if w then s._btf_close i else s).m_total_files_length = s.m_total_files_length := by
    split
    · exact close_tlen _ _
    · rfl
  unfold btFiles.openEvict
  generalize (if w then s._btf_close i else s) = s1 at h1
  split
  · rw [close_oldest_tlen, h1]
  · exact h1

theorem openFile_tlen (s : btFiles) (i : Nat) (a b : Bool) :
    (s.openFile i a b).2.m_total_files_length = s.m_total_files_length := by
  unfold btFiles.openFile
  split
  · rw [markOpen_tlen, fileop_tlen]
  · split
    · rw [markOpen_tlen, fileop_tlen, close_oldest_tlen, fileop_tlen]
    · show (s.fileop.2._btf_close_oldest.2).fileop.2.m_total_files_length = _
      rw [fileop_tlen, close_oldest_tlen, fileop_tlen]
  · exact fileop_tlen s

theorem open_tlen (s : btFiles) (i : Nat) (a : Bool) :
    (s._btf_open i a).2.m_total_files_length = s.m_total_files_length := by
  unfold btFiles._btf_open
  split
  · rfl
  · split
    · rfl
    · split
      · exact openEvict_tlen _ _ _
      · split
        · show ((s.openEvict _ _).2.fileop.2).m_total_files_length = _
          rw [fileop_tlen, openEvict_tlen]
        · rw [openFile_tlen, stamp_tlen, fileop_tlen, openEvict_tlen]

theorem grow_tlen (s : btFiles) (i n : Nat) :
    (s.grow i n).m_total_files_length = s.m_total_files_length := by
  unfold btFiles.grow
  split
  · rfl
  · split <;> rfl

theorem closeIfEmpty_tlen (s : btFiles) (i : Nat) :
    (s.closeIfEmpty i).m_total_files_length = s.m_total_files_length := by
  unfold btFiles.closeIfEmpty
  split
  · rfl
  · split
    · exact close_tlen _ _
    · rfl

theorem afterWrite_tlen (s : btFiles) (i pos nio : Nat) :
    (s.afterWrite i pos nio).m_total_files_length = s.m_total_files_length := by
  unfold btFiles.afterWrite
  rw [closeIfEmpty_tlen]
  split
  · exact grow_tlen _ _ _
  · exact grow_tlen _ _ _

theorem fwrite_tlen (s : btFiles) (i pos : Nat) (b : List Nat) :
    (s.fwrite i pos b).m_total_files_length = s.m_total_files_length := by
  unfold btFiles.fwrite
  split <;> rfl

theorem ioOpen_tlen (s : btFiles) (iotype : Bool) (i : Nat) :
    StepInv (fun x => x.m_total_files_length = s.m_total_files_length) id (s.ioOpen iotype i) := by
  unfold btFiles.ioOpen
  cases hp : s.chain[i]? with
  | none => trivial
  | some p =>
    simp only
    have h2 : (if !p.bf_flag_opened || (iotype && p.bf_flag_readonly)
        then s._btf_open i iotype else (0, s)).2.m_total_files_length =
        s.m_total_files_length := by
      split
      · exact open_tlen _ _ _
      · rfl
    generalize (if !p.bf_flag_opened || (iotype && p.bf_flag_readonly)
        then s._btf_open i iotype else (0, s)) = r2 at h2
    split
    · exact h2
    · split
      · show (r2.2.stamp i s.now).fileop.2.m_total_files_length = _
        rw [fileop_tlen, stamp_tlen, h2]
      · show (r2.2.stamp i s.now).fileop.2.m_total_files_length = _
        rw [fileop_tlen, stamp_tlen, h2]

theorem ioXfer_tlen (s : btFiles) (iotype : Bool) (i pos : Nat) (c : Cur) :
    StepInv (fun x => x.m_total_files_length = s.m_total_files_length)
      (fun r : btFiles × Nat × List Nat => r.1) (s.ioXfer iotype i pos c) := by
  unfold btFiles.ioXfer
  cases hp : s.chain[i]? with
  | none => trivial
  | some q =>
    simp only
    split
    · show (if iotype then s.afterWrite i pos 0 else s).m_total_files_length = _
      split
      · exact afterWrite_tlen _ _ _ _
      · rfl
    · split
      · split
        · show s.fileop.2.m_total_files_length = _
          exact fileop_tlen s
        · exact fileop_tlen s
      · split
        · show ((s.fileop.2.fwrite i pos _).afterWrite i pos _).m_total_files_length = _
          rw [afterWrite_tlen, fwrite_tlen, fileop_tlen]
        · exact fileop_tlen s

theorem createStaging_tlen (s : btFiles) (off : Nat) (pbfref : Option Nat) :
    StepInv (fun x => x.m_total_files_length = s.m_total_files_length)
      (fun r : btFiles × Nat => r.1) (s.createStaging off pbfref) := by
  unfold btFiles.createStaging
  have h1 : (if decide (MAX_STAGEDIR_FILES ≤ s.m_stagecount) || s.m_stagedir.isEmpty then
      (if s.fileop.1 = FileResult.ok then
        { s.fileop.2 with m_stagedir := fmtOffset s.m_fsizelen off, m_stagecount := 0 }
      else s.fileop.2) else s).m_total_files_length = s.m_total_files_length := by
    split
    · split
      · exact fileop_tlen s
      · exact fileop_tlen s
    · rfl
  simp only
  generalize (if decide (MAX_STAGEDIR_FILES ≤ s.m_stagecount) || s.m_stagedir.isEmpty then
      (if s.fileop.1 = FileResult.ok then
        { s.fileop.2 with m_stagedir := fmtOffset s.m_fsizelen off, m_stagecount := 0 }
      else s.fileop.2) else s) = s1 at h1
  split
  · show s1.fileop.2.m_total_files_length = _
    rw [fileop_tlen, h1]
  · split
    · trivial
    · split
      · trivial
      · show s1.fileop.2.m_total_files_length = _
        rw [fileop_tlen, h1]

theorem ResInv_mono {α : Type} {P Q : btFiles → Prop} {st : α → btFiles} (x : Res α)
    (h : ResInv P st x) (hpq : ∀ a, P a → Q a) : ResInv Q st x := by
  cases x with
  | ret a => exact hpq _ h
  | undef => trivial
  | nofuel => trivial

theorem copyLoop_tlen (i j fuel : Nat) (s : btFiles) (remain nio spos pos : Nat) :
    ResInv (fun x => x.m_total_files_length = s.m_total_files_length)
      (fun r : Bool × btFiles => r.2) (btFiles.copyLoop i j fuel s remain nio spos pos) := by
  induction fuel generalizing s remain nio spos pos with
  | zero => trivial
  | succ fuel ih =>
    unfold btFiles.copyLoop
    split
    · simp only
      split
      · rfl
      · split
        · trivial
        · split
          · exact fileop_tlen s
          · split
            · show s.fileop.2.fileop.2.m_total_files_length = _
              rw [fileop_tlen, fileop_tlen]
            · refine ResInv_mono _ (ih _ _ _ _ _) ?_
              intro a ha
              rw [ha, grow_tlen, fwrite_tlen, fileop_tlen, fileop_tlen]
    · trivial

theorem stageGone_tlen (s : btFiles) (f : String) :
    (s.stageGone f).m_total_files_length = s.m_total_files_length := by
  unfold btFiles.stageGone
  split
  · split <;> rfl
  · rfl

theorem delsrc_tlen (s : btFiles) (i : Nat) :
    (s.delsrc i).m_total_files_length = s.m_total_files_length := by
  unfold btFiles.delsrc
  split
  · exact close_tlen _ _
  · rw [stageGone_tlen]
    exact close_tlen _ _

theorem mergeFinish_tlen (s : btFiles) (i : Nat) :
    (s.mergeFinish i).m_total_files_length = s.m_total_files_length := by
  unfold btFiles.mergeFinish
  split
  · rfl
  · rw [delsrc_tlen]
    split
    · exact close_tlen _ _
    · rfl

theorem mergeCopy_tlen (s : btFiles) (i remain spos : Nat) :
    ResInv (fun x => x.m_total_files_length = s.m_total_files_length)
      (fun r : Int × btFiles => r.2) (s.mergeCopy i remain spos) := by
  unfold btFiles.mergeCopy
  cases hd : s.chain[i]? with
  | none => trivial
  | some d =>
    simp only
    split
    · exact fileop_tlen s
    · have h := copyLoop_tlen i (i + 1) (remain + 1) s.fileop.2 remain OPT_IO_SIZE spos d.bf_size
      cases hc : btFiles.copyLoop i (i + 1) (remain + 1) s.fileop.2 remain OPT_IO_SIZE spos
          d.bf_size with
      | undef => trivial
      | nofuel => trivial
      | ret r =>
        rw [hc] at h
        obtain ⟨b, s6⟩ := r
        cases b with
        | false => exact h.trans (fileop_tlen s)
        | true =>
          show (s6.mergeFinish i).m_total_files_length = _
          rw [mergeFinish_tlen]
          exact h.trans (fileop_tlen s)

theorem mergeOpenSrc_tlen (s : btFiles) (j : Nat) :
    (s.mergeOpenSrc j).2.m_total_files_length = s.m_total_files_length := by
  unfold btFiles.mergeOpenSrc
  split
  · rfl
  · split
    · exact open_tlen _ _ _
    · rfl

theorem mergeOpenDst_tlen (s : btFiles) (i : Nat) :
    (s.mergeOpenDst i).2.m_total_files_length = s.m_total_files_length := by
  unfold btFiles.mergeOpenDst
  split
  · rfl
  · split
    · exact open_tlen _ _ _
    · rfl

theorem MergeStaging_tlen (s : btFiles) (i : Nat) :
    ResInv (fun x => x.m_total_files_length = s.m_total_files_length)
      (fun r : Int × btFiles => r.2) (s.MergeStaging i) := by
  unfold btFiles.MergeStaging
  cases hd : s.chain[i]? with
  | none => trivial
  | some dst =>
    cases hs : s.chain[i + 1]? with
    | none => trivial
    | some src =>
      simp only
      split
      · exact delsrc_tlen s i
      · split
        · exact mergeOpenSrc_tlen _ _
        · have h1 : (s.mergeOpenSrc (i + 1)).2.fileop.2.m_total_files_length =
              s.m_total_files_length := by rw [fileop_tlen, mergeOpenSrc_tlen]
          split
          · exact h1
          · have h2 : ((((s.mergeOpenSrc (i + 1)).2.fileop.2).stamp (i + 1)
                (s.now + 1)).mergeOpenDst i).2.m_total_files_length = s.m_total_files_length := by
              rw [mergeOpenDst_tlen, stamp_tlen, h1]
            split
            · exact h2
            · exact ResInv_mono _ (mergeCopy_tlen _ _ _ _) (fun a ha => ha.trans h2)

theorem createStaging_ok (s : btFiles) (off j : Nat) (h : CacheInv s) (he : s.env = [])
    (hj : j < s.chain.length) :
    ∃ s1 node, s.createStaging off (some j) = Step.cont (s1, j + 1) ∧ s1.env = [] ∧
      CacheInv s1 ∧ s1.m_total_files_length = s.m_total_files_length ∧
      s1.chain = s.chain.take (j + 1) ++ node :: s.chain.drop (j + 1) ∧
      node.bf_offset = off ∧ node.bf_flag_staging = true ∧ node.bf_size = 0 ∧
      node.bf_data = [] := by
  have hinv := createStaging_inv s off (some j) h
  have htl := createStaging_tlen s off (some j)
  unfold btFiles.createStaging at hinv htl ⊢
  simp only at hinv htl ⊢
  have h1 : (if decide (MAX_STAGEDIR_FILES ≤ s.m_stagecount) || s.m_stagedir.isEmpty then
      (if s.fileop.1 = FileResult.ok then
        { s.fileop.2 with m_stagedir := fmtOffset s.m_fsizelen off, m_stagecount := 0 }
      else s.fileop.2) else s).env = [] ∧
      (if decide (MAX_STAGEDIR_FILES ≤ s.m_stagecount) || s.m_stagedir.isEmpty then
      (if s.fileop.1 = FileResult.ok then
        { s.fileop.2 with m_stagedir := fmtOffset s.m_fsizelen off, m_stagecount := 0 }
      else s.fileop.2) else s).chain = s.chain := by
    rw [fileop_nil s he]
    split
    · exact ⟨he, rfl⟩
    · exact ⟨he, rfl⟩
  generalize (if decide (MAX_STAGEDIR_FILES ≤ s.m_stagecount) || s.m_stagedir.isEmpty then
      (if s.fileop.1 = FileResult.ok then
        { s.fileop.2 with m_stagedir := fmtOffset s.m_fsizelen off, m_stagecount := 0 }
      else s.fileop.2) else s) = s1 at h1 hinv htl ⊢
  rw [fileop_nil s1 h1.1] at hinv htl ⊢
  simp only [ne_eq, not_true_eq_false, if_false, h1.2, Nat.not_le.2 hj] at hinv htl ⊢
  exact ⟨_, _, rfl, h1.1, hinv, htl, rfl, rfl, rfl, rfl, rfl⟩

theorem softCap_below (s : btFiles) (c : Cur) (i : Nat) (p : BTFILE) (hc : c.pbf = some i)
    (hp : s.chain[i]? = some p)
    (hr : p.bf_flag_staging = true → p.bf_size < MAX_STAGEFILE_SIZE) : softCap true s c = c := by
  unfold softCap
  rw [hc]
  simp only [hp]
  cases hs : p.bf_flag_staging with
  | false => simp
  | true =>
    have := hr hs
    rw [if_neg]
    simp only [Bool.true_and, Bool.and_eq_true, decide_eq_true_eq, not_and]
    intro h1
    omega

theorem softCap_none (s : btFiles) (c : Cur) (hc : c.pbf = none) : softCap true s c = c := by
  unfold softCap
  rw [hc]

theorem ioAdvance_state (s : btFiles) (i : Nat) (c : Cur) (nio : Nat) (rbuf : List Nat)
    (s1 : btFiles) (c1 : Cur) (h : ioAdvance s i c nio rbuf = Step.cont (s1, c1)) : s1 = s := by
  unfold ioAdvance at h
  split at h
  · cases h; rfl
  · split at h
    · cases h
    · cases h; rfl

theorem ioAt_tlen (s : btFiles) (iotype : Bool) (i : Nat) (c : Cur) :
    StepInv (fun x => x.m_total_files_length = s.m_total_files_length)
      (fun r : btFiles × Cur => r.1) (s.ioAt iotype i c) := by
  unfold btFiles.ioAt
  cases hp : s.chain[i]? with
  | none => trivial
  | some p =>
    simp only
    apply StepInv_bind _ _ (ioOpen_tlen s iotype i)
    intro s1 h1
    have h1b : s.m_total_files_length = s1.m_total_files_length := h1.symm
    rw [h1b]
    apply StepInv_bind _ _ (ioXfer_tlen s1 iotype i _ c)
    intro r hr
    cases hadv : ioAdvance r.1 i c r.2.1 r.2.2 with
    | undef => trivial
    | done a b =>
      unfold ioAdvance at hadv
      split at hadv
      · cases hadv
      · split at hadv <;> cases hadv
    | cont x =>
      have := ioAdvance_state r.1 i c r.2.1 r.2.2 x.1 x.2 hadv
      show x.1.m_total_files_length = _
      rw [this]
      exact hr

/-- The loop body of a write at the node of index `i`, every library call
succeeding: as `ioAt_write_ok`, and the total length is kept. -/
theorem ioAt_write_keep (s : btFiles) (i : Nat) (c : Cur) (p : BTFILE) (h : CacheInv s)
    (he : s.env = []) (hp : s.chain[i]? = some p) (hd : p.bf_size = 0 → p.bf_data = []) :
    ∃ s1, s.ioAt true i c =
        ioAdvance s1 i c (ioSize true p s.chain[i + 1]? (sub64 c.off p.bf_offset) c.len) c.rbuf ∧
      s1.env = [] ∧ CacheInv s1 ∧
      cores s1.chain = (cores s.chain).set i
        (wrNode p (sub64 c.off p.bf_offset)
          (c.wbuf.take (ioSize true p s.chain[i + 1]? (sub64 c.off p.bf_offset) c.len))
          (ioSize true p s.chain[i + 1]? (sub64 c.off p.bf_offset) c.len)).core ∧
      s1.m_total_files_length = s.m_total_files_length := by
  have hi : i < s.chain.length := lt_length_of_getElem? hp
  obtain ⟨s1, ho, he1, hc1, hcores⟩ := ioOpen_ok s true i h he hi
    (by intro _ q hq hz; rw [hp] at hq; cases hq; exact hd hz)
  have ht1 := ioOpen_tlen s true i
  rw [ho] at ht1
  obtain ⟨q, hq, hqc⟩ := getElem?_of_cores hcores i p hp
  have hnext : (s1.chain[i + 1]?).map BTFILE.core = (s.chain[i + 1]?).map BTFILE.core := by
    rw [← cores_getElem?, ← cores_getElem?, hcores]
  obtain ⟨s2, hx, he2, hcores2⟩ := ioXfer_write_ok s1 i (sub64 c.off p.bf_offset) c q he1 hq
  have hinv2 := ioXfer_inv s1 true i (sub64 c.off p.bf_offset) c hc1
  have ht2 := ioXfer_tlen s1 true i (sub64 c.off p.bf_offset) c
  rw [hx] at hinv2 ht2
  have hsz := ioSize_core true q p s1.chain[i + 1]? s.chain[i + 1]? (sub64 c.off p.bf_offset) c.len
    hqc hnext
  rw [hsz] at hx hcores2
  refine ⟨s2, ?_, he2, hinv2, ?_, ht2.trans ht1⟩
  · unfold btFiles.ioAt
    rw [hp]
    simp only [ho, Step.bind, hx]
  · rw [hcores2, hcores]
    rw [wrNode_core, wrNode_core, hqc]

theorem ioSize_le (p : BTFILE) (next : Option BTFILE) (pos len : Nat) :
    ioSize true p next pos len ≤ len := by
  unfold ioSize
  simp only [if_true]
  split
  · split
    · exact Nat.le_refl _
    · split
      · exact Nat.le_refl _
      · omega
  · split
    · exact Nat.le_refl _
    · omega

theorem Good.node {s : btFiles} (hg : Good s) {i : Nat} {p : BTFILE} (hp : s.chain[i]? = some p) :
    p.bf_data.length = p.bf_size ∧ p.bf_offset + p.bf_size ≤ s.m_total_files_length ∧
    (p.bf_flag_staging = false →
      p.bf_size ≤ p.bf_length ∧ p.bf_offset + p.bf_length ≤ s.m_total_files_length) ∧
    (p.bf_flag_staging = true → 0 < p.bf_size) := by
  obtain ⟨_, _, _, ht, hd⟩ := hg
  have h1 := tidyFrom_node _ _ _ _ _ _ ht hp
  exact ⟨(dataOk_iff _).1 hd p (mem_of_getElem? hp), h1⟩

/-- The loop body of a write that appends to the node `p` at index `i`, in a
good state: the node becomes `q`, which holds `nio` bytes more. -/
theorem ioAt_append (s : btFiles) (i : Nat) (c : Cur) (p : BTFILE) (hg : Good s)
    (hp : s.chain[i]? = some p) (hoff : c.off = p.bf_offset + p.bf_size)
    (hin : c.off + c.len ≤ s.m_total_files_length) (hw : c.wbuf.length = c.len) :
    ∃ s1 q, s.ioAt true i c =
        ioAdvance s1 i c (ioSize true p s.chain[i + 1]? p.bf_size c.len) c.rbuf ∧
      s1.env = [] ∧ CacheInv s1 ∧ cores s1.chain = cores (s.chain.set i q) ∧
      q.bf_flag_staging = p.bf_flag_staging ∧ q.bf_offset = p.bf_offset ∧
      q.bf_length = p.bf_length ∧
      q.bf_size = p.bf_size + ioSize true p s.chain[i + 1]? p.bf_size c.len ∧
      q.bf_data.length = q.bf_size ∧ s1.m_total_files_length = s.m_total_files_length := by
  have hn := hg.node hp
  obtain ⟨hci, he, hU, ht, hd⟩ := hg
  have hpos : sub64 c.off p.bf_offset = p.bf_size := by
    rw [sub64_of_le _ _ (by omega) (by omega)]
    omega
  obtain ⟨s1, h1, h2, h3, h4, h5⟩ := ioAt_write_keep s i c p hci he hp
    (by intro hz; exact List.length_eq_zero.1 (by rw [hn.1, hz]))
  rw [hpos] at h1 h4
  have hle := ioSize_le p s.chain[i + 1]? p.bf_size c.len
  generalize ioSize true p s.chain[i + 1]? p.bf_size c.len = nio at h1 h4 hle ⊢
  refine ⟨s1, wrNode p p.bf_size (c.wbuf.take nio) nio, h1, h2, h3, ?_, rfl, rfl, rfl, ?_, ?_, h5⟩
  · rw [h4, cores_set]
  · show (if p.bf_size < add64 p.bf_size nio then add64 p.bf_size nio else p.bf_size) = _
    rw [add64_of_lt _ _ (by omega)]
    split <;> omega
  · show (if nio = 0 then p.bf_data else writeAt p.bf_data p.bf_size (c.wbuf.take nio)).length =
      (if p.bf_size < add64 p.bf_size nio then add64 p.bf_size nio else p.bf_size)
    rw [add64_of_lt _ _ (by omega)]
    by_cases h0 : nio = 0
    · rw [if_pos h0, if_neg (by omega)]
      exact hn.1
    · rw [if_neg h0, if_pos (by omega)]
      have : writeAt p.bf_data p.bf_size (c.wbuf.take nio) = p.bf_data ++ c.wbuf.take nio := by
        have := writeAt_end p.bf_data (c.wbuf.take nio)
        rw [hn.1] at this
        exact this
      rw [this, List.length_append, List.length_take, hn.1]
      omega

/-- A good state stays good when the node at index `i` grows without reaching
into the node behind it. -/
theorem good_after_set (s s1 : btFiles) (i : Nat) (p q : BTFILE) (hg : Good s)
    (hp : s.chain[i]? = some p)
    (hst : q.bf_flag_staging = p.bf_flag_staging) (ho : q.bf_offset = p.bf_offset)
    (hl : q.bf_length = p.bf_length) (hsz : p.bf_size ≤ q.bf_size)
    (hreal : p.bf_flag_staging = false → q.bf_size ≤ p.bf_length)
    (hnext : ∀ N, s.chain[i + 1]? = some N → p.bf_offset + q.bf_size ≤ N.bf_offset)
    (hend : s.chain[i + 1]? = none → p.bf_offset + q.bf_size ≤ s.m_total_files_length)
    (hqd : q.bf_data.length = q.bf_size)
    (he1 : s1.env = []) (hc1 : CacheInv s1)
    (ht1 : s1.m_total_files_length = s.m_total_files_length)
    (hcores : cores s1.chain = cores (s.chain.set i q)) : Good s1 := by
  obtain ⟨_, _, hU, ht, hd⟩ := hg
  refine ⟨hc1, he1, by rw [ht1]; exact hU, ?_, ?_⟩
  · rw [ht1, tidyFrom_congr hcores]
    exact tidyFrom_set _ _ _ _ _ p q ht hp hst ho hl hsz hreal hnext hend
  · rw [dataOk_congr hcores]
    exact dataOk_set _ _ _ hd hqd

/-- The statements "Proceed to next file" after an append of `nio` bytes that
stopped, if bytes are left, at the start of the node behind. -/
theorem advance_ready (s1 : btFiles) (i : Nat) (c : Cur) (nio : Nat)
    (hle : nio ≤ c.len) (hin : c.off + c.len ≤ s1.m_total_files_length)
    (hU : s1.m_total_files_length < U64)
    (hfree : freeRange s1.chain (c.off + nio) (c.len - nio) = true)
    (hw : c.wbuf.length = c.len)
    (hroom : nio < c.len → ∃ N, s1.chain[i + 1]? = some N ∧ N.bf_offset = c.off + nio) :
    ∃ c1, ioAdvance s1 i c nio c.rbuf = Step.cont (s1, c1) ∧ c1.rbuf = c.rbuf ∧
      (c1.len = 0 ∨ Ready s1 c1 (i + 1)) := by
  unfold ioAdvance
  by_cases hz : c.len - nio = 0
  · rw [if_pos hz]
    exact ⟨_, rfl, rfl, Or.inl rfl⟩
  · rw [if_neg hz]
    obtain ⟨N, hN, hNo⟩ := hroom (by omega)
    simp only [hN]
    have hadd : add64 c.off nio = c.off + nio := add64_of_lt _ _ (by omega)
    refine ⟨_, rfl, rfl, Or.inr ⟨N, ?_, hN, ?_, ?_, ?_, ?_, ?_⟩⟩
    · show (if add64 c.off nio < N.bf_offset then none else some (i + 1)) = some (i + 1)
      rw [if_neg (by omega)]
    · show add64 c.off nio = N.bf_offset + N.bf_size
      have := freeRange_at _ _ _ _ _ hfree hN
      omega
    · intro _
      have := freeRange_at _ _ _ _ _ hfree hN
      have : N.bf_size = 0 := by omega
      rw [this]
      decide
    · show add64 c.off nio + (c.len - nio) ≤ _
      omega
    · show freeRange s1.chain (add64 c.off nio) (c.len - nio) = true
      rw [hadd]
      exact hfree
    · show (c.wbuf.drop nio).length = c.len - nio
      rw [List.length_drop, hw]

/-- What the clip of an append at the node `p` guarantees in a good state, for
a write of bytes not yet written: the node does not reach into the node behind
it, a real file does not pass its length, and a clipped transfer stops at the
start of the node behind. -/
theorem ioSize_append (s : btFiles) (i : Nat) (p : BTFILE) (off len : Nat) (hg : Good s)
    (hp : s.chain[i]? = some p) (hoff : off = p.bf_offset + p.bf_size)
    (hin : off + len ≤ s.m_total_files_length) (hfree : freeRange s.chain off len = true) :
    (∀ N, s.chain[i + 1]? = some N →
      p.bf_offset + p.bf_size + ioSize true p s.chain[i + 1]? p.bf_size len ≤ N.bf_offset) ∧
    (p.bf_flag_staging = false →
      p.bf_size + ioSize true p s.chain[i + 1]? p.bf_size len ≤ p.bf_length) ∧
    (ioSize true p s.chain[i + 1]? p.bf_size len < len →
      ∃ N, s.chain[i + 1]? = some N ∧
        N.bf_offset = off + ioSize true p s.chain[i + 1]? p.bf_size len) := by
  have hn := hg.node hp
  have hU := hg.2.2.1
  have ht := hg.2.2.2.1
  cases hs : p.bf_flag_staging with
  | true =>
    cases hnx : s.chain[i + 1]? with
    | none =>
      have : ioSize true p none p.bf_size len = len := by
        unfold ioSize
        simp only [hs, if_true]
      rw [this]
      exact ⟨(fun N hN => nomatch hN), (fun h => nomatch h), fun h => absurd h (Nat.lt_irrefl _)⟩
    | some N =>
      have hpair := tidyFrom_pair _ _ _ _ _ p N ht hp hnx
      have hN := hg.node hnx
      have hroom : sub64 (sub64 N.bf_offset p.bf_offset) p.bf_size =
          N.bf_offset - p.bf_offset - p.bf_size := by
        rw [sub64_of_le N.bf_offset p.bf_offset (by omega) (by omega),
          sub64_of_le _ _ (by omega) (by omega)]
      have : ioSize true p (some N) p.bf_size len =
          if len ≤ N.bf_offset - p.bf_offset - p.bf_size then len
          else N.bf_offset - p.bf_offset - p.bf_size := by
        unfold ioSize
        simp only [hs, if_true, hroom]
      rw [this]
      refine ⟨?_, (fun h => nomatch h), ?_⟩
      · intro N2 hN2
        cases hN2
        split <;> omega
      · intro hlt
        refine ⟨N, rfl, ?_⟩
        split at hlt
        · omega
        · rw [if_neg (by assumption)]
          omega
  | false =>
    have hnr := hn.2.2.1 hs
    have hroom : sub64 p.bf_length p.bf_size = p.bf_length - p.bf_size :=
      sub64_of_le _ _ hnr.1 (by omega)
    have hsz : ioSize true p s.chain[i + 1]? p.bf_size len =
        if len ≤ p.bf_length - p.bf_size then len else p.bf_length - p.bf_size := by
      unfold ioSize
      simp only [hs, if_true, Bool.false_eq_true, if_false, hroom]
    rw [hsz]
    cases hnx : s.chain[i + 1]? with
    | none =>
      have hlast := tidyFrom_last _ _ _ _ _ p ht hp hnx hs
      refine ⟨(fun N hN => nomatch hN), (fun _ => by split <;> omega), ?_⟩
      intro hlt
      split at hlt <;> omega
    | some N =>
      have hpair := tidyFrom_pair _ _ _ _ _ p N ht hp hnx
      have hN := hg.node hnx
      have hfN := freeRange_at _ _ _ _ _ hfree hnx
      cases hNs : N.bf_flag_staging with
      | true =>
        have h1 := hN.2.2.2 hNs
        have h2 := hpair.2.2 hs hNs
        have hlen : off + len ≤ N.bf_offset := by omega
        refine ⟨?_, (fun _ => by split <;> omega), ?_⟩
        · intro N2 hN2
          cases hN2
          split <;> omega
        · intro hlt
          split at hlt <;> omega
      | false =>
        have h2 := hpair.2.1 hs hNs
        refine ⟨?_, (fun _ => by split <;> omega), ?_⟩
        · intro N2 hN2
          cases hN2
          split <;> omega
        · intro hlt
          refine ⟨N, rfl, ?_⟩
          split at hlt
          · omega
          · rw [if_neg (by assumption)]
            omega

theorem Good.length_eq {a b : btFiles} (h : cores a.chain = cores (b.chain.set i q)) :
    a.chain.length = b.chain.length := by
  have := length_of_cores h
  rwa [List.length_set] at this

/-- One pass of the loop body of a write that appends to the node the cursor
stands at, in a good state: the state stays good and the cursor is at the
end of the write or at the next node. -/
theorem step_append (s : btFiles) (c : Cur) (i : Nat) (hg : Good s) (hr : Ready s c i) :
    ∃ s1 c1, s.IOstep true c = Step.cont (s1, c1) ∧ Good s1 ∧ c1.rbuf = c.rbuf ∧
      s1.chain.length = s.chain.length ∧ (c1.len = 0 ∨ Ready s1 c1 (i + 1)) := by
  obtain ⟨p, hpbf, hp, hoff, hcap, hin, hfree, hw⟩ := hr
  obtain ⟨s1, q, hat, he1, hc1, hcores, hst, ho, hl, hsz, hqd, ht1⟩ :=
    ioAt_append s i c p hg hp hoff hin hw
  obtain ⟨hB, hD, hE⟩ := ioSize_append s i p c.off c.len hg hp hoff hin hfree
  have hle := ioSize_le p s.chain[i + 1]? p.bf_size c.len
  generalize ioSize true p s.chain[i + 1]? p.bf_size c.len = nio at hat hsz hB hD hE hle
  have hg1 : Good s1 := good_after_set s s1 i p q hg hp hst ho hl (by omega)
    (fun h => by rw [hsz]; exact hD h) (fun N hN => by rw [hsz]; have := hB N hN; omega)
    (fun _ => by rw [hsz]; omega) hqd he1 hc1 ht1 hcores
  have hfree1 : freeRange s1.chain (c.off + nio) (c.len - nio) = true := by
    rw [freeRange_congr hcores]
    apply freeRange_set
    · exact freeRange_sub _ _ _ _ _ hfree (by omega) (by omega)
    · exact Or.inr (Or.inr (by rw [ho, hsz]; omega))
  obtain ⟨c1, hadv, hrb, hnext⟩ := advance_ready s1 i c nio hle (by rw [ht1]; exact hin)
    hg1.2.2.1 hfree1 hw (by
      intro hlt
      obtain ⟨N, hN, hNo⟩ := hE hlt
      have hi : i < s.chain.length := lt_length_of_getElem? hp
      obtain ⟨N1, hN1, hN1c⟩ := getElem?_of_cores_eq hcores (i + 1) N.core (by
        rw [cores_set, List.getElem?_set_ne (by omega), cores_getElem?, hN]
        rfl)
      exact ⟨N1, hN1, by rw [(core_fields hN1c).2.2.1]; exact hNo⟩)
  refine ⟨s1, c1, ?_, hg1, hrb, Good.length_eq hcores, hnext⟩
  unfold btFiles.IOstep
  rw [softCap_below s c i p hpbf hp hcap, hpbf]
  simp only
  rw [hat, hadv]

/-- The transfer loop from a cursor that stands at the end of the bytes of a
node, in a good state: the loop ends with result 0 in a good state. -/
theorem run_append (fuel : Nat) (s : btFiles) (c : Cur) (i : Nat) (hg : Good s)
    (hr : c.len = 0 ∨ Ready s c i)
    (hf : s.chain.length + 1 ≤ fuel + i ∧ i ≤ s.chain.length) :
    ∃ s2, btFiles.IOloop true fuel s c = Res.ret (0, s2, c.rbuf) ∧ Good s2 := by
  induction fuel generalizing s c i with
  | zero => omega
  | succ fuel ih =>
    by_cases hl : c.len = 0
    · exact ⟨s, IOloop_end true fuel s c hl, hg⟩
    · rcases hr with h0 | hr
      · exact absurd h0 hl
      · have hi : i < s.chain.length := by
          obtain ⟨p, _, hp, _⟩ := hr
          exact lt_length_of_getElem? hp
        obtain ⟨s1, c1, hstep, hg1, hrb, hlen, hnext⟩ := step_append s c i hg hr
        rw [IOloop_cont true fuel s s1 c c1 hl hstep, ← hrb]
        exact ih s1 c1 (i + 1) hg1 hnext (by omega)

/-- One pass of the loop body of a write that finds no node and creates a
staging node behind the node `P` at index `j`, in a good state. -/
theorem step_create (s : btFiles) (c : Cur) (j : Nat) (P : BTFILE) (hg : Good s)
    (hpbf : c.pbf = none) (href : c.pbfref = some j) (hP : s.chain[j]? = some P)
    (hfl : P.bf_offset + P.bf_size ≤ c.off)
    (hgap : ∀ N, s.chain[j + 1]? = some N → c.off < N.bf_offset)
    (hin : c.off + c.len ≤ s.m_total_files_length)
    (hfree : freeRange s.chain c.off c.len = true) (hw : c.wbuf.length = c.len)
    (hl : c.len ≠ 0) :
    ∃ s1 c1, s.IOstep true c = Step.cont (s1, c1) ∧ Good s1 ∧ c1.rbuf = c.rbuf ∧
      s1.chain.length = s.chain.length + 1 ∧ (c1.len = 0 ∨ Ready s1 c1 (j + 1 + 1)) := by
  have hj : j < s.chain.length := lt_length_of_getElem? hP
  obtain ⟨hci, he, hU, ht, hd⟩ := hg
  obtain ⟨s0, node, hcs, he0, hc0, ht0, hch0, hno, hns, hnz, hnd⟩ :=
    createStaging_ok s c.off j hci he hj
  have hlen0 : s0.chain.length = s.chain.length + 1 := by
    rw [hch0]
    simp
    omega
  have hnode0 : s0.chain[j + 1]? = some node := by
    rw [hch0, List.getElem?_append_right (by simp)]
    simp [Nat.min_eq_left (by omega : j + 1 ≤ s.chain.length)]
  have hnext0 : s0.chain[j + 1 + 1]? = s.chain[j + 1]? := by
    rw [hch0, List.getElem?_append_right (by simp)]
    simp [Nat.min_eq_left (by omega : j + 1 ≤ s.chain.length)]
  obtain ⟨s1, hat, he1, hc1, hcores, ht1⟩ := ioAt_write_keep s0 (j + 1) c node hc0 he0 hnode0
    (fun _ => hnd)
  have hpos : sub64 c.off node.bf_offset = 0 := by
    rw [hno, sub64_of_le _ _ (Nat.le_refl _) (by omega)]
    omega
  rw [hpos, hnext0] at hat hcores
  -- the number of bytes that go to the new node
  have hle := ioSize_le node s.chain[j + 1]? 0 c.len
  have hnio : 0 < ioSize true node s.chain[j + 1]? 0 c.len ∧
      (∀ N, s.chain[j + 1]? = some N →
        c.off + ioSize true node s.chain[j + 1]? 0 c.len ≤ N.bf_offset) ∧
      (ioSize true node s.chain[j + 1]? 0 c.len < c.len →
        ∃ N, s.chain[j + 1]? = some N ∧
          N.bf_offset = c.off + ioSize true node s.chain[j + 1]? 0 c.len) := by
    cases hnx : s.chain[j + 1]? with
    | none =>
      have : ioSize true node none 0 c.len = c.len := by
        unfold ioSize
        simp only [hns, if_true]
      rw [this]
      exact ⟨by omega, (fun N hN => nomatch hN), fun h => absurd h (Nat.lt_irrefl _)⟩
    | some N =>
      have hN := tidyFrom_node _ _ _ _ _ N ht hnx
      have hg2 := hgap N hnx
      have hroom : sub64 (sub64 N.bf_offset node.bf_offset) 0 = N.bf_offset - c.off := by
        rw [hno, sub64_of_le N.bf_offset c.off (by omega) (by omega),
          sub64_of_le _ _ (by omega) (by omega)]
        omega
      have : ioSize true node (some N) 0 c.len =
          if c.len ≤ N.bf_offset - c.off then c.len else N.bf_offset - c.off := by
        unfold ioSize
        simp only [hns, if_true, hroom]
      rw [this]
      refine ⟨by split <;> omega, ?_, ?_⟩
      · intro N2 hN2
        cases hN2
        split <;> omega
      · intro hlt
        refine ⟨N, rfl, ?_⟩
        split at hlt
        · omega
        · rw [if_neg (by assumption)]
          omega
  generalize ioSize true node s.chain[j + 1]? 0 c.len = nio at hat hcores hle hnio
  obtain ⟨hpos0, hB, hE⟩ := hnio
  -- the new node after the write
  have hq : (wrNode node 0 (c.wbuf.take nio) nio).bf_size = nio ∧
      (wrNode node 0 (c.wbuf.take nio) nio).bf_data.length = nio := by
    constructor
    · show (if node.bf_size < add64 0 nio then add64 0 nio else node.bf_size) = nio
      rw [add64_of_lt _ _ (by omega), hnz]
      split <;> omega
    · show (if nio = 0 then node.bf_data else writeAt node.bf_data 0 (c.wbuf.take nio)).length = nio
      rw [if_neg (by omega), hnd]
      have := writeAt_end [] (c.wbuf.take nio)
      simp only [List.length_nil, List.nil_append] at this
      rw [this, List.length_take]
      omega
  generalize hqdef : wrNode node 0 (c.wbuf.take nio) nio = q at hcores hq
  have hqo : q.bf_offset = c.off := by rw [← hqdef]; exact hno
  have hqs : q.bf_flag_staging = true := by rw [← hqdef]; exact hns
  have hchain1 : cores s1.chain = cores (s.chain.take (j + 1) ++ q :: s.chain.drop (j + 1)) := by
    rw [hcores, ← cores_set, hch0]
    congr 1
    rw [List.set_append_right _ _ (by simp)]
    simp [Nat.min_eq_left (by omega : j + 1 ≤ s.chain.length)]
  have hg1 : Good s1 := by
    refine ⟨hc1, he1, by rw [ht1, ht0]; exact hU, ?_, ?_⟩
    · rw [ht1, ht0, tidyFrom_congr hchain1]
      exact tidyFrom_insert _ _ _ _ _ P q ht hP hqs (by rw [hqo]; exact hfl) (by omega)
        (fun N hN => by rw [hqo, hq.1]; exact hB N hN) (fun _ => by rw [hqo, hq.1]; omega)
    · rw [dataOk_congr hchain1]
      exact dataOk_insert _ _ _ hd (by rw [hq.1, hq.2])
  have hfree1 : freeRange s1.chain (c.off + nio) (c.len - nio) = true := by
    rw [freeRange_congr hchain1, freeRange_iff]
    intro p hp
    simp only [List.mem_append, List.mem_cons] at hp
    have hsub := freeRange_sub _ _ _ (c.off + nio) (c.len - nio) hfree (by omega) (by omega)
    rw [freeRange_iff] at hsub
    rcases hp with h1 | h1 | h1
    · exact hsub p (List.mem_of_mem_take h1)
    · rw [h1, hqo, hq.1]
      exact Or.inr (Or.inr (Nat.le_refl _))
    · exact hsub p (List.mem_of_mem_drop h1)
  obtain ⟨c1, hadv, hrb, hnext⟩ := advance_ready s1 (j + 1) c nio hle
    (by rw [ht1, ht0]; exact hin) hg1.2.2.1 hfree1 hw (by
      intro hlt
      obtain ⟨N, hN, hNo⟩ := hE hlt
      obtain ⟨N1, hN1, hN1c⟩ := getElem?_of_cores_eq hchain1 (j + 1 + 1) N.core (by
        rw [cores_getElem?, List.getElem?_append_right (by simp)]
        simp [Nat.min_eq_left (by omega : j + 1 ≤ s.chain.length), hN])
      exact ⟨N1, hN1, by rw [(core_fields hN1c).2.2.1]; exact hNo⟩)
  refine ⟨s1, c1, ?_, hg1, hrb, ?_, hnext⟩
  · unfold btFiles.IOstep
    rw [softCap_none s c hpbf, hpbf]
    simp only [if_true, href, hcs, Step.bind]
    rw [hat, hadv]
  · rw [length_of_cores hchain1]
    simp
    omega

/-- In a good state a write in range of bytes not yet written returns 0 and
leaves a good state. -/
theorem IO_clean (s : btFiles) (rbuf buf : List Nat) (off : Nat) (hg : Good s)
    (hin : off + buf.length ≤ s.m_total_files_length)
    (hfree : freeRange s.chain off buf.length = true) :
    ∃ s2, btFiles.IO s rbuf (some buf) off buf.length = Res.ret (0, s2, rbuf) ∧ Good s2 := by
  have hU := hg.2.2.1
  unfold btFiles.IO
  rw [if_neg (by rw [add64_of_lt _ _ (by omega)]; omega)]
  simp only [Option.isSome_some, Option.getD_some]
  by_cases hl : buf.length = 0
  · exact ⟨s, IOloop_end true _ s _ hl, hg⟩
  · have hloc := locate_tidy s.m_total_files_length off s.chain hU (by omega)
      (freeRange_sub _ _ _ _ _ hfree (Nat.le_refl _) (by omega)) hg.2.2.2.1
    generalize locate s.chain true off = res at hloc ⊢
    obtain ⟨pbf, pbfref⟩ := res
    cases pbf with
    | some i =>
      obtain ⟨p, hp, hoff, hcap⟩ := hloc
      have hi : i < s.chain.length := lt_length_of_getElem? hp
      exact run_append _ s (Cur.mk off buf.length (some i) pbfref buf rbuf 0) i hg
        (Or.inr ⟨p, rfl, hp, hoff, hcap, hin, hfree, rfl⟩) (by omega)
    | none =>
      cases pbfref with
      | none => exact absurd hloc id
      | some j =>
        obtain ⟨P, hP, hfl, hgap⟩ := hloc
        have hj : j < s.chain.length := lt_length_of_getElem? hP
        obtain ⟨s1, c1, hstep, hg1, hrb, hlen, hnext⟩ := step_create s
          (Cur.mk off buf.length none (some j) buf rbuf 0) j P hg rfl rfl hP hfl hgap hin hfree
          rfl hl
        rw [show buf.length + 2 * s.chain.length + 3 = (buf.length + 2 * s.chain.length + 2) + 1
          from rfl, IOloop_cont true _ s s1 _ c1 hl hstep]
        have := run_append (buf.length + 2 * s.chain.length + 2) s1 c1 (j + 1 + 1) hg1 hnext
          (by omega)
        rw [hrb] at this
        exact this

/-- In a good state `MergeStaging` on a real file that satisfies the test of
`FindAndMerge` returns 0 and leaves a good state with one node less, unless
the open of the real file closes the staging file and the copy reads through
its null `bf_fp`. -/
theorem MergeStaging_good (s : btFiles) (i : Nat) (hg : Good s)
    (hm : mergeableAt s.chain i = true) :
    (∃ s2, s.MergeStaging i = Res.ret (0, s2) ∧ Good s2) ∨ s.MergeStaging i = Res.undef := by
  unfold mergeableAt at hm
  cases hR : s.chain[i]? with
  | none => simp [hR] at hm
  | some R =>
    cases hS : s.chain[i + 1]? with
    | none => simp [hR, hS] at hm
    | some S =>
      have hnR := hg.node hR
      have hnS := hg.node hS
      obtain ⟨hci, he, hU, ht, hd⟩ := hg
      simp only [hR, hS, Bool.and_eq_true, Bool.not_eq_true', decide_eq_true_eq] at hm
      obtain ⟨⟨⟨hRr, hlt⟩, hSs⟩, hreach⟩ := hm
      have hpair := tidyFrom_pair _ _ _ _ _ R S ht hR hS
      have hins := hpair.2.2 hRr hSs
      have hRl := hnR.2.2.1 hRr
      rw [add64_of_lt _ _ (by omega)] at hreach
      rcases (MergeStaging_cases s i R S hci he hR hS hreach hins hRl.1
        (by omega) hnR.1 hnS.1).1 with ⟨s2, hms, he2, hcores⟩ | hun
      swap
      · exact Or.inr hun
      have hc2 := MergeStaging_inv s i hci
      have ht2 := MergeStaging_tlen s i
      rw [hms] at hc2 ht2
      have hch : cores s2.chain = cores ((s.chain.set i (mergedNode R S)).eraseIdx (i + 1)) := by
        rw [hcores, ← cores_set]
        exact (map_eraseIdx BTFILE.core _ _).symm
      have hQs : (mergedNode R S).bf_size = S.bf_offset + S.bf_size - R.bf_offset := by
        show max R.bf_size (S.bf_offset + S.bf_size - R.bf_offset) = _
        omega
      refine Or.inl ⟨s2, hms, hc2, he2, by rw [ht2]; exact hU, ?_, ?_⟩
      · rw [ht2, tidyFrom_congr hch]
        exact tidyFrom_merge _ _ _ _ _ R S (mergedNode R S) ht hR hS hRr hSs rfl rfl rfl
          (by rw [hQs]; omega)
      · rw [dataOk_congr hch]
        apply dataOk_eraseIdx
        apply dataOk_set _ _ _ hd
        rw [hQs]
        show (R.bf_data ++ S.bf_data.drop (R.bf_offset + R.bf_size - S.bf_offset)).length = _
        rw [List.length_append, List.length_drop, hnR.1, hnS.1]
        omega

theorem scan_good (fa ds : Bool) (fuel : Nat) (s : btFiles) (cur : Option Nat) (merged : Bool)
    (hg : Good s) (m fl : Bool) (s2 : btFiles)
    (h : btFiles.FindAndMergeScan fa ds fuel s cur merged = Res.ret (m, fl, s2)) : Good s2 := by
  induction fuel generalizing s cur merged with
  | zero => simp [btFiles.FindAndMergeScan] at h
  | succ fuel ih =>
    cases cur with
    | none =>
      simp only [btFiles.FindAndMergeScan, Res.ret.injEq, Prod.mk.injEq] at h
      rw [← h.2.2]
      exact hg
    | some i =>
      unfold btFiles.FindAndMergeScan at h
      split at h
      · rename_i hmg
        rcases MergeStaging_good s i hg hmg with ⟨s1, h1, hg1⟩ | hun
        swap
        · rw [hun] at h
          cases h
        rw [h1] at h
        simp only [Int.lt_irrefl, if_false] at h
        split at h
        · simp only [Res.ret.injEq, Prod.mk.injEq] at h
          rw [← h.2.2]
          exact hg1
        · exact ih s1 _ _ hg1 h
      · exact ih s _ _ hg h

/-- A call of `FindAndMerge` that returns in a good state leaves a good state. -/
theorem FindAndMerge_good (s : btFiles) (fa ds : Bool) (r : Int) (s2 : btFiles) (hg : Good s)
    (h : s.FindAndMerge fa ds = Res.ret (r, s2)) : Good s2 := by
  unfold btFiles.FindAndMerge at h
  split at h
  · cases h
  · cases h
  · rename_i m fl s1 heq
    simp only [Res.ret.injEq, Prod.mk.injEq] at h
    rw [← h.2]
    exact scan_good fa ds _ s _ _ hg m fl s1 heq

theorem buildChain_mem (lens : List Nat) (off : Nat) (p : BTFILE) (h : p ∈ buildChain lens off) :
    p.bf_flag_opened = false ∧ p.bf_size = 0 ∧ p.bf_data = [] := by
  induction lens generalizing off with
  | nil => simp [buildChain] at h
  | cons l rest ih =>
    simp only [buildChain, List.mem_cons] at h
    rcases h with h | h
    · rw [h]
      exact ⟨rfl, rfl, rfl⟩
    · exact ih _ h

theorem buildChain_tidy (lens : List Nat) (off f : Nat) :
    tidyFrom (off + lens.sum) (buildChain lens off) f off = true := by
  induction lens generalizing off f with
  | nil => simp [buildChain, tidyFrom]
  | cons l rest ih =>
    have := ih (off + l) (off + 0)
    rw [List.sum_cons, ← Nat.add_assoc]
    simp only [buildChain, tidyFrom, okNode, rendAfter, Bool.false_eq_true, if_false,
      decide_True, Bool.true_and, Nat.zero_le, Bool.and_eq_true, decide_eq_true_eq, true_and]
    exact this

/-- The freshly built chain is a good state. -/
theorem fresh_good (lens : List Nat) (h : lens.sum < U64) : Good (btFiles.fresh lens) := by
  refine ⟨⟨rfl, ?_, Nat.zero_le _⟩, rfl, h, ?_, ?_⟩
  · show 0 = countOpen (buildChain lens 0)
    rw [countOpen_zero_of_closed _ (fun p hp => (buildChain_mem lens 0 p hp).1)]
  · have := buildChain_tidy lens 0 0
    rw [Nat.zero_add] at this
    exact this
  · rw [dataOk_iff]
    intro p hp
    have := buildChain_mem lens 0 p hp
    rw [this.2.1, this.2.2]
    rfl

/-- Every reachable state is good. -/
theorem reach_good (s : btFiles) (h : Reach s) : Good s := by
  induction h with
  | fresh lens h => exact fresh_good lens h
  | write s rbuf buf off r s2 rb _ hin hfree hio ih =>
    obtain ⟨s3, h3, hg3⟩ := IO_clean s rbuf buf off ih hin hfree
    rw [h3] at hio
    simp only [Res.ret.injEq, Prod.mk.injEq] at hio
    rw [← hio.2.1]
    exact hg3
  | merge s fa ds r s2 _ hfm ih => exact FindAndMerge_good s fa ds r s2 ih hfm

/-- In a reachable state a write in range of bytes not yet written returns 0,
and the state it leaves is reachable. -/
theorem reach_write (s : btFiles) (rbuf buf : List Nat) (off : Nat) (h : Reach s)
    (hin : off + buf.length ≤ s.m_total_files_length)
    (hfree : freeRange s.chain off buf.length = true) :
    ∃ s2, btFiles.IO s rbuf (some buf) off buf.length = Res.ret (0, s2, rbuf) ∧ Reach s2 := by
  obtain ⟨s2, h2, _⟩ := IO_clean s rbuf buf off (reach_good s h) hin hfree
  exact ⟨s2, h2, Reach.write s rbuf buf off 0 s2 rbuf h hin hfree h2⟩

/-- In every reachable state a staging node that has a successor ends at or
before the start of that successor. -/
theorem reach_staging_ends_before_successor (s : btFiles) (h : Reach s) (i : Nat) (S N : BTFILE)
    (hS : s.chain[i]? = some S) (hN : s.chain[i + 1]? = some N) :
    S.bf_offset + S.bf_size ≤ N.bf_offset :=
  (tidyFrom_pair _ _ _ _ _ S N (reach_good s h).2.2.2.1 hS hN).1

/-- C7 refuted as stated: one file of length 10; the writes `IO(5, 5)` and
`IO(0, 10)` return 0 and `FindAndMerge(1, 1)` returns 0, and in the state
reached the complete real file (size 10 of 10) is directly followed by the
staging node of offset 5 and size 5. -/
theorem C7_counterexample :
    ( btFiles.IO (btFiles.fresh [10]) [] (some [87, 79, 82, 76, 68]) 5 5).code = some 0 ∧
    ( btFiles.IO ((btFiles.fresh [10]).wr 5 [87, 79, 82, 76, 68]) []
        (some [1, 2, 3, 4, 5, 6, 7, 8, 9, 10]) 0 10).code = some 0 ∧
    ((((btFiles.fresh [10]).wr 5 [87, 79, 82, 76, 68]).wr 0
        [1, 2, 3, 4, 5, 6, 7, 8, 9, 10]).FindAndMerge true true).code = some 0 ∧
    layouts ((((btFiles.fresh [10]).wr 5 [87, 79, 82, 76, 68]).wr 0
        [1, 2, 3, 4, 5, 6, 7, 8, 9, 10]).fm true true).chain =
      [(false, 0, 10, 10), (true, 5, 0, 5)] := by
  decide

/-- C7 (amended): in every state reachable from a freshly built chain by
writes in range of bytes not yet written and by calls of `FindAndMerge`,
every library call succeeding, a real file that has reached its length is
not directly followed by a staging node. -/
theorem C7_complete_file_not_followed_by_staging (s : btFiles) (h : Reach s) (i : Nat)
    (R N : BTFILE) (hR : s.chain[i]? = some R) (hN : s.chain[i + 1]? = some N)
    (hreal : R.bf_flag_staging = false) (hfull : R.bf_size = R.bf_length) :
    N.bf_flag_staging = false := by
  have hg := reach_good s h
  have hpair := tidyFrom_pair _ _ _ _ _ R N hg.2.2.2.1 hR hN
  cases hs : N.bf_flag_staging with
  | false => rfl
  | true =>
    have h1 := (hg.node hN).2.2.2 hs
    have h2 := hpair.2.2 hreal hs
    omega

/-- C7 (amended) at two files of lengths 10 and 4 after "WORLD" at offset 5,
"hello" at offset 0 and `FindAndMerge(1, 1)`: the state is reachable, the
first file is complete and the node behind it is the second file. -/
theorem C7_complete_file_not_followed_by_staging_witness :
    (Reach doneState ∧ doneState.chain[0]? = some doneR ∧ doneState.chain[0 + 1]? = some doneN ∧
      doneR.bf_flag_staging = false ∧ doneR.bf_size = doneR.bf_length) ∧
    doneN.bf_flag_staging = false :=
  have hr : Reach doneState :=
    Reach.merge (((btFiles.fresh [10, 4]).wr 5 [87, 79, 82, 76, 68]).wr 0
        [104, 101, 108, 108, 111]) true true 1 doneState
      (Reach.write ((btFiles.fresh [10, 4]).wr 5 [87, 79, 82, 76, 68]) []
        [104, 101, 108, 108, 111] 0 0
        (((btFiles.fresh [10, 4]).wr 5 [87, 79, 82, 76, 68]).wr 0 [104, 101, 108, 108, 111]) []
        (Reach.write (btFiles.fresh [10, 4]) [] [87, 79, 82, 76, 68] 5 0
          ((btFiles.fresh [10, 4]).wr 5 [87, 79, 82, 76, 68]) []
          (Reach.fresh [10, 4] (by decide)) (by decide) (by decide) (by decide))
        (by decide) (by decide) (by decide))
      (by decide)
  ⟨⟨hr, by decide, by decide, by decide, by decide⟩,
   C7_complete_file_not_followed_by_staging doneState hr 0 doneR doneN (by decide) (by decide)
     (by decide) (by decide)⟩

/-- C9 refuted as stated: one file of length 10; the writes `IO(5, 5)` and
`IO(0, 7)` return 0, both in range, and in the state reached the staging node
starts at offset 5, before the end 7 of the bytes of the real file in front
of it. -/
theorem C9_counterexample :
    ( btFiles.IO (btFiles.fresh [10]) [] (some [87, 79, 82, 76, 68]) 5 5).code = some 0 ∧
    ( btFiles.IO ((btFiles.fresh [10]).wr 5 [87, 79, 82, 76, 68]) []
        (some [1, 2, 3, 4, 5, 6, 7]) 0 7).code = some 0 ∧
    layouts (((btFiles.fresh [10]).wr 5 [87, 79, 82, 76, 68]).wr 0
        [1, 2, 3, 4, 5, 6, 7]).chain = [(false, 0, 10, 7), (true, 5, 0, 5)] := by
  decide

/-- C9 (amended): in every state reachable from a freshly built chain by
writes in range of bytes not yet written and by calls of `FindAndMerge`,
every library call succeeding, a staging node `S` starts at or after the end
of the bytes of the node `P` in front of it. -/
theorem C9_staging_starts_after_predecessor (s : btFiles) (h : Reach s) (i : Nat)
    (P S : BTFILE) (hP : s.chain[i]? = some P) (hS : s.chain[i + 1]? = some S)
    (_ : S.bf_flag_staging = true) : P.bf_offset + P.bf_size ≤ S.bf_offset :=
  (tidyFrom_pair _ _ _ _ _ P S (reach_good s h).2.2.2.1 hP hS).1

/-- C9 (amended) at scenario 2 of the specification: the state after "WORLD"
at offset 5 and "hello" at offset 0 is reachable, and the staging node starts
at offset 5, where the five bytes of the real file end. -/
theorem C9_staging_starts_after_predecessor_witness :
    (Reach helloState ∧ helloState.chain[0]? = some helloR ∧
      helloState.chain[0 + 1]? = some helloS ∧ helloS.bf_flag_staging = true) ∧
    helloR.bf_offset + helloR.bf_size ≤ helloS.bf_offset :=
  have hr : Reach helloState :=
    Reach.write ((btFiles.fresh [10]).wr 5 [87, 79, 82, 76, 68]) [] [104, 101, 108, 108, 111] 0 0
      helloState []
      (Reach.write (btFiles.fresh [10]) [] [87, 79, 82, 76, 68] 5 0
        ((btFiles.fresh [10]).wr 5 [87, 79, 82, 76, 68]) []
        (Reach.fresh [10] (by decide)) (by decide) (by decide) (by decide))
      (by decide) (by decide) (by decide)
  ⟨⟨hr, by decide, by decide, by decide⟩,
   C9_staging_starts_after_predecessor helloState hr 0 helloR helloS (by decide) (by decide)
     (by decide)⟩

/-! ## NeedMerge (C11) -/

/-- C11 refuted as stated: in `backoffState` the time 1100 is less than
`m_write_tried + WRITE_RETRY_INTERVAL = 1300`, the failed write returned -1
and set the time stamp, and yet `NeedMerge` returns 1: the write that
followed succeeded and cleared `m_write_failed`. -/
theorem C11_counterexample :
    ( btFiles.IO { (btFiles.fresh [10]).wr 5 [87, 79, 82, 76, 68] with
          now := 1000,
          env := [FileResult.ok, FileResult.ok, FileResult.ok, FileResult.fail] }
        [] (some [1, 2]) 0 2).code = some (-1) ∧
    backoffState.m_write_tried = 1000 ∧ backoffState.now = 1100 ∧
    backoffState.now < backoffState.m_write_tried + WRITE_RETRY_INTERVAL ∧
    backoffState.m_write_failed = false ∧ backoffState.m_need_merge = true ∧
    backoffState.NeedMerge = 1 := by
  decide

/-- C11 (amended): `NeedMerge` returns 0 or 1; it returns 0 whenever
`m_write_failed` is set and `now < m_write_tried + WRITE_RETRY_INTERVAL`,
whatever the other fields are, and otherwise returns 1 exactly when
`m_need_merge` is set. -/
theorem C11_need_merge_backoff (s : btFiles) :
    (s.NeedMerge = 0 ∨ s.NeedMerge = 1) ∧
    (s.NeedMerge = 0 ↔
      (s.m_write_failed = true ∧ s.now < s.m_write_tried + WRITE_RETRY_INTERVAL) ∨
        s.m_need_merge = false) ∧
    (s.NeedMerge = 1 ↔
      ¬ (s.m_write_failed = true ∧ s.now < s.m_write_tried + WRITE_RETRY_INTERVAL) ∧
        s.m_need_merge = true) := by
  unfold btFiles.NeedMerge
  cases s.m_need_merge <;> cases s.m_write_failed <;>
    by_cases h : s.now < s.m_write_tried + WRITE_RETRY_INTERVAL <;> simp [h]

/-! ## SetFilter (C12) -/

theorem Bitfield.IsSet_lt (b : Bitfield) (k : Nat) (h : b.IsSet k = true) : k < b.NBits := by
  unfold Bitfield.IsSet at h
  unfold Bitfield.NBits
  rcases Nat.lt_or_ge k b.bits.length with h1 | h1
  · exact h1
  · rw [List.getD_eq_getElem?_getD, List.getElem?_eq_none h1] at h
    cases h

theorem Bitfield.NBits_Set (b : Bitfield) (i : Nat) : (b.Set i).NBits = b.NBits := by
  simp [Bitfield.Set, Bitfield.NBits]

theorem Bitfield.NBits_UnSet (b : Bitfield) (i : Nat) : (b.UnSet i).NBits = b.NBits := by
  simp [Bitfield.UnSet, Bitfield.NBits]

theorem Bitfield.NBits_SetAll (b : Bitfield) : b.SetAll.NBits = b.NBits := by
  simp [Bitfield.SetAll, Bitfield.NBits]

theorem Bitfield.NBits_Clear (b : Bitfield) : b.Clear.NBits = b.NBits := by
  simp [Bitfield.Clear, Bitfield.NBits]

theorem Bitfield.IsSet_SetAll (b : Bitfield) (k : Nat) :
    b.SetAll.IsSet k = decide (k < b.NBits) := by
  unfold Bitfield.SetAll Bitfield.IsSet Bitfield.NBits
  rw [List.getD_eq_getElem?_getD]
  by_cases h : k < b.bits.length
  · simp [h, List.getElem?_replicate]
  · simp [h, List.getElem?_replicate]

theorem Bitfield.IsSet_Clear (b : Bitfield) (k : Nat) : b.Clear.IsSet k = false := by
  unfold Bitfield.Clear Bitfield.IsSet
  rw [List.getD_eq_getElem?_getD]
  by_cases h : k < b.bits.length
  · simp [h, List.getElem?_replicate]
  · simp [h, List.getElem?_replicate]

theorem Bitfield.IsSet_Set (b : Bitfield) (i k : Nat) :
    (b.Set i).IsSet k = (b.IsSet k || (decide (k = i) && decide (k < b.NBits))) := by
  unfold Bitfield.Set Bitfield.IsSet Bitfield.NBits
  rw [List.getD_eq_getElem?_getD, List.getD_eq_getElem?_getD]
  by_cases h : k = i
  · subst h
    by_cases h2 : k < b.bits.length
    · simp [h2]
    · rw [List.getElem?_eq_none (by simp; omega), List.getElem?_eq_none (by omega)]
      simp [h2]
  · rw [List.getElem?_set_ne (fun h3 => h h3.symm)]
    simp [h]

theorem Bitfield.IsSet_UnSet (b : Bitfield) (i k : Nat) :
    (b.UnSet i).IsSet k = (b.IsSet k && !decide (k = i)) := by
  unfold Bitfield.UnSet Bitfield.IsSet
  rw [List.getD_eq_getElem?_getD, List.getD_eq_getElem?_getD]
  by_cases h : k = i
  · subst h
    by_cases h2 : k < b.bits.length
    · simp [h2]
    · rw [List.getElem?_eq_none (by simp; omega), List.getElem?_eq_none (by omega)]
      simp [h2]
  · rw [List.getElem?_set_ne (fun h3 => h h3.symm)]
    simp [h]

theorem Bitfield.NBits_setFrom (b : Bitfield) (i n : Nat) : (b.setFrom i n).NBits = b.NBits := by
  induction n generalizing b i with
  | zero => rfl
  | succ n ih => rw [Bitfield.setFrom, ih, Bitfield.NBits_Set]

theorem Bitfield.NBits_unsetFrom (b : Bitfield) (i n : Nat) :
    (b.unsetFrom i n).NBits = b.NBits := by
  induction n generalizing b i with
  | zero => rfl
  | succ n ih => rw [Bitfield.unsetFrom, ih, Bitfield.NBits_UnSet]

theorem Bitfield.IsSet_setFrom (b : Bitfield) (i n k : Nat) :
    (b.setFrom i n).IsSet k = true ↔ b.IsSet k = true ∨ (i ≤ k ∧ k < i + n ∧ k < b.NBits) := by
  induction n generalizing b i with
  | zero =>
    simp only [Bitfield.setFrom, Nat.add_zero]
    constructor
    · exact Or.inl
    · rintro (h | h)
      · exact h
      · omega
  | succ n ih =>
    rw [Bitfield.setFrom, ih, Bitfield.IsSet_Set, Bitfield.NBits_Set]
    simp only [Bool.or_eq_true, Bool.and_eq_true, decide_eq_true_eq]
    constructor
    · rintro ((h | h) | h)
      · exact Or.inl h
      · exact Or.inr ⟨by omega, by omega, h.2⟩
      · exact Or.inr ⟨by omega, by omega, h.2.2⟩
    · rintro (h | h)
      · exact Or.inl (Or.inl h)
      · by_cases h2 : k = i
        · exact Or.inl (Or.inr ⟨h2, h.2.2⟩)
        · exact Or.inr ⟨by omega, by omega, h.2.2⟩

theorem Bitfield.IsSet_unsetFrom (b : Bitfield) (i n k : Nat) :
    (b.unsetFrom i n).IsSet k = true ↔ b.IsSet k = true ∧ ¬ (i ≤ k ∧ k < i + n) := by
  induction n generalizing b i with
  | zero => simp [Bitfield.unsetFrom]
  | succ n ih =>
    rw [Bitfield.unsetFrom, ih, Bitfield.IsSet_UnSet]
    simp only [Bool.and_eq_true, Bool.not_eq_true', decide_eq_false_iff_not]
    constructor
    · rintro ⟨⟨h1, h2⟩, h3⟩
      exact ⟨h1, by omega⟩
    · rintro ⟨h1, h2⟩
      exact ⟨⟨h1, by omega⟩, by omega⟩

/-- The pieces from `a / pl` to the last piece that `SetFilter` computes are
the pieces that share a byte with `[a, a + l)`. -/
theorem piece_range (a l pl k : Nat) (hl : 0 < l) (hpl : 0 < pl) :
    (a / pl ≤ k ∧
      k ≤ (if a / pl < (a + l) / pl ∧ (a + l) % pl = 0 then (a + l) / pl - 1 else (a + l) / pl)) ↔
    ¬ ((k + 1) * pl ≤ a ∨ a + l ≤ k * pl) := by
  have h1 : a / pl ≤ k ↔ a < (k + 1) * pl := by
    rw [← Nat.lt_succ_iff, Nat.div_lt_iff_lt_mul hpl]
  have h2 : k ≤ (a + l) / pl ↔ k * pl ≤ a + l := Nat.le_div_iff_mul_le hpl
  have hmod := Nat.div_add_mod (a + l) pl
  by_cases hz : (a + l) % pl = 0
  · have he : pl * ((a + l) / pl) = a + l := by rw [hz] at hmod; simpa using hmod
    have hlt : a / pl < (a + l) / pl := by
      rw [Nat.div_lt_iff_lt_mul hpl]
      have : (a + l) / pl * pl = a + l := by rw [Nat.mul_comm]; exact he
      omega
    rw [if_pos ⟨hlt, hz⟩, h1]
    have h3 : k ≤ (a + l) / pl - 1 ↔ k * pl < a + l := by
      have hq : ∀ q, pl * q = a + l → (k ≤ q - 1 ↔ k * pl < a + l) := by
        intro q hq
        have hq1 : 0 < q := by
          rcases Nat.eq_zero_or_pos q with h0 | h0
          · rw [h0] at hq; omega
          · exact h0
        constructor
        · intro h
          have : (k + 1) * pl ≤ q * pl := Nat.mul_le_mul_right _ (by omega)
          rw [Nat.mul_comm q, hq, Nat.add_mul] at this
          omega
        · intro h
          have : k * pl < q * pl := by rw [Nat.mul_comm q, hq]; exact h
          have := Nat.lt_of_mul_lt_mul_right this
          omega
      exact hq _ he
    rw [h3]
    omega
  · have hif : ¬ (a / pl < (a + l) / pl ∧ (a + l) % pl = 0) := fun h => hz h.2
    rw [if_neg hif, h1, h2]
    have hne : k * pl ≠ a + l := by
      intro h
      apply hz
      rw [← h]
      exact Nat.mul_mod_left k pl
    omega

theorem filterLoop_find (s : btFiles) (nfile : Nat) (filter : Bitfield) (pl i : Nat) (p : BTFILE)
    (hp : s.chain[i]? = some p) (fuel : Nat) :
    ∀ (cur : Option Nat) (id : Nat), id < nfile →
      (∀ j, cur = some j → j < s.chain.length) →
      (realWalk s.chain fuel cur)[nfile - 1 - id]? = some i →
      s.filterLoop nfile filter pl (fuel + 1) cur id = s.filterFile i p filter pl := by
  induction fuel with
  | zero =>
    intro cur id _ _ h
    simp [realWalk] at h
  | succ fuel ih =>
    intro cur id hid hcur h
    cases cur with
    | none => simp [realWalk] at h
    | some j =>
      have hj := hcur j rfl
      rw [realWalk] at h
      rw [btFiles.filterLoop, List.getElem?_eq_getElem hj]
      simp only
      by_cases hlast : id + 1 = nfile
      · have h0 : nfile - 1 - id = 0 := by omega
        rw [h0] at h
        simp only [List.getElem?_cons_zero, Option.some.injEq] at h
        subst h
        rw [List.getElem?_eq_getElem hj] at hp
        cases hp
        rw [if_pos hlast]
      · rw [if_neg hlast]
        have h1 : nfile - 1 - id = (nfile - 1 - (id + 1)) + 1 := by omega
        rw [h1, List.getElem?_cons_succ] at h
        apply ih _ _ (by omega) _ h
        intro k hk
        exact (nextreal_some _ _ _ hk).2.1

/-- The node `fileIndex` names is a node of the chain. -/
theorem SetFilter_file (s : btFiles) (nfile : Nat) (filter : Bitfield) (pl i : Nat) (p : BTFILE)
    (hn : 1 ≤ nfile) (hm : nfile ≤ s.m_nfiles) (hidx : fileIndex s.chain nfile = some i)
    (hp : s.chain[i]? = some p) :
    s.SetFilter nfile filter pl = s.filterFile i p filter pl := by
  unfold btFiles.SetFilter
  rw [if_neg (by omega)]
  unfold fileIndex at hidx
  rw [if_neg (by omega)] at hidx
  apply filterLoop_find s nfile filter pl i p hp _ _ 0 (by omega)
  · intro j hj
    split at hj
    · cases hj
    · cases hj
      omega
  · exact hidx

/-- C12: for a file number `nfile` between 1 and `m_nfiles` whose file `p`
has a positive length (and ends below `2^64`) and a positive piece length,
whatever the size of the bit field, `SetFilter` returns and leaves the size
of the filter; bit `k` is then set exactly when piece `k` shares no byte with
the file, that is `[k * pl, (k + 1) * pl)` is disjoint from
`[bf_offset, bf_offset + bf_length)`, whichever of the two branches builds
the filter; in particular the piece that begins where the file ends is set. -/
theorem C12_set_filter (s : btFiles) (nfile : Nat) (filter : Bitfield) (pl i : Nat) (p : BTFILE)
    (hn : 1 ≤ nfile) (hm : nfile ≤ s.m_nfiles) (hidx : fileIndex s.chain nfile = some i)
    (hp : s.chain[i]? = some p) (hlen : 0 < p.bf_length) (hpl : 0 < pl)
    (hfit : p.bf_offset + p.bf_length < U64) :
    ∃ s2 f2, s.SetFilter nfile filter pl = Res.ret (s2, f2) ∧ f2.NBits = filter.NBits ∧
      layouts s2.chain = layouts s.chain ∧
      (∀ k, k < filter.NBits →
        (f2.IsSet k = true ↔
          ((k + 1) * pl ≤ p.bf_offset ∨ p.bf_offset + p.bf_length ≤ k * pl))) ∧
      (∀ k, k < filter.NBits → k * pl = p.bf_offset + p.bf_length → f2.IsSet k = true) := by
  rw [SetFilter_file s nfile filter pl i p hn hm hidx hp]
  unfold btFiles.filterFile
  rw [if_neg (by omega), if_neg (by omega), add64_of_lt _ _ hfit]
  simp only
  have hr := piece_range p.bf_offset p.bf_length pl
  generalize hstop : (if p.bf_offset / pl < (p.bf_offset + p.bf_length) / pl ∧
      (p.bf_offset + p.bf_length) % pl = 0 then (p.bf_offset + p.bf_length) / pl - 1
      else (p.bf_offset + p.bf_length) / pl) = stop at hr ⊢
  have hss : p.bf_offset / pl ≤ stop := by
    have := (hr (p.bf_offset / pl) hlen hpl).2 (by
      have h1 : p.bf_offset < (p.bf_offset / pl + 1) * pl := by
        rw [← Nat.div_lt_iff_lt_mul hpl]
        exact Nat.lt_succ_self _
      have h2 : p.bf_offset / pl * pl ≤ p.bf_offset := Nat.div_mul_le_self _ _
      omega)
    exact this.2
  generalize p.bf_offset / pl = start at hr hss ⊢
  have hchar : ∀ k, k < filter.NBits →
      ((if stop - start + 1 ≤ filter.NBits / 2 then
          filter.SetAll.unsetFrom start (stop + 1 - start)
        else (filter.Clear.setFrom 0 start).setFrom (stop + 1)
          (filter.NBits - (stop + 1))).IsSet k = true ↔
        ((k + 1) * pl ≤ p.bf_offset ∨ p.bf_offset + p.bf_length ≤ k * pl)) := by
    intro k hk
    have hrk := hr k hlen hpl
    have hd : ((k + 1) * pl ≤ p.bf_offset ∨ p.bf_offset + p.bf_length ≤ k * pl) ↔
        ¬ (start ≤ k ∧ k ≤ stop) := by
      rw [hrk]
      exact not_not.symm
    rw [hd]
    split
    · rw [Bitfield.IsSet_unsetFrom, Bitfield.IsSet_SetAll]
      simp only [decide_eq_true_eq]
      constructor
      · rintro ⟨_, h2⟩
        omega
      · intro h
        exact ⟨hk, by omega⟩
    · rw [Bitfield.IsSet_setFrom, Bitfield.IsSet_setFrom, Bitfield.IsSet_Clear,
        Bitfield.NBits_setFrom, Bitfield.NBits_Clear]
      constructor
      · rintro ((h | h) | h)
        · cases h
        · omega
        · omega
      · intro h
        by_cases h1 : k < start
        · exact Or.inl (Or.inr ⟨by omega, by omega, hk⟩)
        · exact Or.inr ⟨by omega, by omega, hk⟩
  refine ⟨_, _, rfl, ?_, ?_, hchar, ?_⟩
  · split
    · rw [Bitfield.NBits_unsetFrom, Bitfield.NBits_SetAll]
    · rw [Bitfield.NBits_setFrom, Bitfield.NBits_setFrom, Bitfield.NBits_Clear]
  · show layouts (s.chain.set i _) = layouts s.chain
    exact map_set_same _ _ _ _ _ hp rfl
  · intro k hk hke
    exact (hchar k hk).2 (Or.inr (by omega))

theorem C12_set_filter_witness :
    (1 ≤ 2 ∧ 2 ≤ (btFiles.fresh [20, 20, 7]).m_nfiles ∧
      fileIndex (btFiles.fresh [20, 20, 7]).chain 2 = some 1 ∧
      (btFiles.fresh [20, 20, 7]).chain[1]? =
        some { bf_offset := 20, bf_length := 20 } ∧
      0 < ({ bf_offset := 20, bf_length := 20 } : BTFILE).bf_length ∧ 0 < 10 ∧
      ({ bf_offset := 20, bf_length := 20 } : BTFILE).bf_offset +
        ({ bf_offset := 20, bf_length := 20 } : BTFILE).bf_length < U64) ∧
    (∃ s2 f2, (btFiles.fresh [20, 20, 7]).SetFilter 2 (Bitfield.new 5) 10 = Res.ret (s2, f2) ∧
      f2.NBits = (Bitfield.new 5).NBits ∧
      layouts s2.chain = layouts (btFiles.fresh [20, 20, 7]).chain ∧
      (∀ k, k < (Bitfield.new 5).NBits →
        (f2.IsSet k = true ↔
          ((k + 1) * 10 ≤ ({ bf_offset := 20, bf_length := 20 } : BTFILE).bf_offset ∨
            ({ bf_offset := 20, bf_length := 20 } : BTFILE).bf_offset +
              ({ bf_offset := 20, bf_length := 20 } : BTFILE).bf_length ≤ k * 10))) ∧
      (∀ k, k < (Bitfield.new 5).NBits →
        k * 10 = ({ bf_offset := 20, bf_length := 20 } : BTFILE).bf_offset +
          ({ bf_offset := 20, bf_length := 20 } : BTFILE).bf_length → f2.IsSet k = true)) ∧
    (match (btFiles.fresh [20, 20, 7]).SetFilter 2 (Bitfield.new 5) 10 with
      | Res.ret (_, f) => f.bits
      | _ => []) = [true, true, false, false, true] :=
  ⟨⟨by decide, by decide, by decide, by decide, by decide, by decide, by decide⟩,
   C12_set_filter (btFiles.fresh [20, 20, 7]) 2 (Bitfield.new 5) 10 1
     { bf_offset := 20, bf_length := 20 } (by decide) (by decide) (by decide) (by decide)
     (by decide) (by decide) (by decide),
   by decide⟩

/-! ## ChoosePiece (C13) -/

theorem nextreal_succ_real (chain : List BTFILE) (j : Nat) (n : BTFILE)
    (hn : chain[j + 1]? = some n) (hr : n.bf_flag_staging = false) :
    nextreal chain j = some (j + 1) := by
  unfold nextreal
  have hlt := lt_length_of_getElem? hn
  rw [List.drop_eq_getElem_cons hlt]
  rw [List.getElem?_eq_getElem hlt] at hn
  cases hn
  rw [firstReal, hr]
  rfl

/-- When no node up to the node `i` is a staging node and the node behind `i`
is one, the loop of `ChoosePiece` reaches the node `i` with the sets it
started with. -/
theorem chooseLoop_first (chain : List BTFILE) (choices available : Bitfield)
    (preference pl i : Nat) (R S : BTFILE) (needs nn : Bitfield)
    (hR : chain[i]? = some R) (hS : chain[i + 1]? = some S) (hSs : S.bf_flag_staging = true)
    (hreal : ∀ j p, j ≤ i → chain[j]? = some p → p.bf_flag_staging = false) (d : Nat) :
    ∀ (j fuel : Nat), j + d = i → d < fuel →
      chooseLoop chain choices available preference pl fuel (some j) needs nn =
        match chooseAt chain choices available preference pl i R S needs nn with
        | Res.ret (none, needs1, nn1) =>
          chooseLoop chain choices available preference pl (fuel - 1 - d) (nextreal chain i)
            needs1 nn1
        | r => r := by
  induction d with
  | zero =>
    intro j fuel hj hf
    obtain ⟨f, rfl⟩ : ∃ f, fuel = f + 1 := ⟨fuel - 1, by omega⟩
    have : j = i := by omega
    subst this
    rw [chooseLoop, hR, hS]
    simp only [hSs, if_true]
    rfl
  | succ d ih =>
    intro j fuel hj hf
    obtain ⟨f, rfl⟩ : ∃ f, fuel = f + 1 := ⟨fuel - 1, by omega⟩
    have hlt : j + 1 < chain.length := by
      have := lt_length_of_getElem? hR
      omega
    have hn := hreal (j + 1) chain[j + 1] (by omega) (List.getElem?_eq_getElem hlt)
    rw [chooseLoop, List.getElem?_eq_getElem (by omega : j < chain.length),
      List.getElem?_eq_getElem hlt]
    simp only [hn, Bool.false_eq_true, if_false]
    rw [nextreal_succ_real chain j _ (List.getElem?_eq_getElem hlt) hn]
    rw [ih (j + 1) f (by omega) (by omega)]
    have : f + 1 - 1 - (d + 1) = f - 1 - d := by omega
    rw [this]

theorem all_real_before (chain : List BTFILE) (i : Nat)
    (hreal : ∀ p ∈ chain.take (i + 1), p.bf_flag_staging = false) :
    ∀ j p, j ≤ i → chain[j]? = some p → p.bf_flag_staging = false := by
  intro j p hj hp
  apply hreal p
  apply List.mem_iff_getElem?.2
  exact ⟨j, by rw [List.getElem?_take_of_lt (by omega)]; exact hp⟩

/-- C13 refuted as stated: in `oddState` (file of length 100 with 15 bytes
on disk, staging file at offset 23) with piece length 10, `idx = 15 / 10 = 1`
is set in `available` and `S.offset = 23 ≤ 15 + 10`; `ChoosePiece` returns 1,
but piece 1 ends at byte 20, before the staging file: `(idx + 1) * 10 < 23`. -/
theorem C13_counterexample :
    layouts oddState.chain = [(false, 0, 100, 15), (true, 23, 0, 5)] ∧
    (Bitfield.ofList 10 [1]).IsSet ((0 + 15) / 10) = true ∧ 23 ≤ 0 + 15 + 10 ∧
    oddState.ChoosePiece (Bitfield.ofList 10 []) (Bitfield.ofList 10 [1]) 7 10 10 0 =
      Res.ret ((0 + 15) / 10) ∧
    ¬ (23 ≤ ((0 + 15) / 10 + 1) * 10) := by
  decide

/-- C13 (amended): let `R` be the first real file in chain order that is
directly followed by a staging node `S` (no node up to `R` is a staging
node), and `idx = (R.offset + R.size) / pl`.
If `idx` is set in `available` and `S.offset ≤ R.offset + R.size + pl`, then
`ChoosePiece` returns `idx`, whatever `choices` and `preference` are; the
staging file starts less than one piece length behind the end of that piece,
and the piece reaches it, `(idx + 1) * pl ≥ S.offset`, when `R.offset + R.size`
or `S.offset` is a multiple of the piece length. -/
theorem C13_choose_bridging_piece (s : btFiles) (choices available : Bitfield)
    (preference npieces pl r i : Nat) (R S : BTFILE)
    (hR : s.chain[i]? = some R) (hS : s.chain[i + 1]? = some S)
    (hSs : S.bf_flag_staging = true)
    (hfirst : ∀ p ∈ s.chain.take (i + 1), p.bf_flag_staging = false)
    (hpl : 0 < pl) (hfit : R.bf_offset + R.bf_size + pl < U64)
    (havail : available.IsSet ((R.bf_offset + R.bf_size) / pl) = true)
    (hnear : S.bf_offset ≤ R.bf_offset + R.bf_size + pl) :
    s.ChoosePiece choices available preference npieces pl r =
      Res.ret ((R.bf_offset + R.bf_size) / pl) ∧
    S.bf_offset < ((R.bf_offset + R.bf_size) / pl + 1) * pl + pl ∧
    ((R.bf_offset + R.bf_size) % pl = 0 ∨ S.bf_offset % pl = 0 →
      S.bf_offset ≤ ((R.bf_offset + R.bf_size) / pl + 1) * pl) := by
  have hreal := all_real_before s.chain i hfirst
  have hi : i < s.chain.length := lt_length_of_getElem? hR
  have hat : chooseAt s.chain choices available preference pl i R S (Bitfield.new npieces)
      (Bitfield.new npieces) =
      Res.ret (some ((R.bf_offset + R.bf_size) / pl), Bitfield.new npieces,
        Bitfield.new npieces) := by
    unfold chooseAt
    rw [if_neg (by omega), add64_of_lt _ _ (by omega), add64_of_lt _ _ hfit, havail]
    simp [hnear]
  have hloop := chooseLoop_first s.chain choices available preference pl i R S
    (Bitfield.new npieces) (Bitfield.new npieces) hR hS hSs hreal i 0 (s.chain.length + 1)
    (by omega) (by omega)
  rw [hat] at hloop
  have hlt : (R.bf_offset + R.bf_size) < ((R.bf_offset + R.bf_size) / pl + 1) * pl := by
    rw [← Nat.div_lt_iff_lt_mul hpl]
    exact Nat.lt_succ_self _
  refine ⟨?_, by omega, ?_⟩
  · unfold btFiles.ChoosePiece
    rw [if_neg (by omega), hloop]
  · rintro (h | h)
    · have := Nat.div_add_mod (R.bf_offset + R.bf_size) pl
      rw [h, Nat.add_zero, Nat.mul_comm] at this
      rw [Nat.add_mul, Nat.one_mul, this]
      exact hnear
    · have hm := Nat.div_add_mod S.bf_offset pl
      rw [h, Nat.add_zero, Nat.mul_comm] at hm
      have h1 : S.bf_offset / pl * pl < ((R.bf_offset + R.bf_size) / pl + 1 + 1) * pl := by
        rw [Nat.add_mul _ 1, Nat.one_mul, hm]
        omega
      have h2 := Nat.lt_of_mul_lt_mul_right h1
      have h3 : S.bf_offset / pl * pl ≤ ((R.bf_offset + R.bf_size) / pl + 1) * pl :=
        Nat.mul_le_mul_right _ (by omega)
      rw [hm] at h3
      exact h3

/-- C13 (amended) at `bridgeState` with piece length 10: `idx = 3` is set in
`available`, the staging file starts at `40 ≤ 30 + 10`, `ChoosePiece` returns
3 and piece 3 ends where the staging file starts. -/
theorem C13_choose_bridging_piece_witness :
    (bridgeState.chain[0]? = some bridgeR ∧ bridgeState.chain[0 + 1]? = some bridgeS ∧
      bridgeS.bf_flag_staging = true ∧
      (∀ p ∈ bridgeState.chain.take (0 + 1), p.bf_flag_staging = false) ∧
      0 < 10 ∧ bridgeR.bf_offset + bridgeR.bf_size + 10 < U64 ∧
      (Bitfield.ofList 10 [3]).IsSet ((bridgeR.bf_offset + bridgeR.bf_size) / 10) = true ∧
      bridgeS.bf_offset ≤ bridgeR.bf_offset + bridgeR.bf_size + 10) ∧
    (bridgeState.ChoosePiece (Bitfield.ofList 10 [5]) (Bitfield.ofList 10 [3]) 5 10 10 0 =
        Res.ret ((bridgeR.bf_offset + bridgeR.bf_size) / 10) ∧
      bridgeS.bf_offset < ((bridgeR.bf_offset + bridgeR.bf_size) / 10 + 1) * 10 + 10 ∧
      ((bridgeR.bf_offset + bridgeR.bf_size) % 10 = 0 ∨ bridgeS.bf_offset % 10 = 0 →
        bridgeS.bf_offset ≤ ((bridgeR.bf_offset + bridgeR.bf_size) / 10 + 1) * 10)) ∧
    bridgeState.ChoosePiece (Bitfield.ofList 10 [5]) (Bitfield.ofList 10 [3]) 5 10 10 0 =
      Res.ret 3 :=
  ⟨⟨by decide, by decide, by decide, by decide, by decide, by decide, by decide, by decide⟩,
   C13_choose_bridging_piece bridgeState (Bitfield.ofList 10 [5]) (Bitfield.ofList 10 [3])
     5 10 10 0 0 bridgeR bridgeS (by decide) (by decide) (by decide) (by decide)
     (by decide) (by decide) (by decide) (by decide),
   by decide⟩

/-! ## Gaps of ChoosePiece (C14) -/

theorem mul64_of_lt (a b : Nat) (h : a * b < U64) : mul64 a b = a * b := by
  unfold mul64
  exact Nat.mod_eq_of_lt h

/-- The marking loop ends, keeps the size of the bit field and sets the
indices from `idx` on that `choices` holds and whose piece starts before
`lim`. -/
theorem markGap_spec (choices : Bitfield) (pl lim : Nat) (hlim : lim + pl ≤ U64)
    (fuel : Nat) :
    ∀ (idx : Nat) (b : Bitfield) (found : Bool),
      lim ≤ (idx + fuel - 1) * pl → 1 ≤ fuel → idx * pl < U64 →
      ∃ b2 f2, markGap choices pl lim fuel idx b found = Res.ret (b2, f2) ∧
        b2.NBits = b.NBits ∧
        ∀ k, b2.IsSet k = true ↔
          b.IsSet k = true ∨
            (idx ≤ k ∧ k * pl < lim ∧ choices.IsSet k = true ∧ k < b.NBits) := by
  induction fuel with
  | zero => intro _ _ _ _ h; omega
  | succ fuel ih =>
    intro idx b found hf _ hidx
    rw [markGap, mul64_of_lt _ _ hidx]
    by_cases hlt : idx * pl < lim
    · rw [if_pos hlt]
      have hf1 : 1 ≤ fuel := by
        rcases Nat.eq_zero_or_pos fuel with h0 | h0
        · rw [h0] at hf
          simp only [Nat.add_zero, Nat.add_sub_cancel] at hf
          omega
        · exact h0
      have hf2 : lim ≤ (idx + 1 + fuel - 1) * pl := by
        have : idx + 1 + fuel - 1 = idx + (fuel + 1) - 1 := by omega
        rw [this]
        exact hf
      have hidx2 : (idx + 1) * pl < U64 := by
        rw [Nat.add_mul, Nat.one_mul]
        omega
      by_cases hc : choices.IsSet idx = true
      · rw [if_pos hc]
        obtain ⟨b2, f2, h1, h2, h3⟩ := ih (idx + 1) (b.Set idx) true hf2 hf1 hidx2
        refine ⟨b2, f2, h1, by rw [h2, Bitfield.NBits_Set], ?_⟩
        intro k
        rw [h3, Bitfield.IsSet_Set, Bitfield.NBits_Set]
        simp only [Bool.or_eq_true, Bool.and_eq_true, decide_eq_true_eq]
        constructor
        · rintro ((h | h) | h)
          · exact Or.inl h
          · exact Or.inr ⟨by omega, by rw [h.1]; exact hlt, by rw [h.1]; exact hc, h.2⟩
          · exact Or.inr ⟨by omega, h.2⟩
        · rintro (h | h)
          · exact Or.inl (Or.inl h)
          · by_cases hk : k = idx
            · exact Or.inl (Or.inr ⟨hk, h.2.2.2⟩)
            · exact Or.inr ⟨by omega, h.2⟩
      · rw [if_neg hc]
        obtain ⟨b2, f2, h1, h2, h3⟩ := ih (idx + 1) b found hf2 hf1 hidx2
        refine ⟨b2, f2, h1, h2, ?_⟩
        intro k
        rw [h3]
        constructor
        · rintro (h | h)
          · exact Or.inl h
          · exact Or.inr ⟨by omega, h.2⟩
        · rintro (h | h)
          · exact Or.inl h
          · by_cases hk : k = idx
            · rw [hk] at h
              exact absurd h.2.2.1 hc
            · exact Or.inr ⟨by omega, h.2⟩
    · rw [if_neg hlt]
      refine ⟨b, found, rfl, rfl, ?_⟩
      intro k
      constructor
      · exact Or.inl
      · rintro (h | h)
        · exact h
        · have : idx * pl ≤ k * pl := Nat.mul_le_mul_right _ h.1
          omega

/-- The marking loop as `ChoosePiece` starts it at the gap between the bytes
of `p` and the node `n`. -/
theorem markGap_gap (choices : Bitfield) (pl : Nat) (p n : BTFILE) (b : Bitfield) (found : Bool)
    (hpl : 0 < pl) (hp : p.bf_offset + p.bf_size < U64) (hn : n.bf_offset + pl ≤ U64) :
    ∃ b2 f2, markGap choices pl n.bf_offset (n.bf_offset + 1)
        (add64 p.bf_offset p.bf_size / pl) b found = Res.ret (b2, f2) ∧
      b2.NBits = b.NBits ∧
      ∀ k, b2.IsSet k = true ↔
        b.IsSet k = true ∨
          ((p.bf_offset + p.bf_size) / pl ≤ k ∧ k * pl < n.bf_offset ∧
            choices.IsSet k = true ∧ k < b.NBits) := by
  rw [add64_of_lt _ _ hp]
  apply markGap_spec choices pl n.bf_offset hn
  · have he : ∀ q : Nat, q + (n.bf_offset + 1) - 1 = q + n.bf_offset := by
      intro q
      omega
    rw [he]
    calc n.bf_offset = n.bf_offset * 1 := (Nat.mul_one _).symm
      _ ≤ ((p.bf_offset + p.bf_size) / pl + n.bf_offset) * pl :=
        Nat.mul_le_mul (Nat.le_add_left _ _) hpl
  · omega
  · have := Nat.div_mul_le_self (p.bf_offset + p.bf_size) pl
    omega

theorem lt_ceil_iff (a pl k : Nat) (hpl : 0 < pl) : k < (a + pl - 1) / pl ↔ k * pl < a := by
  rw [Nat.lt_iff_add_one_le, Nat.le_div_iff_mul_le hpl, Nat.add_mul, Nat.one_mul]
  omega

/-- The loop over the further gaps of a file ends and keeps the size of the
bit field. -/
theorem nextGaps_total (chain : List BTFILE) (choices : Bitfield) (pl : Nat) (hpl : 0 < pl)
    (hfit : ∀ p ∈ chain, p.bf_offset + p.bf_size + pl < U64) (fuel : Nat) :
    ∀ (j : Nat) (nn : Bitfield) (found : Bool), chain.length < fuel + j → j < chain.length →
      ∃ nn2, nextGaps chain choices pl fuel j nn found = Res.ret nn2 ∧ nn2.NBits = nn.NBits := by
  induction fuel with
  | zero => intro j _ _ h1 h2; omega
  | succ fuel ih =>
    intro j nn found hf hj
    rw [nextGaps]
    cases found with
    | true => exact ⟨nn, rfl, rfl⟩
    | false =>
      simp only [Bool.false_eq_true, if_false]
      rw [List.getElem?_eq_getElem hj]
      rcases Nat.lt_or_ge (j + 1) chain.length with h1 | h1
      · rw [List.getElem?_eq_getElem h1]
        simp only
        cases hs : (chain[j + 1]).bf_flag_staging with
        | false => exact ⟨nn, by simp, rfl⟩
        | true =>
          simp only [Bool.not_true, Bool.false_eq_true, if_false, if_neg (Nat.pos_iff_ne_zero.mp hpl)]
          have hp := hfit _ (List.getElem_mem hj)
          have hn := hfit _ (List.getElem_mem h1)
          obtain ⟨b2, f2, h2, h3, _⟩ := markGap_gap choices pl chain[j] chain[j + 1] nn false hpl
            (by omega) (by omega)
          rw [h2]
          simp only
          obtain ⟨nn2, h4, h5⟩ := ih (j + 1) b2 f2 (by omega) h1
          exact ⟨nn2, h4, by rw [h5, h3]⟩
      · rw [List.getElem?_eq_none h1]
        exact ⟨nn, rfl, rfl⟩

/-- The body of the loop of `ChoosePiece` at a gap where neither rule for an
early return applies: the pieces of the gap that `choices` holds are added to
`needs`. -/
theorem chooseAt_spec (chain : List BTFILE) (choices available : Bitfield)
    (preference pl i : Nat) (p n : BTFILE) (needs nn : Bitfield) (hpl : 0 < pl)
    (hfit : ∀ p ∈ chain, p.bf_offset + p.bf_size + pl < U64)
    (hpref : preference * pl < U64)
    (hp : chain[i]? = some p) (hn : chain[i + 1]? = some n)
    (h1 : ¬ (available.IsSet ((p.bf_offset + p.bf_size) / pl) = true ∧
        n.bf_offset ≤ p.bf_offset + p.bf_size + pl))
    (h2 : ¬ (choices.IsSet preference = true ∧ p.bf_offset ≤ preference * pl ∧
        preference * pl < n.bf_offset)) :
    ∃ needs1 nn1, chooseAt chain choices available preference pl i p n needs nn =
        Res.ret (none, needs1, nn1) ∧ needs1.NBits = needs.NBits ∧ nn1.NBits = nn.NBits ∧
      ∀ k, needs1.IsSet k = true ↔
        needs.IsSet k = true ∨
          ((p.bf_offset + p.bf_size) / pl ≤ k ∧ k * pl < n.bf_offset ∧
            choices.IsSet k = true ∧ k < needs.NBits) := by
  have hpf := hfit p (mem_of_getElem? hp)
  have hnf := hfit n (mem_of_getElem? hn)
  unfold chooseAt
  rw [if_neg (Nat.pos_iff_ne_zero.mp hpl), add64_of_lt _ _ (by omega : p.bf_offset + p.bf_size < U64),
    add64_of_lt _ _ hpf, mul64_of_lt _ _ hpref]
  rw [if_neg (by simpa using h1), if_neg (by simpa [and_assoc] using h2)]
  obtain ⟨b2, f2, h3, h4, h5⟩ := markGap_gap choices pl p n needs false hpl (by omega) (by omega)
  rw [add64_of_lt _ _ (by omega : p.bf_offset + p.bf_size < U64)] at h3
  rw [h3]
  simp only
  cases he : b2.IsEmpty with
  | false => exact ⟨b2, nn, by simp, h4, rfl, h5⟩
  | true =>
    simp only [if_true]
    obtain ⟨nn2, h6, h7⟩ := nextGaps_total chain choices pl hpl hfit (chain.length + 1) (i + 1)
      nn false (by omega) (lt_length_of_getElem? hn)
    rw [h6]
    exact ⟨b2, nn2, rfl, h4, h7, h5⟩

theorem firstReal_real (l : List BTFILE) (k m : Nat) (h : firstReal l k = some m) :
    ∃ p, l[m - k]? = some p ∧ p.bf_flag_staging = false := by
  induction l generalizing k with
  | nil => simp [firstReal] at h
  | cons a l ih =>
    unfold firstReal at h
    split at h
    · obtain ⟨p, hp, hps⟩ := ih (k + 1) h
      have hk := (firstReal_some _ _ _ h).1
      refine ⟨p, ?_, hps⟩
      have : m - k = (m - (k + 1)) + 1 := by omega
      rw [this, List.getElem?_cons_succ]
      exact hp
    · rename_i hst
      cases h
      exact ⟨a, by simp, by simpa using hst⟩

theorem nextreal_real (l : List BTFILE) (i m : Nat) (h : nextreal l i = some m) :
    ∃ p, l[m]? = some p ∧ p.bf_flag_staging = false := by
  have hm := (nextreal_some l i m h).1
  unfold nextreal at h
  obtain ⟨p, hp, hps⟩ := firstReal_real _ _ _ h
  rw [List.getElem?_drop] at hp
  have : i + 1 + (m - (i + 1)) = m := by omega
  rw [this] at hp
  exact ⟨p, hp, hps⟩

theorem gapAt_some (chain : List BTFILE) (i : Nat) (g : BTFILE × BTFILE)
    (h : g ∈ gapAt chain i) :
    chain[i]? = some g.1 ∧ chain[i + 1]? = some g.2 ∧ g.1.bf_flag_staging = false ∧
      g.2.bf_flag_staging = true := by
  unfold gapAt at h
  split at h
  · rename_i p n hp hn
    split at h
    · rename_i hc
      simp only [Option.mem_def, Option.some.injEq] at h
      subst h
      simp only [Bool.and_eq_true, Bool.not_eq_true'] at hc
      exact ⟨hp, hn, hc.1, hc.2⟩
    · simp at h
  · simp at h

theorem gapAt_eq (chain : List BTFILE) (i : Nat) (p n : BTFILE)
    (hp : chain[i]? = some p) (hn : chain[i + 1]? = some n)
    (hps : p.bf_flag_staging = false) (hns : n.bf_flag_staging = true) :
    gapAt chain i = some (p, n) := by
  unfold gapAt
  rw [hp, hn]
  simp [hps, hns]

/-- The pieces `ChoosePiece` collects in `needs` from the node `cur` on, when
no real file gives an early return: the pieces `choices` holds that lie in
the gap behind a real file. -/
theorem chooseLoop_spec (chain : List BTFILE) (choices available : Bitfield)
    (preference pl : Nat) (hpl : 0 < pl)
    (hfit : ∀ p ∈ chain, p.bf_offset + p.bf_size + pl < U64)
    (hpref : preference * pl < U64)
    (hno : ∀ i, i < chain.length → noEarly chain choices available preference pl i)
    (fuel : Nat) :
    ∀ (cur : Option Nat) (needs nn : Bitfield), 1 ≤ fuel →
      (∀ j, cur = some j → chain.length < fuel + j ∧
        ∃ p, chain[j]? = some p ∧ p.bf_flag_staging = false) →
      choices.NBits ≤ needs.NBits →
      ∃ needs2 nn2, chooseLoop chain choices available preference pl fuel cur needs nn =
          Res.ret (none, needs2, nn2) ∧ needs2.NBits = needs.NBits ∧ nn2.NBits = nn.NBits ∧
        ∀ k, needs2.IsSet k = true ↔
          needs.IsSet k = true ∨
            (choices.IsSet k = true ∧ ∃ i j, cur = some j ∧ j ≤ i ∧ inGap chain pl k i) := by
  induction fuel with
  | zero => intro _ _ _ h; omega
  | succ fuel ih =>
    intro cur needs nn _ hcur hbits
    cases cur with
    | none =>
      rw [chooseLoop]
      refine ⟨needs, nn, rfl, rfl, rfl, ?_⟩
      intro k
      constructor
      · exact Or.inl
      · rintro (h | ⟨_, i, j, h, _⟩)
        · exact h
        · cases h
    | some j =>
      obtain ⟨hf, p, hp, hps⟩ := hcur j rfl
      have hj := lt_length_of_getElem? hp
      have hf1 : 1 ≤ fuel := by omega
      -- the rest of the walk, from the next real file
      have tail : ∀ (needs1 nn1 : Bitfield), needs1.NBits = needs.NBits →
          ∃ needs2 nn2, chooseLoop chain choices available preference pl fuel (nextreal chain j)
              needs1 nn1 = Res.ret (none, needs2, nn2) ∧ needs2.NBits = needs.NBits ∧
            nn2.NBits = nn1.NBits ∧
            ∀ k, needs2.IsSet k = true ↔
              needs1.IsSet k = true ∨
                (choices.IsSet k = true ∧ ∃ i, j < i ∧ inGap chain pl k i) := by
        intro needs1 nn1 hb1
        obtain ⟨needs2, nn2, h1, h2, h3, h4⟩ := ih (nextreal chain j) needs1 nn1 hf1
          (by
            intro m hm
            obtain ⟨hm1, hm2, _⟩ := nextreal_some _ _ _ hm
            exact ⟨by omega, nextreal_real _ _ _ hm⟩)
          (by rw [hb1]; exact hbits)
        refine ⟨needs2, nn2, h1, by rw [h2, hb1], h3, ?_⟩
        intro k
        rw [h4]
        constructor
        · rintro (h | ⟨hc, i, m, hm, hmi, hg⟩)
          · exact Or.inl h
          · exact Or.inr ⟨hc, i, by have := (nextreal_some _ _ _ hm).1; omega, hg⟩
        · rintro (h | ⟨hc, i, hji, hg⟩)
          · exact Or.inl h
          · obtain ⟨g, hg1, hg2⟩ := hg
            obtain ⟨hg3, _, hg4, _⟩ := gapAt_some _ _ _ hg1
            cases hnr : nextreal chain j with
            | none =>
              have := nextreal_none _ _ hnr i g.1 hji hg3
              rw [hg4] at this
              cases this
            | some m =>
              rcases Nat.lt_or_ge i m with hlt | hge
              · obtain ⟨q, hq, hqs⟩ := (nextreal_some _ _ _ hnr).2.2 i hji hlt
                rw [hg3] at hq
                cases hq
                rw [hg4] at hqs
                cases hqs
              · exact Or.inr ⟨hc, i, m, rfl, hge, g, hg1, hg2⟩
      rw [chooseLoop, hp]
      cases hn : chain[j + 1]? with
      | none =>
        simp only
        obtain ⟨needs2, nn2, h1, h2, h3, h4⟩ := tail needs nn rfl
        refine ⟨needs2, nn2, h1, h2, h3, ?_⟩
        intro k
        rw [h4]
        constructor
        · rintro (h | ⟨hc, i, hji, hg⟩)
          · exact Or.inl h
          · exact Or.inr ⟨hc, i, j, rfl, by omega, hg⟩
        · rintro (h | ⟨hc, i, m, hm, hmi, hg⟩)
          · exact Or.inl h
          · cases hm
            rcases Nat.eq_or_lt_of_le hmi with he | hlt
            · subst he
              obtain ⟨g, hg1, _⟩ := hg
              have := (gapAt_some _ _ _ hg1).2.1
              rw [hn] at this
              cases this
            · exact Or.inr ⟨hc, i, hlt, hg⟩
      | some n =>
        simp only
        cases hns : n.bf_flag_staging with
        | false =>
          simp only [Bool.false_eq_true, if_false]
          obtain ⟨needs2, nn2, h1, h2, h3, h4⟩ := tail needs nn rfl
          refine ⟨needs2, nn2, h1, h2, h3, ?_⟩
          intro k
          rw [h4]
          constructor
          · rintro (h | ⟨hc, i, hji, hg⟩)
            · exact Or.inl h
            · exact Or.inr ⟨hc, i, j, rfl, by omega, hg⟩
          · rintro (h | ⟨hc, i, m, hm, hmi, hg⟩)
            · exact Or.inl h
            · cases hm
              rcases Nat.eq_or_lt_of_le hmi with he | hlt
              · subst he
                obtain ⟨g, hg1, _⟩ := hg
                obtain ⟨_, hg3, _, hg4⟩ := gapAt_some _ _ _ hg1
                rw [hn] at hg3
                cases hg3
                rw [hns] at hg4
                cases hg4
              · exact Or.inr ⟨hc, i, hlt, hg⟩
        | true =>
          simp only [if_true]
          have hg := gapAt_eq chain j p n hp hn hps hns
          obtain ⟨e1, e2⟩ := hno j hj (p, n) hg
          obtain ⟨needs1, nn1, c1, c2, c3, c4⟩ := chooseAt_spec chain choices available
            preference pl j p n needs nn hpl hfit hpref hp hn e1 e2
          rw [c1]
          simp only
          obtain ⟨needs2, nn2, h1, h2, h3, h4⟩ := tail needs1 nn1 c2
          refine ⟨needs2, nn2, h1, h2, by rw [h3, c3], ?_⟩
          intro k
          rw [h4, c4]
          constructor
          · rintro ((h | ⟨a1, a2, a3, _⟩) | ⟨hc, i, hji, hgi⟩)
            · exact Or.inl h
            · exact Or.inr ⟨a3, j, j, rfl, Nat.le_refl _, (p, n), hg, a1,
                (lt_ceil_iff _ _ _ hpl).2 a2⟩
            · exact Or.inr ⟨hc, i, j, rfl, by omega, hgi⟩
          · rintro (h | ⟨hc, i, m, hm, hmi, hgi⟩)
            · exact Or.inl (Or.inl h)
            · cases hm
              rcases Nat.eq_or_lt_of_le hmi with he | hlt
              · subst he
                obtain ⟨g, hg1, hg2, hg3⟩ := hgi
                rw [hg] at hg1
                cases hg1
                exact Or.inl (Or.inr ⟨hg2, (lt_ceil_iff _ _ _ hpl).1 hg3, hc,
                  Nat.lt_of_lt_of_le (Bitfield.IsSet_lt _ _ hc) hbits⟩)
              · exact Or.inr ⟨hc, i, hlt, hgi⟩

theorem Bitfield.mem_members (b : Bitfield) (k : Nat) :
    k ∈ b.members ↔ b.IsSet k = true := by
  unfold Bitfield.members
  rw [List.mem_filter, List.mem_range]
  constructor
  · exact fun h => h.2
  · exact fun h => ⟨Bitfield.IsSet_lt b k h, h⟩

theorem Bitfield.IsEmpty_iff (b : Bitfield) : b.IsEmpty = true ↔ ∀ k, b.IsSet k = false := by
  unfold Bitfield.IsEmpty Bitfield.IsSet
  rw [List.all_eq_true]
  constructor
  · intro h k
    rw [List.getD_eq_getElem?_getD]
    cases hk : b.bits[k]? with
    | none => rfl
    | some x =>
      have := h x (mem_of_getElem? hk)
      simpa using this
  · intro h x hx
    obtain ⟨k, hk⟩ := List.mem_iff_getElem?.1 hx
    have := h k
    rw [List.getD_eq_getElem?_getD, hk] at this
    simpa using this

/-- The pick of `Random` is an index that is set, when there is one. -/
theorem Bitfield.IsSet_Random (b : Bitfield) (r k : Nat) (h : b.IsSet k = true) :
    b.IsSet (b.Random r) = true := by
  rw [← Bitfield.mem_members] at h ⊢
  unfold Bitfield.Random
  have hl : 0 < b.members.length := List.length_pos_of_mem h
  rw [List.getD_eq_getElem?_getD, List.getElem?_eq_getElem (Nat.mod_lt _ hl)]
  exact List.getElem_mem _

/-- The marking loop reports in `found` whether `choices` holds an index from
`idx` on whose piece starts before `lim`. -/
theorem markGap_found (choices : Bitfield) (pl lim : Nat) (fuel : Nat) :
    ∀ (idx : Nat) (b : Bitfield) (found : Bool) (b2 : Bitfield) (f2 : Bool),
      idx * pl < U64 → lim + pl ≤ U64 →
      markGap choices pl lim fuel idx b found = Res.ret (b2, f2) →
      (f2 = true ↔ found = true ∨ ∃ k, idx ≤ k ∧ k * pl < lim ∧ choices.IsSet k = true) := by
  induction fuel with
  | zero => intro _ _ _ _ _ _ _ h; simp [markGap] at h
  | succ fuel ih =>
    intro idx b found b2 f2 hidx hlim h
    rw [markGap, mul64_of_lt _ _ hidx] at h
    by_cases hlt : idx * pl < lim
    · rw [if_pos hlt] at h
      have hidx2 : (idx + 1) * pl < U64 := by
        rw [Nat.add_mul, Nat.one_mul]
        omega
      by_cases hc : choices.IsSet idx = true
      · rw [if_pos hc] at h
        have := ih (idx + 1) (b.Set idx) true b2 f2 hidx2 hlim h
        rw [this]
        constructor
        · intro _
          exact Or.inr ⟨idx, Nat.le_refl _, hlt, hc⟩
        · intro _
          exact Or.inl rfl
      · rw [if_neg hc] at h
        have := ih (idx + 1) b found b2 f2 hidx2 hlim h
        rw [this]
        constructor
        · rintro (h1 | ⟨k, h1, h2, h3⟩)
          · exact Or.inl h1
          · exact Or.inr ⟨k, by omega, h2, h3⟩
        · rintro (h1 | ⟨k, h1, h2, h3⟩)
          · exact Or.inl h1
          · by_cases hk : k = idx
            · rw [hk] at h3
              exact absurd h3 hc
            · exact Or.inr ⟨k, by omega, h2, h3⟩
    · rw [if_neg hlt] at h
      simp only [Res.ret.injEq, Prod.mk.injEq] at h
      rw [← h.2]
      constructor
      · exact Or.inl
      · rintro (h1 | ⟨k, h1, h2, h3⟩)
        · exact h1
        · have : idx * pl ≤ k * pl := Nat.mul_le_mul_right _ h1
          omega

theorem nextGaps_found (chain : List BTFILE) (choices : Bitfield) (pl fuel j : Nat)
    (nn : Bitfield) : nextGaps chain choices pl (fuel + 1) j nn true = Res.ret nn := by
  rw [nextGaps]
  simp

/-- The loop over the further gaps of a file, entered at the node of index
`j` with `found = 0`: it adds to `needsnext` the pieces of `choices` in the
first gap between two nodes, from `j` on, that holds one, as long as staging
nodes follow. -/
theorem nextGaps_spec (chain : List BTFILE) (choices : Bitfield) (pl : Nat) (hpl : 0 < pl)
    (hfit : ∀ p ∈ chain, p.bf_offset + p.bf_size + pl < U64) (fuel : Nat) :
    ∀ (j : Nat) (nn : Bitfield), chain.length < fuel + j → j < chain.length →
      choices.NBits ≤ nn.NBits →
      ∃ nn2, nextGaps chain choices pl fuel j nn false = Res.ret nn2 ∧ nn2.NBits = nn.NBits ∧
        ∀ k, nn2.IsSet k = true ↔
          nn.IsSet k = true ∨
            (choices.IsSet k = true ∧
              ∃ j2, firstLaterGap chain choices pl j j2 ∧ laterGap chain pl k j2) := by
  induction fuel with
  | zero => intro j _ h1 h2; omega
  | succ fuel ih =>
    intro j nn hf hj hbits
    rw [nextGaps]
    simp only [Bool.false_eq_true, if_false]
    rw [List.getElem?_eq_getElem hj]
    -- without a staging node behind `j` nothing is added
    have hstop : (∀ n, chain[j + 1]? = some n → n.bf_flag_staging = false) →
        ∀ k, nn.IsSet k = true ↔
          nn.IsSet k = true ∨
            (choices.IsSet k = true ∧
              ∃ j2, firstLaterGap chain choices pl j j2 ∧ laterGap chain pl k j2) := by
      intro hno k
      constructor
      · exact Or.inl
      · rintro (h | ⟨_, j2, ⟨h1, h2, _⟩, _⟩)
        · exact h
        · obtain ⟨q, hq, hqs⟩ := h2 (j + 1) (by omega) (by omega)
          rw [hno q hq] at hqs
          cases hqs
    rcases Nat.lt_or_ge (j + 1) chain.length with h1 | h1
    · rw [List.getElem?_eq_getElem h1]
      simp only
      cases hs : (chain[j + 1]).bf_flag_staging with
      | false =>
        refine ⟨nn, by simp, rfl, hstop ?_⟩
        intro n hn
        rw [List.getElem?_eq_getElem h1] at hn
        cases hn
        exact hs
      | true =>
        simp only [Bool.not_true, Bool.false_eq_true, if_false,
          if_neg (Nat.pos_iff_ne_zero.mp hpl)]
        have hp := hfit _ (List.getElem_mem hj)
        have hn := hfit _ (List.getElem_mem h1)
        obtain ⟨b2, f2, h2, h3, h4⟩ := markGap_gap choices pl chain[j] chain[j + 1] nn false hpl
          (by omega) (by omega)
        have hfound := markGap_found choices pl _ _ _ nn false b2 f2
          (by
            rw [add64_of_lt _ _ (by omega)]
            have := Nat.div_mul_le_self ((chain[j]).bf_offset + (chain[j]).bf_size) pl
            omega)
          (by omega) h2
        rw [add64_of_lt _ _ (by omega)] at hfound
        rw [h2]
        simp only
        -- the gap behind `j` in the words of `laterGap`
        have hgap : ∀ k, laterGap chain pl k j ↔
            (((chain[j]).bf_offset + (chain[j]).bf_size) / pl ≤ k ∧
              k * pl < (chain[j + 1]).bf_offset) := by
          intro k
          constructor
          · rintro ⟨pt, n, e1, e2, _, e3, e4⟩
            rw [List.getElem?_eq_getElem hj] at e1
            rw [List.getElem?_eq_getElem h1] at e2
            cases e1
            cases e2
            exact ⟨e3, e4⟩
          · rintro ⟨e3, e4⟩
            exact ⟨_, _, List.getElem?_eq_getElem hj, List.getElem?_eq_getElem h1, hs, e3, e4⟩
        have hlt : ∀ k, choices.IsSet k = true → k < nn.NBits := fun k hk =>
          Nat.lt_of_lt_of_le (Bitfield.IsSet_lt _ _ hk) hbits
        cases hf2 : f2 with
        | true =>
          have hfuel : ∃ f, fuel = f + 1 := ⟨fuel - 1, by omega⟩
          obtain ⟨f, hfe⟩ := hfuel
          rw [hfe, nextGaps_found]
          rw [hf2] at hfound
          obtain ⟨k0, hk0⟩ : ∃ k, ((chain[j]).bf_offset + (chain[j]).bf_size) / pl ≤ k ∧
              k * pl < (chain[j + 1]).bf_offset ∧ choices.IsSet k = true := by
            rcases hfound.1 rfl with h | h
            · cases h
            · exact h
          refine ⟨b2, rfl, h3, ?_⟩
          intro k
          rw [h4]
          constructor
          · rintro (h | ⟨e1, e2, e3, _⟩)
            · exact Or.inl h
            · refine Or.inr ⟨e3, j, ⟨Nat.le_refl _, ?_, ?_⟩, (hgap k).2 ⟨e1, e2⟩⟩
              · intro m hm1 hm2
                have : m = j + 1 := by omega
                subst this
                exact ⟨_, List.getElem?_eq_getElem h1, hs⟩
              · intro j1 hj1 hj2
                omega
          · rintro (h | ⟨e1, j2, ⟨e2, _, e4⟩, e5⟩)
            · exact Or.inl h
            · rcases Nat.eq_or_lt_of_le e2 with he | hlt2
              · subst he
                have := (hgap k).1 e5
                exact Or.inr ⟨this.1, this.2, e1, hlt k e1⟩
              · exact absurd ((hgap k0).2 ⟨hk0.1, hk0.2.1⟩) (e4 j (Nat.le_refl _) hlt2 k0 hk0.2.2)
        | false =>
          rw [hf2] at hfound
          have hnone : ∀ k, choices.IsSet k = true → ¬ laterGap chain pl k j := by
            intro k hk hg
            have := (hgap k).1 hg
            have : false = true := hfound.2 (Or.inr ⟨k, this.1, this.2, hk⟩)
            cases this
          obtain ⟨nn2, h5, h6, h7⟩ := ih (j + 1) b2 (by omega) h1 (by rw [h3]; exact hbits)
          refine ⟨nn2, h5, by rw [h6, h3], ?_⟩
          intro k
          rw [h7, h4]
          constructor
          · rintro ((h | ⟨e1, e2, e3, _⟩) | ⟨e1, j2, ⟨e2, e3, e4⟩, e5⟩)
            · exact Or.inl h
            · exact absurd ((hgap k).2 ⟨e1, e2⟩) (hnone k e3)
            · refine Or.inr ⟨e1, j2, ⟨by omega, ?_, ?_⟩, e5⟩
              · intro m hm1 hm2
                rcases Nat.eq_or_lt_of_le (Nat.succ_le_of_lt hm1) with he | hlt2
                · rw [← he]
                  exact ⟨_, List.getElem?_eq_getElem h1, hs⟩
                · exact e3 m hlt2 hm2
              · intro j1 hj1 hj2
                rcases Nat.eq_or_lt_of_le hj1 with he | hlt2
                · rw [← he]
                  exact hnone
                · exact e4 j1 hlt2 hj2
          · rintro (h | ⟨e1, j2, ⟨e2, e3, e4⟩, e5⟩)
            · exact Or.inl (Or.inl h)
            · rcases Nat.eq_or_lt_of_le e2 with he | hlt2
              · subst he
                exact absurd e5 (hnone k e1)
              · exact Or.inr ⟨e1, j2, ⟨hlt2, fun m hm1 hm2 => e3 m (by omega) hm2,
                  fun j1 hj1 hj2 => e4 j1 (by omega) hj2⟩, e5⟩
    · rw [List.getElem?_eq_none h1]
      refine ⟨nn, rfl, rfl, hstop ?_⟩
      intro n hn
      rw [List.getElem?_eq_none h1] at hn
      cases hn

/-- The body of the loop of `ChoosePiece` at a gap where neither rule for an
early return applies and which leaves `needs` empty: the pieces of `choices`
in the first further gap of the file that holds one are added to
`needsnext`. -/
theorem chooseAt_next (chain : List BTFILE) (choices available : Bitfield)
    (preference pl i : Nat) (p n : BTFILE) (needs nn : Bitfield) (hpl : 0 < pl)
    (hfit : ∀ p ∈ chain, p.bf_offset + p.bf_size + pl < U64)
    (hpref : preference * pl < U64)
    (hp : chain[i]? = some p) (hn : chain[i + 1]? = some n)
    (h1 : ¬ (available.IsSet ((p.bf_offset + p.bf_size) / pl) = true ∧
        n.bf_offset ≤ p.bf_offset + p.bf_size + pl))
    (h2 : ¬ (choices.IsSet preference = true ∧ p.bf_offset ≤ preference * pl ∧
        preference * pl < n.bf_offset))
    (hbits : choices.NBits ≤ nn.NBits) (needs1 nn1 : Bitfield)
    (hc : chooseAt chain choices available preference pl i p n needs nn =
      Res.ret (none, needs1, nn1))
    (he : ∀ k, needs1.IsSet k = false) :
    ∀ k, nn1.IsSet k = true ↔
      nn.IsSet k = true ∨
        (choices.IsSet k = true ∧
          ∃ j2, firstLaterGap chain choices pl (i + 1) j2 ∧ laterGap chain pl k j2) := by
  have hpf := hfit p (mem_of_getElem? hp)
  have hnf := hfit n (mem_of_getElem? hn)
  unfold chooseAt at hc
  rw [if_neg (Nat.pos_iff_ne_zero.mp hpl), add64_of_lt _ _ (by omega : p.bf_offset + p.bf_size < U64),
    add64_of_lt _ _ hpf, mul64_of_lt _ _ hpref] at hc
  rw [if_neg (by simpa using h1), if_neg (by simpa [and_assoc] using h2)] at hc
  obtain ⟨b2, f2, h3, h4, h5⟩ := markGap_gap choices pl p n needs false hpl (by omega) (by omega)
  rw [add64_of_lt _ _ (by omega : p.bf_offset + p.bf_size < U64)] at h3
  rw [h3] at hc
  simp only at hc
  cases hb : b2.IsEmpty with
  | false =>
    rw [hb] at hc
    simp only [Bool.false_eq_true, if_false, Res.ret.injEq, Prod.mk.injEq, true_and] at hc
    rw [← hc.1] at he
    rw [(Bitfield.IsEmpty_iff _).2 he] at hb
    cases hb
  | true =>
    rw [hb] at hc
    simp only [if_true] at hc
    obtain ⟨nn2, h6, _, h8⟩ := nextGaps_spec chain choices pl hpl hfit (chain.length + 1) (i + 1)
      nn (by omega) (lt_length_of_getElem? hn) hbits
    rw [h6] at hc
    simp only [Res.ret.injEq, Prod.mk.injEq, true_and] at hc
    rw [← hc.2]
    exact h8

theorem nextreal_cover (chain : List BTFILE) (j : Nat) (P : Nat → Prop)
    (hP : ∀ i, P i → ∃ p, chain[i]? = some p ∧ p.bf_flag_staging = false) :
    (∃ i m, nextreal chain j = some m ∧ m ≤ i ∧ P i) ↔ ∃ i, j < i ∧ P i := by
  constructor
  · rintro ⟨i, m, hm, hmi, h⟩
    exact ⟨i, by have := (nextreal_some _ _ _ hm).1; omega, h⟩
  · rintro ⟨i, hji, h⟩
    obtain ⟨p, hp, hps⟩ := hP i h
    cases hnr : nextreal chain j with
    | none =>
      have := nextreal_none _ _ hnr i p hji hp
      rw [hps] at this
      cases this
    | some m =>
      rcases Nat.lt_or_ge i m with hlt | hge
      · obtain ⟨q, hq, hqs⟩ := (nextreal_some _ _ _ hnr).2.2 i hji hlt
        rw [hp] at hq
        cases hq
        rw [hps] at hqs
        cases hqs
      · exact ⟨i, m, rfl, hge, h⟩

theorem inNextGap_real (chain : List BTFILE) (choices : Bitfield) (pl k i : Nat)
    (h : inNextGap chain choices pl k i) :
    ∃ p, chain[i]? = some p ∧ p.bf_flag_staging = false := by
  obtain ⟨h1, _⟩ := h
  cases hg : gapAt chain i with
  | none => rw [hg] at h1; cases h1
  | some g =>
    have := gapAt_some chain i g (by rw [hg]; exact rfl)
    exact ⟨g.1, this.1, this.2.2.1⟩

/-- The pieces `ChoosePiece` collects in `needsnext` from the node `cur` on,
when no real file gives an early return and `needs` stays empty. -/
theorem chooseLoop_next (chain : List BTFILE) (choices available : Bitfield)
    (preference pl : Nat) (hpl : 0 < pl)
    (hfit : ∀ p ∈ chain, p.bf_offset + p.bf_size + pl < U64)
    (hpref : preference * pl < U64)
    (hno : ∀ i, i < chain.length → noEarly chain choices available preference pl i)
    (fuel : Nat) :
    ∀ (cur : Option Nat) (needs nn needs2 nn2 : Bitfield), 1 ≤ fuel →
      (∀ j, cur = some j → chain.length < fuel + j ∧
        ∃ p, chain[j]? = some p ∧ p.bf_flag_staging = false) →
      choices.NBits ≤ needs.NBits → choices.NBits ≤ nn.NBits →
      chooseLoop chain choices available preference pl fuel cur needs nn =
        Res.ret (none, needs2, nn2) →
      (∀ k, needs2.IsSet k = false) →
      ∀ k, nn2.IsSet k = true ↔
        nn.IsSet k = true ∨
          (choices.IsSet k = true ∧
            ∃ i j, cur = some j ∧ j ≤ i ∧ inNextGap chain choices pl k i) := by
  induction fuel with
  | zero => intro _ _ _ _ _ h; omega
  | succ fuel ih =>
    intro cur needs nn needs2 nn2 _ hcur hbits hbn hrun hempty
    cases cur with
    | none =>
      rw [chooseLoop] at hrun
      simp only [Res.ret.injEq, Prod.mk.injEq, true_and] at hrun
      rw [← hrun.2]
      intro k
      constructor
      · exact Or.inl
      · rintro (h | ⟨_, i, j, h, _⟩)
        · exact h
        · cases h
    | some j =>
      obtain ⟨hf, p, hp, hps⟩ := hcur j rfl
      have hj := lt_length_of_getElem? hp
      have hf1 : 1 ≤ fuel := by omega
      have htailcur : ∀ m, nextreal chain j = some m → chain.length < fuel + m ∧
          ∃ p, chain[m]? = some p ∧ p.bf_flag_staging = false := by
        intro m hm
        obtain ⟨hm1, hm2, _⟩ := nextreal_some _ _ _ hm
        exact ⟨by omega, nextreal_real _ _ _ hm⟩
      -- the rest of the walk, from the next real file
      have tail : ∀ (needs1 nn1 : Bitfield), choices.NBits ≤ needs1.NBits →
          choices.NBits ≤ nn1.NBits →
          chooseLoop chain choices available preference pl fuel (nextreal chain j)
              needs1 nn1 = Res.ret (none, needs2, nn2) →
          (∀ k, needs1.IsSet k = false) ∧
          ∀ k, nn2.IsSet k = true ↔
            nn1.IsSet k = true ∨
              (choices.IsSet k = true ∧ ∃ i, j < i ∧ inNextGap chain choices pl k i) := by
        intro needs1 nn1 hb1 hb2 hr
        constructor
        · obtain ⟨needs3, nn3, e1, _, _, e4⟩ := chooseLoop_spec chain choices available preference
            pl hpl hfit hpref hno fuel (nextreal chain j) needs1 nn1 hf1 htailcur hb1
          rw [hr] at e1
          simp only [Res.ret.injEq, Prod.mk.injEq, true_and] at e1
          intro k
          cases hk : needs1.IsSet k with
          | false => rfl
          | true =>
            have := (e4 k).2 (Or.inl hk)
            rw [← e1.1, hempty k] at this
            cases this
        · intro k
          rw [ih (nextreal chain j) needs1 nn1 needs2 nn2 hf1 htailcur hb1 hb2 hr hempty k,
            nextreal_cover chain j (fun i => inNextGap chain choices pl k i)
              (fun i h => inNextGap_real chain choices pl k i h)]
      -- without a staging node behind `j` the file adds nothing
      have hskip : gapAt chain j = none →
          chooseLoop chain choices available preference pl fuel (nextreal chain j)
              needs nn = Res.ret (none, needs2, nn2) →
          ∀ k, nn2.IsSet k = true ↔
            nn.IsSet k = true ∨
              (choices.IsSet k = true ∧
                ∃ i j0, some j = some j0 ∧ j0 ≤ i ∧ inNextGap chain choices pl k i) := by
        intro hg hr k
        rw [(tail needs nn hbits hbn hr).2 k]
        constructor
        · rintro (h | ⟨hc, i, hji, hi⟩)
          · exact Or.inl h
          · exact Or.inr ⟨hc, i, j, rfl, by omega, hi⟩
        · rintro (h | ⟨hc, i, j0, hj0, hji, hi⟩)
          · exact Or.inl h
          · cases hj0
            rcases Nat.eq_or_lt_of_le hji with he | hlt
            · subst he
              have := hi.1
              rw [hg] at this
              cases this
            · exact Or.inr ⟨hc, i, hlt, hi⟩
      rw [chooseLoop, hp] at hrun
      cases hn : chain[j + 1]? with
      | none =>
        rw [hn] at hrun
        simp only at hrun
        exact hskip (by unfold gapAt; rw [hp, hn]) hrun
      | some n =>
        rw [hn] at hrun
        simp only at hrun
        cases hns : n.bf_flag_staging with
        | false =>
          rw [hns] at hrun
          simp only [Bool.false_eq_true, if_false] at hrun
          exact hskip (by unfold gapAt; rw [hp, hn]; simp [hns]) hrun
        | true =>
          rw [hns] at hrun
          simp only [if_true] at hrun
          have hg := gapAt_eq chain j p n hp hn hps hns
          obtain ⟨e1, e2⟩ := hno j hj (p, n) (by rw [hg]; exact rfl)
          obtain ⟨needs1, nn1, h3, h4, h5, h6⟩ := chooseAt_spec chain choices available
            preference pl j p n needs nn hpl hfit hpref hp hn e1 e2
          rw [h3] at hrun
          simp only at hrun
          obtain ⟨t1, t2⟩ := tail needs1 nn1 (by rw [h4]; exact hbits) (by rw [h5]; exact hbn) hrun
          have hnext := chooseAt_next chain choices available preference pl j p n needs nn hpl
            hfit hpref hp hn e1 e2 hbn needs1 nn1 h3 t1
          intro k
          rw [t2 k, hnext k]
          constructor
          · rintro ((h | ⟨hc, j2, h7, h8⟩) | ⟨hc, i, hji, hi⟩)
            · exact Or.inl h
            · exact Or.inr ⟨hc, j, j, rfl, Nat.le_refl _, by rw [hg]; rfl, j2, h7, h8⟩
            · exact Or.inr ⟨hc, i, j, rfl, by omega, hi⟩
          · rintro (h | ⟨hc, i, j0, hj0, hji, hi⟩)
            · exact Or.inl (Or.inl h)
            · cases hj0
              rcases Nat.eq_or_lt_of_le hji with he | hlt
              · subst he
                obtain ⟨_, j2, h7, h8⟩ := hi
                exact Or.inl (Or.inr ⟨hc, j2, h7, h8⟩)
              · exact Or.inr ⟨hc, i, hlt, hi⟩

/-- C14: when neither the bridging rule nor the preference rule applies at
any real file that a staging node follows (`noEarly`), the loop of
`ChoosePiece` ends without a result and leaves in `needs` exactly the pieces
of `choices` whose index lies in `[(R.offset + R.size) / pl, ⌈S.offset / pl⌉)`
for some real file `R` followed by a staging node `S`; when `needs` is empty
it leaves in `needsnext` exactly the pieces of `choices` that lie, for some
such file, in the first gap between two staging nodes of the file that holds
a piece of `choices`; `ChoosePiece` returns a member of `needs` when there is
one, otherwise a member of `needsnext` when there is one and `preference` is
not among them, otherwise `preference`. -/
theorem C14_choose_from_needs (s : btFiles) (choices available : Bitfield)
    (preference npieces pl r : Nat) (hpl : 0 < pl)
    (hhead : ∀ p ∈ s.chain.head?, p.bf_flag_staging = false)
    (hbits : choices.NBits ≤ npieces)
    (hfit : ∀ p ∈ s.chain, p.bf_offset + p.bf_size + pl < U64)
    (hpref : preference * pl < U64)
    (hno : ∀ i, i < s.chain.length → noEarly s.chain choices available preference pl i) :
    ∃ res needs needsnext,
      s.ChoosePiece choices available preference npieces pl r = Res.ret res ∧
      chooseLoop s.chain choices available preference pl (s.chain.length + 1)
          (if s.chain.length = 0 then none else some 0) (Bitfield.new npieces)
          (Bitfield.new npieces) = Res.ret (none, needs, needsnext) ∧
      (∀ k, needs.IsSet k = true ↔ choices.IsSet k = true ∧ ∃ i, inGap s.chain pl k i) ∧
      ((∀ k, needs.IsSet k = false) →
        ∀ k, needsnext.IsSet k = true ↔
          choices.IsSet k = true ∧ ∃ i, inNextGap s.chain choices pl k i) ∧
      ((∃ k, needs.IsSet k = true) → needs.IsSet res = true) ∧
      ((∀ k, needs.IsSet k = false) → (∃ k, needsnext.IsSet k = true) →
        needsnext.IsSet preference = false → needsnext.IsSet res = true) ∧
      ((∀ k, needs.IsSet k = false) →
        (∀ k, needsnext.IsSet k = false) ∨ needsnext.IsSet preference = true →
        res = preference) := by
  have hcur : ∀ j, (if s.chain.length = 0 then none else some 0) = some j →
      s.chain.length < s.chain.length + 1 + j ∧
        ∃ p, s.chain[j]? = some p ∧ p.bf_flag_staging = false := by
    intro j hj
    split at hj
    · cases hj
    · cases hj
      rename_i hne
      refine ⟨by omega, ?_⟩
      have hlt : 0 < s.chain.length := Nat.pos_of_ne_zero hne
      refine ⟨s.chain[0], List.getElem?_eq_getElem hlt, hhead _ ?_⟩
      rw [List.head?_eq_getElem?, List.getElem?_eq_getElem hlt]
      rfl
  have hnb : choices.NBits ≤ (Bitfield.new npieces).NBits := by
    simpa [Bitfield.new, Bitfield.NBits] using hbits
  obtain ⟨needs, nn, h1, _, _, h4⟩ := chooseLoop_spec s.chain choices available preference pl
    hpl hfit hpref hno (s.chain.length + 1) (if s.chain.length = 0 then none else some 0)
    (Bitfield.new npieces) (Bitfield.new npieces) (by omega) hcur hnb
  have hnext := chooseLoop_next s.chain choices available preference pl hpl hfit hpref hno
    (s.chain.length + 1) (if s.chain.length = 0 then none else some 0)
    (Bitfield.new npieces) (Bitfield.new npieces) needs nn (by omega) hcur hnb hnb h1
  have hnew : ∀ k, (Bitfield.new npieces).IsSet k = false := by
    intro k
    cases hk : (Bitfield.new npieces).IsSet k with
    | false => rfl
    | true =>
      have hlt := Bitfield.IsSet_lt _ _ hk
      unfold Bitfield.IsSet Bitfield.new at hk
      unfold Bitfield.NBits Bitfield.new at hlt
      simp only [List.length_replicate] at hlt
      rw [List.getD_eq_getElem?_getD, List.getElem?_replicate, if_pos hlt] at hk
      cases hk
  refine ⟨if needs.IsEmpty then
      (if nn.IsEmpty || nn.IsSet preference then preference else nn.Random r)
    else needs.Random r, needs, nn, ?_, h1, ?_, ?_, ?_, ?_, ?_⟩
  · unfold btFiles.ChoosePiece
    rw [h1]
  · intro k
    rw [h4, hnew]
    constructor
    · rintro (h | ⟨hc, i, j, _, _, hg⟩)
      · cases h
      · exact ⟨hc, i, hg⟩
    · rintro ⟨hc, i, hg⟩
      refine Or.inr ⟨hc, i, 0, ?_, Nat.zero_le _, hg⟩
      obtain ⟨g, hg1, _⟩ := hg
      have := lt_length_of_getElem? (gapAt_some _ _ _ hg1).1
      rw [if_neg (by omega)]
  · intro he k
    rw [hnext he k, hnew]
    constructor
    · rintro (h | ⟨hc, i, j, _, _, hg⟩)
      · cases h
      · exact ⟨hc, i, hg⟩
    · rintro ⟨hc, i, hg⟩
      refine Or.inr ⟨hc, i, 0, ?_, Nat.zero_le _, hg⟩
      obtain ⟨p, hp, _⟩ := inNextGap_real _ _ _ _ _ hg
      have := lt_length_of_getElem? hp
      rw [if_neg (by omega)]
  · rintro ⟨k, hk⟩
    have hne : needs.IsEmpty = false := by
      cases he : needs.IsEmpty with
      | false => rfl
      | true =>
        rw [(Bitfield.IsEmpty_iff _).1 he k] at hk
        cases hk
    simp only [hne, Bool.false_eq_true, if_false]
    exact Bitfield.IsSet_Random _ _ _ hk
  · intro he ⟨k, hk⟩ hp
    have he1 := (Bitfield.IsEmpty_iff _).2 he
    have hne : nn.IsEmpty = false := by
      cases he2 : nn.IsEmpty with
      | false => rfl
      | true =>
        rw [(Bitfield.IsEmpty_iff _).1 he2 k] at hk
        cases hk
    simp only [he1, hne, hp, if_true, Bool.or_self, Bool.false_eq_true, if_false]
    exact Bitfield.IsSet_Random _ _ _ hk
  · intro he h
    have he1 := (Bitfield.IsEmpty_iff _).2 he
    simp only [he1, if_true]
    rcases h with h | h
    · rw [(Bitfield.IsEmpty_iff _).2 h]
      simp
    · rw [h]
      simp

/-- C14 at scenario 6 of the specification (`gapState`, piece length 10,
`choices` {3, 4, 7}, `preference` 7): `ChoosePiece` returns 3 or 4, the pieces
of the gap `[30, 50)`; and at `twoGapState` with `choices` {7} and
`preference` 9: no piece of `choices` lies in the gap `[30, 50)`, piece 7 lies
in the gap `[60, 80)` between the two staging files, and `ChoosePiece`
returns 7. -/
theorem C14_choose_from_needs_witness :
    (0 < 10 ∧ (∀ p ∈ gapState.chain.head?, p.bf_flag_staging = false) ∧
      (Bitfield.ofList 10 [3, 4, 7]).NBits ≤ 10 ∧
      (∀ p ∈ gapState.chain, p.bf_offset + p.bf_size + 10 < U64) ∧ 7 * 10 < U64 ∧
      (∀ i, i < gapState.chain.length →
        noEarly gapState.chain (Bitfield.ofList 10 [3, 4, 7])
          (Bitfield.ofList 10 [3, 4, 5, 6, 7]) 7 10 i)) ∧
    (∃ res needs needsnext,
      gapState.ChoosePiece (Bitfield.ofList 10 [3, 4, 7]) (Bitfield.ofList 10 [3, 4, 5, 6, 7])
        7 10 10 1 = Res.ret res ∧
      chooseLoop gapState.chain (Bitfield.ofList 10 [3, 4, 7])
          (Bitfield.ofList 10 [3, 4, 5, 6, 7]) 7 10 (gapState.chain.length + 1)
          (if gapState.chain.length = 0 then none else some 0) (Bitfield.new 10)
          (Bitfield.new 10) = Res.ret (none, needs, needsnext) ∧
      (∀ k, needs.IsSet k = true ↔
        (Bitfield.ofList 10 [3, 4, 7]).IsSet k = true ∧ ∃ i, inGap gapState.chain 10 k i) ∧
      ((∀ k, needs.IsSet k = false) →
        ∀ k, needsnext.IsSet k = true ↔
          (Bitfield.ofList 10 [3, 4, 7]).IsSet k = true ∧
            ∃ i, inNextGap gapState.chain (Bitfield.ofList 10 [3, 4, 7]) 10 k i) ∧
      ((∃ k, needs.IsSet k = true) → needs.IsSet res = true) ∧
      ((∀ k, needs.IsSet k = false) → (∃ k, needsnext.IsSet k = true) →
        needsnext.IsSet 7 = false → needsnext.IsSet res = true) ∧
      ((∀ k, needs.IsSet k = false) →
        (∀ k, needsnext.IsSet k = false) ∨ needsnext.IsSet 7 = true → res = 7)) ∧
    layouts gapState.chain = [(false, 0, 100, 30), (true, 50, 0, 10)] ∧
    gapState.ChoosePiece (Bitfield.ofList 10 [3, 4, 7]) (Bitfield.ofList 10 [3, 4, 5, 6, 7])
      7 10 10 0 = Res.ret 3 ∧
    gapState.ChoosePiece (Bitfield.ofList 10 [3, 4, 7]) (Bitfield.ofList 10 [3, 4, 5, 6, 7])
      7 10 10 1 = Res.ret 4 ∧
    (0 < 10 ∧ (∀ p ∈ twoGapState.chain.head?, p.bf_flag_staging = false) ∧
      (Bitfield.ofList 10 [7]).NBits ≤ 10 ∧
      (∀ p ∈ twoGapState.chain, p.bf_offset + p.bf_size + 10 < U64) ∧ 9 * 10 < U64 ∧
      (∀ i, i < twoGapState.chain.length →
        noEarly twoGapState.chain (Bitfield.ofList 10 [7]) (Bitfield.ofList 10 [7]) 9 10 i)) ∧
    (∃ res needs needsnext,
      twoGapState.ChoosePiece (Bitfield.ofList 10 [7]) (Bitfield.ofList 10 [7])
        9 10 10 0 = Res.ret res ∧
      chooseLoop twoGapState.chain (Bitfield.ofList 10 [7])
          (Bitfield.ofList 10 [7]) 9 10 (twoGapState.chain.length + 1)
          (if twoGapState.chain.length = 0 then none else some 0) (Bitfield.new 10)
          (Bitfield.new 10) = Res.ret (none, needs, needsnext) ∧
      (∀ k, needs.IsSet k = true ↔
        (Bitfield.ofList 10 [7]).IsSet k = true ∧ ∃ i, inGap twoGapState.chain 10 k i) ∧
      ((∀ k, needs.IsSet k = false) →
        ∀ k, needsnext.IsSet k = true ↔
          (Bitfield.ofList 10 [7]).IsSet k = true ∧
            ∃ i, inNextGap twoGapState.chain (Bitfield.ofList 10 [7]) 10 k i) ∧
      ((∃ k, needs.IsSet k = true) → needs.IsSet res = true) ∧
      ((∀ k, needs.IsSet k = false) → (∃ k, needsnext.IsSet k = true) →
        needsnext.IsSet 9 = false → needsnext.IsSet res = true) ∧
      ((∀ k, needs.IsSet k = false) →
        (∀ k, needsnext.IsSet k = false) ∨ needsnext.IsSet 9 = true → res = 9)) ∧
    layouts twoGapState.chain =
      [(false, 0, 100, 30), (true, 50, 0, 10), (true, 80, 0, 10)] ∧
    chooseLoop twoGapState.chain (Bitfield.ofList 10 [7])
        (Bitfield.ofList 10 [7]) 9 10 (twoGapState.chain.length + 1)
        (if twoGapState.chain.length = 0 then none else some 0) (Bitfield.new 10)
        (Bitfield.new 10) = Res.ret (none, Bitfield.new 10, Bitfield.ofList 10 [7]) ∧
    twoGapState.ChoosePiece (Bitfield.ofList 10 [7]) (Bitfield.ofList 10 [7])
      9 10 10 0 = Res.ret 7 :=
  ⟨⟨by decide, by decide, by decide, by decide, by decide, by decide⟩,
   C14_choose_from_needs gapState (Bitfield.ofList 10 [3, 4, 7])
     (Bitfield.ofList 10 [3, 4, 5, 6, 7]) 7 10 10 1 (by decide) (by decide) (by decide)
     (by decide) (by decide) (by decide),
   by decide, by decide, by decide,
   ⟨by decide, by decide, by decide, by decide, by decide, by decide⟩,
   C14_choose_from_needs twoGapState (Bitfield.ofList 10 [7])
     (Bitfield.ofList 10 [7]) 9 10 10 0 (by decide) (by decide) (by decide)
     (by decide) (by decide) (by decide),
   by decide, by decide, by decide⟩

/-! ## ConvertFilename (C15, C16) -/

/-- The state with which `ConvertFilename` leaves an input of printable bytes:
as long as no underscore can be due (nothing stored yet, or the last byte was
printable), the bytes are appended unchanged and the value stays 0. -/
theorem convLoop_printable (size : Int) (x : List Nat) :
    ∀ (st : ConvState), (∀ c ∈ x, 0x20 ≤ c ∧ c ≤ 0x7E) →
      (st.dst.length = 0 ∨ st.f_print = true) →
      ((st.dst.length : Int) + x.length + 2 < size) →
      (convLoop size x st).dst = st.dst ++ x ∧ (convLoop size x st).retval = st.retval := by
  induction x with
  | nil => intro st _ _ _; simp [convLoop]
  | cons c rest ih =>
    intro st hx hst hsz
    have hc := hx c (List.mem_cons_self _ _)
    have hp : isprint c = true := by simp [isprint, hc.1, hc.2]
    have hstep : (convStep st c).dst = st.dst ++ [c] ∧ (convStep st c).f_print = true ∧
        (convStep st c).retval = st.retval := by
      unfold convStep
      rw [if_pos hp]
      refine ⟨?_, rfl, rfl⟩
      simp only
      rw [if_neg]
      rintro ⟨h1, h2, _⟩
      rcases hst with h | h
      · exact h1 h
      · rw [h] at h2
        cases h2
    simp only [List.length_cons, Nat.cast_add, Nat.cast_one] at hsz
    rw [convLoop, if_pos ⟨by omega, by omega⟩]
    obtain ⟨h1, h2⟩ := ih (convStep st c) (fun d hd => hx d (List.mem_cons_of_mem _ hd))
      (Or.inr hstep.2.1)
      (by rw [hstep.1]; simp only [List.length_append, List.length_singleton, Nat.cast_add,
            Nat.cast_one]; omega)
    rw [h1, h2, hstep.1, hstep.2.2]
    simp

/-- C15: for every string `x` of printable ASCII bytes (`0x20` to `0x7E`),
`ConvertFilename(dst, x, 2 * |x| + 5)` leaves `x` itself in `dst` (no
underscore inserted, nothing cut off) and returns 0. -/
theorem C15_printable_unchanged (x : List Nat) (hx : ∀ c ∈ x, 0x20 ≤ c ∧ c ≤ 0x7E) :
    ConvertFilename x ((x.length : Int) * 2 + 5) = (0, x) := by
  obtain ⟨h1, h2⟩ := convLoop_printable ((x.length : Int) * 2 + 5) x {} hx (Or.inl rfl)
    (by simp only [List.length_nil, Nat.cast_zero]; omega)
  unfold ConvertFilename
  simp only
  rw [h1, h2]
  rfl

theorem C15_printable_unchanged_witness :
    (∀ c ∈ bytesOf "hello world.txt", 0x20 ≤ c ∧ c ≤ 0x7E) ∧
    ConvertFilename (bytesOf "hello world.txt")
      (((bytesOf "hello world.txt").length : Int) * 2 + 5) = (0, bytesOf "hello world.txt") :=
  ⟨by decide, C15_printable_unchanged (bytesOf "hello world.txt") (by decide)⟩

/-- C16 fails on the code: for the UTF-8 bytes of the name "aéaéaéaéaéaü"
(18 bytes, 12 of them above `0x7E`), called with the buffer size `2 * 18 + 5`
of its callers, `ConvertFilename` returns 1 but stops before the last byte
`0xBC`: the output ends with the digits of `0xC3`, and the character `B` of
"BC" occurs nowhere in it.  For the 12 bytes `a 01 a 01 ...` the output has
29 characters, as many as the buffer has bytes, which leaves no room for the
terminating zero. -/
theorem C16_last_byte_dropped :
    utf8Name.length = 18 ∧ 0x7E < 188 ∧ 188 ∈ utf8Name ∧
    hex2 188 = bytesOf "BC" ∧
    convertPath utf8Name = (1, bytesOf "a_C3A9_a_C3A9_a_C3A9_a_C3A9_a_C3A9_a_C3") ∧
    ¬ (66 ∈ (convertPath utf8Name).2) ∧
    ((convertPath utf8Name).2.length : Int) = (utf8Name.length : Int) * 2 + 5 - 2 ∧
    (convertPath [97, 1, 97, 1, 97, 1, 97, 1, 97, 1, 97, 1]).2.length = 2 * 12 + 5 := by
  decide

/-! ## Decimal digits and strtoull -/

theorem digitChar_digit : ∀ k, k < 10 →
    (Nat.digitChar k).isDigit = true ∧ (Nat.digitChar k).toNat - 48 = k := by
  decide

theorem digitsValue_snoc (l : List Char) (d : Char) :
    digitsValue (l ++ [d]) = digitsValue l * 10 + (d.toNat - 48) := by
  simp [digitsValue, List.foldl_append]

theorem digitsValue_zeros (k : Nat) (l : List Char) :
    digitsValue (List.replicate k '0' ++ l) = digitsValue l := by
  unfold digitsValue
  rw [List.foldl_append]
  congr 1
  induction k with
  | zero => rfl
  | succ k ih =>
    rw [List.replicate_succ, List.foldl_cons]
    exact ih

/-- The digits `Nat.toDigitsCore` puts before `ds`: decimal digits, at least
one, whose value is `n`, with no more digits than `n` needs. -/
theorem toDigitsCore_spec (fuel : Nat) :
    ∀ (n : Nat) (ds : List Char), n < fuel →
      ∃ l, Nat.toDigitsCore 10 fuel n ds = l ++ ds ∧ l ≠ [] ∧
        (∀ c ∈ l, c.isDigit = true) ∧ digitsValue l = n ∧ n < 10 ^ l.length ∧
        (0 < n → 10 ^ (l.length - 1) ≤ n) := by
  induction fuel with
  | zero => intro n _ h; omega
  | succ fuel ih =>
    intro n ds hn
    have hd := digitChar_digit (n % 10) (Nat.mod_lt _ (by omega))
    rw [Nat.toDigitsCore]
    by_cases h0 : n / 10 = 0
    · rw [if_pos h0]
      have hlt : n < 10 := by omega
      refine ⟨[Nat.digitChar (n % 10)], rfl, by simp, ?_, ?_, ?_, ?_⟩
      · intro c hc
        rw [List.mem_singleton] at hc
        rw [hc]
        exact hd.1
      · simp only [digitsValue, List.foldl_cons, List.foldl_nil]
        rw [hd.2]
        omega
      · simpa using hlt
      · intro hpos
        simpa using hpos
    · rw [if_neg h0]
      obtain ⟨l, h1, h2, h3, h4, h5, h6⟩ := ih (n / 10) (Nat.digitChar (n % 10) :: ds) (by omega)
      refine ⟨l ++ [Nat.digitChar (n % 10)], by rw [h1]; simp, by simp, ?_, ?_, ?_, ?_⟩
      · intro c hc
        rw [List.mem_append, List.mem_singleton] at hc
        rcases hc with hc | hc
        · exact h3 c hc
        · rw [hc]
          exact hd.1
      · rw [digitsValue_snoc, h4, hd.2]
        omega
      · rw [List.length_append, List.length_singleton, Nat.pow_succ]
        omega
      · intro _
        have hl : 0 < l.length := List.length_pos.2 h2
        have h7 := h6 (Nat.pos_of_ne_zero h0)
        rw [List.length_append, List.length_singleton, Nat.add_sub_cancel]
        have h8 : 10 ^ l.length = 10 ^ (l.length - 1) * 10 := by
          rw [← Nat.pow_succ]
          congr 1
          omega
        rw [h8]
        omega

theorem toDigits_spec (n : Nat) :
    Nat.toDigits 10 n ≠ [] ∧ (∀ c ∈ Nat.toDigits 10 n, c.isDigit = true) ∧
      digitsValue (Nat.toDigits 10 n) = n ∧ n < 10 ^ (Nat.toDigits 10 n).length ∧
      (0 < n → 10 ^ ((Nat.toDigits 10 n).length - 1) ≤ n) := by
  obtain ⟨l, h1, h2⟩ := toDigitsCore_spec (n + 1) n [] (by omega)
  rw [List.append_nil] at h1
  unfold Nat.toDigits
  rw [h1]
  exact h2

/-- A smaller number has no more decimal digits. -/
theorem toDigits_length_le (a b : Nat) (h : a ≤ b) :
    (Nat.toDigits 10 a).length ≤ (Nat.toDigits 10 b).length := by
  obtain ⟨a1, _, _, _, a5⟩ := toDigits_spec a
  obtain ⟨b1, _, _, b4, _⟩ := toDigits_spec b
  rcases Nat.eq_zero_or_pos a with h0 | h0
  · have : 0 < (Nat.toDigits 10 b).length := List.length_pos.2 b1
    have : (Nat.toDigits 10 a).length = 1 := by rw [h0]; rfl
    omega
  · have h1 := a5 h0
    have h2 : 10 ^ ((Nat.toDigits 10 a).length - 1) < 10 ^ (Nat.toDigits 10 b).length := by omega
    have h3 := (Nat.pow_lt_pow_iff_right (by omega : 1 < 10)).1 h2
    omega

/-- The text `fmtOffset w off` has `w` characters when `off` has no more than
`w` digits. -/
theorem fmtOffset_length (w off : Nat) (h : (Nat.toDigits 10 off).length ≤ w) :
    (fmtOffset w off).length = w := by
  unfold fmtOffset
  show (List.replicate (w - (Nat.toDigits 10 off).length) '0' ++ Nat.toDigits 10 off).length = w
  rw [List.length_append, List.length_replicate]
  omega

theorem strtoullDigits_all (l : List Char) (k : Nat) (hne : l ≠ [])
    (hd : ∀ c ∈ l, c.isDigit = true) (hv : digitsValue l < U64) :
    strtoullDigits false l k = (digitsValue l, k + l.length) := by
  unfold strtoullDigits
  have ht : l.takeWhile Char.isDigit = l := List.takeWhile_eq_self_iff.2 hd
  simp only [ht]
  cases l with
  | nil => exact absurd rfl hne
  | cons c r =>
    simp only [List.isEmpty_cons, Bool.false_eq_true, if_false]
    rw [if_neg (by omega)]

/-- The library function `strtoull` on a string of decimal digits: the value
of the digits, all of them consumed. -/
theorem strtoull_digits (l : List Char) (hne : l ≠ [])
    (hd : ∀ c ∈ l, c.isDigit = true) (hv : digitsValue l < U64) :
    strtoull l = (digitsValue l, l.length) := by
  cases l with
  | nil => exact absurd rfl hne
  | cons c r =>
    have hc := hd c (List.mem_cons_self _ _)
    have hsp : isspace c = false := by
      unfold Char.isDigit at hc
      unfold isspace
      have h1 : 48 ≤ c.toNat := by
        have := hc
        simp only [Bool.and_eq_true, decide_eq_true_eq] at this
        exact this.1
      simp only [Bool.or_eq_false_iff, decide_eq_false_iff_not, Bool.and_eq_false_imp,
        decide_eq_true_eq]
      omega
    unfold strtoull
    have hws : (c :: r).takeWhile isspace = [] := by
      rw [List.takeWhile_cons, hsp]
      rfl
    simp only [hws, List.length_nil, List.drop_zero]
    split
    · rename_i r2 heq
      cases heq
      exact absurd hc (by decide)
    · rename_i r2 heq
      cases heq
      exact absurd hc (by decide)
    · rw [strtoullDigits_all _ _ hne hd hv]
      simp

/-! ## SetupFiles (C17, C18) -/

theorem fmtOffset_toList (w off : Nat) :
    (fmtOffset w off).toList =
      List.replicate (w - (Nat.toDigits 10 off).length) '0' ++ Nat.toDigits 10 off := rfl

/-- The library function `strtoull` reads back the offset that
`sprintf("%.*llu", w, off)` printed, and stops behind its last digit. -/
theorem strtoull_fmtOffset (w off : Nat) (h : off < U64) :
    strtoull (fmtOffset w off).toList = (off, (fmtOffset w off).length) := by
  obtain ⟨h1, h2, h3, _, _⟩ := toDigits_spec off
  have hv : digitsValue (fmtOffset w off).toList = off := by
    rw [fmtOffset_toList, digitsValue_zeros, h3]
  rw [strtoull_digits (fmtOffset w off).toList ?_ ?_ (by rw [hv]; exact h), hv]
  · rfl
  · rw [fmtOffset_toList]
    intro he
    exact h1 (List.append_eq_nil.1 he).2
  · rw [fmtOffset_toList]
    intro c hc
    rw [List.mem_append] at hc
    rcases hc with hc | hc
    · rw [(List.mem_replicate.1 hc).2]
      rfl
    · exact h2 c hc

/-- The entry `tid-<offset>` of a staging subdirectory passes the tests of
`SetupFiles`, which builds the node of this offset for it. -/
theorem stagingEntry_generated (s : btFiles) (maxpath off : Nat) (stagingPath : String)
    (data : List Nat) (hoff : off < U64)
    (hlen : (fmtOffset s.m_fsizelen off).length = s.m_fsizelen)
    (hpath : stagingPath.length + 1 + s.m_stagedir.length + 1 +
      (s.m_torrent_id.length + 1 + s.m_fsizelen) < maxpath) :
    stagingEntry s maxpath stagingPath
        { name := s.m_torrent_id ++ "-" ++ fmtOffset s.m_fsizelen off, isReg := true,
          data := data } =
      some { bf_filename := s.m_stagedir ++ PATH_SP.toString ++
               (s.m_torrent_id ++ "-" ++ fmtOffset s.m_fsizelen off),
             bf_flag_staging := true, bf_offset := off, bf_size := data.length,
             bf_data := data } := by
  have hl : (s.m_torrent_id ++ "-" ++ fmtOffset s.m_fsizelen off).toList =
      s.m_torrent_id.toList ++ '-' :: (fmtOffset s.m_fsizelen off).toList := by
    simp [String.toList]
  have hn : (s.m_torrent_id ++ "-" ++ fmtOffset s.m_fsizelen off).length =
      s.m_torrent_id.length + 1 + s.m_fsizelen := by
    rw [String.length_append, String.length_append, hlen]
    rfl
  have hlt : s.m_torrent_id.length = s.m_torrent_id.toList.length := rfl
  unfold stagingEntry
  simp only
  rw [if_pos]
  · rw [hl]
    have hdrop : (s.m_torrent_id.toList ++ '-' :: (fmtOffset s.m_fsizelen off).toList).drop
        (s.m_torrent_id.length + 1) = (fmtOffset s.m_fsizelen off).toList := by
      rw [hlt, List.drop_append_eq_append_drop]
      simp
    rw [hdrop, strtoull_fmtOffset _ _ hoff, if_neg (by simp [hlen])]
  · refine ⟨?_, ?_, ?_, trivial⟩
    · rw [hl]
      simp
    · rw [hl, hlt, List.getElem?_append_right (Nat.le_refl _)]
      simp
    · rw [hn]
      exact hpath

/-- The names `IO` gives to a staging subdirectory and to a staging file pass
the tests of the scan of `SetupFiles`, which rebuilds the node. -/
theorem scan_generated (s : btFiles) (T off d maxpath : Nat)
    (stagingPath : String) (data : List Nat)
    (hw : s.m_fsizelen = (Nat.toDigits 10 T).length) (hT : T < U64)
    (hoff : off < T) (hd : d < T)
    (hpath : stagingPath.length + 2 * s.m_fsizelen + s.m_torrent_id.length + 3 < maxpath)
    (hchain : s.chain ≠ []) :
    acceptStageDir s maxpath stagingPath
        { name := fmtOffset s.m_fsizelen d, isDir := true,
          files := [{ name := s.m_torrent_id ++ "-" ++ fmtOffset s.m_fsizelen off,
                      isReg := true, data := data }] } = true ∧
    (strtoull (fmtOffset s.m_fsizelen off).toList = (off, s.m_fsizelen)) ∧
    stagingEntry { s with m_stagecount := 0, m_stagedir := fmtOffset s.m_fsizelen d } maxpath
        stagingPath
        { name := s.m_torrent_id ++ "-" ++ fmtOffset s.m_fsizelen off, isReg := true,
          data := data } =
      some { bf_filename := fmtOffset s.m_fsizelen d ++ PATH_SP.toString ++ s.m_torrent_id ++
               "-" ++ fmtOffset s.m_fsizelen off,
             bf_flag_staging := true, bf_offset := off, bf_size := data.length,
             bf_data := data } ∧
    scanStageDirs maxpath stagingPath
        [{ name := fmtOffset s.m_fsizelen d, isDir := true,
           files := [{ name := s.m_torrent_id ++ "-" ++ fmtOffset s.m_fsizelen off,
                       isReg := true, data := data }] }] s false =
      Res.ret ({ s with m_stagecount := 1, m_stagedir := fmtOffset s.m_fsizelen d,
                        chain := insertStaging s.chain
                          { bf_filename := fmtOffset s.m_fsizelen d ++ PATH_SP.toString ++
                              s.m_torrent_id ++ "-" ++ fmtOffset s.m_fsizelen off,
                            bf_flag_staging := true, bf_offset := off,
                            bf_size := data.length, bf_data := data } },
        decide (0 < data.length)) := by
  have hdl : (fmtOffset s.m_fsizelen d).length = s.m_fsizelen :=
    fmtOffset_length _ _ (by rw [hw]; exact toDigits_length_le _ _ (Nat.le_of_lt hd))
  have hol : (fmtOffset s.m_fsizelen off).length = s.m_fsizelen :=
    fmtOffset_length _ _ (by rw [hw]; exact toDigits_length_le _ _ (Nat.le_of_lt hoff))
  have hacc : acceptStageDir s maxpath stagingPath
      { name := fmtOffset s.m_fsizelen d, isDir := true,
        files := [{ name := s.m_torrent_id ++ "-" ++ fmtOffset s.m_fsizelen off,
                    isReg := true, data := data }] } = true := by
    unfold acceptStageDir
    simp only [hdl, decide_True, Bool.true_and, Bool.not_true, Bool.or_false,
      Bool.not_eq_true', decide_eq_false_iff_not]
    omega
  have hent := stagingEntry_generated
    { s with m_stagecount := 0, m_stagedir := fmtOffset s.m_fsizelen d } maxpath off stagingPath
    data (by omega) hol (by simp only [hdl]; omega)
  simp only [← String.append_assoc] at hent
  have hst : strtoull (fmtOffset s.m_fsizelen off).toList = (off, s.m_fsizelen) := by
    rw [strtoull_fmtOffset _ _ (by omega), hol]
  refine ⟨hacc, hst, hent, ?_⟩
  rw [scanStageDirs, if_pos hacc]
  simp only [scanStageFiles, hent]
  have hne : s.chain.isEmpty = false := by
    cases hc : s.chain with
    | nil => exact absurd hc hchain
    | cons a l => rfl
  simp only [hne, Bool.false_eq_true, if_false, scanStageDirs, Bool.false_or, Nat.zero_add]

/-- C18 refuted as stated: for a single file of length 10, `m_fsizelen` is 2,
so `SetupFiles` passes over the subdirectory "0000000005" (10 characters):
with the file "t-0000000005" of 5 bytes in it, the chain stays the one real
file and the value is 0. -/
theorem C18_counterexample :
    (match (btFiles.fresh [10]).SetupFiles "t" false "/s" seededTree none
        (fun _ => FileStat.missing) 1024 with
      | Res.ret (r, s) => (r, layouts s.chain, s.m_fsizelen)
      | _ => (-1, [], 0)) = (0, [(false, 0, 10, 0)], 2) ∧
    acceptStageDir { btFiles.fresh [10] with m_fsizelen := 2 } 1024 "/s/t"
      { name := "0000000005",
        files := [{ name := "t-0000000005", data := [87, 79, 82, 76, 68] }] } = false := by
  decide

/-- C18 (amended): for a single-file torrent of total length 10, `SetupFiles`
run over a staging tree that holds the subdirectory "05" containing the
regular file "<tid>-05" of size 5 (names of two digits, the decimal width of
10), the content file being absent or a regular file of at most 10 bytes,
inserts into the chain a staging node with offset 5 and size 5 after the real
file, and returns 1. -/
theorem C18_setup_finds_staging (tid stagingDir : String) (maxpath : Nat) (data : List Nat)
    (disk : String → FileStat) (hdata : data.length = 5)
    (hpath : stagingDir.length + 2 * tid.length + 9 < maxpath)
    (hdisk : disk "" = FileStat.missing ∨
      ∃ d, disk "" = FileStat.found true d ∧ d.length ≤ 10) :
    ∃ s2 R S,
      (btFiles.fresh [10]).SetupFiles tid false stagingDir
          (StageTree.listing
            [{ name := "05", isDir := true,
               files := [{ name := tid ++ "-" ++ "05", isReg := true, data := data }] }])
          none disk maxpath = Res.ret (1, s2) ∧
        s2.chain = [R, S] ∧ R.bf_flag_staging = false ∧ R.bf_offset = 0 ∧ R.bf_length = 10 ∧
        S.bf_flag_staging = true ∧ S.bf_offset = 5 ∧ S.bf_size = 5 ∧
        S.bf_filename = "05" ++ PATH_SP.toString ++ tid ++ "-" ++ "05" := by
  have hsc := (scan_generated
    { btFiles.fresh [10] with m_fsizelen := 2, m_torrent_id := tid, m_stagedir := "" }
    10 5 5 maxpath (stagingDir ++ PATH_SP.toString ++ tid) data rfl (by decide) (by decide)
    (by decide)
    (by
      simp only [String.length_append]
      have : PATH_SP.toString.length = 1 := rfl
      omega)
    (by
      show (btFiles.fresh [10]).chain ≠ []
      decide)).2.2.2
  have h05 : fmtOffset 2 5 = "05" := by decide
  simp only [h05] at hsc
  unfold btFiles.SetupFiles
  have hfs : (Nat.toDigits 10 (btFiles.fresh [10]).m_total_files_length).length = 2 := by decide
  simp only [hfs, hsc]
  have hch : insertStaging (btFiles.fresh [10]).chain
      { bf_filename := "05" ++ PATH_SP.toString ++ tid ++ "-" ++ "05",
        bf_flag_staging := true, bf_offset := 5, bf_size := data.length, bf_data := data } =
      [{ bf_offset := 0, bf_length := 10 },
       { bf_filename := "05" ++ PATH_SP.toString ++ tid ++ "-" ++ "05",
         bf_flag_staging := true, bf_offset := 5, bf_size := data.length, bf_data := data }] :=
    rfl
  simp only [hch, List.length_cons, List.length_nil]
  have hex : decide (0 < data.length) = true := by
    rw [hdata]
    rfl
  rcases hdisk with hm | ⟨d, hf, hdl⟩
  · refine ⟨{ btFiles.fresh [10] with
        m_fsizelen := 2, m_torrent_id := tid, m_stagedir := "05", m_stagecount := 1,
        chain := [{ bf_offset := 0, bf_length := 10 },
          { bf_filename := "05" ++ PATH_SP.toString ++ tid ++ "-" ++ "05",
            bf_flag_staging := true, bf_offset := 5, bf_size := data.length,
            bf_data := data }] },
      { bf_offset := 0, bf_length := 10 },
      { bf_filename := "05" ++ PATH_SP.toString ++ tid ++ "-" ++ "05",
        bf_flag_staging := true, bf_offset := 5, bf_size := data.length, bf_data := data },
      ?_, rfl, rfl, rfl, rfl, rfl, rfl, hdata, rfl⟩
    simp [checkContent, hm, hex, nextreal, firstReal]
  · refine ⟨{ btFiles.fresh [10] with
        m_fsizelen := 2, m_torrent_id := tid, m_stagedir := "05", m_stagecount := 1,
        chain := [{ bf_offset := 0, bf_length := 10, bf_size := d.length, bf_data := d },
          { bf_filename := "05" ++ PATH_SP.toString ++ tid ++ "-" ++ "05",
            bf_flag_staging := true, bf_offset := 5, bf_size := data.length,
            bf_data := data }] },
      { bf_offset := 0, bf_length := 10, bf_size := d.length, bf_data := d },
      { bf_filename := "05" ++ PATH_SP.toString ++ tid ++ "-" ++ "05",
        bf_flag_staging := true, bf_offset := 5, bf_size := data.length, bf_data := data },
      ?_, rfl, rfl, rfl, rfl, rfl, rfl, hdata, rfl⟩
    simp [checkContent, hf, hex, nextreal, firstReal, Nat.not_lt.2 hdl, btFiles.setNode]

theorem C18_setup_finds_staging_witness :
    (([87, 79, 82, 76, 68] : List Nat).length = 5 ∧
      ("/s" : String).length + 2 * ("t" : String).length + 9 < 1024 ∧
      ((fun _ => FileStat.missing) "" = FileStat.missing ∨
        ∃ d, (fun _ => FileStat.missing) "" = FileStat.found true d ∧ d.length ≤ 10)) ∧
    (∃ s2 R S,
      (btFiles.fresh [10]).SetupFiles "t" false "/s"
          (StageTree.listing
            [{ name := "05", isDir := true,
               files := [{ name := "t" ++ "-" ++ "05", isReg := true,
                           data := [87, 79, 82, 76, 68] }] }])
          none (fun _ => FileStat.missing) 1024 = Res.ret (1, s2) ∧
        s2.chain = [R, S] ∧ R.bf_flag_staging = false ∧ R.bf_offset = 0 ∧ R.bf_length = 10 ∧
        S.bf_flag_staging = true ∧ S.bf_offset = 5 ∧ S.bf_size = 5 ∧
        S.bf_filename = "05" ++ PATH_SP.toString ++ "t" ++ "-" ++ "05") ∧
    (match (btFiles.fresh [10]).SetupFiles "t" false "/s"
        (StageTree.listing
          [{ name := "05", files := [{ name := "t-05", data := [87, 79, 82, 76, 68] }] }])
        none (fun _ => FileStat.missing) 1024 with
      | Res.ret (r, s) => (r, layouts s.chain)
      | _ => (-1, [])) = (1, [(false, 0, 10, 0), (true, 5, 0, 5)]) :=
  ⟨⟨by decide, by decide, Or.inl rfl⟩,
   C18_setup_finds_staging "t" "/s" 1024 [87, 79, 82, 76, 68] (fun _ => FileStat.missing)
     (by decide) (by decide) (Or.inl rfl),
   by decide⟩

/-! ## The piece map of CreateFiles (C19) -/

/-- C19 fails on the code: two files of 5 bytes, the first complete on disk
and the second empty, piece length 6.  Piece 0 covers the bytes 0 to 5; byte
5, the first byte of the second file, is not on disk, yet the piece map marks
piece 0: walking on to the empty second file sets `fend` to its offset 5, as
if that byte were there. -/
theorem C19_piece_marked_not_on_disk :
    layouts halfState.chain = [(false, 0, 5, 5), (false, 5, 5, 0)] ∧
    (match halfState.pieceMap 2 6 (fun idx => if idx = 0 then 6 else 4) with
      | Res.ret m => m.bits
      | _ => []) = [true, false] ∧
    0 * 6 ≤ 5 ∧ 5 < 0 * 6 + 6 ∧ onDisk halfState.chain 5 = false ∧
    (match ((btFiles.fresh [5, 5]).wr 0 [1, 2, 3, 4]).pieceMap 2 6
        (fun idx => if idx = 0 then 6 else 4) with
      | Res.ret m => m.bits
      | _ => []) = [false, false] := by
  decide

theorem fileop_need (s : btFiles) : s.fileop.2.m_need_merge = s.m_need_merge := by
  unfold btFiles.fileop
  split <;> rfl

theorem close_need (s : btFiles) (i : Nat) : (s._btf_close i).m_need_merge = s.m_need_merge := by
  unfold btFiles._btf_close
  split
  · rfl
  · split <;> rfl

theorem close_oldest_need (s : btFiles) :
    s._btf_close_oldest.2.m_need_merge = s.m_need_merge := by
  unfold btFiles._btf_close_oldest
  split
  · rfl
  · exact close_need _ _

theorem stamp_need (s : btFiles) (i t : Nat) : (s.stamp i t).m_need_merge = s.m_need_merge := by
  unfold btFiles.stamp
  split <;> rfl

theorem openEvict_need (s : btFiles) (i : Nat) (w : Bool) :
    (s.openEvict i w).2.m_need_merge = s.m_need_merge := by
  have h1 : (if w then s._btf_close i else s).m_need_merge = s.m_need_merge := by
    split
    · exact close_need _ _
    · rfl
  unfold btFiles.openEvict
  generalize (if w then s._btf_close i else s) = s1 at h1 ⊢
  split
  · rw [close_oldest_need, h1]
  · exact h1

theorem markOpen_need (s : btFiles) (i : Nat) (iotype trunc : Bool) :
    (s.markOpen i iotype trunc).2.m_need_merge = s.m_need_merge := by
  unfold btFiles.markOpen
  split <;> rfl

theorem openFile_need (s : btFiles) (i : Nat) (iotype trunc : Bool) :
    (s.openFile i iotype trunc).2.m_need_merge = s.m_need_merge := by
  unfold btFiles.openFile
  split
  · rw [markOpen_need, fileop_need]
  · split
    · rw [markOpen_need, fileop_need, close_oldest_need, fileop_need]
    · rw [fileop_need, close_oldest_need, fileop_need]
  · rw [fileop_need]

theorem open_need (s : btFiles) (i : Nat) (iotype : Bool) :
    (s._btf_open i iotype).2.m_need_merge = s.m_need_merge := by
  unfold btFiles._btf_open
  split
  · rfl
  · split
    · rfl
    · split
      · exact openEvict_need _ _ _
      · split
        · rw [fileop_need]; exact openEvict_need _ _ _
        · rw [openFile_need, stamp_need, fileop_need]
          exact openEvict_need _ _ _

theorem grow_need (s : btFiles) (i n : Nat) : (s.grow i n).m_need_merge = s.m_need_merge := by
  unfold btFiles.grow
  split
  · rfl
  · split <;> rfl

theorem fwrite_need (s : btFiles) (i pos : Nat) (bytes : List Nat) :
    (s.fwrite i pos bytes).m_need_merge = s.m_need_merge := by
  unfold btFiles.fwrite
  split <;> rfl

theorem closeIfEmpty_need (s : btFiles) (i : Nat) :
    (s.closeIfEmpty i).m_need_merge = s.m_need_merge := by
  unfold btFiles.closeIfEmpty
  split
  · rfl
  · split
    · exact close_need _ _
    · rfl

theorem closeIfEmpty_layouts (s : btFiles) (i : Nat) :
    layouts (s.closeIfEmpty i).chain = layouts s.chain := by
  unfold btFiles.closeIfEmpty
  split
  · rfl
  · split
    · exact layouts_of_cores (close_cores _ _)
    · rfl

theorem stageGone_need (s : btFiles) (f : String) :
    (s.stageGone f).m_need_merge = s.m_need_merge := by
  unfold btFiles.stageGone
  split
  · split <;> rfl
  · rfl

theorem delsrc_need (s : btFiles) (i : Nat) : (s.delsrc i).m_need_merge = s.m_need_merge := by
  unfold btFiles.delsrc
  split
  · exact close_need _ _
  · rw [stageGone_need]
    exact close_need _ _

theorem mergeFinish_need (s : btFiles) (i : Nat) :
    (s.mergeFinish i).m_need_merge = s.m_need_merge := by
  unfold btFiles.mergeFinish
  split
  · rfl
  · rw [delsrc_need]
    split
    · exact close_need _ _
    · rfl

theorem copyLoop_need (i j fuel : Nat) (s : btFiles) (remain nio spos pos : Nat)
    (b : Bool) (s2 : btFiles)
    (h : btFiles.copyLoop i j fuel s remain nio spos pos = Res.ret (b, s2)) :
    s2.m_need_merge = s.m_need_merge := by
  induction fuel generalizing s remain nio spos pos with
  | zero => simp [btFiles.copyLoop] at h
  | succ fuel ih =>
    unfold btFiles.copyLoop at h
    split at h
    · simp only at h
      split at h
      · cases h
        rfl
      · split at h
        · cases h
        · split at h
          · cases h
            exact fileop_need _
          · split at h
            · cases h
              show s.fileop.2.fileop.2.m_need_merge = s.m_need_merge
              rw [fileop_need, fileop_need]
            · rw [ih _ _ _ _ _ h, grow_need, fwrite_need, fileop_need, fileop_need]
    · cases h

theorem mergeCopy_need (s : btFiles) (i remain spos : Nat) (r : Int) (s2 : btFiles)
    (h : s.mergeCopy i remain spos = Res.ret (r, s2)) : s2.m_need_merge = s.m_need_merge := by
  unfold btFiles.mergeCopy at h
  split at h
  · cases h
  · split at h
    · cases h
      exact fileop_need _
    · split at h
      · cases h
      · cases h
      · rename_i s6 heq
        cases h
        rw [copyLoop_need _ _ _ _ _ _ _ _ _ _ heq, fileop_need]
      · rename_i s6 heq
        cases h
        rw [mergeFinish_need, copyLoop_need _ _ _ _ _ _ _ _ _ _ heq, fileop_need]

theorem mergeOpenSrc_need (s : btFiles) (j : Nat) :
    (s.mergeOpenSrc j).2.m_need_merge = s.m_need_merge := by
  unfold btFiles.mergeOpenSrc
  split
  · rfl
  · split
    · exact open_need _ _ _
    · rfl

theorem mergeOpenDst_need (s : btFiles) (i : Nat) :
    (s.mergeOpenDst i).2.m_need_merge = s.m_need_merge := by
  unfold btFiles.mergeOpenDst
  split
  · rfl
  · split
    · exact open_need _ _ _
    · rfl

/-- No statement of `MergeStaging` touches `m_need_merge`. -/
theorem MergeStaging_need (s : btFiles) (i : Nat) (r : Int) (s2 : btFiles)
    (h : s.MergeStaging i = Res.ret (r, s2)) : s2.m_need_merge = s.m_need_merge := by
  unfold btFiles.MergeStaging at h
  split at h
  · split at h
    · cases h
      exact delsrc_need _ _
    · split at h
      · cases h
        exact mergeOpenSrc_need _ _
      · split at h
        · cases h
          rw [fileop_need, mergeOpenSrc_need]
        · split at h
          · cases h
            rw [mergeOpenDst_need, stamp_need, fileop_need, mergeOpenSrc_need]
          · rw [mergeCopy_need _ _ _ _ _ _ h, mergeOpenDst_need, stamp_need, fileop_need,
              mergeOpenSrc_need]
  · cases h

theorem lenOkL_resizeAt (L : List (Bool × Nat × Nat × Nat)) (i sz : Nat) (h : lenOkL L) :
    lenOkL (resizeAt L i sz) := by
  unfold resizeAt
  split
  · exact h
  · rename_i a ha
    intro b hb
    rcases List.mem_or_eq_of_mem_set hb with h1 | h1
    · exact h b h1
    · rw [h1]
      exact h a (mem_of_getElem? ha)

theorem lenOkL_eraseIdx (L : List (Bool × Nat × Nat × Nat)) (i : Nat) (h : lenOkL L) :
    lenOkL (L.eraseIdx i) :=
  fun a ha => h a (List.mem_of_mem_eraseIdx ha)

/-- Resizing entry `i` changes the test of `FindAndMerge` at no other node. -/
theorem mergeableL_resizeAt_ne (L : List (Bool × Nat × Nat × Nat)) (i sz k : Nat) (h : k ≠ i) :
    mergeableL (resizeAt L i sz) k = mergeableL L k := by
  unfold mergeableL
  rw [resizeAt_getElem?_ne _ _ _ _ h]
  by_cases h1 : k + 1 = i
  · rw [h1, resizeAt_getElem?_eq]
    cases L[k]? with
    | none => rfl
    | some p =>
      cases L[i]? with
      | none => rfl
      | some n => rfl
  · rw [resizeAt_getElem?_ne _ _ _ _ h1]

/-- Layout of the chain after any call of `MergeStaging` that returned: at
most the size of node `i` changed, and the node behind it may be gone. -/
theorem MergeStaging_layouts_any (s : btFiles) (i : Nat) (r : Int) (s2 : btFiles)
    (h : s.MergeStaging i = Res.ret (r, s2)) :
    ∃ sz, layouts s2.chain = resizeAt (layouts s.chain) i sz ∨
      layouts s2.chain = (resizeAt (layouts s.chain) i sz).eraseIdx (i + 1) := by
  by_cases hr : r < 0
  · unfold btFiles.MergeStaging at h
    cases hd : s.chain[i]? with
    | none => simp [hd] at h
    | some dst =>
      cases hs : s.chain[i + 1]? with
      | none => simp [hd, hs] at h
      | some src =>
        have hself : layouts s.chain = resizeAt (layouts s.chain) i dst.bf_size := by
          have : (layouts s.chain)[i]? = some dst.layout := by rw [layouts_getElem?, hd]; rfl
          exact (resizeAt_self _ _ _ this).symm
        simp only [hd, hs] at h
        split at h
        · cases h
          exact absurd hr (by decide)
        · split at h
          · cases h
            exact ⟨dst.bf_size, Or.inl (by rw [mergeOpenSrc_layouts, ← hself])⟩
          · split at h
            · cases h
              exact ⟨dst.bf_size, Or.inl (by rw [fileop_chain, mergeOpenSrc_layouts, ← hself])⟩
            · split at h
              · cases h
                exact ⟨dst.bf_size, Or.inl (by
                  rw [mergeOpenDst_layouts, layouts_of_cores (stamp_cores _ _ _), fileop_chain,
                    mergeOpenSrc_layouts, ← hself])⟩
              · have hbase : layouts ((((s.mergeOpenSrc (i + 1)).2.fileop.2).stamp (i + 1)
                    (s.now + 1)).mergeOpenDst i).2.chain = layouts s.chain := by
                  rw [mergeOpenDst_layouts, layouts_of_cores (stamp_cores _ _ _), fileop_chain,
                    mergeOpenSrc_layouts]
                generalize ((((s.mergeOpenSrc (i + 1)).2.fileop.2).stamp (i + 1)
                    (s.now + 1)).mergeOpenDst i).2 = t at h hbase
                unfold btFiles.mergeCopy at h
                split at h
                · cases h
                · split at h
                  · cases h
                    exact ⟨dst.bf_size, Or.inl (by rw [fileop_chain, hbase, ← hself])⟩
                  · split at h
                    · cases h
                    · cases h
                    · rename_i s6 heq
                      cases h
                      obtain ⟨sz, hsz⟩ := copyLoop_layouts _ _ _ _ _ _ _ _ _ _ heq
                      rw [fileop_chain, hbase] at hsz
                      exact ⟨sz, Or.inl hsz⟩
                    · cases h
                      exact absurd hr (by decide)
  · obtain ⟨_, sz, hsz⟩ := MergeStaging_layouts s i r s2 h hr
    exact ⟨sz, Or.inr hsz⟩

theorem MergeStaging_lenOk (s : btFiles) (i : Nat) (r : Int) (s2 : btFiles)
    (h : s.MergeStaging i = Res.ret (r, s2)) (hl : lenOkL (layouts s.chain)) :
    lenOkL (layouts s2.chain) := by
  obtain ⟨sz, h1 | h1⟩ := MergeStaging_layouts_any s i r s2 h
  · rw [h1]
    exact lenOkL_resizeAt _ _ _ hl
  · rw [h1]
    exact lenOkL_eraseIdx _ _ (lenOkL_resizeAt _ _ _ hl)

/-- The two loops of `FindAndMerge` keep the invariant behind `m_need_merge`:
the flag is cleared only when the walk has found no node left to merge, and a
walk that stops early leaves the flag as it was. -/
theorem scan_mergeInv (fa ds : Bool) (fuel : Nat) (s : btFiles) (cur : Option Nat)
    (merged : Bool)
    (hcur : (∀ i, cur = some i →
        i < s.chain.length ∧ ∀ j, j < i → mergeableL (layouts s.chain) j = false) ∧
      (cur = none → ∀ j, mergeableL (layouts s.chain) j = false))
    (hinv : MergeInv s) :
    ∀ m fl s2, btFiles.FindAndMergeScan fa ds fuel s cur merged = Res.ret (m, fl, s2) →
      MergeInv s2 := by
  induction fuel generalizing s cur merged with
  | zero =>
    intro m fl s2 h
    simp [btFiles.FindAndMergeScan] at h
  | succ fuel ih =>
    cases cur with
    | none =>
      have hcur := hcur.2 rfl
      intro m fl s2 h
      simp only [btFiles.FindAndMergeScan, Res.ret.injEq, Prod.mk.injEq] at h
      obtain ⟨-, -, hs2⟩ := h
      subst hs2
      refine ⟨?_, hinv.2⟩
      intro j hj
      rw [hcur j] at hj
      cases hj
    | some i =>
      obtain ⟨hilt, hbefore⟩ := hcur.1 i rfl
      unfold btFiles.FindAndMergeScan
      split
      · -- the node is mergeable
        rename_i hmg
        have hflag : s.m_need_merge = true := hinv.1 i (by rw [← mergeableAt_eq]; exact hmg)
        cases hms : s.MergeStaging i with
        | nofuel => intro m fl s2 h; simp at h
        | undef => intro m fl s2 h; simp at h
        | ret a =>
          obtain ⟨r, s1⟩ := a
          have hflag1 : s1.m_need_merge = true := by
            rw [MergeStaging_need s i r s1 hms]
            exact hflag
          have hinv1 : MergeInv s1 :=
            ⟨fun _ _ => hflag1, MergeStaging_lenOk s i r s1 hms hinv.2⟩
          simp only
          split
          · intro m fl s2 h
            simp only [Res.ret.injEq, Prod.mk.injEq] at h
            rw [← h.2.2]
            exact hinv1
          · rename_i hr
            split
            · intro m fl s2 h
              simp only [Res.ret.injEq, Prod.mk.injEq] at h
              rw [← h.2.2]
              exact hinv1
            · obtain ⟨hlt, sz, hsz⟩ := MergeStaging_layouts s i r s1 hms hr
              have hlen1 : s1.chain.length + 1 = s.chain.length := by
                have h1 := congrArg List.length hsz
                rw [layouts_length, List.length_eraseIdx, resizeAt_length, layouts_length] at h1
                simp only [hlt, if_true] at h1
                omega
              have hget : ∀ k, k < i → (layouts s1.chain)[k]? = (layouts s.chain)[k]? := by
                intro k hk
                rw [hsz, List.getElem?_eraseIdx]
                simp only [show k < i + 1 by omega, if_true]
                exact resizeAt_getElem?_ne _ _ _ _ (by omega)
              have hgeti : (layouts s1.chain)[i]? =
                  ((layouts s.chain)[i]?).map (fun a => (a.1, a.2.1, a.2.2.1, sz)) := by
                rw [hsz, List.getElem?_eraseIdx]
                simp only [show i < i + 1 by omega, if_true]
                exact resizeAt_getElem?_eq _ _ _
              refine ih s1 (some i) true ⟨?_, by intro h; cases h⟩ hinv1
              intro i2 hi2
              cases hi2
              refine ⟨by omega, ?_⟩
              intro j hj
              have hjold := hbefore j hj
              unfold mergeableL at hjold ⊢
              rw [hget j hj]
              by_cases hji : j + 1 = i
              · rw [hji, hgeti]
                rw [hji] at hjold
                cases h1 : (layouts s.chain)[j]? with
                | none => rfl
                | some p =>
                  cases h2 : (layouts s.chain)[i]? with
                  | none => rfl
                  | some n =>
                    simp only [h1, h2, Option.map_some'] at hjold ⊢
                    exact hjold
              · rw [hget (j + 1) (by omega)]
                exact hjold
      · -- the node is not mergeable: the walk goes on
        rename_i hmg
        have hmgL : mergeableL (layouts s.chain) i = false := by
          rw [← mergeableAt_eq]
          simpa using hmg
        have hall : ∀ j, j ≤ i → mergeableL (layouts s.chain) j = false := by
          intro j hj
          by_cases hji : j = i
          · rw [hji]; exact hmgL
          · exact hbefore j (by omega)
        refine ih s _ merged ⟨?_, ?_⟩ hinv
        · intro m hm
          cases ds with
          | true =>
            simp only [if_true, nextnode] at hm
            split at hm
            · rename_i hlt
              cases hm
              exact ⟨hlt, fun j hj => hall j (by omega)⟩
            · cases hm
          | false =>
            simp only [Bool.false_eq_true, if_false] at hm
            obtain ⟨h1, h2, h3⟩ := nextreal_some _ _ _ hm
            refine ⟨h2, ?_⟩
            intro j hj
            rcases Nat.lt_or_ge i j with h4 | h4
            · obtain ⟨p, hp, hps⟩ := h3 j h4 hj
              apply mergeableL_staging _ _ p.layout
              · rw [layouts_getElem?, hp]; rfl
              · exact hps
            · exact hall j h4
        · intro hm j
          rcases Nat.lt_or_ge i j with h4 | h4
          · cases ds with
            | true =>
              simp only [if_true, nextnode] at hm
              split at hm
              · cases hm
              · apply mergeableL_none
                rw [layouts_length]
                omega
            | false =>
              simp only [Bool.false_eq_true, if_false] at hm
              rcases Nat.lt_or_ge j s.chain.length with h2 | h2
              · have hj : s.chain[j]? = some s.chain[j] := List.getElem?_eq_getElem h2
                have hst := nextreal_none _ _ hm j _ h4 hj
                apply mergeableL_staging _ _ (s.chain[j]).layout
                · rw [layouts_getElem?, hj]; rfl
                · exact hst
              · apply mergeableL_none
                rw [layouts_length]
                omega
          · exact hall j h4

/-- Every call of `FindAndMerge` that returns keeps the invariant behind
`m_need_merge`, whatever the outcomes of the library calls. -/
theorem FindAndMerge_mergeInv (s : btFiles) (fa ds : Bool) (h : MergeInv s) :
    ResInv MergeInv (fun r => r.2) (s.FindAndMerge fa ds) := by
  unfold btFiles.FindAndMerge
  cases hsc : btFiles.FindAndMergeScan fa ds (2 * s.chain.length + 2) s
      (if s.chain.length = 0 then none else some 0) false with
  | undef => trivial
  | nofuel => trivial
  | ret a =>
    obtain ⟨m, fl, s2⟩ := a
    show MergeInv s2
    refine scan_mergeInv fa ds _ s _ false ⟨?_, ?_⟩ h m fl s2 hsc
    · intro i hi
      split at hi
      · cases hi
      · cases hi
        rename_i hne
        exact ⟨Nat.pos_of_ne_zero hne, fun j hj => absurd hj (Nat.not_lt_zero _)⟩
    · intro hn j
      split at hn
      · rename_i h0
        apply mergeableL_none
        rw [layouts_length]
        omega
      · cases hn

theorem StepOk_bind {α β : Type} {Pd : btFiles → Prop} {Pc : α → Prop} {Pc2 : β → Prop}
    (x : Step α) (f : α → Step β) (hx : StepOk Pd Pc x)
    (hf : ∀ a, Pc a → StepOk Pd Pc2 (f a)) : StepOk Pd Pc2 (x.bind f) := by
  cases x with
  | cont a => exact hf a hx
  | done r s => exact hx
  | undef => trivial

theorem sameMerge_inv {s1 s : btFiles} (h : sameMerge s1 s) (hi : MergeInv s) : MergeInv s1 := by
  unfold MergeInv
  rw [h.1, h.2]
  exact hi

theorem sameMerge_trans {s2 s1 s : btFiles} (h2 : sameMerge s2 s1) (h1 : sameMerge s1 s) :
    sameMerge s2 s :=
  ⟨h2.1.trans h1.1, h2.2.trans h1.2⟩

theorem fileop_same (s : btFiles) : sameMerge s.fileop.2 s :=
  ⟨by rw [fileop_chain], fileop_need s⟩

theorem open_same (s : btFiles) (i : Nat) (iotype : Bool) : sameMerge (s._btf_open i iotype).2 s :=
  ⟨open_layouts _ _ _, open_need _ _ _⟩

theorem stamp_same (s : btFiles) (i t : Nat) : sameMerge (s.stamp i t) s :=
  ⟨layouts_of_cores (stamp_cores _ _ _), stamp_need _ _ _⟩

/-- The statements that open the node and seek change neither the layouts nor
`m_need_merge`. -/
theorem ioOpen_same (s : btFiles) (iotype : Bool) (i : Nat) :
    StepOk (fun s1 => sameMerge s1 s) (fun s1 => sameMerge s1 s) (s.ioOpen iotype i) := by
  unfold btFiles.ioOpen
  cases hp : s.chain[i]? with
  | none => trivial
  | some p =>
    simp only
    have h1 : sameMerge (if !p.bf_flag_opened || (iotype && p.bf_flag_readonly)
        then s._btf_open i iotype else (0, s)).2 s := by
      split
      · exact open_same _ _ _
      · exact ⟨rfl, rfl⟩
    generalize (if !p.bf_flag_opened || (iotype && p.bf_flag_readonly)
        then s._btf_open i iotype else (0, s)) = r2 at h1 ⊢
    split
    · exact h1
    · split
      · exact sameMerge_trans (fileop_same _) (sameMerge_trans (stamp_same _ _ _) h1)
      · exact sameMerge_trans (fileop_same _) (sameMerge_trans (stamp_same _ _ _) h1)

theorem add64_sub64_cancel (l pos : Nat) (hl : l < U64) :
    add64 pos (sub64 l pos) = l := by
  unfold U64 at hl
  unfold add64 sub64 U64
  omega

theorem grow_layouts_max (s : btFiles) (i n : Nat) (p : BTFILE) (hp : s.chain[i]? = some p) :
    layouts (s.grow i n).chain = resizeAt (layouts s.chain) i (max p.bf_size n) := by
  have hl : (layouts s.chain)[i]? = some p.layout := by rw [layouts_getElem?, hp]; rfl
  unfold btFiles.grow
  rw [hp]
  simp only
  split
  · rename_i hlt
    show layouts (s.chain.set i _) = _
    rw [layouts_set]
    unfold resizeAt
    rw [hl]
    simp only
    congr 1
    show (p.bf_flag_staging, p.bf_offset, p.bf_length, n) = _
    rw [Nat.max_eq_right (Nat.le_of_lt hlt)]
    rfl
  · rename_i hlt
    rw [Nat.max_eq_left (Nat.le_of_not_lt hlt)]
    exact (resizeAt_self _ _ _ hl).symm

/-- The statements after a successful write at node `i` keep the invariant
behind `m_need_merge`: the size of the node grows, and the flag is raised
when the node has become mergeable. -/
theorem afterWrite_mergeInv (s : btFiles) (i pos nio : Nat) (p : BTFILE)
    (hp : s.chain[i]? = some p) (h : MergeInv s) :
    MergeInv (s.afterWrite i pos nio) ∧
      layouts (s.afterWrite i pos nio).chain =
        resizeAt (layouts s.chain) i (max p.bf_size (add64 pos nio)) := by
  have hg := grow_layouts_max s i (add64 pos nio) p hp
  have hlay : layouts (s.afterWrite i pos nio).chain =
      resizeAt (layouts s.chain) i (max p.bf_size (add64 pos nio)) := by
    unfold btFiles.afterWrite
    rw [closeIfEmpty_layouts]
    split
    · exact hg
    · exact hg
  refine ⟨⟨?_, ?_⟩, hlay⟩
  · intro k hk
    rw [hlay] at hk
    unfold btFiles.afterWrite
    rw [closeIfEmpty_need]
    by_cases hki : k = i
    · rw [hki, ← hg, ← mergeableAt_eq] at hk
      rw [if_pos hk]
    · rw [mergeableL_resizeAt_ne _ _ _ _ hki] at hk
      have := h.1 k hk
      split
      · rfl
      · rw [grow_need]
        exact this
  · rw [hlay]
    exact lenOkL_resizeAt _ _ _ h.2

theorem fwrite_same (s : btFiles) (i pos : Nat) (bytes : List Nat) :
    sameMerge (s.fwrite i pos bytes) s :=
  ⟨fwrite_layouts _ _ _ _, fwrite_need _ _ _ _⟩

theorem fwrite_getElem? (s : btFiles) (i pos : Nat) (bytes : List Nat) (q : BTFILE)
    (hq : s.chain[i]? = some q) :
    (s.fwrite i pos bytes).chain[i]? = some { q with bf_data := writeAt q.bf_data pos bytes } := by
  unfold btFiles.fwrite
  rw [hq]
  simp only
  rw [List.getElem?_set_self (lt_length_of_getElem? hq)]

theorem ioXfer_write (s : btFiles) (i pos : Nat) (c : Cur) (h : MergeInv s) :
    StepOk MergeInv (xferOk s i c) (s.ioXfer true i pos c) := by
  unfold btFiles.ioXfer
  cases hq : s.chain[i]? with
  | none => trivial
  | some q =>
    have hfin : ∀ (s1 : btFiles) (q1 : BTFILE), s1.chain[i]? = some q1 →
        q1.layout = q.layout → MergeInv s1 → s1.chain.length = s.chain.length →
        xferOk s i c (s1.afterWrite i pos (ioSize true q s.chain[i + 1]? pos c.len),
          ioSize true q s.chain[i + 1]? pos c.len, c.rbuf) := by
      intro s1 q1 hq1 hlay h1 hlen
      obtain ⟨h2, h3⟩ := afterWrite_mergeInv s1 i pos
        (ioSize true q s.chain[i + 1]? pos c.len) q1 hq1 h1
      refine ⟨h2, ?_, ?_⟩
      · have := congrArg List.length h3
        rw [layouts_length, resizeAt_length, layouts_length] at this
        rw [this, hlen]
      · intro hleft a ha
        simp only at ha hleft
        rw [h3, resizeAt_getElem?_eq, layouts_getElem?, hq1] at ha
        simp only [Option.map_some', Option.some.injEq] at ha
        rw [← ha]
        simp only
        cases hst : q1.bf_flag_staging with
        | true => exact Or.inl (by rw [show q1.layout.1 = q1.bf_flag_staging from rfl, hst])
        | false =>
          right
          have hqs : q.bf_flag_staging = false := by
            have := congrArg (fun a => a.1) hlay
            simp only [BTFILE.layout] at this
            rw [← this]
            exact hst
          have hql : q.bf_length = q1.bf_length := by
            have := congrArg (fun a => a.2.2.1) hlay
            simp only [BTFILE.layout] at this
            exact this.symm
          have hlt : q1.bf_length < U64 := by
            have := h1.2 q1.layout (by
              apply mem_of_getElem? (i := i)
              rw [layouts_getElem?, hq1]
              rfl) hst
            have h5 : q1.bf_offset + q1.bf_length < U64 := this
            omega
          have hnio : ioSize true q s.chain[i + 1]? pos c.len = sub64 q.bf_length pos := by
            unfold ioSize at hleft ⊢
            simp only [if_true, hqs, Bool.false_eq_true, if_false] at hleft ⊢
            split
            · rename_i hle
              rw [if_pos hle] at hleft
              omega
            · rfl
          rw [hnio, hql, add64_sub64_cancel _ _ hlt]
          show ¬ max q1.bf_size q1.bf_length < q1.bf_length
          omega
    simp only
    split
    · rename_i h0
      show xferOk s i c (s.afterWrite i pos 0, 0, c.rbuf)
      have := hfin s q hq rfl h rfl
      rw [h0] at this
      exact this
    · split
      · show MergeInv _
        exact ⟨by
          show ∀ j, mergeableL (layouts s.fileop.2.chain) j = true → s.fileop.2.m_need_merge = true
          rw [fileop_chain, fileop_need]
          exact h.1, by
          show lenOkL (layouts s.fileop.2.chain)
          rw [fileop_chain]
          exact h.2⟩
      · have h1 : MergeInv (s.fileop.2.fwrite i pos
            (c.wbuf.take (ioSize true q s.chain[i + 1]? pos c.len))) :=
          sameMerge_inv (sameMerge_trans (fwrite_same _ _ _ _) (fileop_same _)) h
        have hq0 : s.fileop.2.chain[i]? = some q := by rw [fileop_chain]; exact hq
        have hlen : (s.fileop.2.fwrite i pos
            (c.wbuf.take (ioSize true q s.chain[i + 1]? pos c.len))).chain.length =
            s.chain.length := by
          have := congrArg List.length (fwrite_same s.fileop.2 i pos
            (c.wbuf.take (ioSize true q s.chain[i + 1]? pos c.len))).1
          rw [layouts_length, layouts_length, fileop_chain] at this
          exact this
        exact hfin _ _ (fwrite_getElem? _ _ _ _ _ hq0) rfl h1 hlen

theorem ioXfer_read (s : btFiles) (i pos : Nat) (c : Cur) :
    StepOk (fun s1 => sameMerge s1 s) (fun r => sameMerge r.1 s) (s.ioXfer false i pos c) := by
  unfold btFiles.ioXfer
  cases hq : s.chain[i]? with
  | none => trivial
  | some q =>
    simp only
    split
    · exact ⟨rfl, rfl⟩
    · split
      · exact fileop_same _
      · exact fileop_same _

theorem StepOk_mono {α : Type} {Pd Pd2 : btFiles → Prop} {Pc Pc2 : α → Prop} (x : Step α)
    (hx : StepOk Pd Pc x) (hd : ∀ s, Pd s → Pd2 s) (hc : ∀ a, Pc a → Pc2 a) :
    StepOk Pd2 Pc2 x := by
  cases x with
  | cont a => exact hc a hx
  | done r s => exact hd s hx
  | undef => trivial

/-- The statements "Proceed to next file" after a write: the state stays, and
when no node is current the node left behind joins nothing. -/
theorem ioAdvance_write (s0 s : btFiles) (i : Nat) (c : Cur) (r : btFiles × Nat × List Nat)
    (h : xferOk s0 i c r) (hs : r.1 = s) :
    StepOk MergeInv (fun x : btFiles × Cur => MergeInv x.1 ∧ CurOk x.1 x.2)
      (ioAdvance s i c r.2.1 r.2.2) := by
  subst hs
  unfold ioAdvance
  split
  · exact ⟨h.1, fun hl => absurd rfl hl⟩
  · rename_i hleft
    split
    · trivial
    · refine ⟨h.1, ?_⟩
      intro _ _ j hj a ha
      simp only [Option.some.injEq] at hj
      subst hj
      rcases h.2.2 hleft a ha with h1 | h1
      · exact Or.inl h1
      · exact Or.inr (Or.inl h1)

theorem ioAt_write (s : btFiles) (i : Nat) (c : Cur) (h : MergeInv s) :
    StepOk MergeInv (fun x : btFiles × Cur => MergeInv x.1 ∧ CurOk x.1 x.2)
      (s.ioAt true i c) := by
  unfold btFiles.ioAt
  cases hp : s.chain[i]? with
  | none => trivial
  | some p =>
    simp only
    apply StepOk_bind _ _ (StepOk_mono _ (ioOpen_same s true i)
      (fun s1 h1 => sameMerge_inv h1 h) (fun s1 h1 => sameMerge_inv h1 h))
    intro s1 h1
    apply StepOk_bind _ _ (ioXfer_write s1 i _ c h1)
    intro r hr
    exact ioAdvance_write s1 r.1 i c r hr rfl

theorem ioAt_read (s : btFiles) (i : Nat) (c : Cur) (h : MergeInv s) :
    StepOk MergeInv (fun x : btFiles × Cur => MergeInv x.1) (s.ioAt false i c) := by
  unfold btFiles.ioAt
  cases hp : s.chain[i]? with
  | none => trivial
  | some p =>
    simp only
    apply StepOk_bind _ _ (StepOk_mono _ (ioOpen_same s false i)
      (fun s1 h1 => sameMerge_inv h1 h) (fun s1 h1 => sameMerge_inv h1 h))
    intro s1 h1
    apply StepOk_bind _ _ (StepOk_mono _ (ioXfer_read s1 i _ c)
      (fun s2 h2 => sameMerge_inv h2 h1)
      (fun (r : btFiles × Nat × List Nat) h2 => (sameMerge_inv h2 h1 : MergeInv r.1)))
    intro r hr
    unfold ioAdvance
    split
    · exact hr
    · split
      · trivial
      · exact hr

/-- Entries of the layouts with a staging entry `a` put in behind entry `j`. -/
theorem insert_getElem? (L : List (Bool × Nat × Nat × Nat)) (j : Nat) (a : Bool × Nat × Nat × Nat)
    (hj : j < L.length) (k : Nat) :
    (L.take (j + 1) ++ a :: L.drop (j + 1))[k]? =
      if k ≤ j then L[k]? else if k = j + 1 then some a else L[k - 1]? := by
  have hlen : (L.take (j + 1)).length = j + 1 := by
    rw [List.length_take]
    omega
  by_cases h1 : k ≤ j
  · rw [if_pos h1, List.getElem?_append_left (by omega), List.getElem?_take_of_lt (by omega)]
  · rw [if_neg h1, List.getElem?_append_right (by omega), hlen]
    by_cases h2 : k = j + 1
    · rw [if_pos h2, h2]
      simp
    · rw [if_neg h2]
      have : k - (j + 1) = (k - (j + 1) - 1) + 1 := by omega
      rw [this, List.getElem?_cons_succ, List.getElem?_drop]
      congr 1
      omega

/-- A staging node put in behind node `j` makes no node mergeable that was
not, unless node `j` itself reaches it. -/
theorem insert_mergeable (L : List (Bool × Nat × Nat × Nat)) (j off : Nat) (hj : j < L.length)
    (hno : noJoin L j off) (k : Nat)
    (h : mergeableL (L.take (j + 1) ++ (true, off, 0, 0) :: L.drop (j + 1)) k = true) :
    ∃ k2, mergeableL L k2 = true := by
  unfold mergeableL at h
  rw [insert_getElem? L j _ hj k, insert_getElem? L j _ hj (k + 1)] at h
  by_cases h1 : k + 1 ≤ j
  · refine ⟨k, ?_⟩
    rw [if_pos (by omega), if_pos h1] at h
    unfold mergeableL
    exact h
  · by_cases h2 : k = j
    · subst h2
      rw [if_pos (Nat.le_refl _), if_neg h1, if_pos rfl] at h
      cases he : L[k]? with
      | none => simp [he] at h
      | some e =>
        simp only [he, Bool.and_eq_true, Bool.not_eq_true', decide_eq_true_eq] at h
        rcases hno e he with h3 | h3 | h3
        · rw [h.1.1.1] at h3
          cases h3
        · exact absurd h.1.1.2 h3
        · omega
    · by_cases h3 : k = j + 1
      · subst h3
        rw [if_neg (by omega), if_pos rfl, if_neg (by omega), if_neg (by omega)] at h
        simp only [Nat.add_sub_cancel] at h
        cases hn : L[j + 1]? with
        | none => simp [hn] at h
        | some n => simp [hn] at h
      · refine ⟨k - 1, ?_⟩
        rw [if_neg (by omega), if_neg h3, if_neg (by omega), if_neg (by omega)] at h
        unfold mergeableL
        have : k - 1 + 1 = k + 1 - 1 := by omega
        rw [this]
        exact h

/-- The branch "Create new staging file" keeps the invariant behind
`m_need_merge` when the new node joins nothing. -/
theorem createStaging_mergeInv (s : btFiles) (off : Nat) (pbfref : Option Nat) (h : MergeInv s)
    (hno : ∀ j, pbfref = some j → noJoin (layouts s.chain) j off) :
    StepOk MergeInv (fun r : btFiles × Nat => MergeInv r.1) (s.createStaging off pbfref) := by
  unfold btFiles.createStaging
  have h1 : sameMerge (if decide (MAX_STAGEDIR_FILES ≤ s.m_stagecount) || s.m_stagedir.isEmpty then
      (if s.fileop.1 = FileResult.ok then
        { s.fileop.2 with m_stagedir := fmtOffset s.m_fsizelen off, m_stagecount := 0 }
      else s.fileop.2) else s) s := by
    split
    · split
      · exact fileop_same _
      · exact fileop_same _
    · exact ⟨rfl, rfl⟩
  simp only
  generalize (if decide (MAX_STAGEDIR_FILES ≤ s.m_stagecount) || s.m_stagedir.isEmpty then
      (if s.fileop.1 = FileResult.ok then
        { s.fileop.2 with m_stagedir := fmtOffset s.m_fsizelen off, m_stagecount := 0 }
      else s.fileop.2) else s) = s1 at h1 ⊢
  have h2 : sameMerge s1.fileop.2 s := sameMerge_trans (fileop_same _) h1
  split
  · exact sameMerge_inv h2 h
  · cases pbfref with
    | none => trivial
    | some j =>
      simp only
      split
      · trivial
      · rename_i hlen
        have hj : j < (layouts s.chain).length := by
          rw [← h2.1, layouts_length]
          omega
        have hlay : layouts (s1.fileop.2.chain.take (j + 1) ++
            ({ bf_filename := s1.fileop.2.m_stagedir ++ PATH_SP.toString ++
                 s1.fileop.2.m_torrent_id ++ "-" ++ fmtOffset s1.fileop.2.m_fsizelen off,
               bf_offset := off, bf_flag_staging := true } : BTFILE) ::
              s1.fileop.2.chain.drop (j + 1)) =
            (layouts s.chain).take (j + 1) ++ (true, off, 0, 0) ::
              (layouts s.chain).drop (j + 1) := by
          rw [← h2.1]
          simp [layouts, List.map_take, List.map_drop, BTFILE.layout]
        refine ⟨?_, ?_⟩
        · intro k hk
          show s1.fileop.2.m_need_merge = true
          rw [h2.2]
          have hk2 : mergeableL ((layouts s.chain).take (j + 1) ++ (true, off, 0, 0) ::
              (layouts s.chain).drop (j + 1)) k = true := by
            rw [← hlay]
            exact hk
          obtain ⟨k2, hk3⟩ := insert_mergeable _ j off hj (hno j rfl) k hk2
          exact h.1 k2 hk3
        · show lenOkL (layouts (_ ++ _ :: _))
          rw [hlay]
          intro a ha
          rw [List.mem_append, List.mem_cons] at ha
          rcases ha with ha | ha | ha
          · exact h.2 a (List.mem_of_mem_take ha)
          · rw [ha]
            intro hst
            cases hst
          · exact h.2 a (List.mem_of_mem_drop ha)

/-- The node the search of `IO` leaves in `pbfref` for a write at `off` is a
staging node or ends before `off`: a staging node made at `off` behind it
joins nothing. -/
theorem locateAux_noJoin (off : Nat) (rest : List BTFILE) :
    ∀ (pre : List BTFILE) (skip : Bool) (pbfref : Option Nat),
      (∀ j, pbfref = some j → noJoin (layouts (pre ++ rest)) j off) →
      ∀ j, (locateAux true off rest pre.length skip pbfref).2 = some j →
        noJoin (layouts (pre ++ rest)) j off := by
  induction rest with
  | nil =>
    intro pre skip pbfref h j hj
    exact h j hj
  | cons p rest ih =>
    intro pre skip pbfref h j hj
    have happ : pre ++ p :: rest = (pre ++ [p]) ++ rest := by simp
    have hlen : (pre ++ [p]).length = pre.length + 1 := by simp
    unfold locateAux at hj
    split at hj
    · rw [← hlen] at hj
      rw [happ] at h ⊢
      exact ih (pre ++ [p]) true pbfref h j hj
    · split at hj
      · exact h j hj
      · rename_i hnm
        split at hj
        · exact h j hj
        · rename_i hge
          rw [← hlen] at hj
          rw [happ]
          refine ih (pre ++ [p]) _ (some pre.length) ?_ j hj
          intro j2 hj2 a ha
          simp only [Option.some.injEq] at hj2
          subst hj2
          rw [← happ, layouts_getElem?, List.getElem?_append_right (Nat.le_refl _)] at ha
          simp only [Nat.sub_self, List.getElem?_cons_zero, Option.map_some',
            Option.some.injEq] at ha
          subst ha
          show p.bf_flag_staging = true ∨ ¬ p.bf_size < p.bf_length ∨
            add64 p.bf_offset p.bf_size < off
          cases hst : p.bf_flag_staging with
          | true => exact Or.inl rfl
          | false =>
            right
            right
            unfold locMatch at hnm
            simp only [hst, Bool.true_and, Bool.not_false, Bool.true_or, Bool.and_true,
              Bool.and_eq_true, Bool.or_eq_true, decide_eq_true_eq, not_and, not_or] at hnm
            have := hnm (by omega)
            omega

theorem locate_noJoin (chain : List BTFILE) (off : Nat) :
    ∀ j, (locate chain true off).2 = some j → noJoin (layouts chain) j off := by
  intro j hj
  have := locateAux_noJoin off chain [] false none (by intro j h; cases h) j
  simp only [List.length_nil, List.nil_append] at this
  exact this hj

/-- The first statement of the loop body keeps the invariant on the cursor. -/
theorem softCap_curOk (s : btFiles) (c : Cur) (h : CurOk s c) :
    CurOk s (softCap true s c) ∧ (softCap true s c).off = c.off ∧
      (softCap true s c).len = c.len := by
  unfold softCap
  split
  · exact ⟨h, rfl, rfl⟩
  · split
    · exact ⟨h, rfl, rfl⟩
    · rename_i i _ p hp
      split
      · rename_i hc
        refine ⟨?_, rfl, rfl⟩
        intro _ _ j hj a ha
        simp only [Option.some.injEq] at hj
        subst hj
        rw [layouts_getElem?, hp] at ha
        simp only [Option.map_some', Option.some.injEq] at ha
        subst ha
        left
        simp only [Bool.true_and, Bool.and_eq_true, decide_eq_true_eq] at hc
        exact hc.1.1
      · exact ⟨h, rfl, rfl⟩

theorem IOstep_write (s : btFiles) (c : Cur) (h : MergeInv s) (hc : CurOk s c)
    (hlen : c.len ≠ 0) :
    StepOk MergeInv (fun x : btFiles × Cur => MergeInv x.1 ∧ CurOk x.1 x.2)
      (s.IOstep true c) := by
  obtain ⟨h1, h2, h3⟩ := softCap_curOk s c hc
  unfold btFiles.IOstep
  split
  · exact ioAt_write _ _ _ h
  · rename_i hnone
    simp only [if_true]
    apply StepOk_bind _ _ (createStaging_mergeInv s c.off _ h ?_)
    · intro r hr
      exact ioAt_write _ _ _ hr
    · intro j hj
      have := h1 (by rw [h3]; exact hlen) hnone j hj
      rw [h2] at this
      exact this

theorem IOstep_read (s : btFiles) (c : Cur) (h : MergeInv s) :
    StepOk MergeInv (fun x : btFiles × Cur => MergeInv x.1) (s.IOstep false c) := by
  unfold btFiles.IOstep
  split
  · exact ioAt_read _ _ _ h
  · exact h

theorem IOloop_write (fuel : Nat) (s : btFiles) (c : Cur) (h : MergeInv s) (hc : CurOk s c) :
    ResInv MergeInv (fun r : Int × btFiles × List Nat => r.2.1) (btFiles.IOloop true fuel s c) := by
  induction fuel generalizing s c with
  | zero => trivial
  | succ fuel ih =>
    unfold btFiles.IOloop
    split
    · exact h
    · rename_i hlen
      have hs := IOstep_write s c h hc hlen
      cases hst : s.IOstep true c with
      | undef => trivial
      | done r s1 =>
        rw [hst] at hs
        exact hs
      | cont a =>
        rw [hst] at hs
        obtain ⟨s1, c1⟩ := a
        exact ih s1 c1 hs.1 hs.2

theorem IOloop_read (fuel : Nat) (s : btFiles) (c : Cur) (h : MergeInv s) :
    ResInv MergeInv (fun r : Int × btFiles × List Nat => r.2.1) (btFiles.IOloop false fuel s c) := by
  induction fuel generalizing s c with
  | zero => trivial
  | succ fuel ih =>
    unfold btFiles.IOloop
    split
    · exact h
    · have hs := IOstep_read s c h
      cases hst : s.IOstep false c with
      | undef => trivial
      | done r s1 =>
        rw [hst] at hs
        exact hs
      | cont a =>
        rw [hst] at hs
        obtain ⟨s1, c1⟩ := a
        exact ih s1 c1 hs

/-- Every call of `IO` that returns keeps the invariant behind
`m_need_merge`, whatever the outcomes of the library calls. -/
theorem IO_mergeInv (s : btFiles) (rbuf : List Nat) (wbuf : Option (List Nat)) (off len : Nat)
    (h : MergeInv s) :
    ResInv MergeInv (fun r : Int × btFiles × List Nat => r.2.1)
      ( btFiles.IO s rbuf wbuf off len) := by
  unfold btFiles.IO
  split
  · exact h
  · cases wbuf with
    | none => exact IOloop_read _ _ _ h
    | some w =>
      apply IOloop_write _ _ _ h
      intro _ _ j hj
      exact locate_noJoin s.chain off j hj

theorem mcall_mergeInv (s : btFiles) (c : MergeCall) (h : MergeInv s) : MergeInv (s.mcall c) := by
  cases c with
  | io rbuf wbuf off len => exact stateOr_inv _ _ _ (IO_mergeInv s rbuf wbuf off len h) h
  | findAndMerge fa ds => exact stateOr_inv _ _ _ (FindAndMerge_mergeInv s fa ds h) h
  | outcomes env => exact h

/-- C20: starting from a chain with no mergeable pair (and real files that
end below `2^64`), after any sequence of calls of `IO` and `FindAndMerge`,
whatever the outcomes of the library calls (failed calls included): if some
real file `R` immediately followed by a staging node `S` satisfies
`R.size < R.length` and `R.offset + R.size ≥ S.offset`, then `m_need_merge`
is set. -/
theorem C20_merge_never_missed (s0 : btFiles) (calls : List MergeCall) (i : Nat) (R S : BTFILE)
    (h0 : ∀ j, j < s0.chain.length → mergeableAt s0.chain j = false)
    (hfit : ∀ p ∈ s0.chain, p.bf_flag_staging = false → p.bf_offset + p.bf_length < U64)
    (hR : (calls.foldl btFiles.mcall s0).chain[i]? = some R)
    (hS : (calls.foldl btFiles.mcall s0).chain[i + 1]? = some S)
    (hRr : R.bf_flag_staging = false) (hSs : S.bf_flag_staging = true)
    (hsize : R.bf_size < R.bf_length) (hreach : S.bf_offset ≤ R.bf_offset + R.bf_size) :
    (calls.foldl btFiles.mcall s0).m_need_merge = true := by
  have hinv0 : MergeInv s0 := by
    refine ⟨?_, ?_⟩
    · intro j hj
      rw [← mergeableAt_eq] at hj
      rcases Nat.lt_or_ge j s0.chain.length with h1 | h1
      · rw [h0 j h1] at hj
        cases hj
      · unfold mergeableAt at hj
        rw [List.getElem?_eq_none h1] at hj
        simp at hj
    · intro a ha hst
      unfold layouts at ha
      obtain ⟨p, hp, hpa⟩ := List.mem_map.1 ha
      subst hpa
      exact hfit p hp hst
  have hinv : MergeInv (calls.foldl btFiles.mcall s0) := by
    clear h0 hfit hR hS
    induction calls generalizing s0 with
    | nil => exact hinv0
    | cons c cs ih => exact ih (s0.mcall c) (mcall_mergeInv s0 c hinv0)
  apply hinv.1 i
  rw [← mergeableAt_eq]
  unfold mergeableAt
  rw [hR, hS]
  have hlt : R.bf_offset + R.bf_size < U64 := by
    have := hinv.2 R.layout (by
      apply mem_of_getElem? (i := i)
      rw [layouts_getElem?, hR]
      rfl) hRr
    have h5 : R.bf_offset + R.bf_length < U64 := this
    omega
  simp only [hRr, hSs, Bool.not_false, Bool.true_and, Bool.and_true, Bool.and_eq_true,
    decide_eq_true_eq]
  rw [add64_of_lt _ _ hlt]
  exact ⟨hsize, hreach⟩

theorem C20_merge_never_missed_witness :
    ((∀ j, j < (btFiles.fresh [100]).chain.length →
        mergeableAt (btFiles.fresh [100]).chain j = false) ∧
      (∀ p ∈ (btFiles.fresh [100]).chain,
        p.bf_flag_staging = false → p.bf_offset + p.bf_length < U64) ∧
      (catchUpCalls.foldl btFiles.mcall (btFiles.fresh [100])).chain[0]? =
        some ((catchUpCalls.foldl btFiles.mcall (btFiles.fresh [100])).chain.getD 0 {}) ∧
      (catchUpCalls.foldl btFiles.mcall (btFiles.fresh [100])).chain[0 + 1]? =
        some ((catchUpCalls.foldl btFiles.mcall (btFiles.fresh [100])).chain.getD 1 {}) ∧
      ((catchUpCalls.foldl btFiles.mcall (btFiles.fresh [100])).chain.getD 0 {}).bf_flag_staging =
        false ∧
      ((catchUpCalls.foldl btFiles.mcall (btFiles.fresh [100])).chain.getD 1 {}).bf_flag_staging =
        true ∧
      ((catchUpCalls.foldl btFiles.mcall (btFiles.fresh [100])).chain.getD 0 {}).bf_size <
        ((catchUpCalls.foldl btFiles.mcall (btFiles.fresh [100])).chain.getD 0 {}).bf_length ∧
      ((catchUpCalls.foldl btFiles.mcall (btFiles.fresh [100])).chain.getD 1 {}).bf_offset ≤
        ((catchUpCalls.foldl btFiles.mcall (btFiles.fresh [100])).chain.getD 0 {}).bf_offset +
        ((catchUpCalls.foldl btFiles.mcall (btFiles.fresh [100])).chain.getD 0 {}).bf_size) ∧
    (catchUpCalls.foldl btFiles.mcall (btFiles.fresh [100])).m_need_merge = true ∧
    layouts (catchUpCalls.foldl btFiles.mcall (btFiles.fresh [100])).chain =
      [(false, 0, 100, 50), (true, 50, 0, 5), (true, 70, 0, 5)] ∧
    (( btFiles.IO ((catchUpCalls.take 3).foldl btFiles.mcall (btFiles.fresh [100])) []
        (some (List.replicate 50 7)) 0 50).code = some (-1)) ∧
    (((catchUpCalls.take 7).foldl btFiles.mcall (btFiles.fresh [100])).FindAndMerge true
        false).code = some 0 :=
  ⟨⟨by decide, by decide, by decide, by decide, by decide, by decide, by decide, by decide⟩,
   C20_merge_never_missed (btFiles.fresh [100]) catchUpCalls 0
     ((catchUpCalls.foldl btFiles.mcall (btFiles.fresh [100])).chain.getD 0 {})
     ((catchUpCalls.foldl btFiles.mcall (btFiles.fresh [100])).chain.getD 1 {})
     (by decide) (by decide) (by decide) (by decide) (by decide) (by decide) (by decide)
     (by decide),
   by decide, by decide, by decide⟩

/-! ## The oldest open file (C21) -/

/-- The scan of `_btf_close_oldest` keeps its candidate when no open node of
the rest is older. -/
theorem oldestAux_keep (l : List BTFILE) (i j t : Nat)
    (h : ∀ q ∈ l, q.bf_flag_opened = true → t ≤ q.bf_last_timestamp) :
    oldestAux l i (some (j, t)) = some (j, t) := by
  induction l generalizing i with
  | nil => rfl
  | cons a l ih =>
    unfold oldestAux
    have hl := ih (i + 1) (fun q hq => h q (List.mem_cons_of_mem _ hq))
    cases ho : a.bf_flag_opened with
    | false => simpa using hl
    | true =>
      have := h a (List.mem_cons_self _ _) ho
      simp only [Bool.not_true, Bool.false_eq_true, if_false]
      rw [if_neg (by omega)]
      exact hl

/-- The scan of `_btf_close_oldest` ends at the first open node of least time
stamp, when the candidate it starts with is newer than that node. -/
theorem oldestAux_first (l : List BTFILE) :
    ∀ (i j : Nat) (best : Option (Nat × Nat)) (p : BTFILE), i ≤ j →
      l[j - i]? = some p → p.bf_flag_opened = true →
      (∀ k q, l[k]? = some q → q.bf_flag_opened = true →
        p.bf_last_timestamp ≤ q.bf_last_timestamp ∧
          (q.bf_last_timestamp = p.bf_last_timestamp → j - i ≤ k)) →
      (∀ b, best = some b → p.bf_last_timestamp < b.2) →
      oldestAux l i best = some (j, p.bf_last_timestamp) := by
  induction l with
  | nil => intro i j best p _ hp; simp at hp
  | cons a l ih =>
    intro i j best p hij hp ho hmin hbest
    unfold oldestAux
    rcases Nat.eq_or_lt_of_le hij with he | hlt
    · -- the head is the node
      subst he
      simp only [Nat.sub_self, List.getElem?_cons_zero, Option.some.injEq] at hp
      subst hp
      simp only [ho, Bool.not_true, Bool.false_eq_true, if_false]
      have hkeep : oldestAux l (i + 1) (some (i, a.bf_last_timestamp)) =
          some (i, a.bf_last_timestamp) := by
        apply oldestAux_keep
        intro q hq hqo
        obtain ⟨k, hk⟩ := List.mem_iff_getElem?.1 hq
        exact (hmin (k + 1) q (by simpa using hk) hqo).1
      cases best with
      | none => exact hkeep
      | some b =>
        obtain ⟨j0, t0⟩ := b
        have := hbest (j0, t0) rfl
        simp only
        rw [if_pos this]
        exact hkeep
    · -- the node is further on
      have hidx : j - i = (j - (i + 1)) + 1 := by omega
      rw [hidx, List.getElem?_cons_succ] at hp
      have hmin2 : ∀ k q, l[k]? = some q → q.bf_flag_opened = true →
          p.bf_last_timestamp ≤ q.bf_last_timestamp ∧
            (q.bf_last_timestamp = p.bf_last_timestamp → j - (i + 1) ≤ k) := by
        intro k q hk hqo
        obtain ⟨h1, h2⟩ := hmin (k + 1) q (by simpa using hk) hqo
        exact ⟨h1, fun he => by have := h2 he; omega⟩
      cases hao : a.bf_flag_opened with
      | false =>
        simp only [Bool.not_false, if_true]
        exact ih (i + 1) j best p (by omega) hp ho hmin2 hbest
      | true =>
        have ha := hmin 0 a (by simp) hao
        have halt : p.bf_last_timestamp < a.bf_last_timestamp := by
          rcases Nat.lt_or_ge p.bf_last_timestamp a.bf_last_timestamp with h1 | h1
          · exact h1
          · have := ha.2 (by omega)
            omega
        simp only [Bool.not_true, Bool.false_eq_true, if_false]
        cases best with
        | none =>
          exact ih (i + 1) j _ p (by omega) hp ho hmin2
            (by intro b hb; cases hb; exact halt)
        | some b =>
          obtain ⟨j0, t0⟩ := b
          have hb0 := hbest (j0, t0) rfl
          simp only
          split
          · exact ih (i + 1) j _ p (by omega) hp ho hmin2
              (by intro b hb; cases hb; exact halt)
          · exact ih (i + 1) j _ p (by omega) hp ho hmin2
              (by intro b hb; cases hb; exact hb0)

theorem oldestAux_closed (l : List BTFILE) (i : Nat)
    (h : ∀ q ∈ l, q.bf_flag_opened = false) : oldestAux l i none = none := by
  induction l generalizing i with
  | nil => rfl
  | cons a l ih =>
    unfold oldestAux
    rw [h a (List.mem_cons_self _ _)]
    simp only [Bool.not_false, if_true]
    exact ih (i + 1) (fun q hq => h q (List.mem_cons_of_mem _ hq))

/-- C21: when the node `p` at index `j` is open and is the open node of least
`bf_last_timestamp`, the earliest in chain order among the open nodes of that
time stamp, `_btf_close_oldest` returns 0 and closes exactly this node: the
chain differs from the old one only in `bf_flag_opened` of node `j`, and
`m_total_opened` goes down by one.  In a state in which no node is open it
returns -1 and changes nothing. -/
theorem C21_close_oldest (s : btFiles) (j : Nat) (p : BTFILE)
    (hp : s.chain[j]? = some p) (ho : p.bf_flag_opened = true)
    (hmin : ∀ k, k < s.chain.length → ∀ q ∈ s.chain[k]?, q.bf_flag_opened = true →
      p.bf_last_timestamp ≤ q.bf_last_timestamp ∧
        (q.bf_last_timestamp = p.bf_last_timestamp → j ≤ k)) :
    s._btf_close_oldest =
        (0, { s with chain := s.chain.set j { p with bf_flag_opened := false },
                     m_total_opened := s.m_total_opened - 1 }) ∧
      (0 < s.m_total_opened →
        s._btf_close_oldest.2.m_total_opened + 1 = s.m_total_opened) ∧
      (∀ k, k ≠ j → s._btf_close_oldest.2.chain[k]? = s.chain[k]?) ∧
      s._btf_close_oldest.2.chain[j]? = some { p with bf_flag_opened := false } ∧
      (∀ s2 : btFiles, (∀ q ∈ s2.chain, q.bf_flag_opened = false) →
        s2._btf_close_oldest = (-1, s2)) := by
  have hres : s._btf_close_oldest =
      (0, { s with chain := s.chain.set j { p with bf_flag_opened := false },
                   m_total_opened := s.m_total_opened - 1 }) := by
    unfold btFiles._btf_close_oldest
    rw [oldestAux_first s.chain 0 j none p (Nat.zero_le _) (by simpa using hp) ho
      (by
        intro k q hk hqo
        have := hmin k (lt_length_of_getElem? hk) q hk hqo
        exact ⟨this.1, fun he => by have := this.2 he; omega⟩)
      (by intro b hb; cases hb)]
    simp only
    unfold btFiles._btf_close
    rw [hp]
    simp [ho]
  refine ⟨hres, ?_, ?_, ?_, ?_⟩
  · intro hpos
    rw [hres]
    show s.m_total_opened - 1 + 1 = s.m_total_opened
    omega
  · intro k hk
    rw [hres]
    show (s.chain.set j _)[k]? = _
    rw [List.getElem?_set_ne (Ne.symm hk)]
  · rw [hres]
    show (s.chain.set j _)[j]? = _
    rw [List.getElem?_set_self (lt_length_of_getElem? hp)]
  · intro s2 h2
    unfold btFiles._btf_close_oldest
    rw [oldestAux_closed _ _ h2]

/-- C21 at `cacheState`: of the open nodes with the time stamps 5, 3 and 3
the first one with time stamp 3, at index 1, is closed and `m_total_opened`
goes from 3 to 2; in a freshly built chain, where no node is open, the call
returns -1 and leaves the state. -/
theorem C21_close_oldest_witness :
    (cacheState.chain[1]? =
        some { bf_offset := 1, bf_length := 1, bf_flag_opened := true, bf_last_timestamp := 3 } ∧
      ({ bf_offset := 1, bf_length := 1, bf_flag_opened := true,
         bf_last_timestamp := 3 } : BTFILE).bf_flag_opened = true ∧
      (∀ k, k < cacheState.chain.length → ∀ q ∈ cacheState.chain[k]?,
        q.bf_flag_opened = true →
        ({ bf_offset := 1, bf_length := 1, bf_flag_opened := true,
           bf_last_timestamp := 3 } : BTFILE).bf_last_timestamp ≤ q.bf_last_timestamp ∧
          (q.bf_last_timestamp =
            ({ bf_offset := 1, bf_length := 1, bf_flag_opened := true,
               bf_last_timestamp := 3 } : BTFILE).bf_last_timestamp → 1 ≤ k))) ∧
    (cacheState._btf_close_oldest =
        (0, { cacheState with
                chain := cacheState.chain.set 1
                  { ({ bf_offset := 1, bf_length := 1, bf_flag_opened := true,
                       bf_last_timestamp := 3 } : BTFILE) with bf_flag_opened := false },
                m_total_opened := cacheState.m_total_opened - 1 }) ∧
      (0 < cacheState.m_total_opened →
        cacheState._btf_close_oldest.2.m_total_opened + 1 = cacheState.m_total_opened) ∧
      (∀ k, k ≠ 1 → cacheState._btf_close_oldest.2.chain[k]? = cacheState.chain[k]?) ∧
      cacheState._btf_close_oldest.2.chain[1]? =
        some { ({ bf_offset := 1, bf_length := 1, bf_flag_opened := true,
                  bf_last_timestamp := 3 } : BTFILE) with bf_flag_opened := false } ∧
      (∀ s2 : btFiles, (∀ q ∈ s2.chain, q.bf_flag_opened = false) →
        s2._btf_close_oldest = (-1, s2))) ∧
    cacheState._btf_close_oldest.1 = 0 ∧
    (cacheState._btf_close_oldest.2.chain.map fun q => q.bf_flag_opened) =
      [true, false, true, false] ∧
    cacheState._btf_close_oldest.2.m_total_opened = 2 ∧
    (btFiles.fresh [1, 1])._btf_close_oldest = (-1, btFiles.fresh [1, 1]) :=
  ⟨⟨by decide, by decide, by decide⟩,
   C21_close_oldest cacheState 1
     { bf_offset := 1, bf_length := 1, bf_flag_opened := true, bf_last_timestamp := 3 }
     (by decide) (by decide) (by decide),
   by decide, by decide, by decide, by decide⟩

/-! ## An append at the end of a staging file (C22) -/

/-- In a tidy chain every node starts at or after the floor the chain was
checked from, when that floor is not behind the end of the last real file. -/
theorem tidyFrom_floor_le (T : Nat) (l : List BTFILE) :
    ∀ (f r m : Nat) (q : BTFILE), tidyFrom T l f r = true → f ≤ r → l[m]? = some q →
      f ≤ q.bf_offset := by
  induction l with
  | nil => intro f r m q _ _ hq; simp at hq
  | cons p rest ih =>
    intro f r m q h hfr hq
    rw [tidyFrom_cons] at h
    have hp : f ≤ p.bf_offset ∧ p.bf_offset + p.bf_size ≤ rendAfter p r := by
      cases hs : p.bf_flag_staging with
      | true =>
        have := (okNode_staging p f r hs).1 h.1
        rw [rendAfter_staging p r hs]
        exact ⟨this.1, this.2.2⟩
      | false =>
        have := (okNode_real p f r hs).1 h.1
        rw [rendAfter_real p r hs]
        exact ⟨by omega, by omega⟩
    cases m with
    | zero =>
      simp only [List.getElem?_cons_zero, Option.some.injEq] at hq
      subst hq
      exact hp.1
    | succ m =>
      rw [List.getElem?_cons_succ] at hq
      have := ih _ _ m q h.2 hp.2 hq
      omega

/-- What the search for the first file finds for a write at the end of the
bytes of the staging node `S` of a tidy chain, when the node behind `S` starts
further on: the node `S` itself while it is below `MAX_STAGEFILE_SIZE`, no
node and `S` as `pbfref` once it has reached that size. -/
theorem locateAux_at (T off : Nat) (S : BTFILE) (hT : T < U64) (hS : S.bf_flag_staging = true)
    (hoff : off = S.bf_offset + S.bf_size) (hin : off < T) (l : List BTFILE) :
    ∀ (m k : Nat) (skip : Bool) (r : Option Nat) (f rend : Nat),
      l[m]? = some S → (∀ N, l[m + 1]? = some N → off < N.bf_offset) →
      tidyFrom T l f rend = true → f ≤ rend → (skip = true → rend ≤ off) →
      (S.bf_size < MAX_STAGEFILE_SIZE → (locateAux true off l k skip r).1 = some (k + m)) ∧
      (MAX_STAGEFILE_SIZE ≤ S.bf_size → locateAux true off l k skip r = (none, some (k + m))) := by
  induction l with
  | nil => intro m k skip r f rend hm; simp at hm
  | cons p rest ih =>
    intro m k skip r f rend hm hgap ht hfr hskip
    rw [tidyFrom_cons] at ht
    cases m with
    | zero =>
      simp only [List.getElem?_cons_zero, Option.some.injEq] at hm
      subst hm
      have hok := (okNode_staging p f rend hS).1 ht.1
      have h2 := ht.2
      rw [rendAfter_staging p rend hS] at h2
      -- the write starts before the end of the real file of `S`
      have hlt : off < rend := by
        rcases Nat.lt_or_ge off rend with h | h
        · exact h
        · exfalso
          have he : off = rend := by omega
          cases rest with
          | nil =>
            simp only [tidyFrom, decide_eq_true_eq] at h2
            omega
          | cons N rest2 =>
            have hN := hgap N (by simp)
            rw [tidyFrom_cons] at h2
            cases hn : N.bf_flag_staging with
            | true =>
              have := (okNode_staging N _ rend hn).1 h2.1
              omega
            | false =>
              have := (okNode_real N (p.bf_offset + p.bf_size) rend hn).1 h2.1
              omega
      have hsk : skip = false := by
        cases skip with
        | false => rfl
        | true =>
          have := hskip rfl
          omega
      have hadd : add64 p.bf_offset p.bf_size = off := by
        rw [add64_of_lt _ _ (by omega)]
        exact hoff.symm
      have hrend := tidyFrom_rend_le _ _ _ _ h2
      unfold locateAux
      simp only [hsk, Bool.false_and, Bool.false_eq_true, if_false, Nat.add_zero]
      constructor
      · intro hsm
        have hmatch : locMatch true off p = true := by
          unfold locMatch
          rw [hadd]
          simp only [hS, Bool.not_true, Bool.false_or, Bool.true_and, Bool.and_eq_true,
            Bool.or_eq_true, decide_eq_true_eq]
          exact ⟨by omega, Or.inr ⟨trivial, hsm⟩⟩
        rw [if_pos hmatch]
      · intro hcap
        have hmatch : ¬ locMatch true off p = true := by
          unfold locMatch
          rw [hadd]
          simp only [hS, Bool.not_true, Bool.false_or, Bool.true_and, Bool.and_eq_true,
            Bool.or_eq_true, decide_eq_true_eq, not_and, not_or]
          intro _
          exact ⟨by omega, fun _ => by omega⟩
        rw [if_neg hmatch, if_neg (by omega)]
        simp only [hS, Bool.not_true, Bool.false_and]
        cases rest with
        | nil => rfl
        | cons N rest2 =>
          have hN := hgap N (by simp)
          unfold locateAux
          simp only [Bool.false_and, Bool.false_eq_true, if_false]
          have hnm : ¬ locMatch true off N = true := by
            unfold locMatch
            simp only [Bool.and_eq_true, decide_eq_true_eq, not_and]
            intro h
            omega
          rw [if_neg hnm, if_pos hN]
    | succ m =>
      rw [List.getElem?_cons_succ] at hm
      have hgap2 : ∀ N, rest[m + 1]? = some N → off < N.bf_offset := by
        intro N hN
        exact hgap N (by rw [List.getElem?_cons_succ]; exact hN)
      have hidx : k + (m + 1) = k + 1 + m := by omega
      rw [hidx]
      have hp : p.bf_offset + p.bf_size ≤ rendAfter p rend := by
        cases hs : p.bf_flag_staging with
        | true =>
          have := (okNode_staging p f rend hs).1 ht.1
          rw [rendAfter_staging p rend hs]
          exact this.2.2
        | false =>
          have := (okNode_real p f rend hs).1 ht.1
          rw [rendAfter_real p rend hs]
          omega
      have hfl := tidyFrom_floor_le T rest _ _ m S ht.2 hp hm
      have hSpos : 0 < S.bf_size :=
        (tidyFrom_node T rest _ _ m S ht.2 hm).2.2 hS
      have hrend := tidyFrom_rend_le _ _ _ _ ht.2
      unfold locateAux
      by_cases hsk : (skip && p.bf_flag_staging) = true
      · rw [if_pos hsk]
        simp only [Bool.and_eq_true] at hsk
        apply ih m (k + 1) true r _ _ hm hgap2 ht.2 hp
        intro _
        rw [rendAfter_staging p rend hsk.2]
        exact hskip hsk.1
      · rw [if_neg hsk]
        have hnm : ¬ locMatch true off p = true := by
          unfold locMatch
          rw [add64_of_lt _ _ (by omega)]
          simp only [Bool.true_and, Bool.and_eq_true, Bool.or_eq_true, decide_eq_true_eq,
            not_and, not_or]
          intro _
          exact ⟨by omega, fun h => by omega⟩
        rw [if_neg hnm, if_neg (by omega)]
        apply ih m (k + 1) _ (some k) _ _ hm hgap2 ht.2 hp
        intro hsk2
        simp only [Bool.and_eq_true, Bool.not_eq_true', decide_eq_true_eq] at hsk2
        rw [rendAfter_real p rend hsk2.1]
        have h3 := hrend
        rw [rendAfter_real p rend hsk2.1] at h3
        rw [add64_of_lt _ _ (by omega)] at hsk2
        exact hsk2.2

theorem locate_at (s : btFiles) (hg : Good s) (i : Nat) (S : BTFILE) (off : Nat)
    (hSi : s.chain[i]? = some S) (hS : S.bf_flag_staging = true)
    (hoff : off = S.bf_offset + S.bf_size) (hin : off < s.m_total_files_length)
    (hgap : ∀ N, s.chain[i + 1]? = some N → off < N.bf_offset) :
    (S.bf_size < MAX_STAGEFILE_SIZE → (locate s.chain true off).1 = some i) ∧
    (MAX_STAGEFILE_SIZE ≤ S.bf_size → locate s.chain true off = (none, some i)) := by
  have := locateAux_at s.m_total_files_length off S hg.2.2.1 hS hoff hin s.chain i 0 false none
    0 0 hSi hgap hg.2.2.2.1 (Nat.le_refl _) (by intro h; cases h)
  simp only [Nat.zero_add] at this
  exact this

/-- The number of bytes a write of `len` bytes at the end of the bytes of the
staging node `S` transfers there: all of them when no node follows, else at
most the bytes up to the offset of the node behind. -/
theorem ioSize_staging_end (T : Nat) (S : BTFILE) (next : Option BTFILE) (off len : Nat)
    (hT : T < U64) (hS : S.bf_flag_staging = true) (hoff : off = S.bf_offset + S.bf_size)
    (hgap : ∀ N, next = some N → off < N.bf_offset ∧ N.bf_offset ≤ T) :
    (next = none → ioSize true S next S.bf_size len = len) ∧
    (∀ N, next = some N → ioSize true S next S.bf_size len = min len (N.bf_offset - off)) := by
  constructor
  · intro h
    rw [h]
    unfold ioSize
    simp only [hS, if_true]
  · intro N h
    rw [h]
    have hg := hgap N h
    have hroom : sub64 (sub64 N.bf_offset S.bf_offset) S.bf_size = N.bf_offset - off := by
      rw [sub64_of_le N.bf_offset S.bf_offset (by omega) (by omega),
        sub64_of_le _ _ (by omega) (by omega)]
      omega
    unfold ioSize
    simp only [hS, if_true, hroom]
    split
    · omega
    · omega

/-- One pass of the loop body of a write that appends to the node the cursor
stands at, as `step_append`, with the layouts of the chain: only the size of
that node changes, by the number of bytes transferred. -/
theorem step_append_layout (s : btFiles) (c : Cur) (i : Nat) (p : BTFILE) (hg : Good s)
    (hr : Ready s c i) (hp : s.chain[i]? = some p) :
    ∃ s1 c1, s.IOstep true c = Step.cont (s1, c1) ∧ Good s1 ∧ c1.rbuf = c.rbuf ∧
      s1.chain.length = s.chain.length ∧ (c1.len = 0 ∨ Ready s1 c1 (i + 1)) ∧
      layouts s1.chain = (layouts s.chain).set i
        (p.bf_flag_staging, p.bf_offset, p.bf_length,
          p.bf_size + ioSize true p s.chain[i + 1]? p.bf_size c.len) := by
  obtain ⟨s1, c1, hstep, hg1, hrb, hlen, hnext⟩ := step_append s c i hg hr
  refine ⟨s1, c1, hstep, hg1, hrb, hlen, hnext, ?_⟩
  obtain ⟨p2, hpbf, hp2, hoff, hcap, hin, hfree, hw⟩ := hr
  rw [hp] at hp2
  cases hp2
  obtain ⟨s1b, q, hat, _, _, hcores, hst, ho, hl, hsz, _, _⟩ :=
    ioAt_append s i c p hg hp hoff hin hw
  unfold btFiles.IOstep at hstep
  rw [softCap_below s c i p hpbf hp hcap, hpbf] at hstep
  simp only at hstep
  rw [hat] at hstep
  have := ioAdvance_state _ _ _ _ _ _ _ hstep
  rw [this, layouts_of_cores hcores, layouts_set]
  show _ = (layouts s.chain).set i _
  congr 1
  show (q.bf_flag_staging, q.bf_offset, q.bf_length, q.bf_size) = _
  rw [hst, ho, hl, hsz]

/-- The transfer loop from a cursor that stands at the end of the bytes of
the node of index `i`, as `run_append`: the chain keeps its length and the
nodes before index `i` keep their layouts. -/
theorem run_append_keep (fuel : Nat) (s : btFiles) (c : Cur) (i : Nat) (hg : Good s)
    (hr : c.len = 0 ∨ Ready s c i)
    (hf : s.chain.length + 1 ≤ fuel + i ∧ i ≤ s.chain.length) :
    ∃ s2, btFiles.IOloop true fuel s c = Res.ret (0, s2, c.rbuf) ∧ Good s2 ∧
      s2.chain.length = s.chain.length ∧
      ∀ k, k < i → (layouts s2.chain)[k]? = (layouts s.chain)[k]? := by
  induction fuel generalizing s c i with
  | zero => omega
  | succ fuel ih =>
    by_cases hl : c.len = 0
    · exact ⟨s, IOloop_end true fuel s c hl, hg, rfl, fun _ _ => rfl⟩
    · rcases hr with h0 | hr
      · exact absurd h0 hl
      · obtain ⟨p, hp⟩ : ∃ p, s.chain[i]? = some p := by
          obtain ⟨p, _, hp, _⟩ := hr
          exact ⟨p, hp⟩
        have hi : i < s.chain.length := lt_length_of_getElem? hp
        obtain ⟨s1, c1, hstep, hg1, hrb, hlen, hnext, hlay⟩ :=
          step_append_layout s c i p hg hr hp
        rw [IOloop_cont true fuel s s1 c c1 hl hstep, ← hrb]
        obtain ⟨s2, h1, h2, h3, h4⟩ := ih s1 c1 (i + 1) hg1 hnext (by omega)
        refine ⟨s2, h1, h2, by rw [h3, hlen], ?_⟩
        intro k hk
        rw [h4 k (by omega), hlay, List.getElem?_set_ne (by omega)]

/-- One pass of the loop body of a write that finds no node and creates a
staging node behind the node of index `j`, as `step_create`, with the layouts
of the chain: the nodes up to index `j` keep theirs and the new node, at index
`j + 1`, is a staging node of offset `c.off` that holds the bytes transferred. -/
theorem step_create_layout (s : btFiles) (c : Cur) (j : Nat) (P : BTFILE) (hg : Good s)
    (hpbf : c.pbf = none) (href : c.pbfref = some j) (hP : s.chain[j]? = some P)
    (hfl : P.bf_offset + P.bf_size ≤ c.off)
    (hgap : ∀ N, s.chain[j + 1]? = some N → c.off < N.bf_offset)
    (hin : c.off + c.len ≤ s.m_total_files_length)
    (hfree : freeRange s.chain c.off c.len = true) (hw : c.wbuf.length = c.len)
    (hl : c.len ≠ 0) :
    ∃ s1 c1, s.IOstep true c = Step.cont (s1, c1) ∧ Good s1 ∧ c1.rbuf = c.rbuf ∧
      s1.chain.length = s.chain.length + 1 ∧ (c1.len = 0 ∨ Ready s1 c1 (j + 1 + 1)) ∧
      (∀ k, k < j + 1 → (layouts s1.chain)[k]? = (layouts s.chain)[k]?) ∧
      ∃ Q, s1.chain[j + 1]? = some Q ∧ Q.bf_flag_staging = true ∧ Q.bf_offset = c.off ∧
        (s.chain[j + 1]? = none → Q.bf_size = c.len) ∧
        (∀ N, s.chain[j + 1]? = some N → Q.bf_size = min c.len (N.bf_offset - c.off)) := by
  obtain ⟨s1, c1, hstep, hg1, hrb, hlen, hnext⟩ :=
    step_create s c j P hg hpbf href hP hfl hgap hin hfree hw hl
  refine ⟨s1, c1, hstep, hg1, hrb, hlen, hnext, ?_⟩
  have hj : j < s.chain.length := lt_length_of_getElem? hP
  obtain ⟨hci, he, hU, ht, hd⟩ := hg
  obtain ⟨s0, node, hcs, he0, hc0, ht0, hch0, hno, hns, hnz, hnd⟩ :=
    createStaging_ok s c.off j hci he hj
  have hnode0 : s0.chain[j + 1]? = some node := by
    rw [hch0, List.getElem?_append_right (by simp)]
    simp [Nat.min_eq_left (by omega : j + 1 ≤ s.chain.length)]
  have hnext0 : s0.chain[j + 1 + 1]? = s.chain[j + 1]? := by
    rw [hch0, List.getElem?_append_right (by simp)]
    simp [Nat.min_eq_left (by omega : j + 1 ≤ s.chain.length)]
  obtain ⟨s1b, hat, _, _, hcores, _⟩ := ioAt_write_keep s0 (j + 1) c node hc0 he0 hnode0
    (fun _ => hnd)
  have hpos : sub64 c.off node.bf_offset = 0 := by
    rw [hno, sub64_of_le _ _ (Nat.le_refl _) (by omega)]
    omega
  rw [hpos, hnext0] at hat hcores
  unfold btFiles.IOstep at hstep
  rw [softCap_none s c hpbf, hpbf] at hstep
  simp only [if_true, href, hcs, Step.bind] at hstep
  rw [hat] at hstep
  have hs1 := ioAdvance_state _ _ _ _ _ _ _ hstep
  subst hs1
  have hsize := ioSize_staging_end s.m_total_files_length
    { node with bf_size := 0 } s.chain[j + 1]? c.off c.len hU hns (by show c.off = node.bf_offset + 0; omega)
    (fun N hN => ⟨hgap N hN, by
      have := tidyFrom_node _ _ _ _ _ N ht hN
      omega⟩)
  have hnode : ({ node with bf_size := 0 } : BTFILE) = node := by
    cases node
    simp only at hnz
    subst hnz
    rfl
  rw [hnode] at hsize
  rw [hnz] at hsize
  have hle := ioSize_le node s.chain[j + 1]? 0 c.len
  generalize ioSize true node s.chain[j + 1]? 0 c.len = nio at hcores hsize hle
  constructor
  · intro k hk
    have h1 : layouts s1.chain =
        layouts (s0.chain.set (j + 1) (wrNode node 0 (c.wbuf.take nio) nio)) :=
      layouts_of_cores (by rw [hcores, cores_set])
    rw [h1, layouts_set, List.getElem?_set_ne (by omega), layouts_getElem?, layouts_getElem?, hch0,
      List.getElem?_append_left (by simp; omega), List.getElem?_take_of_lt (by omega)]
  · obtain ⟨Q, hQ, hQc⟩ := getElem?_of_cores_eq hcores (j + 1)
      (wrNode node 0 (c.wbuf.take nio) nio).core (by
        rw [List.getElem?_set_eq_of_lt]
        rw [cores_length]
        exact lt_length_of_getElem? hnode0)
    have hf := core_fields hQc
    have hsz : Q.bf_size = nio := by
      rw [hf.2.1]
      show (if node.bf_size < add64 0 nio then add64 0 nio else node.bf_size) = nio
      rw [add64_of_lt _ _ (by omega), hnz]
      split <;> omega
    refine ⟨Q, hQ, ?_, ?_, ?_, ?_⟩
    · rw [hf.2.2.2.2.1]; exact hns
    · rw [hf.2.2.1]; exact hno
    · intro h; rw [hsz]; exact hsize.1 h
    · intro N h; rw [hsz]; exact hsize.2 N h

/-- C22 refuted as stated: in `staleState`, reached by the writes `IO(5, 1)`
and `IO(0, 10)` on one file of length 10, the staging node `S` at index 1 has
offset 5 and size 1, below `MAX_STAGEFILE_SIZE`, and no successor; the write
`IO(6, 1)` is in range, has `len > 0` and starts at `S.offset + S.size`, and
it returns 0 without growing `S`: the byte goes to the real file, which holds
offset 6 already. -/
theorem C22_counterexample :
    layouts staleState.chain = [(false, 0, 10, 10), (true, 5, 0, 1)] ∧
    1 < MAX_STAGEFILE_SIZE ∧ staleState.chain[1 + 1]? = none ∧
    6 + 1 ≤ staleState.m_total_files_length ∧
    ( btFiles.IO staleState [] (some [9]) 6 1).code = some 0 ∧
    (( btFiles.IO staleState [] (some [9]) 6 1).state).map (fun s => layouts s.chain) =
      some [(false, 0, 10, 10), (true, 5, 0, 1)] := by
  decide

/-- C22 (amended): in a state in which the chain is tidy (real files laid end
to end from 0, every staging node non-empty, starting at or after the end of
the bytes of the node in front of it and ending inside its real file), every
node holds as many bytes as its size says and every library call succeeds,
let `S` be the staging node at index `i` and let the write `IO(off, len)` be
in range, with `len > 0`, of bytes not yet written, with
`off = S.offset + S.size` before the offset of the successor of `S` (or `S`
without successor).  The write returns 0.  When
`S.size ≥ MAX_STAGEFILE_SIZE` the node `S` keeps its layout and a new staging
node of offset `off` stands directly behind it, holding the bytes up to the
old successor of `S`; when `S.size < MAX_STAGEFILE_SIZE` the chain keeps its
length and `S` has grown by those bytes. -/
theorem C22_append_at_staging_end (s : btFiles) (hg : Good s) (i : Nat) (S : BTFILE)
    (rbuf buf : List Nat) (off : Nat)
    (hSi : s.chain[i]? = some S) (hS : S.bf_flag_staging = true)
    (hoff : off = S.bf_offset + S.bf_size)
    (hgap : ∀ N ∈ s.chain[i + 1]?, off < N.bf_offset)
    (hlen : 0 < buf.length) (hin : off + buf.length ≤ s.m_total_files_length)
    (hfree : freeRange s.chain off buf.length = true) :
    ∃ s2, btFiles.IO s rbuf (some buf) off buf.length = Res.ret (0, s2, rbuf) ∧
      (MAX_STAGEFILE_SIZE ≤ S.bf_size →
        s2.chain.length = s.chain.length + 1 ∧
        (layouts s2.chain)[i]? = some S.layout ∧
        ∃ Q, s2.chain[i + 1]? = some Q ∧ Q.bf_flag_staging = true ∧ Q.bf_offset = off ∧
          Q.bf_size = (match s.chain[i + 1]? with
            | none => buf.length
            | some N => min buf.length (N.bf_offset - off))) ∧
      (S.bf_size < MAX_STAGEFILE_SIZE →
        s2.chain.length = s.chain.length ∧
        (layouts s2.chain)[i]? = some (true, S.bf_offset, S.bf_length,
          S.bf_size + (match s.chain[i + 1]? with
            | none => buf.length
            | some N => min buf.length (N.bf_offset - off)))) := by
  have hU := hg.2.2.1
  have hgap2 : ∀ N, s.chain[i + 1]? = some N → off < N.bf_offset :=
    fun N hN => hgap N (by rw [hN]; exact rfl)
  have hi : i < s.chain.length := lt_length_of_getElem? hSi
  have hloc := locate_at s hg i S off hSi hS hoff (by omega) hgap2
  have hl : buf.length ≠ 0 := by omega
  unfold btFiles.IO
  rw [if_neg (by rw [add64_of_lt _ _ (by omega)]; omega)]
  simp only [Option.isSome_some, Option.getD_some]
  rw [show buf.length + 2 * s.chain.length + 3 = (buf.length + 2 * s.chain.length + 2) + 1
    from rfl]
  rcases Nat.lt_or_ge S.bf_size MAX_STAGEFILE_SIZE with hcap | hcap
  · -- the write appends to `S`
    have hr : Ready s (Cur.mk off buf.length (locate s.chain true off).1
        (locate s.chain true off).2 buf rbuf 0) i :=
      ⟨S, hloc.1 hcap, hSi, hoff, fun _ => hcap, hin, hfree, rfl⟩
    obtain ⟨s1, c1, hstep, hg1, hrb, hlen1, hnext, hlay⟩ := step_append_layout s _ i S hg hr hSi
    rw [IOloop_cont true _ s s1 _ c1 hl hstep]
    obtain ⟨s2, h1, _, h3, h4⟩ := run_append_keep (buf.length + 2 * s.chain.length + 2) s1 c1
      (i + 1) hg1 hnext (by omega)
    rw [hrb] at h1
    refine ⟨s2, h1, fun h => absurd h (by omega), fun _ => ⟨by rw [h3, hlen1], ?_⟩⟩
    rw [h4 i (by omega), hlay, List.getElem?_set_eq_of_lt _ (by rw [layouts_length]; exact hi)]
    have hsize := ioSize_staging_end s.m_total_files_length S s.chain[i + 1]? off buf.length
      hU hS hoff (fun N hN => ⟨hgap2 N hN, by
        have := (hg.node hN).2.1
        omega⟩)
    show some (S.bf_flag_staging, S.bf_offset, S.bf_length,
      S.bf_size + ioSize true S s.chain[i + 1]? S.bf_size buf.length) = _
    rw [hS]
    cases hn : s.chain[i + 1]? with
    | none => rw [hn] at hsize; rw [hsize.1 rfl]
    | some N => rw [hn] at hsize; rw [hsize.2 N rfl]
  · -- the write leaves `S` and creates a staging node behind it
    have hlc := hloc.2 hcap
    obtain ⟨s1, c1, hstep, hg1, hrb, hlen1, hnext, hkeep, Q, hQ, hQs, hQo, hQn, hQm⟩ :=
      step_create_layout s (Cur.mk off buf.length (locate s.chain true off).1
        (locate s.chain true off).2 buf rbuf 0) i S hg (by rw [hlc]) (by rw [hlc]) hSi
        (by show S.bf_offset + S.bf_size ≤ off; omega) hgap2 hin hfree rfl hl
    rw [IOloop_cont true _ s s1 _ c1 hl hstep]
    obtain ⟨s2, h1, _, h3, h4⟩ := run_append_keep (buf.length + 2 * s.chain.length + 2) s1 c1
      (i + 1 + 1) hg1 hnext (by omega)
    rw [hrb] at h1
    refine ⟨s2, h1, fun _ => ⟨by rw [h3, hlen1], ?_, ?_⟩, fun h => absurd h (by omega)⟩
    · rw [h4 i (by omega), hkeep i (by omega), layouts_getElem?, hSi]
      rfl
    · have h5 := h4 (i + 1) (by omega)
      rw [layouts_getElem?, layouts_getElem?, hQ] at h5
      cases hQ2 : s2.chain[i + 1]? with
      | none => rw [hQ2] at h5; cases h5
      | some Q2 =>
        rw [hQ2] at h5
        simp only [Option.map_some', Option.some.injEq, BTFILE.layout, Prod.mk.injEq] at h5
        refine ⟨Q2, rfl, by rw [h5.1]; exact hQs, by rw [h5.2.1]; exact hQo, ?_⟩
        rw [h5.2.2.2]
        cases hn : s.chain[i + 1]? with
        | none => exact hQn hn
        | some N => exact hQm N hn

theorem capState_good : Good capState := by
  refine ⟨⟨rfl, by decide, by decide⟩, rfl, by decide, by decide, ?_⟩
  rw [dataOk_iff]
  intro p hp
  simp only [capState, List.mem_cons, List.mem_singleton, List.not_mem_nil, or_false] at hp
  rcases hp with h | h
  · rw [h]
    rfl
  · rw [h]
    simp only [capS, List.length_replicate]

theorem smallState_good : Good smallState :=
  ⟨⟨by decide, by decide, by decide⟩, by decide, by decide, by decide, by decide⟩

/-- C22 (amended) at `capState`, where the staging node `capS` holds
`MAX_STAGEFILE_SIZE` bytes: the write of two bytes at offset 2097153 returns 0,
leaves `capS` with its layout and puts a staging node of offset 2097153 and
size 2 behind it; and at `smallState`, where the staging node holds one byte:
the write of two bytes at offset 6 returns 0 and grows that node to size 3. -/
theorem C22_append_at_staging_end_witness :
    (Good capState ∧ capState.chain[1]? = some capS ∧ capS.bf_flag_staging = true ∧
      2097153 = capS.bf_offset + capS.bf_size ∧
      (∀ N ∈ capState.chain[1 + 1]?, 2097153 < N.bf_offset) ∧ 0 < [9, 9].length ∧
      2097153 + [9, 9].length ≤ capState.m_total_files_length ∧
      freeRange capState.chain 2097153 [9, 9].length = true ∧
      MAX_STAGEFILE_SIZE ≤ capS.bf_size) ∧
    (∃ s2, btFiles.IO capState [] (some [9, 9]) 2097153 [9, 9].length = Res.ret (0, s2, []) ∧
      s2.chain.length = 3 ∧ (layouts s2.chain)[1]? = some (true, 1, 0, 2097152) ∧
      ∃ Q, s2.chain[1 + 1]? = some Q ∧ Q.bf_flag_staging = true ∧ Q.bf_offset = 2097153 ∧
        Q.bf_size = 2) ∧
    (∃ s2, btFiles.IO smallState [] (some [9, 9]) 6 [9, 9].length = Res.ret (0, s2, []) ∧
      s2.chain.length = 2 ∧ (layouts s2.chain)[1]? = some (true, 5, 0, 3)) := by
  have hc : MAX_STAGEFILE_SIZE ≤ capS.bf_size := by decide
  refine ⟨⟨capState_good, rfl, rfl, by decide, by decide, by decide, by decide, by decide, hc⟩,
    ?_, ?_⟩
  · obtain ⟨s2, h1, h2, _⟩ := C22_append_at_staging_end capState capState_good 1 capS []
      [9, 9] 2097153 rfl rfl (by decide) (by decide) (by decide) (by decide) (by decide)
    exact ⟨s2, h1, (h2 hc).1, (h2 hc).2.1, (h2 hc).2.2⟩
  · obtain ⟨s2, h1, _, h3⟩ := C22_append_at_staging_end smallState
      smallState_good 1
      { bf_filename := "05/t-05", bf_offset := 5, bf_size := 1, bf_flag_opened := true,
        bf_flag_staging := true, bf_data := [7] } []
      [9, 9] 6 (by decide) rfl (by decide) (by decide) (by decide) (by decide) (by decide)
    exact ⟨s2, h1, (h3 (by decide)).1, (h3 (by decide)).2⟩

/-! ## The length of the converted name (C23) -/

theorem convStep_length (st : ConvState) (c : Nat) :
    (convStep st c).dst.length ≤ st.dst.length + 3 := by
  unfold convStep
  split
  · simp only [List.length_append, List.length_singleton]
    split
    · simp only [List.length_append, List.length_singleton]
      omega
    · omega
  · simp only [List.length_append, hex2, List.length_cons, List.length_nil]
    split
    · simp only [List.length_append, List.length_singleton]
      omega
    · omega

/-- The string `ConvertFilename` leaves in `dst` has at most `size`
characters (one more than a buffer of `size` bytes holds with the terminating
zero). -/
theorem convLoop_length (size : Int) (src : List Nat) :
    ∀ st : ConvState, (st.dst.length : Int) ≤ size →
      ((convLoop size src st).dst.length : Int) ≤ size := by
  induction src with
  | nil => intro st h; exact h
  | cons c rest ih =>
    intro st h
    unfold convLoop
    split
    · rename_i hc
      apply ih
      have := convStep_length st c
      omega
    · exact h

/-- C23 fails on the code: for the 12 bytes of `altName`, called with the
buffer size `2 * 12 + 5 = 29` of its callers, `ConvertFilename` returns 1 and
leaves the 29 characters "a_01_a_01_a_01_a_01_a_01_a_01" in `dst`, one more
than `size - 1`, so that the terminating zero is stored at `dst[29]`, behind
the buffer; and for the two bytes `a 01` with `size = 4` it leaves the four
characters "a_01". -/
theorem C23_output_longer_than_buffer :
    altName.length = 12 ∧
    convertPath altName = (1, bytesOf "a_01_a_01_a_01_a_01_a_01_a_01") ∧
    (convertPath altName).2.length = 2 * altName.length + 5 ∧
    ¬ (((convertPath altName).2.length : Int) ≤ ((altName.length : Int) * 2 + 5) - 1) ∧
    ConvertFilename [97, 1] 4 = (1, bytesOf "a_01") ∧
    ¬ (((ConvertFilename [97, 1] 4).2.length : Int) ≤ 4 - 1) := by
  decide

/-! ## A read past the bytes on disk (C24) -/

/-- C24 fails on the code: `shortState` is one file of length 10 with five
bytes on disk, a chain that satisfies the layout invariants; the read
`IO(3, 5)` is in range; the first pass of the loop transfers the two bytes at
the offsets 3 and 4, three bytes remain and the node has no successor, so the
statements "Proceed to next file" read `bf_offset` through the null pointer
`pbf->bf_next`: the call has no defined result.  The same happens for the
read `IO(0, 6)` in `halfState`, two files of length 5, the second one empty,
when the empty file is on disk (a file opened for reading is taken to exist;
`fopen` of a file that was never made fails and the read returns -1). -/
theorem C24_read_runs_off_chain :
    layouts shortState.chain = [(false, 0, 10, 5)] ∧
    tidyFrom shortState.m_total_files_length shortState.chain 0 0 = true ∧
    3 + 5 ≤ shortState.m_total_files_length ∧
    locate shortState.chain false 3 = (some 0, none) ∧
    (shortState.chain[0]?).map (fun p => ioSize false p shortState.chain[0 + 1]? 3 5) = some 2 ∧
    shortState.chain[0 + 1]? = none ∧
    btFiles.IO shortState (List.replicate 5 0) none 3 5 = Res.undef ∧
    layouts halfState.chain = [(false, 0, 5, 5), (false, 5, 5, 0)] ∧
    0 + 6 ≤ halfState.m_total_files_length ∧
    btFiles.IO halfState (List.replicate 6 0) none 0 6 = Res.undef := by
  decide

/-! ## Merging with twenty files open (C6) -/

/-- C6 fails on the code: in `restartState` no file is open; `FindAndMerge(1,
1)` returns 1 and the write `IO(3, 2)` returns 0.  In the state reached the
first file `R` (size 5 of 10) and the staging file `S` (offset 5, size 2)
behind it are a mergeable pair with `S` inside `R`, twenty files are open and
`S` is not, and no library call is going to fail.  `MergeStaging(R)` opens
`S`, which closes `R` as the oldest file, and then opens `R`: now every open
file has the time stamp `now + 1`, `S` is the first of them in the chain and
is closed to make room.  The copy loop calls `fread` with the null `bf_fp` of
`S`: the call has no defined result. -/
theorem C6_source_closed_by_open :
    (restartState.chain.all fun p => !p.bf_flag_opened) = true ∧
    restartState.m_total_opened = 0 ∧ restartState.env = [] ∧
    (restartState.FindAndMerge true true).code = some 1 ∧
    ( btFiles.IO (restartState.fm true true) [] (some [4, 5]) 3 2).code = some 0 ∧
    (layouts tieState.chain).take 2 = [(false, 0, 10, 5), (true, 5, 0, 2)] ∧
    (tieState.chain.map fun p => p.bf_flag_opened) =
      [true, false] ++ List.replicate 19 true ∧
    tieState.m_total_opened = 20 ∧ tieState.env = [] ∧
    mergeableAt tieState.chain 0 = true ∧
    ((tieState.mergeOpenSrc 1).1 = 0 ∧
      ((tieState.mergeOpenSrc 1).2.chain.map fun p => p.bf_flag_opened) =
        [false, true] ++ List.replicate 19 true) ∧
    (((((tieState.mergeOpenSrc 1).2.fileop.2).stamp 1 (tieState.now + 1)).mergeOpenDst 0).1 = 0 ∧
      (((((tieState.mergeOpenSrc 1).2.fileop.2).stamp 1 (tieState.now + 1)).mergeOpenDst 0).2.chain.map
        fun p => (p.bf_flag_opened, p.bf_last_timestamp)) =
        [(true, 1), (false, 1)] ++ List.replicate 19 (true, 1)) ∧
    tieState.MergeStaging 0 = Res.undef ∧
    tieState.FindAndMerge true true = Res.undef := by
  decide

/-! ## The open-file cache when fopen finds no space (C10) -/

theorem createStaging_name (s : btFiles) (off j : Nat) (he : s.env = [])
    (hj : j < s.chain.length) :
    ∃ s1 node, s.createStaging off (some j) = Step.cont (s1, j + 1) ∧
      s1.chain = s.chain.take (j + 1) ++ node :: s.chain.drop (j + 1) ∧
      s1.m_stagedir = (if decide (MAX_STAGEDIR_FILES ≤ s.m_stagecount) || s.m_stagedir.isEmpty
        then fmtOffset s.m_fsizelen off else s.m_stagedir) ∧
      node.bf_filename = s1.m_stagedir ++ PATH_SP.toString ++ s.m_torrent_id ++ "-" ++
        fmtOffset s.m_fsizelen off ∧
      node.bf_offset = off ∧ node.bf_flag_staging = true := by
  unfold btFiles.createStaging
  simp only [fileop_nil s he, if_true]
  by_cases hc : (decide (MAX_STAGEDIR_FILES ≤ s.m_stagecount) || s.m_stagedir.isEmpty) = true
  · simp only [hc, if_true]
    have he2 : ∀ d c, ({ s with m_stagedir := d, m_stagecount := c } : btFiles).fileop =
        (FileResult.ok, { s with m_stagedir := d, m_stagecount := c }) :=
      fun d c => fileop_nil _ he
    rw [he2]
    simp only [ne_eq, not_true_eq_false, if_false, Nat.not_le.2 hj]
    exact ⟨_, _, rfl, rfl, rfl, rfl, rfl, rfl⟩
  · simp only [hc, Bool.false_eq_true, if_false]
    rw [fileop_nil s he]
    simp only [ne_eq, not_true_eq_false, if_false, Nat.not_le.2 hj]
    exact ⟨_, _, rfl, rfl, rfl, rfl, rfl, rfl⟩

/-- One pass of the loop body of a write that appends to the node the cursor
stands at, as `step_append`: every other node keeps its fields. -/
theorem step_append_cores (s : btFiles) (c : Cur) (i : Nat) (p : BTFILE) (hg : Good s)
    (hr : Ready s c i) (hp : s.chain[i]? = some p) :
    ∃ s1 c1, s.IOstep true c = Step.cont (s1, c1) ∧ Good s1 ∧ c1.rbuf = c.rbuf ∧
      s1.chain.length = s.chain.length ∧ (c1.len = 0 ∨ Ready s1 c1 (i + 1)) ∧
      ∀ k, k ≠ i → (cores s1.chain)[k]? = (cores s.chain)[k]? := by
  obtain ⟨s1, c1, hstep, hg1, hrb, hlen, hnext⟩ := step_append s c i hg hr
  refine ⟨s1, c1, hstep, hg1, hrb, hlen, hnext, ?_⟩
  obtain ⟨p2, hpbf, hp2, hoff, hcap, hin, hfree, hw⟩ := hr
  rw [hp] at hp2
  cases hp2
  obtain ⟨s1b, q, hat, _, _, hcores, _⟩ := ioAt_append s i c p hg hp hoff hin hw
  unfold btFiles.IOstep at hstep
  rw [softCap_below s c i p hpbf hp hcap, hpbf] at hstep
  simp only at hstep
  rw [hat] at hstep
  have := ioAdvance_state _ _ _ _ _ _ _ hstep
  intro k hk
  rw [this, hcores, cores_set, List.getElem?_set_ne (Ne.symm hk)]

/-- The transfer loop from a cursor that stands at the end of the bytes of
the node of index `i`, as `run_append`: the nodes before index `i` keep their
fields. -/
theorem run_append_cores (fuel : Nat) (s : btFiles) (c : Cur) (i : Nat) (hg : Good s)
    (hr : c.len = 0 ∨ Ready s c i)
    (hf : s.chain.length + 1 ≤ fuel + i ∧ i ≤ s.chain.length) :
    ∃ s2, btFiles.IOloop true fuel s c = Res.ret (0, s2, c.rbuf) ∧ Good s2 ∧
      ∀ k, k < i → (cores s2.chain)[k]? = (cores s.chain)[k]? := by
  induction fuel generalizing s c i with
  | zero => omega
  | succ fuel ih =>
    by_cases hl : c.len = 0
    · exact ⟨s, IOloop_end true fuel s c hl, hg, fun _ _ => rfl⟩
    · rcases hr with h0 | hr
      · exact absurd h0 hl
      · obtain ⟨p, hp⟩ : ∃ p, s.chain[i]? = some p := by
          obtain ⟨p, _, hp, _⟩ := hr
          exact ⟨p, hp⟩
        have hi : i < s.chain.length := lt_length_of_getElem? hp
        obtain ⟨s1, c1, hstep, hg1, hrb, hlen, hnext, hkeep⟩ :=
          step_append_cores s c i p hg hr hp
        rw [IOloop_cont true fuel s s1 c c1 hl hstep, ← hrb]
        obtain ⟨s2, h1, h2, h4⟩ := ih s1 c1 (i + 1) hg1 hnext (by omega)
        refine ⟨s2, h1, h2, ?_⟩
        intro k hk
        rw [h4 k (by omega), hkeep k (by omega)]

/-- One pass of the loop body of a write that finds no node and creates a
staging node behind the node of index `j`, as `step_create`: the node at index
`j + 1` is the node `createStaging` has made, with the bytes transferred. -/
theorem step_create_name (s : btFiles) (c : Cur) (j : Nat) (P : BTFILE) (hg : Good s)
    (hpbf : c.pbf = none) (href : c.pbfref = some j) (hP : s.chain[j]? = some P)
    (hfl : P.bf_offset + P.bf_size ≤ c.off)
    (hgap : ∀ N, s.chain[j + 1]? = some N → c.off < N.bf_offset)
    (hin : c.off + c.len ≤ s.m_total_files_length)
    (hfree : freeRange s.chain c.off c.len = true) (hw : c.wbuf.length = c.len)
    (hl : c.len ≠ 0) :
    ∃ s1 c1, s.IOstep true c = Step.cont (s1, c1) ∧ Good s1 ∧ c1.rbuf = c.rbuf ∧
      s1.chain.length = s.chain.length + 1 ∧ (c1.len = 0 ∨ Ready s1 c1 (j + 1 + 1)) ∧
      ∃ s0 node Q, s.createStaging c.off (some j) = Step.cont (s0, j + 1) ∧
        s0.chain[j + 1]? = some node ∧ s1.chain[j + 1]? = some Q ∧
        Q.bf_filename = node.bf_filename ∧ Q.bf_offset = node.bf_offset ∧
        Q.bf_flag_staging = node.bf_flag_staging := by
  obtain ⟨s1, c1, hstep, hg1, hrb, hlen, hnext⟩ :=
    step_create s c j P hg hpbf href hP hfl hgap hin hfree hw hl
  refine ⟨s1, c1, hstep, hg1, hrb, hlen, hnext, ?_⟩
  have hj : j < s.chain.length := lt_length_of_getElem? hP
  obtain ⟨hci, he, hU, ht, hd⟩ := hg
  obtain ⟨s0, node, hcs, he0, hc0, ht0, hch0, hno, hns, hnz, hnd⟩ :=
    createStaging_ok s c.off j hci he hj
  have hnode0 : s0.chain[j + 1]? = some node := by
    rw [hch0, List.getElem?_append_right (by simp)]
    simp [Nat.min_eq_left (by omega : j + 1 ≤ s.chain.length)]
  obtain ⟨s1b, hat, _, _, hcores, _⟩ := ioAt_write_keep s0 (j + 1) c node hc0 he0 hnode0
    (fun _ => hnd)
  unfold btFiles.IOstep at hstep
  rw [softCap_none s c hpbf, hpbf] at hstep
  simp only [if_true, href, hcs, Step.bind] at hstep
  rw [hat] at hstep
  have hs1 := ioAdvance_state _ _ _ _ _ _ _ hstep
  subst hs1
  obtain ⟨Q, hQ, hQc⟩ := getElem?_of_cores_eq hcores (j + 1) _ (by
    rw [List.getElem?_set_eq_of_lt]
    rw [cores_length]
    exact lt_length_of_getElem? hnode0)
  have hf := core_fields hQc
  exact ⟨s0, node, Q, hcs, hnode0, hQ, hf.2.2.2.2.2, hf.2.2.1, hf.2.2.2.2.1⟩

/-- A staging subdirectory whose name has `m_fsizelen` characters, with the
file `tid-<offset>` in it, passes the tests of the scan of `SetupFiles`, which
rebuilds the node. -/
theorem scan_named (s : btFiles) (T off maxpath : Nat) (stagingPath dirName : String)
    (data : List Nat) (hw : s.m_fsizelen = (Nat.toDigits 10 T).length) (hT : T < U64)
    (hoff : off < T) (hdl : dirName.length = s.m_fsizelen)
    (hpath : stagingPath.length + 2 * s.m_fsizelen + s.m_torrent_id.length + 3 < maxpath)
    (hchain : s.chain ≠ []) :
    acceptStageDir s maxpath stagingPath
        { name := dirName, isDir := true,
          files := [{ name := s.m_torrent_id ++ "-" ++ fmtOffset s.m_fsizelen off,
                      isReg := true, data := data }] } = true ∧
    (strtoull ((s.m_torrent_id ++ "-" ++ fmtOffset s.m_fsizelen off).toList.drop
        (s.m_torrent_id.length + 1)) = (off, s.m_fsizelen)) ∧
    stagingEntry { s with m_stagecount := 0, m_stagedir := dirName } maxpath
        stagingPath
        { name := s.m_torrent_id ++ "-" ++ fmtOffset s.m_fsizelen off, isReg := true,
          data := data } =
      some { bf_filename := dirName ++ PATH_SP.toString ++
               (s.m_torrent_id ++ "-" ++ fmtOffset s.m_fsizelen off),
             bf_flag_staging := true, bf_offset := off, bf_size := data.length,
             bf_data := data } ∧
    scanStageDirs maxpath stagingPath
        [{ name := dirName, isDir := true,
           files := [{ name := s.m_torrent_id ++ "-" ++ fmtOffset s.m_fsizelen off,
                       isReg := true, data := data }] }] s false =
      Res.ret ({ s with m_stagecount := 1, m_stagedir := dirName,
                        chain := insertStaging s.chain
                          { bf_filename := dirName ++ PATH_SP.toString ++
                              (s.m_torrent_id ++ "-" ++ fmtOffset s.m_fsizelen off),
                            bf_flag_staging := true, bf_offset := off,
                            bf_size := data.length, bf_data := data } },
        decide (0 < data.length)) := by
  have hol : (fmtOffset s.m_fsizelen off).length = s.m_fsizelen :=
    fmtOffset_length _ _ (by rw [hw]; exact toDigits_length_le _ _ (Nat.le_of_lt hoff))
  have hacc : acceptStageDir s maxpath stagingPath
      { name := dirName, isDir := true,
        files := [{ name := s.m_torrent_id ++ "-" ++ fmtOffset s.m_fsizelen off,
                    isReg := true, data := data }] } = true := by
    unfold acceptStageDir
    simp only [hdl, decide_True, Bool.true_and, Bool.not_true, Bool.or_false,
      Bool.not_eq_true', decide_eq_false_iff_not]
    omega
  have hent := stagingEntry_generated
    { s with m_stagecount := 0, m_stagedir := dirName } maxpath off stagingPath
    data (by omega) hol (by simp only [hdl]; omega)
  have hl : (s.m_torrent_id ++ "-" ++ fmtOffset s.m_fsizelen off).toList =
      s.m_torrent_id.toList ++ '-' :: (fmtOffset s.m_fsizelen off).toList := by
    simp [String.toList]
  have hst : strtoull ((s.m_torrent_id ++ "-" ++ fmtOffset s.m_fsizelen off).toList.drop
      (s.m_torrent_id.length + 1)) = (off, s.m_fsizelen) := by
    have hlt : s.m_torrent_id.length = s.m_torrent_id.toList.length := rfl
    rw [hl, hlt, List.drop_append_eq_append_drop]
    simp only [List.drop_length, Nat.add_sub_cancel_left, List.nil_append, List.drop_succ_cons,
      List.drop_zero, List.drop_of_length_le (Nat.le_add_right _ 1)]
    rw [strtoull_fmtOffset _ _ (by omega), hol]
  refine ⟨hacc, hst, hent, ?_⟩
  rw [scanStageDirs, if_pos hacc]
  simp only [scanStageFiles, hent]
  have hne : s.chain.isEmpty = false := by
    cases hc : s.chain with
    | nil => exact absurd hc hchain
    | cons a l => rfl
  simp only [hne, Bool.false_eq_true, if_false, scanStageDirs, Bool.false_or, Nat.zero_add]

theorem fileop_dir (s : btFiles) :
    s.fileop.2.m_stagedir = s.m_stagedir ∧ s.fileop.2.m_fsizelen = s.m_fsizelen := by
  unfold btFiles.fileop
  split <;> exact ⟨rfl, rfl⟩

/-- The branch of `IO` that creates a staging file keeps `stageDirOk` when the
offset printed has `m_fsizelen` characters. -/
theorem createStaging_dir (s : btFiles) (off : Nat) (pbfref : Option Nat) (h : stageDirOk s)
    (ho : (fmtOffset s.m_fsizelen off).length = s.m_fsizelen) :
    StepInv stageDirOk (fun r : btFiles × Nat => r.1) (s.createStaging off pbfref) := by
  have h1 : stageDirOk
      (if decide (MAX_STAGEDIR_FILES ≤ s.m_stagecount) || s.m_stagedir.isEmpty then
        (if s.fileop.1 = FileResult.ok then
          { s.fileop.2 with m_stagedir := fmtOffset s.m_fsizelen off, m_stagecount := 0 }
        else s.fileop.2) else s) := by
    split
    · split
      · refine Or.inr ?_
        show (fmtOffset s.m_fsizelen off).length = s.fileop.2.m_fsizelen
        rw [(fileop_dir s).2]
        exact ho
      · unfold stageDirOk
        rw [(fileop_dir s).1, (fileop_dir s).2]
        exact h
    · exact h
  unfold btFiles.createStaging
  simp only
  generalize (if decide (MAX_STAGEDIR_FILES ≤ s.m_stagecount) || s.m_stagedir.isEmpty then
      (if s.fileop.1 = FileResult.ok then
        { s.fileop.2 with m_stagedir := fmtOffset s.m_fsizelen off, m_stagecount := 0 }
      else s.fileop.2) else s) = s1 at h1 ⊢
  have h2 : stageDirOk s1.fileop.2 := by
    unfold stageDirOk
    rw [(fileop_dir s1).1, (fileop_dir s1).2]
    exact h1
  split
  · exact h2
  · split
    · trivial
    · split
      · trivial
      · exact h2

/-- The bookkeeping of `MergeStaging` for a deleted staging file keeps
`stageDirOk`. -/
theorem stageGone_dir (s : btFiles) (f : String) (h : stageDirOk s) :
    stageDirOk (s.stageGone f) := by
  unfold btFiles.stageGone
  split
  · split
    · exact Or.inl rfl
    · exact h
  · exact h

theorem scanStageFiles_dir (maxpath : Nat) (sp : String) (files : List StageFile) (s : btFiles)
    (exist : Bool) :
    ResInv (fun s1 => s1.m_stagedir = s.m_stagedir ∧ s1.m_fsizelen = s.m_fsizelen)
      (fun r : btFiles × Bool => r.1) (scanStageFiles maxpath sp files s exist) := by
  induction files generalizing s exist with
  | nil => exact ⟨rfl, rfl⟩
  | cons f rest ih =>
    rw [scanStageFiles]
    split
    · exact ih s exist
    · split
      · trivial
      · exact ih _ _

/-- The scan of `SetupFiles` over the staging path keeps `stageDirOk`: the
name it leaves in `m_stagedir` is that of a subdirectory it has accepted. -/
theorem scanStageDirs_dir (maxpath : Nat) (sp : String) (dirs : List StageDir) (s : btFiles)
    (exist : Bool) (h : stageDirOk s) :
    ResInv stageDirOk (fun r : btFiles × Bool => r.1) (scanStageDirs maxpath sp dirs s exist) := by
  induction dirs generalizing s exist with
  | nil => exact h
  | cons d rest ih =>
    rw [scanStageDirs]
    split
    · rename_i hacc
      have hf := scanStageFiles_dir maxpath sp d.files
        { s with m_stagecount := 0, m_stagedir := d.name } exist
      split
      · rename_i s1 exist1 heq
        rw [heq] at hf
        apply ih
        unfold acceptStageDir at hacc
        simp only [Bool.and_eq_true, decide_eq_true_eq] at hacc
        exact Or.inr (by rw [hf.1, hf.2]; exact hacc.1)
      · rename_i r hr
        cases hres : scanStageFiles maxpath sp d.files
            { s with m_stagecount := 0, m_stagedir := d.name } exist with
        | ret a => exact absurd hres (hr a.1 a.2)
        | undef => trivial
        | nofuel => trivial
    · exact ih s exist h

/-- C17: let the total length `T` be below `2^64`, `m_fsizelen` the number of
decimal digits of `T` (as `SetupFiles` sets it), `m_stagedir` empty or a name
of `m_fsizelen` characters (as `SetupFiles` and `IO` leave it), `off < T`, and
let the library calls succeed.  The branch of `IO` that creates a staging
file at `off` (`createStaging`) leaves the subdirectory name `dirName` in
`m_stagedir`, the name it has just printed with `"%.*llu"` from `off` or the
one it goes on using, and gives the new node the offset `off` and the file
name `dirName/fileName` with `fileName` the torrent id, a dash and `off`
printed with `"%.*llu"`.  A write `IO(off, len)` of bytes not yet written
that finds no file at `off` returns 0 and leaves that node, with this file
name, behind the node the search stopped at.  The scan of `SetupFiles`, run
in a state `s0` with the same torrent id and the `m_fsizelen` of the same
total length, accepts the subdirectory `dirName` and its entry `fileName`,
`strtoull` reads `off` from the file name and stops `m_fsizelen` characters
behind the dash, the node built has the file name `dirName/fileName` and the
offset `off`, and the scan splices it into the chain. -/
theorem C17_staging_names_round_trip (s s0 : btFiles) (j off maxpath : Nat)
    (stagingPath : String) (data : List Nat)
    (he : s.env = []) (hj : j < s.chain.length)
    (hT : s.m_total_files_length < U64) (hoff : off < s.m_total_files_length)
    (hw : s.m_fsizelen = (Nat.toDigits 10 s.m_total_files_length).length)
    (hdir : s.m_stagedir = "" ∨ s.m_stagedir.length = s.m_fsizelen)
    (hs0t : s0.m_torrent_id = s.m_torrent_id)
    (hs0w : s0.m_fsizelen = (Nat.toDigits 10 s.m_total_files_length).length)
    (hs0c : s0.chain ≠ [])
    (hpath : stagingPath.length + 2 * s0.m_fsizelen + s0.m_torrent_id.length + 3 < maxpath) :
    ∃ dirName fileName,
      fileName = s.m_torrent_id ++ "-" ++ fmtOffset s.m_fsizelen off ∧
      (∃ s1 Q, s.createStaging off (some j) = Step.cont (s1, j + 1) ∧
        s1.m_stagedir = dirName ∧ s1.chain[j + 1]? = some Q ∧ Q.bf_flag_staging = true ∧
        Q.bf_offset = off ∧ Q.bf_filename = dirName ++ PATH_SP.toString ++ fileName) ∧
      (∀ rbuf buf : List Nat, Good s → locate s.chain true off = (none, some j) →
        0 < buf.length → off + buf.length ≤ s.m_total_files_length →
        freeRange s.chain off buf.length = true →
        ∃ s2 Q, btFiles.IO s rbuf (some buf) off buf.length = Res.ret (0, s2, rbuf) ∧
          s2.chain[j + 1]? = some Q ∧ Q.bf_flag_staging = true ∧ Q.bf_offset = off ∧
          Q.bf_filename = dirName ++ PATH_SP.toString ++ fileName) ∧
      acceptStageDir s0 maxpath stagingPath
          { name := dirName, isDir := true,
            files := [{ name := fileName, isReg := true, data := data }] } = true ∧
      strtoull (fileName.toList.drop (s0.m_torrent_id.length + 1)) = (off, s0.m_fsizelen) ∧
      stagingEntry { s0 with m_stagecount := 0, m_stagedir := dirName } maxpath stagingPath
          { name := fileName, isReg := true, data := data } =
        some { bf_filename := dirName ++ PATH_SP.toString ++ fileName,
               bf_flag_staging := true, bf_offset := off, bf_size := data.length,
               bf_data := data } ∧
      scanStageDirs maxpath stagingPath
          [{ name := dirName, isDir := true,
             files := [{ name := fileName, isReg := true, data := data }] }] s0 false =
        Res.ret ({ s0 with m_stagecount := 1, m_stagedir := dirName,
                           chain := insertStaging s0.chain
                             { bf_filename := dirName ++ PATH_SP.toString ++ fileName,
                               bf_flag_staging := true, bf_offset := off,
                               bf_size := data.length, bf_data := data } },
          decide (0 < data.length)) := by
  obtain ⟨s1, node, hcs, hch, hsd, hfn, hno, hns⟩ := createStaging_name s off j he hj
  have hol : (fmtOffset s.m_fsizelen off).length = s.m_fsizelen :=
    fmtOffset_length _ _ (by rw [hw]; exact toDigits_length_le _ _ (Nat.le_of_lt hoff))
  have hdl : s1.m_stagedir.length = s0.m_fsizelen := by
    rw [hsd, hs0w, ← hw]
    split
    · exact hol
    · rename_i hc
      rcases hdir with h | h
      · rw [h] at hc
        exact absurd (by simp [String.isEmpty]) hc
      · exact h
  have hnode : s1.chain[j + 1]? = some node := by
    rw [hch, List.getElem?_append_right (by simp)]
    simp [Nat.min_eq_left (by omega : j + 1 ≤ s.chain.length)]
  have hfn2 : node.bf_filename = s1.m_stagedir ++ PATH_SP.toString ++
      (s.m_torrent_id ++ "-" ++ fmtOffset s.m_fsizelen off) := by
    rw [hfn]
    simp only [String.append_assoc]
  have hsw : s0.m_fsizelen = s.m_fsizelen := by rw [hs0w, hw]
  have hscan := scan_named s0 s.m_total_files_length off maxpath stagingPath s1.m_stagedir data
    hs0w hT hoff hdl hpath hs0c
  have hfn3 : node.bf_filename = s1.m_stagedir ++ PATH_SP.toString ++
      (s0.m_torrent_id ++ "-" ++ fmtOffset s0.m_fsizelen off) := by
    rw [hs0t, hsw]
    exact hfn2
  refine ⟨s1.m_stagedir, s0.m_torrent_id ++ "-" ++ fmtOffset s0.m_fsizelen off,
    by rw [hs0t, hsw], ⟨s1, node, hcs, rfl, hnode, hns, hno, hfn3⟩, ?_, hscan.1, hscan.2.1,
    hscan.2.2.1, hscan.2.2.2⟩
  intro rbuf buf hg hloc hlen hin hfree
  have hU := hg.2.2.1
  have hl : buf.length ≠ 0 := by omega
  have hlo := locate_tidy s.m_total_files_length off s.chain hU (by omega)
    (freeRange_sub _ _ _ _ _ hfree (Nat.le_refl _) (by omega)) hg.2.2.2.1
  rw [hloc] at hlo
  obtain ⟨P, hP, hfl, hgap⟩ := hlo
  unfold btFiles.IO
  rw [if_neg (by rw [add64_of_lt _ _ (by omega)]; omega)]
  simp only [Option.isSome_some, Option.getD_some]
  rw [show buf.length + 2 * s.chain.length + 3 = (buf.length + 2 * s.chain.length + 2) + 1
    from rfl, hloc]
  obtain ⟨s1b, c1, hstep, hg1, hrb, hlen1, hnext, s0b, node2, Q, hcs2, hn2, hQ, hQf, hQo, hQs⟩ :=
    step_create_name s (Cur.mk off buf.length none (some j) buf rbuf 0) j P hg rfl rfl hP hfl
      hgap hin hfree rfl hl
  rw [hcs] at hcs2
  cases hcs2
  rw [hnode] at hn2
  cases hn2
  rw [IOloop_cont true _ s s1b _ c1 hl hstep]
  obtain ⟨s2, h1, _, h4⟩ := run_append_cores (buf.length + 2 * s.chain.length + 2) s1b c1
    (j + 1 + 1) hg1 hnext (by omega)
  rw [hrb] at h1
  have h5 := h4 (j + 1) (by omega)
  rw [cores_getElem?, cores_getElem?, hQ] at h5
  cases hQ2 : s2.chain[j + 1]? with
  | none => rw [hQ2] at h5; cases h5
  | some Q2 =>
    rw [hQ2] at h5
    simp only [Option.map_some', Option.some.injEq] at h5
    have hf := core_fields h5
    exact ⟨s2, Q2, h1, hQ2, by rw [hf.2.2.2.2.1, hQs]; exact hns,
      by rw [hf.2.2.1, hQo]; exact hno, by rw [hf.2.2.2.2.2, hQf]; exact hfn3⟩

/-- C17 at one file of length 100 that has the staging file of offset 30 in
the subdirectory "030": the write `IO(50, 3)` returns 0 and names the new
staging file "030/t-050", and the scan of `SetupFiles` over the subdirectory
"030" with the files "t-030" and "t-050" rebuilds the chain of that state. -/
theorem C17_staging_names_round_trip_witness :
    (seedState.env = [] ∧ 1 < seedState.chain.length ∧ seedState.m_total_files_length < U64 ∧
      50 < seedState.m_total_files_length ∧
      seedState.m_fsizelen = (Nat.toDigits 10 seedState.m_total_files_length).length ∧
      (seedState.m_stagedir = "" ∨ seedState.m_stagedir.length = seedState.m_fsizelen) ∧
      (btFiles.fresh [100]).m_torrent_id = seedState.m_torrent_id ∧
      (btFiles.fresh [100]).m_fsizelen =
        (Nat.toDigits 10 seedState.m_total_files_length).length ∧
      (btFiles.fresh [100]).chain ≠ [] ∧
      ("/s/t" : String).length + 2 * (btFiles.fresh [100]).m_fsizelen +
        (btFiles.fresh [100]).m_torrent_id.length + 3 < 1024) ∧
    (Good seedState ∧ locate seedState.chain true 50 = (none, some 1) ∧ 0 < [1, 2, 3].length ∧
      50 + [1, 2, 3].length ≤ seedState.m_total_files_length ∧
      freeRange seedState.chain 50 [1, 2, 3].length = true) ∧
    (∃ dirName fileName,
      fileName = seedState.m_torrent_id ++ "-" ++ fmtOffset seedState.m_fsizelen 50 ∧
      (∃ s1 Q, seedState.createStaging 50 (some 1) = Step.cont (s1, 1 + 1) ∧
        s1.m_stagedir = dirName ∧ s1.chain[1 + 1]? = some Q ∧ Q.bf_flag_staging = true ∧
        Q.bf_offset = 50 ∧ Q.bf_filename = dirName ++ PATH_SP.toString ++ fileName) ∧
      (∃ s2 Q, btFiles.IO seedState [] (some [1, 2, 3]) 50 [1, 2, 3].length =
          Res.ret (0, s2, []) ∧
        s2.chain[1 + 1]? = some Q ∧ Q.bf_flag_staging = true ∧ Q.bf_offset = 50 ∧
        Q.bf_filename = dirName ++ PATH_SP.toString ++ fileName) ∧
      acceptStageDir (btFiles.fresh [100]) 1024 "/s/t"
          { name := dirName, isDir := true,
            files := [{ name := fileName, isReg := true, data := [1, 2, 3] }] } = true ∧
      strtoull (fileName.toList.drop ((btFiles.fresh [100]).m_torrent_id.length + 1)) =
        (50, (btFiles.fresh [100]).m_fsizelen) ∧
      stagingEntry { btFiles.fresh [100] with m_stagecount := 0, m_stagedir := dirName } 1024
          "/s/t" { name := fileName, isReg := true, data := [1, 2, 3] } =
        some { bf_filename := dirName ++ PATH_SP.toString ++ fileName,
               bf_flag_staging := true, bf_offset := 50, bf_size := [1, 2, 3].length,
               bf_data := [1, 2, 3] }) ∧
    ((seedState.wr 50 [1, 2, 3]).m_stagedir = "030" ∧
      ((seedState.wr 50 [1, 2, 3]).chain.map fun p => p.bf_filename) =
        ["", "030/t-030", "030/t-050"]) ∧
    (match (btFiles.fresh [100]).SetupFiles "t" false "/s"
        (StageTree.listing [{ name := "030", files := [{ name := "t-030", data := [9] },
          { name := "t-050", data := [1, 2, 3] }] }]) none (fun _ => FileStat.missing) 1024 with
      | Res.ret (r, s) => (r, s.chain)
      | _ => (0, [])) = (1, (seedState.wr 50 [1, 2, 3]).chain.map
        fun p => { p with bf_flag_opened := false, bf_last_timestamp := 0 }) := by
  have hg : Good seedState :=
    ⟨⟨by decide, by decide, by decide⟩, by decide, by decide, by decide, by decide⟩
  refine ⟨⟨by decide, by decide, by decide, by decide, by decide, by decide, by decide,
    by decide, by decide, by decide⟩,
    ⟨hg, by decide, by decide, by decide, by decide⟩, ?_, by decide, by decide⟩
  obtain ⟨d, f, h1, h2, h3, h4, h5, h6, _⟩ :=
    C17_staging_names_round_trip seedState (btFiles.fresh [100]) 1 50 1024 "/s/t" [1, 2, 3]
      (by decide) (by decide) (by decide) (by decide) (by decide) (by decide) (by decide)
      (by decide) (by decide) (by decide)
  exact ⟨d, f, h1, h2,
    h3 [] [1, 2, 3] hg (by decide) (by decide) (by decide) (by decide), h4, h5, h6⟩

/-! ## A write across a file boundary, from the nodes in front (C3) -/

